import Mathlib

/-!
# Order-matching engine: a shallow embedding of `Orderbook`

The definitions below follow `include/Order.h`, `include/Event.h`,
`include/Orderbook.h` and `src/Orderbook.cpp`.

* A `std::map` is a list of `(price, queue)` pairs kept in the order of its
  comparator, and a `std::list` of shared order pointers is a list of orders.
* The `std::unordered_map` index is the list of its keys: the pointer and the
  iterator stored in an index entry are resolved by looking the id up in the
  queues, which is where they point in every state the engine produces.
* A thrown `std::logic_error` is the result `none`, returned together with the
  engine state that the call leaves behind.
* The two `while` loops of `MatchOrders` recurse on a fuel argument; the callers
  pass the number of queued orders (inner loop) and of price levels (outer
  loop) plus one, which the loops cannot exhaust because every iteration removes
  an order, respectively a level.
* The callback of `SetObserver` is represented by the flag `observer_` and by
  the sequence `delivered` of the events it has been called with.
* The headers `Usings.h`, `Side.h`, `OrderType.h`, `Constants.h`, `Trade.h`,
  `OrderModify.h` and `OrderbookLevelInfos.h` are not among the sources.  Their
  types are modelled from the data model of the specification: prices are
  integers, quantities and ids natural numbers, and the two limits of the price
  type are parameters (`PriceLimits`).  A sum that the code stores in a
  `Quantity` is reduced modulo `quantityModulus`; the sums of the properties
  (`totalQuantity`, `total_qty`) are sums of natural numbers.
-/

namespace OME

/-- Modelled from the spec: `Side.h` is not among the sources; `side ∈ {Buy, Sell}`. -/
inductive Side where
  | Buy
  | Sell
deriving DecidableEq, Repr

/-- Modelled from the spec: `OrderType.h` is not among the sources;
`order_type ∈ {GoodTillCancel, ImmediateOrCancel, FillOrKill, Market}`. -/
inductive OrderType where
  | GoodTillCancel
  | ImmediateOrCancel
  | FillOrKill
  | Market
deriving DecidableEq, Repr

/-- The values `std::numeric_limits<Price>::max()` and `::min()`: the width of `Price` is
declared in the absent `Usings.h`, so both limits are parameters of the model. -/
structure PriceLimits where
  maxPrice : Int
  minPrice : Int
deriving DecidableEq, Repr

/-- The limits of a 32-bit signed price (`int price` in the harness). -/
def int32Limits : PriceLimits :=
  { maxPrice := 2147483647, minPrice := -2147483648 }

/-- The class `Order` of `Order.h`: its six private members.
Modelled from the spec: `Usings.h`, which declares `Price`, `Quantity` and `OrderId`, is not among
the sources; a price is a signed integer (`Int`), a quantity a non-negative integer and an order
id a number (`Nat`); the width of `Quantity` is that of `quantityModulus`. -/
structure Order where
  orderType_ : OrderType
  orderId_ : Nat
  side_ : Side
  price_ : Int
  initialQuantity_ : Nat
  remainingQuantity_ : Nat
deriving DecidableEq, Repr

/-- The constructor `Order(orderType, orderId, side, price, quantity)`. -/
def Order.new (orderType : OrderType) (orderId : Nat) (side : Side) (price : Int)
    (quantity : Nat) : Order :=
  { orderType_ := orderType, orderId_ := orderId, side_ := side, price_ := price,
    initialQuantity_ := quantity, remainingQuantity_ := quantity }

/-- The method `Order::IsFilled`. -/
def Order.IsFilled (o : Order) : Bool :=
  o.remainingQuantity_ == 0

/-- The method `Order::Fill`: `none` is the thrown `std::logic_error`. -/
def Order.Fill (o : Order) (quantity : Nat) : Option Order :=
  if quantity > o.remainingQuantity_ then none
  else some { o with remainingQuantity_ := o.remainingQuantity_ - quantity }

/-- The method `Order::ToImmediateOrCancel`: `none` is the thrown `std::logic_error`. -/
def Order.ToImmediateOrCancel (o : Order) (price : Int) : Option Order :=
  if price ≤ 0 then none
  else some { o with price_ := price, orderType_ := OrderType.ImmediateOrCancel }

/-- Modelled from the spec: `OrderModify.h` is not among the sources; a value record
`order_id`, new `side`, new `price`, new `quantity`. -/
structure OrderModify where
  orderId_ : Nat
  side_ : Side
  price_ : Int
  quantity_ : Nat
deriving DecidableEq, Repr

/-- Modelled from the spec: `OrderModify.h` is not among the sources; the new order has the same
`order_id`, the inherited `order_type`, and the new side, price and quantity. -/
def OrderModify.ToOrderPointer (m : OrderModify) (orderType : OrderType) : Order :=
  Order.new orderType m.orderId_ m.side_ m.price_ m.quantity_

/-- Modelled from the spec: `Trade.h` is not among the sources; one leg of a trade carries
`order_id`, `price`, `quantity`. -/
structure TradeInfo where
  orderId_ : Nat
  price_ : Int
  quantity_ : Nat
deriving DecidableEq, Repr

/-- Modelled from the spec: `Trade.h` is not among the sources; a trade has a bid leg and an
ask leg. -/
structure Trade where
  bidTrade_ : TradeInfo
  askTrade_ : TradeInfo
deriving DecidableEq, Repr

/-- The enum `Event::Type`. -/
inductive EventType where
  | EVT_ADD
  | EVT_CANCEL
  | EVT_TRADE
  | EVT_MODIFY
deriving DecidableEq, Repr

/-- The struct `Event` of `Event.h`. -/
structure Event where
  type : EventType
  seq : Nat
  order_id : Nat
  order_id2 : Nat
  price : Int
  qty : Nat
  side : Nat
deriving DecidableEq, Repr

/-- One side of the book, `std::map<Int, OrderPointers, Compare>`: the levels in the order of
the comparator, each with its queue. -/
abbrev Levels := List (Int × List Order)

/-- The class `Orderbook` of `Orderbook.h`.  `observer_` records whether a callback is installed
and `delivered` is the sequence of events the callback has been called with. -/
structure Orderbook where
  bids_ : Levels
  asks_ : Levels
  orders_ : List Nat
  matchedOrders_ : Nat
  bestBid_ : Int
  bestAsk_ : Int
  lastAggressorSide_ : Side
  observer_ : Bool
  event_seq_ : Nat
  events_enabled_ : Bool
  delivered : List Event
deriving DecidableEq, Repr

/-- The state after the constructor `Orderbook()`. -/
def Orderbook.empty : Orderbook :=
  { bids_ := [], asks_ := [], orders_ := [], matchedOrders_ := 0, bestBid_ := 0, bestAsk_ := 0,
    lastAggressorSide_ := Side.Buy, observer_ := false, event_seq_ := 0,
    events_enabled_ := false, delivered := [] }

/-- The orders of one side in book priority order: level by level, each queue front first. -/
def Levels.orders (m : Levels) : List Order :=
  m.flatMap (fun lvl => lvl.2)

/-- The order that the index entry of `orderId` points to (`orders_.at(orderId)`). -/
def Orderbook.entry (s : Orderbook) (orderId : Nat) : Option Order :=
  (s.bids_.orders ++ s.asks_.orders).find? (fun o => o.orderId_ == orderId)

/-- The comparator of `bids_`, `std::greater<Price>`. -/
def bidBefore (a b : Int) : Bool := decide (a > b)

/-- The comparator of `asks_`, `std::less<Price>`. -/
def askBefore (a b : Int) : Bool := decide (a < b)

/-- The statement `m[order->GetPrice()].push_back(order)` on a map ordered by `before`. -/
def Levels.push_back (before : Int → Int → Bool) (order : Order) : Levels → Levels
  | [] => [(order.price_, [order])]
  | (p, q) :: rest =>
    if order.price_ = p then (p, q ++ [order]) :: rest
    else if before order.price_ p then (order.price_, [order]) :: (p, q) :: rest
    else (p, q) :: Levels.push_back before order rest

/-- The statements `auto& q = m[price]; q.erase(iterator); if(q.empty()) m.erase(price);` of
`CancelOrder`, the iterator being the position of the order with id `orderId`. -/
def Levels.remove (price : Int) (orderId : Nat) : Levels → Levels
  | [] => []
  | (p, q) :: rest =>
    if p = price then
      (match q.eraseP (fun o => o.orderId_ == orderId) with
        | [] => rest
        | o :: q1 => (p, o :: q1) :: rest)
    else (p, q) :: Levels.remove price orderId rest

/-- The statement `m.erase(price)`. -/
def Levels.erase (price : Int) (m : Levels) : Levels :=
  m.eraseP (fun lvl => lvl.1 == price)

/-- The method `Orderbook::EmitEvent`. -/
def Orderbook.EmitEvent (s : Orderbook) (e : Event) : Orderbook :=
  if s.observer_ then { s with delivered := s.delivered ++ [e] } else s

/-- The method `Orderbook::SetObserver`; `obs` tells whether the callback is non-null. -/
def Orderbook.SetObserver (s : Orderbook) (obs : Bool) : Orderbook :=
  { s with observer_ := obs }

/-- The method `Orderbook::EnableEvents`. -/
def Orderbook.EnableEvents (s : Orderbook) (enabled : Bool) : Orderbook :=
  { s with events_enabled_ := enabled }

/-- The blocks `if (events_enabled_) { Event ev; ...; ev.seq = event_seq_++; ...; EmitEvent(ev); }`:
`ev` holds the fields other than `seq`. -/
def Orderbook.emit (s : Orderbook) (ev : Event) : Orderbook :=
  if s.events_enabled_ then
    Orderbook.EmitEvent { s with event_seq_ := s.event_seq_ + 1 } { ev with seq := s.event_seq_ }
  else s

/-- The encoding `(side == Side::Buy) ? 1 : 0` of the event field `side`. -/
def sideCode (side : Side) : Nat :=
  if side = Side.Buy then 1 else 0

/-- The method `Orderbook::UpdateBestPrices`. -/
def Orderbook.UpdateBestPrices (s : Orderbook) : Orderbook :=
  let bidPrice : Int := match s.bids_ with
    | [] => 0
    | lvl :: _ => lvl.1
  let askPrice : Int := match s.asks_ with
    | [] => 0
    | lvl :: _ => lvl.1
  { s with bestBid_ := bidPrice, bestAsk_ := askPrice }

/-- The method `Orderbook::GetBestBidPrice`. -/
def Orderbook.GetBestBidPrice (s : Orderbook) : Int := s.bestBid_

/-- The method `Orderbook::GetBestAskPrice`. -/
def Orderbook.GetBestAskPrice (s : Orderbook) : Int := s.bestAsk_

/-- The method `Orderbook::Size`. -/
def Orderbook.Size (s : Orderbook) : Nat := s.orders_.length

/-- The method `Orderbook::GetMatchedOrders`. -/
def Orderbook.GetMatchedOrders (s : Orderbook) : Nat := s.matchedOrders_

/-- The method `Orderbook::CanMatch`. -/
def Orderbook.CanMatch (s : Orderbook) (side : Side) (price : Int) : Bool :=
  match side with
  | Side.Buy =>
    (match s.asks_ with
      | [] => false
      | (bestAsk, _) :: _ => decide (price ≥ bestAsk))
  | Side.Sell =>
    (match s.bids_ with
      | [] => false
      | (bestBid, _) :: _ => decide (price ≤ bestBid))

/-- Modelled from the spec: `Usings.h`, which declares `Quantity`, is not among the sources;
`Quantity` is taken to be a 32-bit unsigned integer, the type in which the tests of the
repository sum trade quantities (`uint32_t total_qty`), so a sum stored in a `Quantity` is
reduced modulo `2 ^ 32`. -/
def quantityModulus : Nat := 4294967296

/-- The inner loop `for(const auto& order : orders_list) level_quantity += ...` of
`CanFullyFill_Buy` and `CanFullyFill_Sell`: `level_quantity` is a `Quantity`, so each addition
wraps. -/
def addLevelQuantity (level_quantity : Nat) (orders_list : List Order) : Nat :=
  orders_list.foldl (fun acc order => (acc + order.remainingQuantity_) % quantityModulus)
    level_quantity

/-- The loop of `Orderbook::CanFullyFill_Buy` from the level `it` on, with the current values of
the locals `level_quantity` and `quantity`. -/
def CanFullyFill_Buy_loop (price : Int) : Levels → Nat → Nat → Bool
  | [], _, _ => false
  | (p, orders_list) :: rest, level_quantity, quantity =>
    if p ≤ price then
      let level_quantity1 := addLevelQuantity level_quantity orders_list
      if quantity ≤ level_quantity1 then true
      else CanFullyFill_Buy_loop price rest level_quantity1 (quantity - level_quantity1)
    else false

/-- The method `Orderbook::CanFullyFill_Buy`. -/
def Orderbook.CanFullyFill_Buy (s : Orderbook) (price : Int) (quantity : Nat) : Bool :=
  CanFullyFill_Buy_loop price s.asks_ 0 quantity

/-- The loop of `Orderbook::CanFullyFill_Sell` from the level `it` on, with the current values of
the locals `level_quantity` and `quantity`. -/
def CanFullyFill_Sell_loop (price : Int) : Levels → Nat → Nat → Bool
  | [], _, _ => false
  | (p, orders_list) :: rest, level_quantity, quantity =>
    if p ≥ price then
      let level_quantity1 := addLevelQuantity level_quantity orders_list
      if quantity ≤ level_quantity1 then true
      else CanFullyFill_Sell_loop price rest level_quantity1 (quantity - level_quantity1)
    else false

/-- The method `Orderbook::CanFullyFill_Sell`. -/
def Orderbook.CanFullyFill_Sell (s : Orderbook) (price : Int) (quantity : Nat) : Bool :=
  CanFullyFill_Sell_loop price s.bids_ 0 quantity

/-- The method `Orderbook::CanFullyFill`. -/
def Orderbook.CanFullyFill (s : Orderbook) (side : Side) (price : Int) (quantity : Nat) :
    Bool :=
  if !s.CanMatch side price then false
  else if side = Side.Buy then s.CanFullyFill_Buy price quantity
  else s.CanFullyFill_Sell price quantity

/-- The fields, other than `seq`, of the event built in `CancelOrder`. -/
def cancelEvent (order : Order) (orderId : Nat) : Event :=
  { type := EventType.EVT_CANCEL, seq := 0, order_id := orderId, order_id2 := 0,
    price := order.price_, qty := order.remainingQuantity_, side := sideCode order.side_ }

/-- The method `Orderbook::CancelOrder`.  The source binds `order` and `iterator` by reference to
the index entry and erases the entry before it uses them; the embedding reads what the entry held
before the erasure.  When no queued order carries an indexed id (a state the engine does not
produce) only the index entry is erased. -/
def Orderbook.CancelOrder (s : Orderbook) (orderId : Nat) : Orderbook :=
  if !s.orders_.contains orderId then s
  else
    match s.entry orderId with
    | none => Orderbook.UpdateBestPrices { s with orders_ := s.orders_.erase orderId }
    | some order =>
      let s1 := { s with orders_ := s.orders_.erase orderId }
      let s2 := if order.side_ = Side.Buy then
          { s1 with bids_ := Levels.remove order.price_ orderId s1.bids_ } else s1
      let s3 := if order.side_ = Side.Sell then
          { s2 with asks_ := Levels.remove order.price_ orderId s2.asks_ } else s2
      Orderbook.UpdateBestPrices (s3.emit (cancelEvent order orderId))

/-- The trade pushed at one match step. -/
def mkTrade (bid ask : Order) (quantity : Nat) : Trade :=
  { bidTrade_ := { orderId_ := bid.orderId_, price_ := ask.price_, quantity_ := quantity },
    askTrade_ := { orderId_ := ask.orderId_, price_ := ask.price_, quantity_ := quantity } }

/-- The fields, other than `seq`, of the event built at one match step. -/
def tradeEvent (bid ask : Order) (quantity : Nat) : Event :=
  { type := EventType.EVT_TRADE, seq := 0, order_id := bid.orderId_, order_id2 := ask.orderId_,
    price := ask.price_, qty := quantity, side := 255 }

/-- The inner loop `while(!bids.empty() && !asks.empty())` of `MatchOrders`, `bids` and `asks`
being the queues of the first level of each side; `fuel` bounds the number of iterations. -/
def Orderbook.matchLevel : Nat → Orderbook → List Trade → Orderbook × Option (List Trade)
  | 0, s, trades => (s, some trades)
  | fuel + 1, s, trades =>
    match s.bids_, s.asks_ with
    | (bidPrice, bid :: bids) :: bidLevels, (askPrice, ask :: asks) :: askLevels =>
      let quantity := min bid.remainingQuantity_ ask.remainingQuantity_
      (match bid.Fill quantity with
        | none => (s, none)
        | some bid1 =>
          (match ask.Fill quantity with
            | none => ({ s with bids_ := (bidPrice, bid1 :: bids) :: bidLevels }, none)
            | some ask1 =>
              let s1 := { s with bids_ := (bidPrice, bid1 :: bids) :: bidLevels,
                                 asks_ := (askPrice, ask1 :: asks) :: askLevels,
                                 matchedOrders_ := s.matchedOrders_ + 1 }
              let s2 := s1.emit (tradeEvent bid1 ask1 quantity)
              let s3 := if bid1.IsFilled then
                  { s2 with orders_ := s2.orders_.erase bid1.orderId_,
                            bids_ := (bidPrice, bids) :: bidLevels } else s2
              let s4 := if ask1.IsFilled then
                  { s3 with orders_ := s3.orders_.erase ask1.orderId_,
                            asks_ := (askPrice, asks) :: askLevels } else s3
              Orderbook.matchLevel fuel s4 (trades ++ [mkTrade bid1 ask1 quantity])))
    | _, _ => (s, some trades)

/-- The test `q.empty()` on the queue of the first level of a side. -/
def frontEmpty : Levels → Bool
  | (_, []) :: _ => true
  | _ => false

/-- The statements `if(bids.empty()) bids_.erase(bidPrice); if(asks.empty()) asks_.erase(askPrice);`
that follow the inner loop of `MatchOrders`. -/
def Orderbook.eraseEmptied (s : Orderbook) (bidPrice askPrice : Int) : Orderbook :=
  let s1 := if frontEmpty s.bids_ then { s with bids_ := Levels.erase bidPrice s.bids_ } else s
  if frontEmpty s1.asks_ then { s1 with asks_ := Levels.erase askPrice s1.asks_ } else s1

/-- The outer loop `while(!bids_.empty() && !asks_.empty())` of `MatchOrders`; `fuel` bounds the
number of iterations. -/
def Orderbook.matchLoop : Nat → Orderbook → List Trade → Orderbook × Option (List Trade)
  | 0, s, trades => (s, some trades)
  | fuel + 1, s, trades =>
    match s.bids_, s.asks_ with
    | (bidPrice, bids) :: _, (askPrice, asks) :: _ =>
      if bidPrice < askPrice then (s, some trades)
      else
        (match s.matchLevel (bids.length + asks.length + 1) trades with
          | (s1, none) => (s1, none)
          | (s1, some trades1) =>
            Orderbook.matchLoop fuel (s1.eraseEmptied bidPrice askPrice) trades1)
    | _, _ => (s, some trades)

/-- The vector `to_cancel` of the lambda `cleanup_side`. -/
def to_cancel (book : Levels) : List Nat :=
  (book.orders.filter (fun order => decide (order.orderType_ ≠ OrderType.GoodTillCancel))).map
    (fun order => order.orderId_)

/-- The lambda `cleanup_side` of `MatchOrders`. -/
def Orderbook.cleanup_side (s : Orderbook) (book : Levels) : Orderbook :=
  (to_cancel book).foldl Orderbook.CancelOrder s

/-- The method `Orderbook::MatchOrders`. -/
def Orderbook.MatchOrders (s : Orderbook) : Orderbook × Option (List Trade) :=
  match s.matchLoop (s.bids_.length + s.asks_.length + 1) [] with
  | (s1, none) => (s1, none)
  | (s1, some trades) =>
    let s2 := s1.cleanup_side s1.bids_
    let s3 := s2.cleanup_side s2.asks_
    (s3.UpdateBestPrices, some trades)

/-- The fields, other than `seq`, of the event built in `AddOrder`. -/
def addEvent (order : Order) : Event :=
  { type := EventType.EVT_ADD, seq := 0, order_id := order.orderId_, order_id2 := 0,
    price := order.price_, qty := order.initialQuantity_, side := sideCode order.side_ }

/-- The insertion of `AddOrder`: `push_back` on the queue of the order's price and side,
`UpdateBestPrices`, the index entry, and the `Add` event. -/
def Orderbook.insert (s : Orderbook) (order : Order) : Orderbook :=
  let s1 := if order.side_ = Side.Buy then
      { s with bids_ := Levels.push_back bidBefore order s.bids_ }
    else { s with asks_ := Levels.push_back askBefore order s.asks_ }
  let s2 := s1.UpdateBestPrices
  let s3 := { s2 with orders_ := order.orderId_ :: s2.orders_ }
  s3.emit (addEvent order)

/-- The method `Orderbook::AddOrder`. -/
def Orderbook.AddOrder (L : PriceLimits) (s : Orderbook) (order : Order) :
    Orderbook × Option (List Trade) :=
  if s.orders_.contains order.orderId_ then (s, some [])
  else
    let isMarket := decide (order.orderType_ = OrderType.Market)
    let aggressive := if order.side_ = Side.Buy then L.maxPrice else L.minPrice
    match (if isMarket then order.ToImmediateOrCancel aggressive else some order) with
    | none => (s, none)
    | some order1 =>
      if !isMarket && (decide (order1.orderType_ = OrderType.ImmediateOrCancel)
          && !s.CanMatch order1.side_ order1.price_) then (s, some [])
      else if !isMarket && (decide (order1.orderType_ = OrderType.FillOrKill)
          && !s.CanFullyFill order1.side_ order1.price_ order1.initialQuantity_) then (s, some [])
      else (s.insert order1).MatchOrders

/-- The fields, other than `seq`, of the event built in `MatchOrder`. -/
def modifyEvent (order : OrderModify) : Event :=
  { type := EventType.EVT_MODIFY, seq := 0, order_id := order.orderId_, order_id2 := 0,
    price := order.price_, qty := order.quantity_, side := sideCode order.side_ }

/-- The method `Orderbook::MatchOrder`.  The source binds `existingOrder` by reference to the
index entry, which `CancelOrder` erases before the order type is read through it; the embedding
reads the type that the entry held.  When no queued order carries the indexed id (a state the
engine does not produce) the call is modelled as returning no trades. -/
def Orderbook.MatchOrder (L : PriceLimits) (s : Orderbook) (order : OrderModify) :
    Orderbook × Option (List Trade) :=
  if !s.orders_.contains order.orderId_ then (s, some [])
  else
    match s.entry order.orderId_ with
    | none => (s, some [])
    | some existingOrder =>
      let s1 := s.emit (modifyEvent order)
      let s2 := s1.CancelOrder order.orderId_
      Orderbook.AddOrder L s2 (order.ToOrderPointer existingOrder.orderType_)

/-- One call of the public interface of `Orderbook`. -/
inductive Op where
  | AddOrder (orderType : OrderType) (orderId : Nat) (side : Side) (price : Int)
      (quantity : Nat)
  | CancelOrder (orderId : Nat)
  | MatchOrder (order : OrderModify)
  | MatchOrders
  | SetObserver (obs : Bool)
  | EnableEvents (enabled : Bool)
deriving DecidableEq, Repr

/-- The engine state after one call. -/
def Orderbook.step (L : PriceLimits) (s : Orderbook) : Op → Orderbook
  | Op.AddOrder t i sd p q => (Orderbook.AddOrder L s (Order.new t i sd p q)).1
  | Op.CancelOrder i => s.CancelOrder i
  | Op.MatchOrder m => (Orderbook.MatchOrder L s m).1
  | Op.MatchOrders => s.MatchOrders.1
  | Op.SetObserver b => s.SetObserver b
  | Op.EnableEvents b => s.EnableEvents b

/-- The engine state after a sequence of calls. -/
def Orderbook.run (L : PriceLimits) (s : Orderbook) (ops : List Op) : Orderbook :=
  ops.foldl (Orderbook.step L) s

/-- The states reachable from the empty book by any sequence of calls. -/
def Reachable (L : PriceLimits) (s : Orderbook) : Prop :=
  ∃ ops : List Op, Orderbook.run L Orderbook.empty ops = s

/-- A call whose order or modify has a positive quantity and a representable price. -/
def Op.Positive (L : PriceLimits) : Op → Prop
  | Op.AddOrder _ _ _ p q => 0 < q ∧ L.minPrice ≤ p ∧ p ≤ L.maxPrice
  | Op.MatchOrder m => 0 < m.quantity_ ∧ L.minPrice ≤ m.price_ ∧ m.price_ ≤ L.maxPrice
  | _ => True

/-- The states reachable from the empty book by calls with positive quantities (and prices that
the price type can hold). -/
def ReachablePos (L : PriceLimits) (s : Orderbook) : Prop :=
  ∃ ops : List Op, (∀ op ∈ ops, Op.Positive L op) ∧ Orderbook.run L Orderbook.empty ops = s

/-- The fills of an aggressor of remaining quantity `r` against a queue, front first: each
resting order hit, with the quantity traded against it. -/
def fillsQ : Nat → List Order → List (Order × Nat)
  | _, [] => []
  | r, x :: xs =>
    if r ≤ x.remainingQuantity_ then [(x, r)]
    else (x, x.remainingQuantity_) :: fillsQ (r - x.remainingQuantity_) xs

/-- The queue left by an aggressor of remaining quantity `r`. -/
def restQ : Nat → List Order → List Order
  | _, [] => []
  | r, x :: xs =>
    if r < x.remainingQuantity_ then { x with remainingQuantity_ := x.remainingQuantity_ - r } :: xs
    else if r = x.remainingQuantity_ then xs
    else restQ (r - x.remainingQuantity_) xs

/-- The remaining quantity of an aggressor after it met a queue, `none` when the aggressor was
filled (and so popped from its own queue). -/
def leftQ : Nat → List Order → Option Nat
  | r, [] => some r
  | r, x :: xs => if r ≤ x.remainingQuantity_ then none else leftQ (r - x.remainingQuantity_) xs

/-- The ids of the resting orders of a queue that an aggressor of remaining quantity `r` fills
completely. -/
def goneQ : Nat → List Order → List Nat
  | _, [] => []
  | r, x :: xs =>
    if r < x.remainingQuantity_ then []
    else if r = x.remainingQuantity_ then [x.orderId_]
    else x.orderId_ :: goneQ (r - x.remainingQuantity_) xs

/-- The fills of an aggressor against the levels of the opposing side, level after level while
`crosses` holds of the level price. -/
def fillsL (crosses : Int → Bool) : Nat → Levels → List (Order × Nat)
  | _, [] => []
  | r, (p, xs) :: A =>
    if crosses p then
      fillsQ r xs ++ (match leftQ r xs with
        | none => []
        | some r1 => fillsL crosses r1 A)
    else []

/-- The remaining quantity of an aggressor after it met the crossing levels, `none` when it was
filled. -/
def leftL (crosses : Int → Bool) : Nat → Levels → Option Nat
  | r, [] => some r
  | r, (p, xs) :: A =>
    if crosses p then
      (match leftQ r xs with
        | none => none
        | some r1 => leftL crosses r1 A)
    else some r

/-- The opposing side left by an aggressor: emptied levels are dropped. -/
def restL (crosses : Int → Bool) : Nat → Levels → Levels
  | _, [] => []
  | r, (p, xs) :: A =>
    if crosses p then
      (match leftQ r xs with
        | none =>
          (match restQ r xs with
            | [] => A
            | y :: ys => (p, y :: ys) :: A)
        | some r1 => restL crosses r1 A)
    else (p, xs) :: A

/-- The ids of the resting orders that an aggressor fills completely on the crossing levels. -/
def goneL (crosses : Int → Bool) : Nat → Levels → List Nat
  | _, [] => []
  | r, (p, xs) :: A =>
    if crosses p then
      goneQ r xs ++ (match leftQ r xs with
        | none => []
        | some r1 => goneL crosses r1 A)
    else []

/-- The side of an aggressor that sat alone on the first level `p`, after the matching loop. -/
def aggressorLevel (p : Int) (o : Order) (B : Levels) : Option Nat → Levels
  | none => B
  | some r => (p, [{ o with remainingQuantity_ := r }]) :: B

/-- The index after `orders_.erase(id)` for each id of `ids`. -/
def eraseAll (l : List Nat) (ids : List Nat) : List Nat := ids.foldl List.erase l

/-- The queue of an aggressor that sat alone on its level, after the inner loop. -/
def aggressorLeft (o : Order) : Option Nat → List Order
  | none => []
  | some r => [{ o with remainingQuantity_ := r }]

/-- The id of the aggressor when it was filled. -/
def aggressorGone (o : Order) : Option Nat → List Nat
  | none => [o.orderId_]
  | some _ => []

/-- The ids of the orders of one side, in book priority order. -/
def Levels.ids (m : Levels) : List Nat :=
  m.orders.map (fun o => o.orderId_)

/-- The orders held in the queues of the book: bids, then asks. -/
def Orderbook.resting (s : Orderbook) : List Order :=
  s.bids_.orders ++ s.asks_.orders

/-- The shape of one side of a book: the keys follow the comparator strictly, no level has an empty
queue, and every order is queued on its own side at the level of its own price. -/
structure Levels.WF (before : Int → Int → Bool) (side : Side) (m : Levels) : Prop where
  sorted : m.Pairwise (fun a b => before a.1 b.1 = true)
  nonempty : ∀ lvl ∈ m, lvl.2 ≠ []
  located : ∀ lvl ∈ m, ∀ o ∈ lvl.2, o.side_ = side ∧ o.price_ = lvl.1

/-- The invariant of the book proper: both sides well shaped, the ids of the queued orders pairwise
distinct and exactly the keys of the index, and every bid price below every ask price. -/
structure BookInv (bids asks : Levels) (orders : List Nat) : Prop where
  bidsWF : Levels.WF bidBefore Side.Buy bids
  asksWF : Levels.WF askBefore Side.Sell asks
  idsNodup : (bids.ids ++ asks.ids).Nodup
  indexNodup : orders.Nodup
  indexIff : ∀ i, i ∈ orders ↔ i ∈ bids.ids ++ asks.ids
  noCross : ∀ b ∈ bids, ∀ a ∈ asks, b.1 < a.1

/-- The invariant of the engine state between two calls: the book invariant, only `GoodTillCancel`
orders are queued, and the cached best prices are the first keys of the two sides (0 for an
empty side). -/
structure Orderbook.Inv (s : Orderbook) : Prop where
  book : BookInv s.bids_ s.asks_ s.orders_
  gtc : ∀ o ∈ s.resting, o.orderType_ = OrderType.GoodTillCancel
  bestBid : s.bestBid_ = (match s.bids_ with
    | [] => 0
    | lvl :: _ => lvl.1)
  bestAsk : s.bestAsk_ = (match s.asks_ with
    | [] => 0
    | lvl :: _ => lvl.1)

/-- The comparators of the two sides of the book. -/
def IsBookOrder (before : Int → Int → Bool) : Prop :=
  before = bidBefore ∨ before = askBefore

/-- The test of the outer loop for a buy aggressor at price `p`: the ask level `ap` is matched
unless `p < ap`. -/
abbrev crossBuy (p : Int) : Int → Bool := fun ap => decide (ap ≤ p)

/-- The test of the outer loop for a sell aggressor at price `p`: the bid level `bp` is matched
unless `bp < p`. -/
abbrev crossSell (p : Int) : Int → Bool := fun bp => decide (p ≤ bp)

/-- The own side of an aggressor after the matching loop: the aggressor is queued again with what
is left of it, if anything. -/
def ownAfterLoop (before : Int → Int → Bool) (o : Order) (own : Levels) : Option Nat → Levels
  | none => own
  | some r => Levels.push_back before { o with remainingQuantity_ := r } own

/-- The order that rests after `AddOrder`: what is left of a `GoodTillCancel` order. -/
def restsAs (o : Order) : Option Nat → Option Order
  | none => none
  | some r =>
    if o.orderType_ = OrderType.GoodTillCancel then some { o with remainingQuantity_ := r }
    else none

/-- The own side of an incoming order after `AddOrder`. -/
def ownAfter (before : Int → Int → Bool) (own : Levels) : Option Order → Levels
  | none => own
  | some o => Levels.push_back before o own

/-- The index after `AddOrder`, given the index without the ids of the filled orders. -/
def indexAfter (i : Nat) (orders : List Nat) : Option Order → List Nat
  | none => orders
  | some _ => i :: orders

/-- The total remaining quantity of a list of orders. -/
def totalQuantity (l : List Order) : Nat :=
  (l.map (fun o => o.remainingQuantity_)).sum

/-- The resting orders opposing an incoming order of side `side`, in book priority order. -/
def Orderbook.opposing (s : Orderbook) : Side → List Order
  | Side.Buy => s.asks_.orders
  | Side.Sell => s.bids_.orders

/-- A resting order is at a tradeable price for an incoming order of side `side` and limit
`price`: an ask priced at most the limit for a buy, a bid priced at least the limit for a sell. -/
def tradeableAt (side : Side) (price : Int) (o : Order) : Bool :=
  match side with
  | Side.Buy => decide (o.price_ ≤ price)
  | Side.Sell => decide (price ≤ o.price_)

/-- The opposing resting orders at tradeable prices. -/
def Orderbook.tradeable (s : Orderbook) (side : Side) (price : Int) : List Order :=
  (s.opposing side).filter (tradeableAt side price)

/-- The sum of the bid-leg quantities of a trade list, as a natural number; the helper `total_qty`
of `orderbook_correctness.cpp` computes it in a `uint32_t`. -/
def total_qty (trades : List Trade) : Nat :=
  (trades.map (fun t => t.bidTrade_.quantity_)).sum

/-- The id of the resting leg of a trade, for an incoming order of side `side`. -/
def Trade.restingId (side : Side) (t : Trade) : Nat :=
  match side with
  | Side.Buy => t.askTrade_.orderId_
  | Side.Sell => t.bidTrade_.orderId_

/-- The trade of an incoming order `o` against the resting order of a fill. -/
def aggressorTrade (o : Order) (f : Order × Nat) : Trade :=
  match o.side_ with
  | Side.Buy => mkTrade o f.1 f.2
  | Side.Sell => mkTrade f.1 o f.2

/-- The prices of the resting orders are values that the price type can hold. -/
def PriceInv (L : PriceLimits) (s : Orderbook) : Prop :=
  ∀ o ∈ s.resting, L.minPrice ≤ o.price_ ∧ o.price_ ≤ L.maxPrice

/-- A `GoodTillCancel` submission, as the tests write it. -/
def gtc (orderId : Nat) (side : Side) (price : Int) (quantity : Nat) : Op :=
  Op.AddOrder OrderType.GoodTillCancel orderId side price quantity

/-- The book of `test_fok_buy_success` before the FillOrKill order: asks 100x10 and 100x5. -/
def book_fok_buy_success : Orderbook :=
  Orderbook.run int32Limits Orderbook.empty [gtc 1 Side.Sell 100 10, gtc 2 Side.Sell 100 5]

/-- The book of `test_ioc_buy_partial` and of `test_fok_buy_fail` before the incoming order:
ask 100x10. -/
def book_one_ask : Orderbook :=
  Orderbook.run int32Limits Orderbook.empty [gtc 1 Side.Sell 100 10]

/-- The book of `test_market_buy_sweeps_asks` before the market order: asks 100x10 and 101x20. -/
def book_market_buy_sweeps_asks : Orderbook :=
  Orderbook.run int32Limits Orderbook.empty [gtc 1 Side.Sell 100 10, gtc 2 Side.Sell 101 20]

/-- The book of `test_market_sell_sweeps_bids` before the market order: bids 101x5, 100x10 and
98x20. -/
def book_market_sell_sweeps_bids : Orderbook :=
  Orderbook.run int32Limits Orderbook.empty
    [gtc 1 Side.Buy 101 5, gtc 2 Side.Buy 100 10, gtc 3 Side.Buy 98 20]

/-- A book with two ask levels, 100x10 and 101x1: the tradeable quantity for a buy at 101 is 11. -/
def book_two_ask_levels : Orderbook :=
  Orderbook.run int32Limits Orderbook.empty [gtc 1 Side.Sell 100 10, gtc 2 Side.Sell 101 1]

/-- A book with one resting bid, 100x10. -/
def book_one_bid : Orderbook :=
  Orderbook.run int32Limits Orderbook.empty [gtc 1 Side.Buy 100 10]

/-- The book of `test_gtc_resting_after_market` after both submissions: a `GoodTillCancel` buy
99x10, then a market buy x10 with no asks. -/
def book_gtc_resting_after_market : Orderbook :=
  Orderbook.run int32Limits Orderbook.empty
    [gtc 1 Side.Buy 99 10, Op.AddOrder OrderType.Market 2 Side.Buy 0 10]

/-- A book reached by three submissions, the last of which crosses: bid 99x10, ask 101x5, then a
buy 102x3 that trades against the ask. -/
def book_two_sides : Orderbook :=
  Orderbook.run int32Limits Orderbook.empty
    [gtc 1 Side.Buy 99 10, gtc 2 Side.Sell 101 5, gtc 3 Side.Buy 102 3]

/-- The event of a trade: the fields, other than `seq`, that the `EVT_TRADE` block of
`MatchOrders` fills in from the two ids, the trade price and the quantity. -/
def eventOfTrade (t : Trade) : Event :=
  { type := EventType.EVT_TRADE, seq := 0, order_id := t.bidTrade_.orderId_,
    order_id2 := t.askTrade_.orderId_, price := t.askTrade_.price_,
    qty := t.askTrade_.quantity_, side := 255 }

/-- The sequence numbers `n`, `n + 1`, ... given to a list of events by `ev.seq = event_seq_++`. -/
def stamp (n : Nat) : List Event → List Event
  | [] => []
  | e :: es => { e with seq := n } :: stamp (n + 1) es

/-- The event fields of `t` are those of `s` after the event blocks of `evs` ran in a row: when
events are enabled the counter advanced once per event, and when an observer is installed as
well it was called with each event, numbered from the counter of `s`. -/
structure Emitted (s t : Orderbook) (evs : List Event) : Prop where
  enabled : t.events_enabled_ = s.events_enabled_
  observer : t.observer_ = s.observer_
  seq : t.event_seq_ = if s.events_enabled_ then s.event_seq_ + evs.length else s.event_seq_
  delivered : t.delivered =
    if s.events_enabled_ && s.observer_ then s.delivered ++ stamp s.event_seq_ evs
    else s.delivered

/-- The `Cancel` events of the cleanup that follows the matching loop, for an incoming order `o`
left with the remaining quantity `left` (`none` when it was filled). -/
def cleanupEvents (o : Order) : Option Nat → List Event
  | none => []
  | some r =>
    if o.orderType_ = OrderType.GoodTillCancel then []
    else [cancelEvent { o with remainingQuantity_ := r } o.orderId_]

/-- What is left of an incoming order of quantity `q` after the trades `trades` of the matching
loop: `none` when its last trade filled it (it was then popped from its queue), else the
quantity that still sits in its queue. -/
def leftover (q : Nat) (trades : List Trade) : Option Nat :=
  if trades ≠ [] ∧ total_qty trades = q then none else some (q - total_qty trades)

/-- The queue of the level keyed `price` on one side of the book, empty when the side has no such
level. -/
def Levels.queue (m : Levels) (price : Int) : List Order :=
  match m.find? (fun lvl => lvl.1 == price) with
  | none => []
  | some lvl => lvl.2

/-- The quantity that the order id `i` traded in `trades`: the sum of the quantities of the trades
of which `i` is the bid leg or the ask leg. -/
def tradedQuantity (i : Nat) (trades : List Trade) : Nat :=
  ((trades.filter (fun t => t.bidTrade_.orderId_ == i || t.askTrade_.orderId_ == i)).map
    (fun t => t.bidTrade_.quantity_)).sum

/-- The remaining quantity that a list of orders holds under the order id `i`. -/
def remIn (i : Nat) (l : List Order) : Nat :=
  ((l.filter (fun o => o.orderId_ == i)).map (fun o => o.remainingQuantity_)).sum

/-- The quantity that a list of fills takes from the resting order id `i`. -/
def fillOf (i : Nat) (fills : List (Order × Nat)) : Nat :=
  ((fills.filter (fun f => f.1.orderId_ == i)).map (fun f => f.2)).sum

/-- The price `aggressive` that `AddOrder` gives a Market order of side `side`. -/
def aggressivePrice (L : PriceLimits) (side : Side) : Int :=
  if side = Side.Buy then L.maxPrice else L.minPrice

/-- The order that `AddOrder` inserts for a submission built by `Order.new`: a Market order has
become `ImmediateOrCancel` at the aggressive price of its side, any other order is unchanged. -/
def insertedOrder (L : PriceLimits) (t : OrderType) (i : Nat) (side : Side) (p : Int)
    (q : Nat) : Order :=
  if t = OrderType.Market then
    Order.new OrderType.ImmediateOrCancel i side (aggressivePrice L side) q
  else Order.new t i side p q

/-- The admission checks of `AddOrder` turn the submission away: its id is indexed, or it is
`ImmediateOrCancel` and cannot match, or `FillOrKill` and `CanFullyFill` says no. -/
def Orderbook.rejects (s : Orderbook) (t : OrderType) (i : Nat) (side : Side) (p : Int)
    (q : Nat) : Bool :=
  s.orders_.contains i || (decide (t = OrderType.ImmediateOrCancel) && !s.CanMatch side p) ||
    (decide (t = OrderType.FillOrKill) && !s.CanFullyFill side p q)

/-- The order `x`, queued before a call that returned `trades`, is accounted for in the orders
`after` queued when the call returns: either it is still queued, changed at most in its remaining
quantity, which went down by what its id traded; or no queued order carries its id any more and
its id traded all that it had left. -/
def Conserved (x : Order) (after : List Order) (trades : List Trade) : Prop :=
  (∃ y ∈ after, y = { x with remainingQuantity_ := y.remainingQuantity_ } ∧
    x.remainingQuantity_ = y.remainingQuantity_ + tradedQuantity x.orderId_ trades) ∨
  ((∀ y ∈ after, y.orderId_ ≠ x.orderId_) ∧
    x.remainingQuantity_ = tradedQuantity x.orderId_ trades)

/-- The incoming order of quantity `q` and id `i` is accounted for when the call returns `trades`
and leaves the orders `after` queued: its id traded at most `q`; if it is queued, it is with the
initial quantity `q` and with what the trades left of it; and if it is `GoodTillCancel` and not
queued, its id traded all of `q`. -/
def ConservedIncoming (t : OrderType) (i : Nat) (q : Nat) (after : List Order)
    (trades : List Trade) : Prop :=
  tradedQuantity i trades ≤ q ∧
  (∀ y ∈ after, y.orderId_ = i →
    y.initialQuantity_ = q ∧ y.remainingQuantity_ + tradedQuantity i trades = q) ∧
  (t = OrderType.GoodTillCancel → (∀ y ∈ after, y.orderId_ ≠ i) → tradedQuantity i trades = q)

/-- No queued order has more left than its initial quantity. -/
def RemBound (s : Orderbook) : Prop :=
  ∀ x ∈ s.resting, x.remainingQuantity_ ≤ x.initialQuantity_

/-- The trade list that a call returns: empty for a call that returns none or ends in a fault. -/
def Orderbook.stepTrades (L : PriceLimits) (s : Orderbook) : Op → List Trade
  | Op.AddOrder t i sd p q => (Orderbook.AddOrder L s (Order.new t i sd p q)).2.getD []
  | Op.MatchOrder m => (Orderbook.MatchOrder L s m).2.getD []
  | Op.MatchOrders => s.MatchOrders.2.getD []
  | _ => []

/-- The call brings a new order under the id `j`: a submission of `j` while `j` is not indexed,
or a modify of `j` while `j` is indexed. -/
def Orderbook.submits (s : Orderbook) (j : Nat) : Op → Bool
  | Op.AddOrder _ i _ _ _ => decide (i = j) && !s.orders_.contains j
  | Op.MatchOrder m => decide (m.orderId_ = j) && s.orders_.contains j
  | _ => false

/-- The quantity that the id `j` traded over the calls `ops` made from the state `s`, counted from
the last call that brought a new order under `j`; `acc` is the count so far. -/
def tradedSince (L : PriceLimits) (j : Nat) : Orderbook → List Op → Nat → Nat
  | _, [], acc => acc
  | s, op :: ops, acc =>
    tradedSince L j (s.step L op) ops
      ((if s.submits j op then 0 else acc) + tradedQuantity j (s.stepTrades L op))

/-- Two engine states hold the same book: the two sides, the index, the matched counter and the
cached best prices agree (the event counter and the observer's events may differ). -/
def SameBook (s t : Orderbook) : Prop :=
  s.bids_ = t.bids_ ∧ s.asks_ = t.asks_ ∧ s.orders_ = t.orders_ ∧
  s.matchedOrders_ = t.matchedOrders_ ∧ s.bestBid_ = t.bestBid_ ∧ s.bestAsk_ = t.bestAsk_

/-- The book of `book_one_ask` with events enabled and an observer installed: ask 100x10. -/
def book_events_one_ask : Orderbook :=
  Orderbook.run int32Limits Orderbook.empty
    [Op.EnableEvents true, Op.SetObserver true, gtc 1 Side.Sell 100 10]

/-- The book of the modify scenario of the specification, events enabled and an observer
installed: the sell 99x10 (id 2) is submitted, then the buy 100x10 (id 1). -/
def book_modify_cross : Orderbook :=
  Orderbook.run int32Limits Orderbook.empty
    [Op.EnableEvents true, Op.SetObserver true, gtc 2 Side.Sell 99 10, gtc 1 Side.Buy 100 10]

/-- The book of the modify scenario with the two submissions in the other order: the buy 100x10
(id 1), then the sell 99x10 (id 2). -/
def book_modify_cross_buy_first : Orderbook :=
  Orderbook.run int32Limits Orderbook.empty
    [Op.EnableEvents true, Op.SetObserver true, gtc 1 Side.Buy 100 10, gtc 2 Side.Sell 99 10]

/-- A book in which the buy of id 1 rests below the sell: sell 99x10 (id 2) and buy 98x10 (id 1),
events enabled and an observer installed. -/
def book_modify_rest : Orderbook :=
  Orderbook.run int32Limits Orderbook.empty
    [Op.EnableEvents true, Op.SetObserver true, gtc 2 Side.Sell 99 10, gtc 1 Side.Buy 98 10]

/-- A book with the buy 98x5 (id 1) resting below the sell 99x10 (id 2). -/
def book_modify_partial : Orderbook :=
  Orderbook.run int32Limits Orderbook.empty [gtc 1 Side.Buy 98 5, gtc 2 Side.Sell 99 10]

/-- The call leaves an observer installed: any call but `SetObserver(nullptr)`. -/
def Op.keepsObserver : Op → Bool
  | Op.SetObserver obs => obs
  | _ => true

/-- The call is one of the four operations on the book: `AddOrder`, `CancelOrder`, `MatchOrder`,
`MatchOrders`. -/
def Op.isBookCall : Op → Bool
  | Op.SetObserver _ => false
  | Op.EnableEvents _ => false
  | _ => true

/-- Every order held in the queues of the book has a positive remaining quantity. -/
def PosRem (s : Orderbook) : Prop :=
  ∀ x ∈ s.resting, 0 < x.remainingQuantity_

/-- A call whose order or modify has a positive quantity. -/
def Op.PosQty : Op → Prop
  | Op.AddOrder _ _ _ _ q => 0 < q
  | Op.MatchOrder m => 0 < m.quantity_
  | _ => True

/-- One line of a trace file, as `replay_trace_and_write_snapshot` parses it. -/
inductive TraceLine where
  | ADD (id : Nat) (type : OrderType) (side : Side) (price : Int) (qty : Nat)
  | CANCEL (id : Nat)
  | MATCH
  | MODIFY (id : Nat) (side : Side) (price : Int) (qty : Nat)
deriving DecidableEq, Repr

/-- The call that the replay loop makes for one trace line: `ob.AddOrder(o)`,
`ob.CancelOrder(id)`, `ob.MatchOrders()` or `ob.MatchOrder(om)`. -/
def TraceLine.toOp : TraceLine → Op
  | TraceLine.ADD id type side price qty => Op.AddOrder type id side price qty
  | TraceLine.CANCEL id => Op.CancelOrder id
  | TraceLine.MATCH => Op.MatchOrders
  | TraceLine.MODIFY id side price qty => Op.MatchOrder ⟨id, side, price, qty⟩

/-- The function `replay_trace_and_write_snapshot` of `benchmark_main.cpp`, up to the engine state
that it leaves: `Orderbook ob;`, then `ob.SetObserver(...)` when `enableEventLogging` holds (the
log file is taken to open), then one call for each trace line in order, each inside its own
`try`/`catch`, then `ob.SetObserver(nullptr)`.  The replay log is the list `delivered`. -/
def replay_trace_and_write_snapshot (L : PriceLimits) (trace : List TraceLine)
    (enableEventLogging : Bool) : Orderbook :=
  let ob := Orderbook.empty
  let ob1 := if enableEventLogging then ob.SetObserver true else ob
  let ob2 := ob1.run L (trace.map TraceLine.toOp)
  ob2.SetObserver false

/-- The golden run of `main` in `benchmark_main.cpp`, for the calls that it writes to the trace:
`Orderbook ob; ob.EnableEvents(cfg.enable_events);`, then `ob.SetObserver(...)` when the golden log
is open, then the calls in order, then `ob.SetObserver(nullptr)`.  The golden log is the list
`delivered`. -/
def golden_run (L : PriceLimits) (trace : List TraceLine) (enable_events : Bool)
    (logging : Bool) : Orderbook :=
  let ob := Orderbook.empty.EnableEvents enable_events
  let ob1 := if logging then ob.SetObserver true else ob
  let ob2 := ob1.run L (trace.map TraceLine.toOp)
  ob2.SetObserver false

/-- The method `Orderbook::AddOrder` when the installed observer throws from the call
`EmitEvent(ev)` of the `Add` event: `EmitEvent` calls `observer_(e)` with no handler around it, so
the exception leaves `AddOrder` after the insertion and before `return MatchOrders();`.  The
result `none` is the propagated exception. -/
def Orderbook.AddOrder_observerThrows (L : PriceLimits) (s : Orderbook) (order : Order) :
    Orderbook × Option (List Trade) :=
  if s.orders_.contains order.orderId_ then (s, some [])
  else
    let isMarket := decide (order.orderType_ = OrderType.Market)
    let aggressive := if order.side_ = Side.Buy then L.maxPrice else L.minPrice
    match (if isMarket then order.ToImmediateOrCancel aggressive else some order) with
    | none => (s, none)
    | some order1 =>
      if !isMarket && (decide (order1.orderType_ = OrderType.ImmediateOrCancel)
          && !s.CanMatch order1.side_ order1.price_) then (s, some [])
      else if !isMarket && (decide (order1.orderType_ = OrderType.FillOrKill)
          && !s.CanFullyFill order1.side_ order1.price_ order1.initialQuantity_) then (s, some [])
      else if s.events_enabled_ && s.observer_ then (s.insert order1, none)
      else (s.insert order1).MatchOrders

/-- The pairs (bid, ask) of front orders that the inner loop of `MatchOrders` meets, each order
as it is when its iteration starts; the state of the next iteration is the state that one
iteration of the loop leaves. -/
def Orderbook.levelPairs : Nat → Orderbook → List (Order × Order)
  | 0, _ => []
  | fuel + 1, s =>
    match s.bids_, s.asks_ with
    | (_, bid :: _) :: _, (_, ask :: _) :: _ =>
      (bid, ask) :: Orderbook.levelPairs fuel (s.matchLevel 1 []).1
    | _, _ => []

/-- The pairs (bid, ask) of front orders that the outer loop of `MatchOrders` meets, level by
level. -/
def Orderbook.loopPairs : Nat → Orderbook → List (Order × Order)
  | 0, _ => []
  | fuel + 1, s =>
    match s.bids_, s.asks_ with
    | (bidPrice, bids) :: _, (askPrice, asks) :: _ =>
      if bidPrice < askPrice then []
      else
        s.levelPairs (bids.length + asks.length + 1) ++
          Orderbook.loopPairs fuel
            ((s.matchLevel (bids.length + asks.length + 1) []).1.eraseEmptied bidPrice askPrice)
    | _, _ => []

/-- The pairs (bid, ask) of orders matched by one call of `MatchOrders`, in the order of the match
steps, each order as it is immediately before its step. -/
def Orderbook.matchPairs (s : Orderbook) : List (Order × Order) :=
  s.loopPairs (s.bids_.length + s.asks_.length + 1)

/-- Every order queued in `bids_` is a buy and every order queued in `asks_` is a sell. -/
def Sided (s : Orderbook) : Prop :=
  (∀ o ∈ s.bids_.orders, o.side_ = Side.Buy) ∧ (∀ o ∈ s.asks_.orders, o.side_ = Side.Sell)

/-- A book with two bid levels, 101x10 and 100x1: the tradeable quantity for a sell at 100 is
11. -/
def book_two_bid_levels : Orderbook :=
  Orderbook.run int32Limits Orderbook.empty [gtc 1 Side.Buy 101 10, gtc 2 Side.Buy 100 1]

/-- A book with two levels on each side: bids 99x10 and 99x5 in one queue and 98x7, asks 101x5
and 102x1. -/
def book_two_levels_each : Orderbook :=
  Orderbook.run int32Limits Orderbook.empty
    [gtc 1 Side.Buy 99 10, gtc 2 Side.Buy 99 5, gtc 3 Side.Buy 98 7, gtc 4 Side.Sell 101 5,
      gtc 5 Side.Sell 102 1]

/-- The state in which `AddOrder` calls `MatchOrders` for a buy 101x12 (id 3) on the asks 100x10
and 101x20: the order is queued and crosses both ask levels. -/
def book_buy_inserted : Orderbook :=
  book_market_buy_sweeps_asks.insert (Order.new OrderType.GoodTillCancel 3 Side.Buy 101 12)

/-- The observer has been called with the events numbered `0`, `1`, ... up to the counter. -/
structure Dense (s : Orderbook) : Prop where
  observer : s.observer_ = true
  seqs : s.delivered.map Event.seq = List.range s.event_seq_


/-- A run with an observer installed from the start in which events are enabled, the sell 100x10
(id 1) is submitted, and events are disabled again. -/
def book_events_toggled : Orderbook :=
  (Orderbook.empty.SetObserver true).run int32Limits
    [Op.EnableEvents true, gtc 1 Side.Sell 100 10, Op.EnableEvents false]

/-- The number of orders in the queues of the first bid level and of the first ask level (0 for a
side without a level): the queues `bids` and `asks` of the inner loop of `MatchOrders`. -/
def Orderbook.frontCount (s : Orderbook) : Nat :=
  (match s.bids_ with
    | [] => 0
    | (_, bids) :: _ => bids.length) +
  (match s.asks_ with
    | [] => 0
    | (_, asks) :: _ => asks.length)

/-- The test `!bids.empty() && !asks.empty()` of the inner loop of `MatchOrders`, `bids` and `asks`
being the queues of the first level of each side. -/
def Orderbook.innerTest (s : Orderbook) : Bool :=
  match s.bids_, s.asks_ with
  | (_, _ :: _) :: _, (_, _ :: _) :: _ => true
  | _, _ => false

/-- The outer loop of `MatchOrders` goes on: the test `!bids_.empty() && !asks_.empty()` holds and
the `break` on `bidPrice < askPrice` is not taken. -/
def Orderbook.outerTest (s : Orderbook) : Bool :=
  match s.bids_, s.asks_ with
  | (bidPrice, _) :: _, (askPrice, _) :: _ => !decide (bidPrice < askPrice)
  | _, _ => false

/-- What a call of the public interface returns: the trade list of `AddOrder`, `MatchOrder` or
`MatchOrders`, `none` when the call ends in a fault; a call that returns nothing is given the
empty list. -/
def Orderbook.returns (L : PriceLimits) (s : Orderbook) : Op → Option (List Trade)
  | Op.AddOrder t i sd p q => (Orderbook.AddOrder L s (Order.new t i sd p q)).2
  | Op.MatchOrder m => (Orderbook.MatchOrder L s m).2
  | Op.MatchOrders => s.MatchOrders.2
  | _ => some []

/-- What the calls `AddOrder`, `CancelOrder`, `MatchOrder` and `MatchOrders` of a sequence of
calls return, one after the other; the calls `SetObserver` and `EnableEvents` are run and
contribute no entry. -/
def Orderbook.runReturns (L : PriceLimits) : Orderbook → List Op → List (Option (List Trade))
  | _, [] => []
  | s, op :: ops =>
    if op.isBookCall then s.returns L op :: Orderbook.runReturns L (s.step L op) ops
    else Orderbook.runReturns L (s.step L op) ops

/-- A book whose single ask level holds 4294967295 (id 1) and 1 (id 2) at 100: the sum of the
level is `2 ^ 32`. -/
def book_ask_level_wraps : Orderbook :=
  Orderbook.run int32Limits Orderbook.empty
    [gtc 1 Side.Sell 100 4294967295, gtc 2 Side.Sell 100 1]

/-- The book of `test_market_buy_partial_fill` before the market order: ask 100x5. -/
def book_market_buy_partial_fill : Orderbook :=
  Orderbook.run int32Limits Orderbook.empty [gtc 1 Side.Sell 100 5]

/-! ## Properties of the embedding -/

/-! ### The matching loops against a single aggressor -/

@[simp]
theorem emit_bids (s : Orderbook) (e : Event) : (s.emit e).bids_ = s.bids_ := by
  simp only [Orderbook.emit, Orderbook.EmitEvent]; split <;> [split; skip] <;> rfl
@[simp]
theorem emit_asks (s : Orderbook) (e : Event) : (s.emit e).asks_ = s.asks_ := by
  simp only [Orderbook.emit, Orderbook.EmitEvent]; split <;> [split; skip] <;> rfl
@[simp]
theorem emit_orders (s : Orderbook) (e : Event) : (s.emit e).orders_ = s.orders_ := by
  simp only [Orderbook.emit, Orderbook.EmitEvent]; split <;> [split; skip] <;> rfl

theorem eraseAll_erase (l : List Nat) (a : Nat) (ids : List Nat) :
    (eraseAll l ids).erase a = eraseAll (l.erase a) ids := by
  induction ids generalizing l with
  | nil => rfl
  | cons b ids ih =>
    simp only [eraseAll, List.foldl_cons] at ih ⊢
    rw [ih, List.erase_comm]

theorem eraseAll_append (l : List Nat) (as bs : List Nat) :
    eraseAll l (as ++ bs) = eraseAll (eraseAll l as) bs := by
  simp [eraseAll]

theorem Fill_min_left (b a : Order) :
    b.Fill (min b.remainingQuantity_ a.remainingQuantity_) =
      some { b with remainingQuantity_ := b.remainingQuantity_ - min b.remainingQuantity_ a.remainingQuantity_ } := by
  simp [Order.Fill]

theorem Fill_min_right (b a : Order) :
    a.Fill (min b.remainingQuantity_ a.remainingQuantity_) =
      some { a with remainingQuantity_ := a.remainingQuantity_ - min b.remainingQuantity_ a.remainingQuantity_ } := by
  simp [Order.Fill]

theorem matchLevel_buy (xs : List Order) : ∀ (fuel : Nat) (s : Orderbook) (T : List Trade) (o : Order)
    (bp : Int) (B : Levels) (ap : Int) (A : Levels),
    s.bids_ = (bp, [o]) :: B → s.asks_ = (ap, xs) :: A → xs.length ≤ fuel →
    (s.matchLevel fuel T).2 = some (T ++ (fillsQ o.remainingQuantity_ xs).map (fun f => mkTrade o f.1 f.2)) ∧
    (s.matchLevel fuel T).1.bids_ = (bp, aggressorLeft o (leftQ o.remainingQuantity_ xs)) :: B ∧
    (s.matchLevel fuel T).1.asks_ = (ap, restQ o.remainingQuantity_ xs) :: A ∧
    (s.matchLevel fuel T).1.orders_ =
      eraseAll s.orders_ (goneQ o.remainingQuantity_ xs ++ aggressorGone o (leftQ o.remainingQuantity_ xs)) := by
  induction xs with
  | nil =>
    intro fuel s T o bp B ap A hb ha _
    cases fuel <;> simp [Orderbook.matchLevel, hb, ha, fillsQ, leftQ, restQ, goneQ, aggressorLeft, aggressorGone, eraseAll]
  | cons x xs ih =>
    intro fuel s T o bp B ap A hb ha hf
    obtain ⟨f, rfl⟩ : ∃ f, fuel = f + 1 := ⟨fuel - 1, by simp at hf; omega⟩
    simp only [List.length_cons, Nat.add_le_add_iff_right] at hf
    rw [Orderbook.matchLevel]
    simp only [hb, ha, Fill_min_left, Fill_min_right]
    rcases Nat.lt_trichotomy o.remainingQuantity_ x.remainingQuantity_ with h | h | h
    · have hmin : min o.remainingQuantity_ x.remainingQuantity_ = o.remainingQuantity_ :=
        Nat.min_eq_left (Nat.le_of_lt h)
      have hx : ¬ (x.remainingQuantity_ - o.remainingQuantity_ = 0) := by omega
      have hx2 : ¬ (x.remainingQuantity_ ≤ o.remainingQuantity_) := by omega
      simp only [hmin, Order.IsFilled, hx, Nat.sub_self, beq_self_eq_true, if_true, beq_iff_eq, if_false]
      cases f <;>
        simp [Orderbook.matchLevel, fillsQ, leftQ, restQ, goneQ, h, Nat.le_of_lt h, mkTrade, aggressorLeft, aggressorGone, eraseAll, hx2]
    · have hmin : min o.remainingQuantity_ x.remainingQuantity_ = o.remainingQuantity_ :=
        Nat.min_eq_left (Nat.le_of_eq h)
      simp only [hmin, Order.IsFilled, Nat.sub_self, beq_self_eq_true, if_true, h]
      cases f <;>
        simp [Orderbook.matchLevel, fillsQ, leftQ, restQ, goneQ, h, mkTrade, aggressorLeft, aggressorGone, eraseAll, List.erase_comm]
    · have hmin : min o.remainingQuantity_ x.remainingQuantity_ = x.remainingQuantity_ :=
        Nat.min_eq_right (Nat.le_of_lt h)
      have hx : ¬ (o.remainingQuantity_ - x.remainingQuantity_ = 0) := by omega
      have hx2 : ¬ (o.remainingQuantity_ ≤ x.remainingQuantity_) := by omega
      have hx3 : ¬ (o.remainingQuantity_ < x.remainingQuantity_) := by omega
      have hx4 : ¬ (o.remainingQuantity_ = x.remainingQuantity_) := by omega
      simp only [hmin, Order.IsFilled, hx, Nat.sub_self, beq_self_eq_true, if_true, beq_iff_eq, if_false]
      refine ⟨?_, ?_, ?_, ?_⟩
      · rw [(ih f _ _ { o with remainingQuantity_ := o.remainingQuantity_ - x.remainingQuantity_ }
          bp B ap A ?_ ?_ hf).1]
        · simp [fillsQ, hx2, mkTrade]
        · simp
        · simp
      · rw [(ih f _ _ { o with remainingQuantity_ := o.remainingQuantity_ - x.remainingQuantity_ }
          bp B ap A ?_ ?_ hf).2.1]
        · simp [leftQ, hx2]
          cases leftQ (o.remainingQuantity_ - x.remainingQuantity_) xs <;> simp [aggressorLeft]
        · simp
        · simp
      · rw [(ih f _ _ { o with remainingQuantity_ := o.remainingQuantity_ - x.remainingQuantity_ }
          bp B ap A ?_ ?_ hf).2.2.1]
        · simp [restQ, hx3, hx4]
        · simp
        · simp
      · rw [(ih f _ _ { o with remainingQuantity_ := o.remainingQuantity_ - x.remainingQuantity_ }
          bp B ap A ?_ ?_ hf).2.2.2]
        · simp [goneQ, hx3, hx4, leftQ, hx2, eraseAll]
          cases leftQ (o.remainingQuantity_ - x.remainingQuantity_) xs <;> simp [aggressorGone]
        · simp
        · simp

theorem restQ_of_leftQ_some (xs : List Order) : ∀ (r r1 : Nat), leftQ r xs = some r1 → restQ r xs = [] := by
  induction xs with
  | nil => intro r r1 _; rfl
  | cons x xs ih =>
    intro r r1 h
    simp only [leftQ] at h
    split at h
    · exact absurd h (by simp)
    · rename_i hle
      have h1 : ¬ r < x.remainingQuantity_ := by omega
      have h2 : ¬ r = x.remainingQuantity_ := by omega
      simp only [restQ, h1, h2, if_false]
      exact ih _ _ h

theorem eraseEmptied_orders (s : Orderbook) (bp ap : Int) :
    (s.eraseEmptied bp ap).orders_ = s.orders_ := by
  simp only [Orderbook.eraseEmptied]
  split_ifs <;> rfl

theorem eraseEmptied_bids_nil (s : Orderbook) (bp ap : Int) (B : Levels)
    (h : s.bids_ = (bp, []) :: B) : (s.eraseEmptied bp ap).bids_ = B := by
  have hf : frontEmpty s.bids_ = true := by rw [h]; rfl
  simp only [Orderbook.eraseEmptied, hf]
  split_ifs <;> simp [Levels.erase, h]

theorem eraseEmptied_bids_cons (s : Orderbook) (bp ap : Int) (y : Order) (ys : List Order)
    (B : Levels) (h : s.bids_ = (bp, y :: ys) :: B) :
    (s.eraseEmptied bp ap).bids_ = (bp, y :: ys) :: B := by
  have hf : frontEmpty s.bids_ = false := by rw [h]; rfl
  simp only [Orderbook.eraseEmptied, hf]
  split_ifs <;> simp_all

theorem eraseEmptied_asks_nil (s : Orderbook) (bp ap : Int) (A : Levels)
    (h : s.asks_ = (ap, []) :: A) : (s.eraseEmptied bp ap).asks_ = A := by
  have hf : frontEmpty s.asks_ = true := by rw [h]; rfl
  simp only [Orderbook.eraseEmptied]
  split_ifs <;> simp_all [Levels.erase]

theorem eraseEmptied_asks_cons (s : Orderbook) (bp ap : Int) (y : Order) (ys : List Order)
    (A : Levels) (h : s.asks_ = (ap, y :: ys) :: A) :
    (s.eraseEmptied bp ap).asks_ = (ap, y :: ys) :: A := by
  have hf : frontEmpty s.asks_ = false := by rw [h]; rfl
  simp only [Orderbook.eraseEmptied]
  split_ifs <;> simp_all

theorem matchLoop_stop (fuel : Nat) (s : Orderbook) (T : List Trade)
    (h : ∀ b ∈ s.bids_, ∀ a ∈ s.asks_, b.1 < a.1) : s.matchLoop fuel T = (s, some T) := by
  cases fuel with
  | zero => rfl
  | succ f =>
    rw [Orderbook.matchLoop]
    split
    · rename_i bp bq _ ap aq _ hb ha
      have : bp < ap := h (bp, bq) (by simp [hb]) (ap, aq) (by simp [ha])
      simp [this]
    · rfl

theorem matchLoop_buy (A : Levels) : ∀ (fuel : Nat) (s : Orderbook) (T : List Trade) (o : Order)
    (p : Int) (B : Levels),
    s.bids_ = (p, [o]) :: B → s.asks_ = A → A.length ≤ fuel →
    (∀ lvl ∈ A, lvl.2 ≠ []) → (∀ b ∈ B, ∀ a ∈ A, b.1 < a.1) →
    (s.matchLoop fuel T).2 = some (T ++
      (fillsL (fun ap => decide (ap ≤ p)) o.remainingQuantity_ A).map (fun f => mkTrade o f.1 f.2)) ∧
    (s.matchLoop fuel T).1.bids_ =
      aggressorLevel p o B (leftL (fun ap => decide (ap ≤ p)) o.remainingQuantity_ A) ∧
    (s.matchLoop fuel T).1.asks_ = restL (fun ap => decide (ap ≤ p)) o.remainingQuantity_ A ∧
    (s.matchLoop fuel T).1.orders_ =
      eraseAll s.orders_ (goneL (fun ap => decide (ap ≤ p)) o.remainingQuantity_ A ++
        aggressorGone o (leftL (fun ap => decide (ap ≤ p)) o.remainingQuantity_ A)) := by
  induction A with
  | nil =>
    intro fuel s T o p B hb ha _ _ _
    cases fuel <;> simp [Orderbook.matchLoop, hb, ha, fillsL, leftL, restL, goneL, aggressorLevel,
      aggressorGone, eraseAll]
  | cons lvl A ih =>
    obtain ⟨ap, xs⟩ := lvl
    intro fuel s T o p B hb ha hf hne hnc
    obtain ⟨f, rfl⟩ : ∃ f, fuel = f + 1 := ⟨fuel - 1, by simp at hf; omega⟩
    simp only [List.length_cons, Nat.add_le_add_iff_right] at hf
    rw [Orderbook.matchLoop]
    simp only [hb, ha]
    by_cases hc : p < ap
    · have hc2 : ¬ ap ≤ p := by omega
      simp [hc, hc2, hb, ha, fillsL, leftL, restL, goneL, aggressorLevel, aggressorGone, eraseAll]
    · have hc2 : ap ≤ p := by omega
      simp only [hc, if_false]
      obtain ⟨h1, h2, h3, h4⟩ := matchLevel_buy xs ([o].length + xs.length + 1) s T o p B ap A hb ha
        (by omega)
      rcases hm : s.matchLevel ([o].length + xs.length + 1) T with ⟨s1, ot⟩
      rw [hm] at h1 h2 h3 h4
      simp only at h1 h2 h3 h4
      subst h1
      simp only
      cases hl : leftQ o.remainingQuantity_ xs with
      | none =>
        rw [hl] at h2 h4
        simp only [aggressorLeft] at h2
        have hbids := eraseEmptied_bids_nil s1 p ap B h2
        have hB : ∀ A1 : Levels, (∀ a ∈ A1, a ∈ (ap, xs) :: A ∨ a.1 = ap) →
            ∀ b ∈ B, ∀ a ∈ A1, b.1 < a.1 := by
          intro A1 hsub b hb1 a ha1
          rcases hsub a ha1 with h | h
          · exact hnc b hb1 a h
          · rw [h]; exact hnc b hb1 (ap, xs) (by simp)
        cases hr : restQ o.remainingQuantity_ xs with
        | nil =>
          rw [hr] at h3
          have hasks := eraseEmptied_asks_nil s1 p ap A h3
          rw [matchLoop_stop]
          · simp [hbids, hasks, eraseEmptied_orders, fillsL, leftL, restL, goneL, hc2, hl, hr,
              aggressorLevel, h4]
          · rw [hbids, hasks]
            exact hB A (fun a ha1 => Or.inl (by simp [ha1]))
        | cons y ys =>
          rw [hr] at h3
          have hasks := eraseEmptied_asks_cons s1 p ap y ys A h3
          rw [matchLoop_stop]
          · simp [hbids, hasks, eraseEmptied_orders, fillsL, leftL, restL, goneL, hc2, hl, hr,
              aggressorLevel, h4]
          · rw [hbids, hasks]
            refine hB _ (fun a ha1 => ?_)
            simp only [List.mem_cons] at ha1
            rcases ha1 with h | h
            · right; rw [h]
            · left; simp [h]
      | some r1 =>
        rw [hl] at h2 h4
        simp only [aggressorLeft] at h2
        have hr := restQ_of_leftQ_some xs _ _ hl
        rw [hr] at h3
        have hbids := eraseEmptied_bids_cons s1 p ap _ _ B h2
        have hasks := eraseEmptied_asks_nil s1 p ap A h3
        have hnc2 : ∀ b ∈ B, ∀ a ∈ A, b.1 < a.1 := fun b hb1 a ha1 => hnc b hb1 a (by simp [ha1])
        have hne2 : ∀ lvl ∈ A, lvl.2 ≠ [] := fun l hl1 => hne l (by simp [hl1])
        obtain ⟨k1, k2, k3, k4⟩ := ih f (s1.eraseEmptied p ap)
          (T ++ (fillsQ o.remainingQuantity_ xs).map (fun f => mkTrade o f.1 f.2))
          { o with remainingQuantity_ := r1 } p B hbids hasks hf hne2 hnc2
        refine ⟨?_, ?_, ?_, ?_⟩
        · rw [k1]; simp [fillsL, hc2, hl, mkTrade]
        · rw [k2]; simp only [leftL, hc2, hl, decide_True, if_true]
          cases leftL (fun ap => decide (ap ≤ p)) r1 A <;> simp [aggressorLevel]
        · rw [k3]; simp [restL, hc2, hl]
        · rw [k4, eraseEmptied_orders, h4]
          simp only [goneL, leftL, hc2, hl, decide_True, if_true, aggressorGone,
              List.append_nil, eraseAll_append, List.append_assoc]

theorem matchLevel_sell (xs : List Order) : ∀ (fuel : Nat) (s : Orderbook) (T : List Trade) (o : Order)
    (bp : Int) (B : Levels) (ap : Int) (A : Levels),
    s.bids_ = (bp, xs) :: B → s.asks_ = (ap, [o]) :: A → xs.length ≤ fuel →
    (s.matchLevel fuel T).2 = some (T ++ (fillsQ o.remainingQuantity_ xs).map (fun f => mkTrade f.1 o f.2)) ∧
    (s.matchLevel fuel T).1.bids_ = (bp, restQ o.remainingQuantity_ xs) :: B ∧
    (s.matchLevel fuel T).1.asks_ = (ap, aggressorLeft o (leftQ o.remainingQuantity_ xs)) :: A ∧
    (s.matchLevel fuel T).1.orders_ =
      eraseAll s.orders_ (goneQ o.remainingQuantity_ xs ++ aggressorGone o (leftQ o.remainingQuantity_ xs)) := by
  induction xs with
  | nil =>
    intro fuel s T o bp B ap A hb ha _
    cases fuel <;> simp [Orderbook.matchLevel, hb, ha, fillsQ, leftQ, restQ, goneQ, aggressorLeft, aggressorGone, eraseAll]
  | cons x xs ih =>
    intro fuel s T o bp B ap A hb ha hf
    obtain ⟨f, rfl⟩ : ∃ f, fuel = f + 1 := ⟨fuel - 1, by simp at hf; omega⟩
    simp only [List.length_cons, Nat.add_le_add_iff_right] at hf
    rw [Orderbook.matchLevel]
    simp only [hb, ha, Fill_min_left, Fill_min_right]
    rcases Nat.lt_trichotomy o.remainingQuantity_ x.remainingQuantity_ with h | h | h
    · have hmin : min x.remainingQuantity_ o.remainingQuantity_ = o.remainingQuantity_ :=
        Nat.min_eq_right (Nat.le_of_lt h)
      have hx : ¬ (x.remainingQuantity_ - o.remainingQuantity_ = 0) := by omega
      have hx2 : ¬ (x.remainingQuantity_ ≤ o.remainingQuantity_) := by omega
      simp only [hmin, Order.IsFilled, hx, Nat.sub_self, beq_self_eq_true, if_true, beq_iff_eq, if_false]
      cases f <;>
        simp [Orderbook.matchLevel, fillsQ, leftQ, restQ, goneQ, h, Nat.le_of_lt h, mkTrade, aggressorLeft, aggressorGone, eraseAll, hx2]
    · have hmin : min x.remainingQuantity_ o.remainingQuantity_ = o.remainingQuantity_ :=
        Nat.min_eq_right (Nat.le_of_eq h)
      simp only [hmin, Order.IsFilled, Nat.sub_self, beq_self_eq_true, if_true, h]
      cases f <;>
        simp [Orderbook.matchLevel, fillsQ, leftQ, restQ, goneQ, h, mkTrade, aggressorLeft, aggressorGone, eraseAll, List.erase_comm]
    · have hmin : min x.remainingQuantity_ o.remainingQuantity_ = x.remainingQuantity_ :=
        Nat.min_eq_left (Nat.le_of_lt h)
      have hx : ¬ (o.remainingQuantity_ - x.remainingQuantity_ = 0) := by omega
      have hx2 : ¬ (o.remainingQuantity_ ≤ x.remainingQuantity_) := by omega
      have hx3 : ¬ (o.remainingQuantity_ < x.remainingQuantity_) := by omega
      have hx4 : ¬ (o.remainingQuantity_ = x.remainingQuantity_) := by omega
      simp only [hmin, Order.IsFilled, hx, Nat.sub_self, beq_self_eq_true, if_true, beq_iff_eq, if_false]
      refine ⟨?_, ?_, ?_, ?_⟩
      · rw [(ih f _ _ { o with remainingQuantity_ := o.remainingQuantity_ - x.remainingQuantity_ }
          bp B ap A ?_ ?_ hf).1]
        · simp [fillsQ, hx2, mkTrade]
        · simp
        · simp
      · rw [(ih f _ _ { o with remainingQuantity_ := o.remainingQuantity_ - x.remainingQuantity_ }
          bp B ap A ?_ ?_ hf).2.1]
        · simp [restQ, hx3, hx4]
        · simp
        · simp
      · rw [(ih f _ _ { o with remainingQuantity_ := o.remainingQuantity_ - x.remainingQuantity_ }
          bp B ap A ?_ ?_ hf).2.2.1]
        · simp [leftQ, hx2]
          cases leftQ (o.remainingQuantity_ - x.remainingQuantity_) xs <;> simp [aggressorLeft]
        · simp
        · simp
      · rw [(ih f _ _ { o with remainingQuantity_ := o.remainingQuantity_ - x.remainingQuantity_ }
          bp B ap A ?_ ?_ hf).2.2.2]
        · simp [goneQ, hx3, hx4, leftQ, hx2, eraseAll]
          cases leftQ (o.remainingQuantity_ - x.remainingQuantity_) xs <;> simp [aggressorGone]
        · simp
        · simp


theorem matchLoop_sell (A : Levels) : ∀ (fuel : Nat) (s : Orderbook) (T : List Trade) (o : Order)
    (p : Int) (B : Levels),
    s.asks_ = (p, [o]) :: B → s.bids_ = A → A.length ≤ fuel →
    (∀ lvl ∈ A, lvl.2 ≠ []) → (∀ b ∈ B, ∀ a ∈ A, a.1 < b.1) →
    (s.matchLoop fuel T).2 = some (T ++
      (fillsL (fun ap => decide (p ≤ ap)) o.remainingQuantity_ A).map (fun f => mkTrade f.1 o f.2)) ∧
    (s.matchLoop fuel T).1.asks_ =
      aggressorLevel p o B (leftL (fun ap => decide (p ≤ ap)) o.remainingQuantity_ A) ∧
    (s.matchLoop fuel T).1.bids_ = restL (fun ap => decide (p ≤ ap)) o.remainingQuantity_ A ∧
    (s.matchLoop fuel T).1.orders_ =
      eraseAll s.orders_ (goneL (fun ap => decide (p ≤ ap)) o.remainingQuantity_ A ++
        aggressorGone o (leftL (fun ap => decide (p ≤ ap)) o.remainingQuantity_ A)) := by
  induction A with
  | nil =>
    intro fuel s T o p B hb ha _ _ _
    cases fuel <;> simp [Orderbook.matchLoop, hb, ha, fillsL, leftL, restL, goneL, aggressorLevel,
      aggressorGone, eraseAll]
  | cons lvl A ih =>
    obtain ⟨ap, xs⟩ := lvl
    intro fuel s T o p B hb ha hf hne hnc
    obtain ⟨f, rfl⟩ : ∃ f, fuel = f + 1 := ⟨fuel - 1, by simp at hf; omega⟩
    simp only [List.length_cons, Nat.add_le_add_iff_right] at hf
    rw [Orderbook.matchLoop]
    simp only [hb, ha]
    by_cases hc : ap < p
    · have hc2 : ¬ p ≤ ap := by omega
      simp [hc, hc2, hb, ha, fillsL, leftL, restL, goneL, aggressorLevel, aggressorGone, eraseAll]
    · have hc2 : p ≤ ap := by omega
      simp only [hc, if_false]
      obtain ⟨h1, h3, h2, h4⟩ := matchLevel_sell xs (xs.length + [o].length + 1) s T o ap A p B ha hb
        (by omega)
      rcases hm : s.matchLevel (xs.length + [o].length + 1) T with ⟨s1, ot⟩
      rw [hm] at h1 h2 h3 h4
      simp only at h1 h2 h3 h4
      subst h1
      simp only
      cases hl : leftQ o.remainingQuantity_ xs with
      | none =>
        rw [hl] at h2 h4
        simp only [aggressorLeft] at h2
        have hbids := eraseEmptied_asks_nil s1 ap p B h2
        have hB : ∀ A1 : Levels, (∀ a ∈ A1, a ∈ (ap, xs) :: A ∨ a.1 = ap) →
            ∀ b ∈ B, ∀ a ∈ A1, a.1 < b.1 := by
          intro A1 hsub b hb1 a ha1
          rcases hsub a ha1 with h | h
          · exact hnc b hb1 a h
          · rw [h]; exact hnc b hb1 (ap, xs) (by simp)
        cases hr : restQ o.remainingQuantity_ xs with
        | nil =>
          rw [hr] at h3
          have hasks := eraseEmptied_bids_nil s1 ap p A h3
          rw [matchLoop_stop]
          · simp [hbids, hasks, eraseEmptied_orders, fillsL, leftL, restL, goneL, hc2, hl, hr,
              aggressorLevel, h4]
          · rw [hbids, hasks]
            exact fun a ha1 b hb1 => hB A (fun a ha1 => Or.inl (by simp [ha1])) b hb1 a ha1
        | cons y ys =>
          rw [hr] at h3
          have hasks := eraseEmptied_bids_cons s1 ap p y ys A h3
          rw [matchLoop_stop]
          · simp [hbids, hasks, eraseEmptied_orders, fillsL, leftL, restL, goneL, hc2, hl, hr,
              aggressorLevel, h4]
          · rw [hbids, hasks]
            refine fun a ha1 b hb1 => hB _ (fun a ha1 => ?_) b hb1 a ha1
            simp only [List.mem_cons] at ha1
            rcases ha1 with h | h
            · right; rw [h]
            · left; simp [h]
      | some r1 =>
        rw [hl] at h2 h4
        simp only [aggressorLeft] at h2
        have hr := restQ_of_leftQ_some xs _ _ hl
        rw [hr] at h3
        have hbids := eraseEmptied_asks_cons s1 ap p _ _ B h2
        have hasks := eraseEmptied_bids_nil s1 ap p A h3
        have hnc2 : ∀ b ∈ B, ∀ a ∈ A, a.1 < b.1 := fun b hb1 a ha1 => hnc b hb1 a (by simp [ha1])
        have hne2 : ∀ lvl ∈ A, lvl.2 ≠ [] := fun l hl1 => hne l (by simp [hl1])
        obtain ⟨k1, k2, k3, k4⟩ := ih f (s1.eraseEmptied ap p)
          (T ++ (fillsQ o.remainingQuantity_ xs).map (fun f => mkTrade f.1 o f.2))
          { o with remainingQuantity_ := r1 } p B hbids hasks hf hne2 hnc2
        refine ⟨?_, ?_, ?_, ?_⟩
        · rw [k1]; simp [fillsL, hc2, hl, mkTrade]
        · rw [k2]; simp only [leftL, hc2, hl, decide_True, if_true]
          cases leftL (fun ap => decide (p ≤ ap)) r1 A <;> simp [aggressorLevel]
        · rw [k3]; simp [restL, hc2, hl]
        · rw [k4, eraseEmptied_orders, h4]
          simp only [goneL, leftL, hc2, hl, decide_True, if_true, aggressorGone,
              List.append_nil, eraseAll_append, List.append_assoc]

/-! ### Insertion into a side of the book -/

theorem orders_nil : Levels.orders [] = [] := rfl

theorem orders_cons (p : Int) (q : List Order) (m : Levels) :
    Levels.orders ((p, q) :: m) = q ++ Levels.orders m := by
  simp [Levels.orders]

theorem mem_orders {m : Levels} {o : Order} : o ∈ m.orders ↔ ∃ lvl ∈ m, o ∈ lvl.2 := by
  simp [Levels.orders, List.mem_flatMap]

theorem before_irrefl {before : Int → Int → Bool} (hb : IsBookOrder before) (a : Int) :
    before a a = false := by
  rcases hb with rfl | rfl <;> simp [bidBefore, askBefore]

theorem before_trans {before : Int → Int → Bool} (hb : IsBookOrder before) {a b c : Int}
    (h1 : before a b = true) (h2 : before b c = true) : before a c = true := by
  rcases hb with rfl | rfl <;> simp only [bidBefore, askBefore, decide_eq_true_eq] at * <;> omega

theorem before_total {before : Int → Int → Bool} (hb : IsBookOrder before) {a b : Int}
    (h1 : a ≠ b) (h2 : before a b = false) : before b a = true := by
  rcases hb with rfl | rfl <;>
    simp only [bidBefore, askBefore, decide_eq_true_eq, decide_eq_false_iff_not] at * <;> omega

theorem push_back_perm (before : Int → Int → Bool) (o : Order) (m : Levels) :
    (Levels.push_back before o m).orders.Perm (o :: m.orders) := by
  induction m with
  | nil => simp [Levels.push_back, Levels.orders]
  | cons lvl m ih =>
    obtain ⟨p, q⟩ := lvl
    simp only [Levels.push_back]
    split_ifs with h1 h2
    · simp only [orders_cons, List.append_assoc, List.singleton_append]
      exact (List.perm_middle).trans (List.Perm.refl _)
    · simp [orders_cons]
    · simp only [orders_cons]
      exact (List.Perm.append_left q ih).trans List.perm_middle

theorem push_back_keys (before : Int → Int → Bool) (o : Order) (m : Levels) :
    ∀ lvl ∈ Levels.push_back before o m, lvl.1 = o.price_ ∨ ∃ l ∈ m, l.1 = lvl.1 := by
  induction m with
  | nil => intro lvl h; simp [Levels.push_back] at h; simp [h]
  | cons l m ih =>
    obtain ⟨p, q⟩ := l
    intro lvl h
    simp only [Levels.push_back] at h
    split_ifs at h with h1 h2
    · simp only [List.mem_cons] at h
      rcases h with h | h
      · left; rw [h]; exact h1.symm
      · right; exact ⟨lvl, by simp [h], rfl⟩
    · simp only [List.mem_cons] at h
      rcases h with h | h | h
      · left; rw [h]
      · right; exact ⟨(p, q), by simp, by rw [h]⟩
      · right; exact ⟨lvl, by simp [h], rfl⟩
    · simp only [List.mem_cons] at h
      rcases h with h | h
      · right; exact ⟨(p, q), by simp, by rw [h]⟩
      · rcases ih lvl h with h3 | ⟨l, hl, h3⟩
        · left; exact h3
        · right; exact ⟨l, by simp [hl], h3⟩

theorem push_back_head (before : Int → Int → Bool) (o : Order) (m : Levels)
    (h : ∀ lvl ∈ m, before o.price_ lvl.1 = true) (hb : IsBookOrder before) :
    Levels.push_back before o m = (o.price_, [o]) :: m := by
  cases m with
  | nil => rfl
  | cons lvl m =>
    obtain ⟨p, q⟩ := lvl
    have h1 := h (p, q) (by simp)
    have h2 : o.price_ ≠ p := by
      intro heq
      rw [heq, before_irrefl hb] at h1
      exact absurd h1 (by simp)
    simp [Levels.push_back, h2, h1]

theorem push_back_WF {before : Int → Int → Bool} (hb : IsBookOrder before) {side : Side}
    {m : Levels} (o : Order) (hw : Levels.WF before side m) (hs : o.side_ = side) :
    Levels.WF before side (Levels.push_back before o m) := by
  induction m with
  | nil =>
    refine ⟨by simp [Levels.push_back], ?_, ?_⟩
    · intro lvl h; simp [Levels.push_back] at h; simp [h]
    · intro lvl h x hx; simp [Levels.push_back] at h; subst h; simp at hx; simp [hx, hs]
  | cons l m ih =>
    obtain ⟨p, q⟩ := l
    have hw2 : Levels.WF before side m :=
      ⟨(List.pairwise_cons.1 hw.sorted).2, fun lvl h => hw.nonempty lvl (by simp [h]),
        fun lvl h => hw.located lvl (by simp [h])⟩
    have hhead := (List.pairwise_cons.1 hw.sorted).1
    simp only [Levels.push_back]
    split_ifs with h1 h2
    · refine ⟨?_, ?_, ?_⟩
      · exact List.pairwise_cons.2 ⟨hhead, hw2.sorted⟩
      · intro lvl h
        simp only [List.mem_cons] at h
        rcases h with h | h
        · rw [h]; simp
        · exact hw2.nonempty lvl h
      · intro lvl h x hx
        simp only [List.mem_cons] at h
        rcases h with h | h
        · rw [h] at hx ⊢
          simp only [List.mem_append, List.mem_singleton] at hx
          rcases hx with hx | hx
          · exact hw.located (p, q) (by simp) x hx
          · rw [hx]; exact ⟨hs, h1⟩
        · exact hw2.located lvl h x hx
    · refine ⟨?_, ?_, ?_⟩
      · refine List.pairwise_cons.2 ⟨?_, hw.sorted⟩
        intro lvl h
        simp only [List.mem_cons] at h
        rcases h with h | h
        · rw [h]; exact h2
        · exact before_trans hb h2 (hhead lvl h)
      · intro lvl h
        simp only [List.mem_cons] at h
        rcases h with h | h
        · rw [h]; simp
        · exact hw.nonempty lvl (by simpa using h)
      · intro lvl h x hx
        simp only [List.mem_cons] at h
        rcases h with h | h
        · rw [h] at hx ⊢; simp at hx; rw [hx]; exact ⟨hs, rfl⟩
        · exact hw.located lvl (by simpa using h) x hx
    · have ih2 := ih hw2
      refine ⟨?_, ?_, ?_⟩
      · refine List.pairwise_cons.2 ⟨?_, ih2.sorted⟩
        intro lvl h
        rcases push_back_keys before o m lvl h with h3 | ⟨l, hl, h3⟩
        · rw [h3]
          exact before_total hb h1 (by simpa using h2)
        · rw [← h3]; exact hhead l hl
      · intro lvl h
        simp only [List.mem_cons] at h
        rcases h with h | h
        · rw [h]; exact hw.nonempty (p, q) (by simp)
        · exact ih2.nonempty lvl h
      · intro lvl h x hx
        simp only [List.mem_cons] at h
        rcases h with h | h
        · rw [h] at hx ⊢; exact hw.located (p, q) (by simp) x hx
        · exact ih2.located lvl h x hx

/-! ### Removal from a side of the book -/

theorem WF_tail {before : Int → Int → Bool} {side : Side} {l : Int × List Order} {m : Levels}
    (hw : Levels.WF before side (l :: m)) : Levels.WF before side m :=
  ⟨(List.pairwise_cons.1 hw.sorted).2, fun lvl h => hw.nonempty lvl (by simp [h]),
    fun lvl h => hw.located lvl (by simp [h])⟩

theorem eraseP_id_ne (i : Nat) (q : List Order) (hn : (q.map (fun o => o.orderId_)).Nodup) :
    ∀ x ∈ q.eraseP (fun o => o.orderId_ == i), x.orderId_ ≠ i := by
  induction q with
  | nil => intro x h; simp at h
  | cons y ys ih =>
    intro x h
    simp only [List.map_cons, List.nodup_cons, List.mem_map, not_exists, not_and] at hn
    by_cases hy : y.orderId_ = i
    · simp only [List.eraseP_cons, hy, beq_self_eq_true, cond_true] at h
      intro hx
      exact hn.1 x h (by rw [hx, hy])
    · have hy2 : (y.orderId_ == i) = false := by simpa using hy
      simp only [List.eraseP_cons, hy2, cond_false, List.mem_cons] at h
      rcases h with h | h
      · rw [h]; exact hy
      · exact ih hn.2 x h

theorem eraseP_id_mem (i : Nat) (q : List Order) (x : Order) (hx : x ∈ q) (hne : x.orderId_ ≠ i) :
    x ∈ q.eraseP (fun o => o.orderId_ == i) := by
  induction q with
  | nil => simp at hx
  | cons y ys ih =>
    simp only [List.mem_cons] at hx
    by_cases hy : y.orderId_ = i
    · simp only [List.eraseP_cons, hy, beq_self_eq_true, cond_true]
      rcases hx with hx | hx
      · rw [hx] at hne; exact absurd hy hne
      · exact hx
    · have hy2 : (y.orderId_ == i) = false := by simpa using hy
      simp only [List.eraseP_cons, hy2, cond_false, List.mem_cons]
      rcases hx with hx | hx
      · left; exact hx
      · right; exact ih hx

theorem remove_levels (p : Int) (i : Nat) (m : Levels) :
    ∀ lvl ∈ Levels.remove p i m, ∃ l ∈ m, l.1 = lvl.1 ∧ lvl.2.Sublist l.2 ∧ lvl.2 ≠ [] ∨ lvl ∈ m := by
  induction m with
  | nil => intro lvl h; simp [Levels.remove] at h
  | cons l m ih =>
    obtain ⟨p1, q⟩ := l
    intro lvl h
    simp only [Levels.remove] at h
    split_ifs at h with h1
    · split at h
      · exact ⟨lvl, by simp [h], Or.inr (by simp [h])⟩
      · rename_i y ys heq
        simp only [List.mem_cons] at h
        rcases h with h | h
        · refine ⟨(p1, q), by simp, Or.inl ⟨by rw [h], ?_, by rw [h]; simp⟩⟩
          rw [h, ← heq]
          exact List.eraseP_sublist q
        · exact ⟨lvl, by simp [h], Or.inr (by simp [h])⟩
    · simp only [List.mem_cons] at h
      rcases h with h | h
      · exact ⟨lvl, by simp [h], Or.inr (by simp [h])⟩
      · obtain ⟨l, hl, h2⟩ := ih lvl h
        rcases h2 with h2 | h2
        · exact ⟨l, by simp [hl], Or.inl h2⟩
        · exact ⟨lvl, by simp [h2], Or.inr (by simp [h2])⟩

theorem remove_keys_sublist (p : Int) (i : Nat) (m : Levels) :
    ((Levels.remove p i m).map Prod.fst).Sublist (m.map Prod.fst) := by
  induction m with
  | nil => simp [Levels.remove]
  | cons l m ih =>
    obtain ⟨p1, q⟩ := l
    simp only [Levels.remove]
    split_ifs with h1
    · split
      · simp
      · simp
    · simp [ih]

theorem remove_orders_sublist (p : Int) (i : Nat) (m : Levels) :
    (Levels.remove p i m).orders.Sublist m.orders := by
  induction m with
  | nil => simp [Levels.remove]
  | cons l m ih =>
    obtain ⟨p1, q⟩ := l
    simp only [Levels.remove]
    split_ifs with h1
    · split
      · rw [orders_cons]; exact List.sublist_append_right _ _
      · rename_i y ys heq
        rw [orders_cons, orders_cons, ← heq]
        exact List.Sublist.append_right (List.eraseP_sublist q) _
    · rw [orders_cons, orders_cons]
      exact List.Sublist.append_left ih _

theorem remove_WF {before : Int → Int → Bool} {side : Side} {m : Levels} (p : Int) (i : Nat)
    (hw : Levels.WF before side m) : Levels.WF before side (Levels.remove p i m) := by
  refine ⟨?_, ?_, ?_⟩
  · have h1 : (m.map Prod.fst).Pairwise (fun a b => before a b = true) :=
      List.pairwise_map.2 hw.sorted
    exact List.pairwise_map.1 (h1.sublist (remove_keys_sublist p i m))
  · intro lvl h
    obtain ⟨l, hl, h2⟩ := remove_levels p i m lvl h
    rcases h2 with ⟨_, _, h2⟩ | h2
    · exact h2
    · exact hw.nonempty lvl h2
  · intro lvl h x hx
    obtain ⟨l, hl, h2⟩ := remove_levels p i m lvl h
    rcases h2 with ⟨h2, h3, _⟩ | h2
    · rw [← h2]; exact hw.located l hl x (h3.subset hx)
    · exact hw.located lvl h2 x hx

theorem remove_mem_of_ne (p : Int) (i : Nat) (m : Levels) (x : Order) (hx : x ∈ m.orders)
    (hne : x.orderId_ ≠ i) : x ∈ (Levels.remove p i m).orders := by
  induction m with
  | nil => simp [Levels.orders] at hx
  | cons l m ih =>
    obtain ⟨p1, q⟩ := l
    rw [orders_cons, List.mem_append] at hx
    simp only [Levels.remove]
    split_ifs with h1
    · split
      · rename_i heq
        rcases hx with hx | hx
        · have := eraseP_id_mem i q x hx hne
          rw [heq] at this; simp at this
        · exact hx
      · rename_i y ys heq
        rw [orders_cons, List.mem_append, ← heq]
        rcases hx with hx | hx
        · left; exact eraseP_id_mem i q x hx hne
        · right; exact hx
    · rw [orders_cons, List.mem_append]
      rcases hx with hx | hx
      · left; exact hx
      · right; exact ih hx

theorem remove_id_gone {before : Int → Int → Bool} (hb : IsBookOrder before) {side : Side}
    {m : Levels} (p : Int) (i : Nat) (hw : Levels.WF before side m) (hn : m.ids.Nodup)
    (hp : ∀ x ∈ m.orders, x.orderId_ = i → x.price_ = p) :
    ∀ x ∈ (Levels.remove p i m).orders, x.orderId_ ≠ i := by
  induction m with
  | nil => intro x h; simp [Levels.remove, Levels.orders] at h
  | cons l m ih =>
    obtain ⟨p1, q⟩ := l
    have hn1 : (q.map (fun o => o.orderId_)).Nodup := by
      simp only [Levels.ids, orders_cons, List.map_append] at hn
      exact (List.nodup_append.1 hn).1
    have hn2 : (Levels.ids m).Nodup := by
      simp only [Levels.ids, orders_cons, List.map_append] at hn
      exact (List.nodup_append.1 hn).2.1
    have hrest : p1 = p → ∀ x ∈ Levels.orders m, x.orderId_ ≠ i := by
      intro h1 x hx hxi
      obtain ⟨lvl, hl, hxl⟩ := mem_orders.1 hx
      have h2 := (hw.located lvl (by simp [hl]) x hxl).2
      have h3 := hp x (by rw [orders_cons]; simp [hx]) hxi
      have h4 := (List.pairwise_cons.1 hw.sorted).1 lvl hl
      simp only at h4
      rw [← h2, h3, h1, before_irrefl hb] at h4
      exact absurd h4 (by simp)
    intro x h
    simp only [Levels.remove] at h
    split_ifs at h with h1
    · split at h
      · exact hrest h1 x h
      · rename_i y ys heq
        rw [orders_cons, List.mem_append, ← heq] at h
        rcases h with h | h
        · exact eraseP_id_ne i q hn1 x h
        · exact hrest h1 x h
    · rw [orders_cons, List.mem_append] at h
      rcases h with h | h
      · intro hxi
        have h2 := (hw.located (p1, q) (by simp) x h).2
        have h3 := hp x (by rw [orders_cons]; simp [h]) hxi
        exact h1 (by rw [← h3, h2])
      · exact ih (WF_tail hw) hn2 (fun x hx => hp x (by rw [orders_cons]; simp [hx])) x h

theorem remove_push_back (before : Int → Int → Bool) (o : Order) (m : Levels)
    (hid : o.orderId_ ∉ m.ids) (hne : ∀ lvl ∈ m, lvl.2 ≠ []) :
    Levels.remove o.price_ o.orderId_ (Levels.push_back before o m) = m := by
  induction m with
  | nil => simp [Levels.push_back, Levels.remove]
  | cons l m ih =>
    obtain ⟨p1, q⟩ := l
    have hq : ∀ x ∈ q, (x.orderId_ == o.orderId_) = false := by
      intro x hx
      have : x.orderId_ ≠ o.orderId_ := by
        intro h
        apply hid
        simp only [Levels.ids, orders_cons, List.map_append, List.mem_append, List.mem_map]
        exact Or.inl ⟨x, hx, h⟩
      simpa using this
    have hm : o.orderId_ ∉ Levels.ids m := by
      intro h
      apply hid
      simp only [Levels.ids, orders_cons, List.map_append, List.mem_append]
      exact Or.inr h
    simp only [Levels.push_back]
    split_ifs with h1 h2
    · have he : (q ++ [o]).eraseP (fun x => x.orderId_ == o.orderId_) = q := by
        rw [List.eraseP_append_right _ (by simpa using hq)]
        simp
      simp only [Levels.remove, h1, if_true, he]
      cases hq2 : q with
      | nil => exact absurd hq2 (hne (p1, q) (by simp))
      | cons y ys => rfl
    · simp [Levels.remove]
    · have h3 : ¬ p1 = o.price_ := fun h => h1 h.symm
      simp only [Levels.remove, h3, if_false]
      rw [ih hm (fun lvl h => hne lvl (by simp [h]))]

/-! ### The side swept by an aggressor -/

theorem ids_cons (p : Int) (q : List Order) (m : Levels) :
    Levels.ids ((p, q) :: m) = q.map (fun o => o.orderId_) ++ Levels.ids m := by
  simp [Levels.ids, orders_cons]

theorem ids_nil : Levels.ids [] = [] := rfl

theorem goneQ_restQ (xs : List Order) : ∀ r : Nat,
    xs.map (fun o => o.orderId_) = goneQ r xs ++ (restQ r xs).map (fun o => o.orderId_) := by
  induction xs with
  | nil => intro r; rfl
  | cons x xs ih =>
    intro r
    simp only [goneQ, restQ]
    split_ifs with h1 h2
    · simp
    · simp
    · simp [← ih]

theorem goneL_restL (cr : Int → Bool) (A : Levels) : ∀ r : Nat,
    Levels.ids A = goneL cr r A ++ Levels.ids (restL cr r A) := by
  induction A with
  | nil => intro r; rfl
  | cons l A ih =>
    obtain ⟨p, xs⟩ := l
    intro r
    simp only [goneL, restL]
    split_ifs with h1
    · cases hl : leftQ r xs with
      | none =>
        simp only [List.append_nil]
        cases hr : restQ r xs with
        | nil =>
          have := goneQ_restQ xs r
          rw [hr] at this
          simp only [ids_cons, this, List.map_nil, List.append_nil]
        | cons y ys =>
          have := goneQ_restQ xs r
          rw [hr] at this
          simp only [ids_cons, this, List.append_assoc]
      | some r1 =>
        have := goneQ_restQ xs r
        rw [restQ_of_leftQ_some xs r r1 hl] at this
        simp only [ids_cons, this, List.map_nil, List.append_nil, List.append_assoc, ← ih r1]
    · simp

theorem restQ_mem (xs : List Order) : ∀ r : Nat, ∀ x ∈ restQ r xs,
    ∃ y ∈ xs, x = { y with remainingQuantity_ := x.remainingQuantity_ } := by
  induction xs with
  | nil => intro r x h; simp [restQ] at h
  | cons y ys ih =>
    intro r x h
    simp only [restQ] at h
    split_ifs at h with h1 h2
    · simp only [List.mem_cons] at h
      rcases h with h | h
      · exact ⟨y, by simp, by rw [h]⟩
      · exact ⟨x, by simp [h], rfl⟩
    · exact ⟨x, by simp [h], rfl⟩
    · obtain ⟨z, hz, hx⟩ := ih _ x h
      exact ⟨z, by simp [hz], hx⟩

theorem restL_levels (cr : Int → Bool) (A : Levels) : ∀ r : Nat, ∀ lvl ∈ restL cr r A,
    ∃ l ∈ A, l.1 = lvl.1 ∧ (l.2 ≠ [] → lvl.2 ≠ []) ∧
      ∀ x ∈ lvl.2, ∃ y ∈ l.2, x = { y with remainingQuantity_ := x.remainingQuantity_ } := by
  induction A with
  | nil => intro r lvl h; simp [restL] at h
  | cons l A ih =>
    obtain ⟨p, xs⟩ := l
    intro r lvl h
    have hself : ∀ l1 ∈ A, ∃ l ∈ (p, xs) :: A, l.1 = l1.1 ∧ (l.2 ≠ [] → l1.2 ≠ []) ∧
        ∀ x ∈ l1.2, ∃ y ∈ l.2, x = { y with remainingQuantity_ := x.remainingQuantity_ } :=
      fun l1 h1 => ⟨l1, by simp [h1], rfl, id, fun x hx => ⟨x, hx, rfl⟩⟩
    simp only [restL] at h
    split_ifs at h with h1
    · cases hl : leftQ r xs with
      | none =>
        rw [hl] at h
        simp only at h
        cases hr : restQ r xs with
        | nil => rw [hr] at h; exact hself lvl h
        | cons y ys =>
          rw [hr] at h
          simp only [List.mem_cons] at h
          rcases h with h | h
          · refine ⟨(p, xs), by simp, by rw [h], fun _ => by rw [h]; simp, ?_⟩
            rw [h, ← hr]
            exact restQ_mem xs r
          · exact hself lvl h
      | some r1 =>
        rw [hl] at h
        obtain ⟨l, hl1, h2⟩ := ih r1 lvl h
        exact ⟨l, by simp [hl1], h2⟩
    · simp only [List.mem_cons] at h
      rcases h with h | h
      · exact ⟨(p, xs), by simp, by rw [h], by rw [h]; exact id, by rw [h]; exact fun x hx => ⟨x, hx, rfl⟩⟩
      · exact hself lvl h

theorem restL_keys_sublist (cr : Int → Bool) (A : Levels) : ∀ r : Nat,
    ((restL cr r A).map Prod.fst).Sublist (A.map Prod.fst) := by
  induction A with
  | nil => intro r; simp [restL]
  | cons l A ih =>
    obtain ⟨p, xs⟩ := l
    intro r
    simp only [restL]
    split_ifs with h1
    · cases hl : leftQ r xs with
      | none =>
        cases hr : restQ r xs with
        | nil => simp
        | cons y ys => simp
      | some r1 => exact (ih r1).trans (by simp)
    · simp

theorem restL_WF {before : Int → Int → Bool} {side : Side} {A : Levels} (cr : Int → Bool) (r : Nat)
    (hw : Levels.WF before side A) : Levels.WF before side (restL cr r A) := by
  refine ⟨?_, ?_, ?_⟩
  · have h1 : (A.map Prod.fst).Pairwise (fun a b => before a b = true) :=
      List.pairwise_map.2 hw.sorted
    exact List.pairwise_map.1 (h1.sublist (restL_keys_sublist cr A r))
  · intro lvl h
    obtain ⟨l, hl, _, h2, _⟩ := restL_levels cr A r lvl h
    exact h2 (hw.nonempty l hl)
  · intro lvl h x hx
    obtain ⟨l, hl, h1, _, h2⟩ := restL_levels cr A r lvl h
    obtain ⟨y, hy, hxy⟩ := h2 x hx
    have := hw.located l hl y hy
    rw [hxy, ← h1]
    exact this

theorem restL_orders (cr : Int → Bool) (A : Levels) (r : Nat) : ∀ x ∈ (restL cr r A).orders,
    ∃ y ∈ A.orders, x = { y with remainingQuantity_ := x.remainingQuantity_ } := by
  intro x hx
  obtain ⟨lvl, hl, hxl⟩ := mem_orders.1 hx
  obtain ⟨l, hl1, _, _, h2⟩ := restL_levels cr A r lvl hl
  obtain ⟨y, hy, hxy⟩ := h2 x hxl
  exact ⟨y, mem_orders.2 ⟨l, hl1, hy⟩, hxy⟩

theorem restL_not_cross {before : Int → Int → Bool} (cr : Int → Bool)
    (hmono : ∀ a b, before a b = true → cr b = true → cr a = true) (A : Levels) :
    ∀ (r r1 : Nat), A.Pairwise (fun a b => before a.1 b.1 = true) → leftL cr r A = some r1 →
      ∀ lvl ∈ restL cr r A, cr lvl.1 = false := by
  induction A with
  | nil => intro r r1 _ _ lvl h; simp [restL] at h
  | cons l A ih =>
    obtain ⟨p, xs⟩ := l
    intro r r1 hs hl lvl h
    simp only [leftL] at hl
    simp only [restL] at h
    split_ifs at hl h with h1
    · cases hq : leftQ r xs with
      | none => rw [hq] at hl; exact absurd hl (by simp)
      | some r2 =>
        rw [hq] at hl h
        exact ih r2 r1 (List.pairwise_cons.1 hs).2 hl lvl h
    · simp only [List.mem_cons] at h
      rcases h with h | h
      · rw [h]; simpa using h1
      · have h2 := (List.pairwise_cons.1 hs).1 lvl h
        cases hc : cr lvl.1 with
        | false => rfl
        | true => exact absurd (hmono _ _ h2 hc) h1

/-! ### The book invariant under insertion, removal and sweep -/

theorem eraseAll_nil (l : List Nat) : eraseAll l [] = l := rfl

theorem eraseAll_cons (l : List Nat) (a : Nat) (ids : List Nat) :
    eraseAll l (a :: ids) = eraseAll (l.erase a) ids := rfl

theorem eraseAll_sublist (ids : List Nat) : ∀ l : List Nat, (eraseAll l ids).Sublist l := by
  induction ids with
  | nil => intro l; exact List.Sublist.refl l
  | cons a ids ih =>
    intro l
    rw [eraseAll_cons]
    exact (ih _).trans (List.erase_sublist a l)

theorem mem_eraseAll (ids : List Nat) : ∀ (l : List Nat), l.Nodup → ∀ i,
    (i ∈ eraseAll l ids ↔ i ∈ l ∧ i ∉ ids) := by
  induction ids with
  | nil => intro l _ i; simp [eraseAll_nil]
  | cons a ids ih =>
    intro l hn i
    rw [eraseAll_cons, ih _ (hn.erase a), hn.mem_erase_iff]
    simp only [List.mem_cons, not_or]
    tauto

theorem eraseAll_cons_of_not_mem (ids : List Nat) : ∀ (l : List Nat) (a : Nat), a ∉ ids →
    eraseAll (a :: l) ids = a :: eraseAll l ids := by
  induction ids with
  | nil => intro l a _; rfl
  | cons b ids ih =>
    intro l a h
    simp only [List.mem_cons, not_or] at h
    rw [eraseAll_cons, eraseAll_cons, List.erase_cons_tail (by simpa using h.1)]
    exact ih _ _ h.2

theorem eraseAll_cons_erase (ids : List Nat) (l : List Nat) (a : Nat) :
    (eraseAll (a :: l) ids).erase a = eraseAll l ids := by
  rw [eraseAll_erase, List.erase_cons_head]

theorem mem_ids {m : Levels} {i : Nat} : i ∈ m.ids ↔ ∃ o ∈ m.orders, o.orderId_ = i := by
  simp [Levels.ids]

theorem ids_push_back_perm (before : Int → Int → Bool) (o : Order) (m : Levels) :
    (Levels.push_back before o m).ids.Perm (o.orderId_ :: m.ids) := by
  have := (push_back_perm before o m).map (fun o => o.orderId_)
  simpa [Levels.ids] using this

theorem BookInv_push_bid {bids asks : Levels} {orders : List Nat} (h : BookInv bids asks orders)
    (o : Order) (hid : o.orderId_ ∉ orders) (hs : o.side_ = Side.Buy)
    (hp : ∀ a ∈ asks, o.price_ < a.1) :
    BookInv (Levels.push_back bidBefore o bids) asks (o.orderId_ :: orders) := by
  have hperm := ids_push_back_perm bidBefore o bids
  have hid2 : o.orderId_ ∉ bids.ids ++ asks.ids := fun hc => hid ((h.indexIff _).2 hc)
  refine ⟨push_back_WF (Or.inl rfl) o h.bidsWF hs, h.asksWF, ?_, ?_, ?_, ?_⟩
  · have : ((Levels.push_back bidBefore o bids).ids ++ asks.ids).Perm
        (o.orderId_ :: (bids.ids ++ asks.ids)) := by
      simpa using hperm.append_right asks.ids
    exact (this.nodup_iff).2 (List.nodup_cons.2 ⟨hid2, h.idsNodup⟩)
  · exact List.nodup_cons.2 ⟨hid, h.indexNodup⟩
  · intro i
    simp only [List.mem_cons, List.mem_append, hperm.mem_iff, h.indexIff i]
    tauto
  · intro b hb a ha
    rcases push_back_keys bidBefore o bids b hb with h1 | ⟨l, hl, h1⟩
    · rw [h1]; exact hp a ha
    · rw [← h1]; exact h.noCross l hl a ha


theorem BookInv_push_ask {bids asks : Levels} {orders : List Nat} (h : BookInv bids asks orders)
    (o : Order) (hid : o.orderId_ ∉ orders) (hs : o.side_ = Side.Sell)
    (hp : ∀ b ∈ bids, b.1 < o.price_) :
    BookInv bids (Levels.push_back askBefore o asks) (o.orderId_ :: orders) := by
  have hperm := ids_push_back_perm askBefore o asks
  have hid2 : o.orderId_ ∉ bids.ids ++ asks.ids := fun hc => hid ((h.indexIff _).2 hc)
  refine ⟨h.bidsWF, push_back_WF (Or.inr rfl) o h.asksWF hs, ?_, ?_, ?_, ?_⟩
  · have : (bids.ids ++ (Levels.push_back askBefore o asks).ids).Perm
        (o.orderId_ :: (bids.ids ++ asks.ids)) :=
      (hperm.append_left bids.ids).trans List.perm_middle
    exact (this.nodup_iff).2 (List.nodup_cons.2 ⟨hid2, h.idsNodup⟩)
  · exact List.nodup_cons.2 ⟨hid, h.indexNodup⟩
  · intro i
    simp only [List.mem_cons, List.mem_append, hperm.mem_iff, h.indexIff i]
    tauto
  · intro b hb a ha
    rcases push_back_keys askBefore o asks a ha with h1 | ⟨l, hl, h1⟩
    · rw [h1]; exact hp b hb
    · rw [← h1]; exact h.noCross b hb l hl


theorem ids_inj {l : List Order} (hn : (l.map (fun o => o.orderId_)).Nodup) {x y : Order}
    (hx : x ∈ l) (hy : y ∈ l) (h : x.orderId_ = y.orderId_) : x = y :=
  List.inj_on_of_nodup_map hn hx hy h

theorem BookInv_resting_nodup {bids asks : Levels} {orders : List Nat}
    (h : BookInv bids asks orders) :
    ((bids.orders ++ asks.orders).map (fun o => o.orderId_)).Nodup := by
  have := h.idsNodup
  simpa [Levels.ids] using this

theorem BookInv_remove_bid {bids asks : Levels} {orders : List Nat} (h : BookInv bids asks orders)
    (o : Order) (ho : o ∈ bids.orders) :
    BookInv (Levels.remove o.price_ o.orderId_ bids) asks (orders.erase o.orderId_) := by
  have hsub := remove_orders_sublist o.price_ o.orderId_ bids
  have hsub2 : (Levels.remove o.price_ o.orderId_ bids).ids.Sublist bids.ids := hsub.map _
  have hrn := BookInv_resting_nodup h
  have hnb : bids.ids.Nodup := (List.nodup_append.1 h.idsNodup).1
  have hgone := remove_id_gone (Or.inl rfl) o.price_ o.orderId_ h.bidsWF hnb
    (fun x hx hxi => by rw [ids_inj hrn (List.mem_append_left _ hx) (List.mem_append_left _ ho) hxi])
  refine ⟨remove_WF _ _ h.bidsWF, h.asksWF, ?_, h.indexNodup.erase _, ?_, ?_⟩
  · exact h.idsNodup.sublist (List.Sublist.append_right hsub2 _)
  · intro i
    rw [h.indexNodup.mem_erase_iff, h.indexIff i]
    simp only [List.mem_append, mem_ids]
    constructor
    · rintro ⟨hne, ⟨x, hx, hxi⟩ | ⟨x, hx, hxi⟩⟩
      · exact Or.inl ⟨x, remove_mem_of_ne _ _ _ x hx (by rw [hxi]; exact hne), hxi⟩
      · exact Or.inr ⟨x, hx, hxi⟩
    · rintro (⟨x, hx, hxi⟩ | ⟨x, hx, hxi⟩)
      · exact ⟨by rw [← hxi]; exact hgone x hx, Or.inl ⟨x, hsub.subset hx, hxi⟩⟩
      · refine ⟨?_, Or.inr ⟨x, hx, hxi⟩⟩
        intro hc
        have := ids_inj hrn (List.mem_append_right _ hx) (List.mem_append_left _ ho)
          (by rw [hxi, hc])
        have h1 := (h.bidsWF.located _ (mem_orders.1 ho).choose_spec.1 o
          (mem_orders.1 ho).choose_spec.2).1
        obtain ⟨lvl, hl, hxl⟩ := mem_orders.1 hx
        have h2 := (h.asksWF.located lvl hl x hxl).1
        rw [this, h1] at h2
        exact absurd h2 (by decide)
  · intro b hb a ha
    obtain ⟨l, hl, h2⟩ := remove_levels o.price_ o.orderId_ bids b hb
    rcases h2 with ⟨h2, _, _⟩ | h2
    · rw [← h2]; exact h.noCross l hl a ha
    · exact h.noCross b h2 a ha


theorem BookInv_remove_ask {bids asks : Levels} {orders : List Nat} (h : BookInv bids asks orders)
    (o : Order) (ho : o ∈ asks.orders) :
    BookInv bids (Levels.remove o.price_ o.orderId_ asks) (orders.erase o.orderId_) := by
  have hsub := remove_orders_sublist o.price_ o.orderId_ asks
  have hsub2 : (Levels.remove o.price_ o.orderId_ asks).ids.Sublist asks.ids := hsub.map _
  have hrn := BookInv_resting_nodup h
  have hnb : asks.ids.Nodup := (List.nodup_append.1 h.idsNodup).2.1
  have hgone := remove_id_gone (Or.inr rfl) o.price_ o.orderId_ h.asksWF hnb
    (fun x hx hxi => by
      rw [ids_inj hrn (List.mem_append_right _ hx) (List.mem_append_right _ ho) hxi])
  refine ⟨h.bidsWF, remove_WF _ _ h.asksWF, ?_, h.indexNodup.erase _, ?_, ?_⟩
  · exact h.idsNodup.sublist (List.Sublist.append_left hsub2 _)
  · intro i
    rw [h.indexNodup.mem_erase_iff, h.indexIff i]
    simp only [List.mem_append, mem_ids]
    constructor
    · rintro ⟨hne, ⟨x, hx, hxi⟩ | ⟨x, hx, hxi⟩⟩
      · exact Or.inl ⟨x, hx, hxi⟩
      · exact Or.inr ⟨x, remove_mem_of_ne _ _ _ x hx (by rw [hxi]; exact hne), hxi⟩
    · rintro (⟨x, hx, hxi⟩ | ⟨x, hx, hxi⟩)
      · refine ⟨?_, Or.inl ⟨x, hx, hxi⟩⟩
        intro hc
        have := ids_inj hrn (List.mem_append_left _ hx) (List.mem_append_right _ ho)
          (by rw [hxi, hc])
        have h1 := (h.asksWF.located _ (mem_orders.1 ho).choose_spec.1 o
          (mem_orders.1 ho).choose_spec.2).1
        obtain ⟨lvl, hl, hxl⟩ := mem_orders.1 hx
        have h2 := (h.bidsWF.located lvl hl x hxl).1
        rw [this, h1] at h2
        exact absurd h2 (by decide)
      · exact ⟨by rw [← hxi]; exact hgone x hx, Or.inr ⟨x, hsub.subset hx, hxi⟩⟩
  · intro b hb a ha
    obtain ⟨l, hl, h2⟩ := remove_levels o.price_ o.orderId_ asks a ha
    rcases h2 with ⟨h2, _, _⟩ | h2
    · rw [← h2]; exact h.noCross b hb l hl
    · exact h.noCross b hb a h2

theorem BookInv_sweep_asks {bids asks : Levels} {orders : List Nat} (h : BookInv bids asks orders)
    (cr : Int → Bool) (r : Nat) :
    BookInv bids (restL cr r asks) (eraseAll orders (goneL cr r asks)) := by
  have hsplit := goneL_restL cr asks r
  have hn := h.idsNodup
  rw [hsplit] at hn
  have hsub : (restL cr r asks).ids.Sublist asks.ids := by
    rw [hsplit]; exact List.sublist_append_right _ _
  refine ⟨h.bidsWF, restL_WF cr r h.asksWF, ?_, ?_, ?_, ?_⟩
  · exact h.idsNodup.sublist (List.Sublist.append_left hsub _)
  · exact h.indexNodup.sublist (eraseAll_sublist _ _)
  · intro i
    rw [mem_eraseAll _ _ h.indexNodup, h.indexIff i, hsplit]
    have hd1 := (List.nodup_append.1 hn).2.2
    have hd2 := (List.nodup_append.1 (List.nodup_append.1 hn).2.1).2.2
    simp only [List.mem_append]
    constructor
    · rintro ⟨h1 | h1 | h1, h2⟩
      · exact Or.inl h1
      · exact absurd h1 h2
      · exact Or.inr h1
    · rintro (h1 | h1)
      · exact ⟨Or.inl h1, fun hc => hd1 h1 (List.mem_append_left _ hc)⟩
      · exact ⟨Or.inr (Or.inr h1), fun hc => hd2 hc h1⟩
  · intro b hb a ha
    obtain ⟨l, hl, h1, _⟩ := restL_levels cr asks r a ha
    rw [← h1]; exact h.noCross b hb l hl


theorem BookInv_sweep_bids {bids asks : Levels} {orders : List Nat} (h : BookInv bids asks orders)
    (cr : Int → Bool) (r : Nat) :
    BookInv (restL cr r bids) asks (eraseAll orders (goneL cr r bids)) := by
  have hsplit := goneL_restL cr bids r
  have hn := h.idsNodup
  rw [hsplit] at hn
  have hsub : (restL cr r bids).ids.Sublist bids.ids := by
    rw [hsplit]; exact List.sublist_append_right _ _
  refine ⟨restL_WF cr r h.bidsWF, h.asksWF, ?_, ?_, ?_, ?_⟩
  · exact h.idsNodup.sublist (List.Sublist.append_right hsub _)
  · exact h.indexNodup.sublist (eraseAll_sublist _ _)
  · intro i
    rw [mem_eraseAll _ _ h.indexNodup, h.indexIff i, hsplit]
    have hd1 := (List.nodup_append.1 hn).2.2
    have hd2 := (List.nodup_append.1 (List.nodup_append.1 hn).1).2.2
    simp only [List.mem_append]
    constructor
    · rintro ⟨(h1 | h1) | h1, h2⟩
      · exact absurd h1 h2
      · exact Or.inl h1
      · exact Or.inr h1
    · rintro (h1 | h1)
      · exact ⟨Or.inl (Or.inr h1), fun hc => hd2 hc h1⟩
      · exact ⟨Or.inr h1, fun hc => hd1 (List.mem_append_left _ hc) h1⟩
  · intro b hb a ha
    obtain ⟨l, hl, h1, _⟩ := restL_levels cr bids r b hb
    rw [← h1]; exact h.noCross l hl a ha

/-! ### `CancelOrder` and `MatchOrders` on a state that satisfies the invariant -/

theorem Order.eta_rem (o : Order) : { o with remainingQuantity_ := o.remainingQuantity_ } = o := by
  cases o; rfl

@[simp]
theorem emit_matchedOrders (s : Orderbook) (e : Event) :
    (s.emit e).matchedOrders_ = s.matchedOrders_ := by
  simp only [Orderbook.emit, Orderbook.EmitEvent]; split <;> [split; skip] <;> rfl
@[simp]
theorem emit_bestBid (s : Orderbook) (e : Event) : (s.emit e).bestBid_ = s.bestBid_ := by
  simp only [Orderbook.emit, Orderbook.EmitEvent]; split <;> [split; skip] <;> rfl
@[simp]
theorem emit_bestAsk (s : Orderbook) (e : Event) : (s.emit e).bestAsk_ = s.bestAsk_ := by
  simp only [Orderbook.emit, Orderbook.EmitEvent]; split <;> [split; skip] <;> rfl
@[simp]
theorem UpdateBestPrices_bids (s : Orderbook) : s.UpdateBestPrices.bids_ = s.bids_ := rfl
@[simp]
theorem UpdateBestPrices_asks (s : Orderbook) : s.UpdateBestPrices.asks_ = s.asks_ := rfl
@[simp]
theorem UpdateBestPrices_orders (s : Orderbook) :
    s.UpdateBestPrices.orders_ = s.orders_ := rfl
@[simp]
theorem UpdateBestPrices_matchedOrders (s : Orderbook) :
    s.UpdateBestPrices.matchedOrders_ = s.matchedOrders_ := rfl

theorem UpdateBestPrices_Inv (s : Orderbook) (hB : BookInv s.bids_ s.asks_ s.orders_)
    (hg : ∀ o ∈ s.resting, o.orderType_ = OrderType.GoodTillCancel) : s.UpdateBestPrices.Inv :=
  ⟨hB, hg, rfl, rfl⟩

theorem UpdateBestPrices_of_Inv (s : Orderbook) (hI : s.Inv) : s.UpdateBestPrices = s := by
  have h1 := hI.bestBid
  have h2 := hI.bestAsk
  cases s
  simp only [Orderbook.UpdateBestPrices] at *
  simp [← h1, ← h2]

theorem entry_of_mem (s : Orderbook) (hn : (s.resting.map (fun o => o.orderId_)).Nodup) (o : Order)
    (ho : o ∈ s.resting) : s.entry o.orderId_ = some o := by
  unfold Orderbook.entry
  change List.find? (fun x => x.orderId_ == o.orderId_) s.resting = some o
  cases h : List.find? (fun x => x.orderId_ == o.orderId_) s.resting with
  | none =>
    have := List.find?_eq_none.1 h o ho
    simp at this
  | some x =>
    have h1 := List.mem_of_find?_eq_some h
    have h2 := List.find?_some h
    simp only [beq_iff_eq] at h2
    rw [ids_inj hn h1 ho h2]

theorem resting_nodup_of_BookInv (s : Orderbook) (hB : BookInv s.bids_ s.asks_ s.orders_) :
    (s.resting.map (fun o => o.orderId_)).Nodup :=
  BookInv_resting_nodup hB

theorem CancelOrder_of_not_mem (s : Orderbook) (i : Nat) (h : i ∉ s.orders_) :
    s.CancelOrder i = s := by
  simp [Orderbook.CancelOrder, h]

theorem mem_index_of_resting (s : Orderbook) (hB : BookInv s.bids_ s.asks_ s.orders_) (o : Order)
    (ho : o ∈ s.resting) : o.orderId_ ∈ s.orders_ := by
  rw [hB.indexIff]
  simp only [Orderbook.resting, List.mem_append] at ho
  simp only [List.mem_append, mem_ids]
  rcases ho with ho | ho
  · exact Or.inl ⟨o, ho, rfl⟩
  · exact Or.inr ⟨o, ho, rfl⟩

theorem side_of_mem_bids {bids : Levels} (hw : Levels.WF bidBefore Side.Buy bids) {o : Order}
    (ho : o ∈ bids.orders) : o.side_ = Side.Buy := by
  obtain ⟨lvl, hl, hx⟩ := mem_orders.1 ho
  exact (hw.located lvl hl o hx).1

theorem side_of_mem_asks {asks : Levels} (hw : Levels.WF askBefore Side.Sell asks) {o : Order}
    (ho : o ∈ asks.orders) : o.side_ = Side.Sell := by
  obtain ⟨lvl, hl, hx⟩ := mem_orders.1 ho
  exact (hw.located lvl hl o hx).1

theorem CancelOrder_bid (s : Orderbook) (hB : BookInv s.bids_ s.asks_ s.orders_) (o : Order)
    (ho : o ∈ s.bids_.orders) :
    s.CancelOrder o.orderId_ = Orderbook.UpdateBestPrices
      (Orderbook.emit { s with orders_ := s.orders_.erase o.orderId_,
                               bids_ := Levels.remove o.price_ o.orderId_ s.bids_ }
        (cancelEvent o o.orderId_)) := by
  have hr : o ∈ s.resting := List.mem_append_left _ ho
  have h1 := mem_index_of_resting s hB o hr
  have h2 := entry_of_mem s (resting_nodup_of_BookInv s hB) o hr
  have h3 := side_of_mem_bids hB.bidsWF ho
  simp [Orderbook.CancelOrder, h1, h2, h3]

theorem CancelOrder_ask (s : Orderbook) (hB : BookInv s.bids_ s.asks_ s.orders_) (o : Order)
    (ho : o ∈ s.asks_.orders) :
    s.CancelOrder o.orderId_ = Orderbook.UpdateBestPrices
      (Orderbook.emit { s with orders_ := s.orders_.erase o.orderId_,
                               asks_ := Levels.remove o.price_ o.orderId_ s.asks_ }
        (cancelEvent o o.orderId_)) := by
  have hr : o ∈ s.resting := List.mem_append_right _ ho
  have h1 := mem_index_of_resting s hB o hr
  have h2 := entry_of_mem s (resting_nodup_of_BookInv s hB) o hr
  have h3 := side_of_mem_asks hB.asksWF ho
  simp [Orderbook.CancelOrder, h1, h2, h3]

theorem CancelOrder_Inv (s : Orderbook) (hI : s.Inv) (i : Nat) : (s.CancelOrder i).Inv := by
  by_cases hi : i ∈ s.orders_
  · have hi2 := (hI.book.indexIff i).1 hi
    simp only [List.mem_append, mem_ids] at hi2
    rcases hi2 with ⟨o, ho, rfl⟩ | ⟨o, ho, rfl⟩
    · rw [CancelOrder_bid s hI.book o ho]
      refine UpdateBestPrices_Inv _ (by simpa using BookInv_remove_bid hI.book o ho) ?_
      intro x hx
      simp only [Orderbook.resting, emit_bids, emit_asks, List.mem_append] at hx
      rcases hx with hx | hx
      · exact hI.gtc x (List.mem_append_left _ ((remove_orders_sublist _ _ _).subset hx))
      · exact hI.gtc x (List.mem_append_right _ hx)
    · rw [CancelOrder_ask s hI.book o ho]
      refine UpdateBestPrices_Inv _ (by simpa using BookInv_remove_ask hI.book o ho) ?_
      intro x hx
      simp only [Orderbook.resting, emit_bids, emit_asks, List.mem_append] at hx
      rcases hx with hx | hx
      · exact hI.gtc x (List.mem_append_left _ hx)
      · exact hI.gtc x (List.mem_append_right _ ((remove_orders_sublist _ _ _).subset hx))
  · rw [CancelOrder_of_not_mem s i hi]; exact hI

theorem to_cancel_nil (m : Levels)
    (h : ∀ o ∈ m.orders, o.orderType_ = OrderType.GoodTillCancel) : to_cancel m = [] := by
  simp only [to_cancel, List.map_eq_nil_iff, List.filter_eq_nil_iff]
  intro o ho
  simp [h o ho]

theorem MatchOrders_of_Inv (s : Orderbook) (hI : s.Inv) : s.MatchOrders = (s, some []) := by
  have h1 := matchLoop_stop (s.bids_.length + s.asks_.length + 1) s [] hI.book.noCross
  have h2 := to_cancel_nil s.bids_ (fun o ho => hI.gtc o (List.mem_append_left _ ho))
  have h3 := to_cancel_nil s.asks_ (fun o ho => hI.gtc o (List.mem_append_right _ ho))
  simp [Orderbook.MatchOrders, h1, Orderbook.cleanup_side, h2, h3, UpdateBestPrices_of_Inv s hI]

/-! ### `MatchOrders` after an insertion -/

theorem aggressorLevel_eq (o : Order) (B : Levels) (left : Option Nat)
    (h : ∀ lvl ∈ B, bidBefore o.price_ lvl.1 = true) :
    aggressorLevel o.price_ o B left = ownAfterLoop bidBefore o B left := by
  cases left with
  | none => rfl
  | some r =>
    simp only [aggressorLevel, ownAfterLoop]
    exact (push_back_head bidBefore { o with remainingQuantity_ := r } B h (Or.inl rfl)).symm

theorem aggressorLevel_eq_ask (o : Order) (B : Levels) (left : Option Nat)
    (h : ∀ lvl ∈ B, askBefore o.price_ lvl.1 = true) :
    aggressorLevel o.price_ o B left = ownAfterLoop askBefore o B left := by
  cases left with
  | none => rfl
  | some r =>
    simp only [aggressorLevel, ownAfterLoop]
    exact (push_back_head askBefore { o with remainingQuantity_ := r } B h (Or.inr rfl)).symm

theorem matchLoop_insert_buy (s : Orderbook) (bids asks : Levels) (o : Order) (fuel : Nat)
    (hwa : Levels.WF askBefore Side.Sell asks) (hnc : ∀ b ∈ bids, ∀ a ∈ asks, b.1 < a.1)
    (hb : s.bids_ = Levels.push_back bidBefore o bids) (ha : s.asks_ = asks)
    (hf : asks.length ≤ fuel) :
    (s.matchLoop fuel []).2 = some
      ((fillsL (crossBuy o.price_) o.remainingQuantity_ asks).map (fun f => mkTrade o f.1 f.2)) ∧
    (s.matchLoop fuel []).1.bids_ =
      ownAfterLoop bidBefore o bids (leftL (crossBuy o.price_) o.remainingQuantity_ asks) ∧
    (s.matchLoop fuel []).1.asks_ = restL (crossBuy o.price_) o.remainingQuantity_ asks ∧
    (s.matchLoop fuel []).1.orders_ = eraseAll s.orders_
      (goneL (crossBuy o.price_) o.remainingQuantity_ asks ++
        aggressorGone o (leftL (crossBuy o.price_) o.remainingQuantity_ asks)) := by
  have hstop : (∀ a ∈ asks, o.price_ < a.1) →
      s.matchLoop fuel [] = (s, some []) := by
    intro h
    apply matchLoop_stop
    intro b hb1 a ha1
    rw [hb] at hb1
    rw [ha] at ha1
    rcases push_back_keys bidBefore o bids b hb1 with h1 | ⟨l, hl, h1⟩
    · rw [h1]; exact h a ha1
    · rw [← h1]; exact hnc l hl a ha1
  cases asks with
  | nil =>
    rw [hstop (by simp)]
    simp [fillsL, leftL, restL, goneL, ownAfterLoop, aggressorGone, eraseAll, hb, ha,
      Order.eta_rem]
  | cons lvl A =>
    obtain ⟨ap, xs⟩ := lvl
    by_cases hc : ap ≤ o.price_
    · have hhead : ∀ lvl ∈ bids, bidBefore o.price_ lvl.1 = true := by
        intro lvl hl
        have := hnc lvl hl (ap, xs) (by simp)
        simp only [bidBefore, decide_eq_true_eq]
        simp only at this
        omega
      rw [push_back_head bidBefore o bids hhead (Or.inl rfl)] at hb
      have := matchLoop_buy ((ap, xs) :: A) fuel s [] o o.price_ bids hb ha hf hwa.nonempty hnc
      rw [aggressorLevel_eq o bids _ hhead] at this
      simpa using this
    · have hlt : ∀ a ∈ (ap, xs) :: A, o.price_ < a.1 := by
        intro a ha1
        simp only [List.mem_cons] at ha1
        rcases ha1 with h | h
        · rw [h]; simp only; omega
        · have := (List.pairwise_cons.1 hwa.sorted).1 a h
          simp only [askBefore, decide_eq_true_eq] at this
          omega
      rw [hstop hlt]
      simp [fillsL, leftL, restL, goneL, ownAfterLoop, aggressorGone, eraseAll, hb, ha, hc,
        Order.eta_rem]

theorem matchLoop_insert_sell (s : Orderbook) (bids asks : Levels) (o : Order) (fuel : Nat)
    (hwb : Levels.WF bidBefore Side.Buy bids) (hnc : ∀ b ∈ bids, ∀ a ∈ asks, b.1 < a.1)
    (hb : s.bids_ = bids) (ha : s.asks_ = Levels.push_back askBefore o asks)
    (hf : bids.length ≤ fuel) :
    (s.matchLoop fuel []).2 = some
      ((fillsL (crossSell o.price_) o.remainingQuantity_ bids).map (fun f => mkTrade f.1 o f.2)) ∧
    (s.matchLoop fuel []).1.asks_ =
      ownAfterLoop askBefore o asks (leftL (crossSell o.price_) o.remainingQuantity_ bids) ∧
    (s.matchLoop fuel []).1.bids_ = restL (crossSell o.price_) o.remainingQuantity_ bids ∧
    (s.matchLoop fuel []).1.orders_ = eraseAll s.orders_
      (goneL (crossSell o.price_) o.remainingQuantity_ bids ++
        aggressorGone o (leftL (crossSell o.price_) o.remainingQuantity_ bids)) := by
  have hstop : (∀ b ∈ bids, b.1 < o.price_) →
      s.matchLoop fuel [] = (s, some []) := by
    intro h
    apply matchLoop_stop
    intro b hb1 a ha1
    rw [hb] at hb1
    rw [ha] at ha1
    rcases push_back_keys askBefore o asks a ha1 with h1 | ⟨l, hl, h1⟩
    · rw [h1]; exact h b hb1
    · rw [← h1]; exact hnc b hb1 l hl
  cases bids with
  | nil =>
    rw [hstop (by simp)]
    simp [fillsL, leftL, restL, goneL, ownAfterLoop, aggressorGone, eraseAll, hb, ha,
      Order.eta_rem]
  | cons lvl B =>
    obtain ⟨bp, xs⟩ := lvl
    by_cases hc : o.price_ ≤ bp
    · have hhead : ∀ lvl ∈ asks, askBefore o.price_ lvl.1 = true := by
        intro lvl hl
        have := hnc (bp, xs) (by simp) lvl hl
        simp only [askBefore, decide_eq_true_eq]
        simp only at this
        omega
      rw [push_back_head askBefore o asks hhead (Or.inr rfl)] at ha
      have := matchLoop_sell ((bp, xs) :: B) fuel s [] o o.price_ asks ha hb hf hwb.nonempty
        (fun b hb1 a ha1 => hnc a ha1 b hb1)
      rw [aggressorLevel_eq_ask o asks _ hhead] at this
      simpa using this
    · have hlt : ∀ b ∈ (bp, xs) :: B, b.1 < o.price_ := by
        intro b hb1
        simp only [List.mem_cons] at hb1
        rcases hb1 with h | h
        · rw [h]; simp only; omega
        · have := (List.pairwise_cons.1 hwb.sorted).1 b h
          simp only [bidBefore, decide_eq_true_eq] at this
          omega
      rw [hstop hlt]
      simp [fillsL, leftL, restL, goneL, ownAfterLoop, aggressorGone, eraseAll, hb, ha, hc,
        Order.eta_rem]

theorem to_cancel_push_back (before : Int → Int → Bool) (o : Order) (m : Levels)
    (h : ∀ x ∈ m.orders, x.orderType_ = OrderType.GoodTillCancel) :
    to_cancel (Levels.push_back before o m) =
      if o.orderType_ = OrderType.GoodTillCancel then [] else [o.orderId_] := by
  have hperm := (push_back_perm before o m).filter
    (fun order => decide (order.orderType_ ≠ OrderType.GoodTillCancel))
  have hnil : m.orders.filter
      (fun order => decide (order.orderType_ ≠ OrderType.GoodTillCancel)) = [] := by
    rw [List.filter_eq_nil_iff]
    intro x hx
    simp [h x hx]
  simp only [to_cancel]
  by_cases ht : o.orderType_ = OrderType.GoodTillCancel
  · rw [List.filter_cons_of_neg (by simp [ht]), hnil] at hperm
    rw [List.perm_nil.1 hperm]
    simp [ht]
  · rw [List.filter_cons_of_pos (by simp [ht]), hnil] at hperm
    rw [List.perm_singleton.1 hperm]
    simp [ht]

theorem cleanup_side_nil (s : Orderbook) (book : Levels) (h : to_cancel book = []) :
    s.cleanup_side book = s := by
  simp [Orderbook.cleanup_side, h]

theorem cleanup_side_single (s : Orderbook) (book : Levels) (i : Nat) (h : to_cancel book = [i]) :
    s.cleanup_side book = s.CancelOrder i := by
  simp [Orderbook.cleanup_side, h]

theorem goneL_subset (cr : Int → Bool) (A : Levels) (r : Nat) : ∀ i ∈ goneL cr r A, i ∈ A.ids := by
  intro i hi
  rw [goneL_restL cr A r]
  exact List.mem_append_left _ hi

theorem restL_gtc (cr : Int → Bool) (A : Levels) (r : Nat)
    (h : ∀ x ∈ A.orders, x.orderType_ = OrderType.GoodTillCancel) :
    ∀ x ∈ (restL cr r A).orders, x.orderType_ = OrderType.GoodTillCancel := by
  intro x hx
  obtain ⟨y, hy, hxy⟩ := restL_orders cr A r x hx
  rw [hxy]; exact h y hy

theorem cleanup_buy (s1 : Orderbook) (bids asks : Levels) (orders : List Nat) (o : Order)
    (cr : Int → Bool) (r : Nat) (left : Option Nat)
    (hB : BookInv bids asks orders)
    (hg : ∀ x ∈ bids.orders ++ asks.orders, x.orderType_ = OrderType.GoodTillCancel)
    (hid : o.orderId_ ∉ orders) (hs : o.side_ = Side.Buy)
    (hp : ∀ r1, left = some r1 → ∀ a ∈ restL cr r asks, o.price_ < a.1)
    (h1 : s1.bids_ = ownAfterLoop bidBefore o bids left) (h2 : s1.asks_ = restL cr r asks)
    (h3 : s1.orders_ = eraseAll (o.orderId_ :: orders) (goneL cr r asks ++ aggressorGone o left)) :
    ((s1.cleanup_side s1.bids_).cleanup_side (s1.cleanup_side s1.bids_).asks_).bids_ =
      ownAfter bidBefore bids (restsAs o left) ∧
    ((s1.cleanup_side s1.bids_).cleanup_side (s1.cleanup_side s1.bids_).asks_).asks_ =
      restL cr r asks ∧
    ((s1.cleanup_side s1.bids_).cleanup_side (s1.cleanup_side s1.bids_).asks_).orders_ =
      indexAfter o.orderId_ (eraseAll orders (goneL cr r asks)) (restsAs o left) ∧
    BookInv (ownAfter bidBefore bids (restsAs o left)) (restL cr r asks)
      (indexAfter o.orderId_ (eraseAll orders (goneL cr r asks)) (restsAs o left)) ∧
    (∀ x ∈ (ownAfter bidBefore bids (restsAs o left)).orders ++ (restL cr r asks).orders,
      x.orderType_ = OrderType.GoodTillCancel) := by
  have hBs := BookInv_sweep_asks hB cr r
  have hga : ∀ x ∈ (restL cr r asks).orders, x.orderType_ = OrderType.GoodTillCancel :=
    restL_gtc cr asks r (fun x hx => hg x (List.mem_append_right _ hx))
  have hgb : ∀ x ∈ bids.orders, x.orderType_ = OrderType.GoodTillCancel :=
    fun x hx => hg x (List.mem_append_left _ hx)
  have hta := to_cancel_nil _ hga
  have hgone : o.orderId_ ∉ goneL cr r asks := fun hc =>
    hid ((hB.indexIff _).2 (List.mem_append_right _ (goneL_subset cr asks r _ hc)))
  have hid2 : o.orderId_ ∉ eraseAll orders (goneL cr r asks) := fun hc =>
    hid ((eraseAll_sublist _ _).subset hc)
  cases left with
  | none =>
    simp only [ownAfterLoop] at h1
    simp only [aggressorGone, eraseAll_append, eraseAll_cons, eraseAll_nil,
      eraseAll_cons_erase] at h3
    have e1 : s1.cleanup_side s1.bids_ = s1 :=
      cleanup_side_nil _ _ (by rw [h1]; exact to_cancel_nil _ hgb)
    have e2 : s1.cleanup_side s1.asks_ = s1 := cleanup_side_nil _ _ (by rw [h2]; exact hta)
    rw [e1, e2]
    simp only [restsAs, ownAfter, indexAfter]
    refine ⟨h1, h2, h3, hBs, ?_⟩
    intro x hx
    rw [List.mem_append] at hx
    rcases hx with hx | hx
    · exact hgb x hx
    · exact hga x hx
  | some r1 =>
    simp only [ownAfterLoop] at h1
    simp only [aggressorGone, List.append_nil] at h3
    rw [eraseAll_cons_of_not_mem _ _ _ hgone] at h3
    have hBp := BookInv_push_bid hBs { o with remainingQuantity_ := r1 } hid2 hs
      (hp r1 rfl)
    by_cases ht : o.orderType_ = OrderType.GoodTillCancel
    · have e1 : s1.cleanup_side s1.bids_ = s1 :=
        cleanup_side_nil _ _ (by rw [h1, to_cancel_push_back _ _ _ hgb]; simp [ht])
      have e2 : s1.cleanup_side s1.asks_ = s1 := cleanup_side_nil _ _ (by rw [h2]; exact hta)
      rw [e1, e2]
      simp only [restsAs, if_pos ht, ownAfter, indexAfter]
      refine ⟨h1, h2, h3, hBp, ?_⟩
      intro x hx
      rw [List.mem_append, (push_back_perm _ _ _).mem_iff, List.mem_cons] at hx
      rcases hx with (hx | hx) | hx
      · rw [hx]; exact ht
      · exact hgb x hx
      · exact hga x hx
    · have e1 : s1.cleanup_side s1.bids_ = s1.CancelOrder o.orderId_ :=
        cleanup_side_single _ _ _ (by rw [h1, to_cancel_push_back _ _ _ hgb]; simp [ht])
      have hB1 : BookInv s1.bids_ s1.asks_ s1.orders_ := by rw [h1, h2, h3]; exact hBp
      have hmem : ({ o with remainingQuantity_ := r1 } : Order) ∈ s1.bids_.orders := by
        rw [h1, (push_back_perm _ _ _).mem_iff]; simp
      have e3 := CancelOrder_bid s1 hB1 { o with remainingQuantity_ := r1 } hmem
      simp only at e3
      have hrm : Levels.remove o.price_ o.orderId_ s1.bids_ = bids := by
        rw [h1]
        exact remove_push_back bidBefore { o with remainingQuantity_ := r1 } bids
          (fun hc => hid ((hB.indexIff _).2 (List.mem_append_left _ hc))) hB.bidsWF.nonempty
      have e2 : (s1.CancelOrder o.orderId_).cleanup_side (s1.CancelOrder o.orderId_).asks_ =
          s1.CancelOrder o.orderId_ :=
        cleanup_side_nil _ _ (by rw [e3]; simp [h2, hta])
      rw [e1, e2, e3]
      simp only [restsAs, if_neg ht, ownAfter, indexAfter, UpdateBestPrices_bids, emit_bids,
        UpdateBestPrices_asks, emit_asks, UpdateBestPrices_orders, emit_orders, hrm, h2, h3,
        List.erase_cons_head]
      refine ⟨trivial, trivial, trivial, hBs, ?_⟩
      intro x hx
      rw [List.mem_append] at hx
      rcases hx with hx | hx
      · exact hgb x hx
      · exact hga x hx

theorem cleanup_sell (s1 : Orderbook) (bids asks : Levels) (orders : List Nat) (o : Order)
    (cr : Int → Bool) (r : Nat) (left : Option Nat)
    (hB : BookInv bids asks orders)
    (hg : ∀ x ∈ bids.orders ++ asks.orders, x.orderType_ = OrderType.GoodTillCancel)
    (hid : o.orderId_ ∉ orders) (hs : o.side_ = Side.Sell)
    (hp : ∀ r1, left = some r1 → ∀ b ∈ restL cr r bids, b.1 < o.price_)
    (h1 : s1.asks_ = ownAfterLoop askBefore o asks left) (h2 : s1.bids_ = restL cr r bids)
    (h3 : s1.orders_ = eraseAll (o.orderId_ :: orders) (goneL cr r bids ++ aggressorGone o left)) :
    ((s1.cleanup_side s1.bids_).cleanup_side (s1.cleanup_side s1.bids_).asks_).asks_ =
      ownAfter askBefore asks (restsAs o left) ∧
    ((s1.cleanup_side s1.bids_).cleanup_side (s1.cleanup_side s1.bids_).asks_).bids_ =
      restL cr r bids ∧
    ((s1.cleanup_side s1.bids_).cleanup_side (s1.cleanup_side s1.bids_).asks_).orders_ =
      indexAfter o.orderId_ (eraseAll orders (goneL cr r bids)) (restsAs o left) ∧
    BookInv (restL cr r bids) (ownAfter askBefore asks (restsAs o left))
      (indexAfter o.orderId_ (eraseAll orders (goneL cr r bids)) (restsAs o left)) ∧
    (∀ x ∈ (restL cr r bids).orders ++ (ownAfter askBefore asks (restsAs o left)).orders,
      x.orderType_ = OrderType.GoodTillCancel) := by
  have hBs := BookInv_sweep_bids hB cr r
  have hgb : ∀ x ∈ (restL cr r bids).orders, x.orderType_ = OrderType.GoodTillCancel :=
    restL_gtc cr bids r (fun x hx => hg x (List.mem_append_left _ hx))
  have hga : ∀ x ∈ asks.orders, x.orderType_ = OrderType.GoodTillCancel :=
    fun x hx => hg x (List.mem_append_right _ hx)
  have htb := to_cancel_nil _ hgb
  have hgone : o.orderId_ ∉ goneL cr r bids := fun hc =>
    hid ((hB.indexIff _).2 (List.mem_append_left _ (goneL_subset cr bids r _ hc)))
  have hid2 : o.orderId_ ∉ eraseAll orders (goneL cr r bids) := fun hc =>
    hid ((eraseAll_sublist _ _).subset hc)
  have e1 : s1.cleanup_side s1.bids_ = s1 := cleanup_side_nil _ _ (by rw [h2]; exact htb)
  rw [e1]
  cases left with
  | none =>
    simp only [ownAfterLoop] at h1
    simp only [aggressorGone, eraseAll_append, eraseAll_cons, eraseAll_nil,
      eraseAll_cons_erase] at h3
    have e2 : s1.cleanup_side s1.asks_ = s1 :=
      cleanup_side_nil _ _ (by rw [h1]; exact to_cancel_nil _ hga)
    rw [e2]
    simp only [restsAs, ownAfter, indexAfter]
    refine ⟨h1, h2, h3, hBs, ?_⟩
    intro x hx
    rw [List.mem_append] at hx
    rcases hx with hx | hx
    · exact hgb x hx
    · exact hga x hx
  | some r1 =>
    simp only [ownAfterLoop] at h1
    simp only [aggressorGone, List.append_nil] at h3
    rw [eraseAll_cons_of_not_mem _ _ _ hgone] at h3
    have hBp := BookInv_push_ask hBs { o with remainingQuantity_ := r1 } hid2 hs
      (hp r1 rfl)
    by_cases ht : o.orderType_ = OrderType.GoodTillCancel
    · have e2 : s1.cleanup_side s1.asks_ = s1 :=
        cleanup_side_nil _ _ (by rw [h1, to_cancel_push_back _ _ _ hga]; simp [ht])
      rw [e2]
      simp only [restsAs, if_pos ht, ownAfter, indexAfter]
      refine ⟨h1, h2, h3, hBp, ?_⟩
      intro x hx
      rw [List.mem_append, (push_back_perm _ _ _).mem_iff, List.mem_cons] at hx
      rcases hx with hx | hx | hx
      · exact hgb x hx
      · rw [hx]; exact ht
      · exact hga x hx
    · have e2 : s1.cleanup_side s1.asks_ = s1.CancelOrder o.orderId_ :=
        cleanup_side_single _ _ _ (by rw [h1, to_cancel_push_back _ _ _ hga]; simp [ht])
      have hB1 : BookInv s1.bids_ s1.asks_ s1.orders_ := by rw [h1, h2, h3]; exact hBp
      have hmem : ({ o with remainingQuantity_ := r1 } : Order) ∈ s1.asks_.orders := by
        rw [h1, (push_back_perm _ _ _).mem_iff]; simp
      have e3 := CancelOrder_ask s1 hB1 { o with remainingQuantity_ := r1 } hmem
      simp only at e3
      have hrm : Levels.remove o.price_ o.orderId_ s1.asks_ = asks := by
        rw [h1]
        exact remove_push_back askBefore { o with remainingQuantity_ := r1 } asks
          (fun hc => hid ((hB.indexIff _).2 (List.mem_append_right _ hc))) hB.asksWF.nonempty
      rw [e2, e3]
      simp only [restsAs, if_neg ht, ownAfter, indexAfter, UpdateBestPrices_bids, emit_bids,
        UpdateBestPrices_asks, emit_asks, UpdateBestPrices_orders, emit_orders, hrm, h2, h3,
        List.erase_cons_head]
      refine ⟨trivial, trivial, trivial, hBs, ?_⟩
      intro x hx
      rw [List.mem_append] at hx
      rcases hx with hx | hx
      · exact hgb x hx
      · exact hga x hx

theorem insert_buy (s : Orderbook) (o : Order) (hs : o.side_ = Side.Buy) :
    (s.insert o).bids_ = Levels.push_back bidBefore o s.bids_ ∧ (s.insert o).asks_ = s.asks_ ∧
    (s.insert o).orders_ = o.orderId_ :: s.orders_ := by
  simp [Orderbook.insert, hs]

theorem insert_sell (s : Orderbook) (o : Order) (hs : o.side_ = Side.Sell) :
    (s.insert o).bids_ = s.bids_ ∧ (s.insert o).asks_ = Levels.push_back askBefore o s.asks_ ∧
    (s.insert o).orders_ = o.orderId_ :: s.orders_ := by
  simp [Orderbook.insert, hs]

theorem MatchOrders_insert_buy (s : Orderbook) (hI : s.Inv) (o : Order) (hs : o.side_ = Side.Buy)
    (hid : o.orderId_ ∉ s.orders_) :
    (s.insert o).MatchOrders.2 = some
      ((fillsL (crossBuy o.price_) o.remainingQuantity_ s.asks_).map
        (fun f => mkTrade o f.1 f.2)) ∧
    (s.insert o).MatchOrders.1.bids_ = ownAfter bidBefore s.bids_
      (restsAs o (leftL (crossBuy o.price_) o.remainingQuantity_ s.asks_)) ∧
    (s.insert o).MatchOrders.1.asks_ = restL (crossBuy o.price_) o.remainingQuantity_ s.asks_ ∧
    (s.insert o).MatchOrders.1.orders_ = indexAfter o.orderId_
      (eraseAll s.orders_ (goneL (crossBuy o.price_) o.remainingQuantity_ s.asks_))
      (restsAs o (leftL (crossBuy o.price_) o.remainingQuantity_ s.asks_)) ∧
    (s.insert o).MatchOrders.1.Inv := by
  obtain ⟨i1, i2, i3⟩ := insert_buy s o hs
  obtain ⟨k1, k2, k3, k4⟩ := matchLoop_insert_buy (s.insert o) s.bids_ s.asks_ o
    ((s.insert o).bids_.length + (s.insert o).asks_.length + 1)
    hI.book.asksWF hI.book.noCross i1 i2 (by rw [i2]; omega)
  simp only [Orderbook.MatchOrders]
  rcases hm : Orderbook.matchLoop ((s.insert o).bids_.length + (s.insert o).asks_.length + 1)
    (s.insert o) [] with ⟨s1, ot⟩
  rw [hm] at k1 k2 k3 k4
  simp only at k1 k2 k3 k4
  subst k1
  simp only
  rw [i3] at k4
  have hp : ∀ r1, leftL (crossBuy o.price_) o.remainingQuantity_ s.asks_ = some r1 →
      ∀ a ∈ restL (crossBuy o.price_) o.remainingQuantity_ s.asks_, o.price_ < a.1 := by
    intro r1 hl a ha
    have := restL_not_cross (crossBuy o.price_)
      (fun a b hab hb => by
        simp only [askBefore, crossBuy, decide_eq_true_eq] at *; omega)
      s.asks_ _ r1 hI.book.asksWF.sorted hl a ha
    simp only [crossBuy, decide_eq_false_iff_not] at this
    omega
  obtain ⟨c1, c2, c3, c4, c5⟩ := cleanup_buy s1 s.bids_ s.asks_ s.orders_ o (crossBuy o.price_)
    o.remainingQuantity_ _ hI.book hI.gtc hid hs hp k2 k3 k4
  refine ⟨trivial, by simpa using c1, by simpa using c2, by simpa using c3, ?_⟩
  refine UpdateBestPrices_Inv _ (by rw [c1, c2, c3]; exact c4) ?_
  simp only [Orderbook.resting, c1, c2]
  exact c5

theorem MatchOrders_insert_sell (s : Orderbook) (hI : s.Inv) (o : Order)
    (hs : o.side_ = Side.Sell) (hid : o.orderId_ ∉ s.orders_) :
    (s.insert o).MatchOrders.2 = some
      ((fillsL (crossSell o.price_) o.remainingQuantity_ s.bids_).map
        (fun f => mkTrade f.1 o f.2)) ∧
    (s.insert o).MatchOrders.1.asks_ = ownAfter askBefore s.asks_
      (restsAs o (leftL (crossSell o.price_) o.remainingQuantity_ s.bids_)) ∧
    (s.insert o).MatchOrders.1.bids_ = restL (crossSell o.price_) o.remainingQuantity_ s.bids_ ∧
    (s.insert o).MatchOrders.1.orders_ = indexAfter o.orderId_
      (eraseAll s.orders_ (goneL (crossSell o.price_) o.remainingQuantity_ s.bids_))
      (restsAs o (leftL (crossSell o.price_) o.remainingQuantity_ s.bids_)) ∧
    (s.insert o).MatchOrders.1.Inv := by
  obtain ⟨i1, i2, i3⟩ := insert_sell s o hs
  obtain ⟨k1, k2, k3, k4⟩ := matchLoop_insert_sell (s.insert o) s.bids_ s.asks_ o
    ((s.insert o).bids_.length + (s.insert o).asks_.length + 1)
    hI.book.bidsWF hI.book.noCross i1 i2 (by rw [i1]; omega)
  simp only [Orderbook.MatchOrders]
  rcases hm : Orderbook.matchLoop ((s.insert o).bids_.length + (s.insert o).asks_.length + 1)
    (s.insert o) [] with ⟨s1, ot⟩
  rw [hm] at k1 k2 k3 k4
  simp only at k1 k2 k3 k4
  subst k1
  simp only
  rw [i3] at k4
  have hp : ∀ r1, leftL (crossSell o.price_) o.remainingQuantity_ s.bids_ = some r1 →
      ∀ b ∈ restL (crossSell o.price_) o.remainingQuantity_ s.bids_, b.1 < o.price_ := by
    intro r1 hl b hb
    have := restL_not_cross (crossSell o.price_)
      (fun a b hab hb => by
        simp only [bidBefore, crossSell, decide_eq_true_eq] at *; omega)
      s.bids_ _ r1 hI.book.bidsWF.sorted hl b hb
    simp only [crossSell, decide_eq_false_iff_not] at this
    omega
  obtain ⟨c1, c2, c3, c4, c5⟩ := cleanup_sell s1 s.bids_ s.asks_ s.orders_ o
    (crossSell o.price_) o.remainingQuantity_ _ hI.book hI.gtc hid hs hp k2 k3 k4
  refine ⟨trivial, by simpa using c1, by simpa using c2, by simpa using c3, ?_⟩
  refine UpdateBestPrices_Inv _ (by rw [c1, c2, c3]; exact c4) ?_
  simp only [Orderbook.resting, c1, c2]
  exact c5

/-! ### The invariant holds in every reachable state -/

theorem Side.buy_or_sell (sd : Side) : sd = Side.Buy ∨ sd = Side.Sell := by
  cases sd <;> simp

theorem MatchOrders_insert_Inv (s : Orderbook) (hI : s.Inv) (o : Order)
    (hid : o.orderId_ ∉ s.orders_) : (s.insert o).MatchOrders.1.Inv := by
  rcases Side.buy_or_sell o.side_ with hs | hs
  · exact (MatchOrders_insert_buy s hI o hs hid).2.2.2.2
  · exact (MatchOrders_insert_sell s hI o hs hid).2.2.2.2

theorem ToImmediateOrCancel_id (o o1 : Order) (p : Int) (h : o.ToImmediateOrCancel p = some o1) :
    o1 = { o with price_ := p, orderType_ := OrderType.ImmediateOrCancel } := by
  simp only [Order.ToImmediateOrCancel] at h
  split at h
  · exact absurd h (by simp)
  · exact (Option.some.inj h).symm

theorem AddOrder_cases (L : PriceLimits) (s : Orderbook) (o : Order) :
    Orderbook.AddOrder L s o = (s, some []) ∨ Orderbook.AddOrder L s o = (s, none) ∨
    (o.orderId_ ∉ s.orders_ ∧ ∃ o1 : Order, o1.orderId_ = o.orderId_ ∧ o1.side_ = o.side_ ∧
      o1.initialQuantity_ = o.initialQuantity_ ∧ o1.remainingQuantity_ = o.remainingQuantity_ ∧
      (o1 = o ∨ o1.orderType_ = OrderType.ImmediateOrCancel) ∧
      Orderbook.AddOrder L s o = (s.insert o1).MatchOrders) := by
  unfold Orderbook.AddOrder
  by_cases hid : o.orderId_ ∈ s.orders_
  · left; simp [hid]
  · have hc : s.orders_.contains o.orderId_ = false := by simpa using hid
    simp only [hc, Bool.false_eq_true, if_false]
    by_cases hm : o.orderType_ = OrderType.Market
    · simp only [hm, decide_True, if_true]
      cases ht : o.ToImmediateOrCancel (if o.side_ = Side.Buy then L.maxPrice else L.minPrice) with
      | none => right; left; rfl
      | some o1 =>
        have h1 := ToImmediateOrCancel_id o o1 _ ht
        right; right
        refine ⟨hid, o1, by rw [h1], by rw [h1], by rw [h1], by rw [h1], Or.inr (by rw [h1]), ?_⟩
        simp
    · simp only [hm, decide_False, Bool.false_eq_true, if_false, Bool.not_false, Bool.true_and]
      split_ifs with h1 h2
      · left; rfl
      · left; rfl
      · right; right
        exact ⟨hid, o, rfl, rfl, rfl, rfl, Or.inl rfl, rfl⟩

theorem AddOrder_Inv (L : PriceLimits) (s : Orderbook) (hI : s.Inv) (o : Order) :
    (Orderbook.AddOrder L s o).1.Inv := by
  rcases AddOrder_cases L s o with h | h | ⟨hid, o1, h1, _, _, _, _, h⟩
  · rw [h]; exact hI
  · rw [h]; exact hI
  · rw [h]; exact MatchOrders_insert_Inv s hI o1 (by rw [h1]; exact hid)

theorem emit_Inv (s : Orderbook) (e : Event) (hI : s.Inv) : (s.emit e).Inv := by
  refine ⟨by simpa using hI.book, ?_, by simpa using hI.bestBid, by simpa using hI.bestAsk⟩
  simpa [Orderbook.resting] using hI.gtc

theorem MatchOrder_Inv (L : PriceLimits) (s : Orderbook) (hI : s.Inv) (m : OrderModify) :
    (Orderbook.MatchOrder L s m).1.Inv := by
  unfold Orderbook.MatchOrder
  split_ifs with h1
  · exact hI
  · split
    · exact hI
    · exact AddOrder_Inv L _ (CancelOrder_Inv _ (emit_Inv s _ hI) _) _

theorem empty_Inv : Orderbook.empty.Inv := by
  refine ⟨⟨⟨?_, ?_, ?_⟩, ⟨?_, ?_, ?_⟩, ?_, ?_, ?_, ?_⟩, ?_, rfl, rfl⟩ <;>
    simp [Orderbook.empty, Levels.ids, Levels.orders, Orderbook.resting]

theorem step_Inv (L : PriceLimits) (s : Orderbook) (hI : s.Inv) (op : Op) :
    (s.step L op).Inv := by
  cases op with
  | AddOrder t i sd p q => exact AddOrder_Inv L s hI _
  | CancelOrder i => exact CancelOrder_Inv s hI i
  | MatchOrder m => exact MatchOrder_Inv L s hI m
  | MatchOrders => simp only [Orderbook.step]; rw [MatchOrders_of_Inv s hI]; exact hI
  | SetObserver b => exact ⟨hI.book, hI.gtc, hI.bestBid, hI.bestAsk⟩
  | EnableEvents b => exact ⟨hI.book, hI.gtc, hI.bestBid, hI.bestAsk⟩

theorem run_Inv (L : PriceLimits) (ops : List Op) : ∀ s : Orderbook, s.Inv →
    (s.run L ops).Inv := by
  induction ops with
  | nil => intro s h; exact h
  | cons op ops ih => intro s h; exact ih _ (step_Inv L s h op)

theorem Reachable_Inv (L : PriceLimits) (s : Orderbook) (h : Reachable L s) : s.Inv := by
  obtain ⟨ops, rfl⟩ := h
  exact run_Inv L ops _ empty_Inv

/-! ### Traded quantities, tradeable orders and the admission checks -/

theorem totalQuantity_nil : totalQuantity [] = 0 := rfl

theorem totalQuantity_cons (x : Order) (xs : List Order) :
    totalQuantity (x :: xs) = x.remainingQuantity_ + totalQuantity xs := by
  simp [totalQuantity]

theorem totalQuantity_append (xs ys : List Order) :
    totalQuantity (xs ++ ys) = totalQuantity xs + totalQuantity ys := by
  simp [totalQuantity]

theorem fillsQ_sum (l : List Order) : ∀ r : Nat,
    ((fillsQ r l).map (fun f => f.2)).sum = min r (totalQuantity l) := by
  induction l with
  | nil => intro r; simp [fillsQ, totalQuantity]
  | cons x xs ih =>
    intro r
    simp only [fillsQ, totalQuantity_cons]
    split_ifs with h
    · simp only [List.map_cons, List.map_nil, List.sum_cons, List.sum_nil]
      omega
    · simp only [List.map_cons, List.sum_cons, ih]
      omega

theorem fillsQ_take (l : List Order) : ∀ r : Nat,
    (fillsQ r l).map (fun f => f.1) = l.take (fillsQ r l).length := by
  induction l with
  | nil => intro r; simp [fillsQ]
  | cons x xs ih =>
    intro r
    simp only [fillsQ]
    split_ifs with h
    · simp
    · simp [ih]

theorem fillsQ_dropLast (l : List Order) : ∀ r : Nat,
    (fillsQ r l).dropLast.map (fun f => f.2) =
      (l.take ((fillsQ r l).length - 1)).map (fun o => o.remainingQuantity_) := by
  induction l with
  | nil => intro r; simp [fillsQ]
  | cons x xs ih =>
    intro r
    simp only [fillsQ]
    split_ifs with h
    · simp
    · cases hf : fillsQ (r - x.remainingQuantity_) xs with
      | nil => simp
      | cons f fs =>
        have := ih (r - x.remainingQuantity_)
        rw [hf] at this
        simp only [List.length_cons, Nat.add_sub_cancel] at this ⊢
        simp [List.dropLast_cons₂, this]

theorem fillsQ_append (xs ys : List Order) : ∀ r : Nat,
    fillsQ r (xs ++ ys) = fillsQ r xs ++ (match leftQ r xs with
      | none => []
      | some r1 => fillsQ r1 ys) := by
  induction xs with
  | nil => intro r; simp [fillsQ, leftQ]
  | cons x xs ih =>
    intro r
    simp only [List.cons_append, fillsQ, leftQ]
    split_ifs with h
    · simp
    · simp [ih]

theorem takeWhile_orders_cons (cr : Int → Bool) (p : Int) (xs : List Order) (A : Levels) :
    (List.takeWhile (fun l => cr l.1) ((p, xs) :: A)) =
      if cr p then (p, xs) :: List.takeWhile (fun l => cr l.1) A else [] := by
  simp [List.takeWhile_cons]

theorem fillsL_eq (cr : Int → Bool) (A : Levels) : ∀ r : Nat,
    fillsL cr r A = fillsQ r (Levels.orders (A.takeWhile (fun l => cr l.1))) := by
  induction A with
  | nil => intro r; simp [fillsL, fillsQ, Levels.orders]
  | cons l A ih =>
    obtain ⟨p, xs⟩ := l
    intro r
    simp only [fillsL, takeWhile_orders_cons]
    split_ifs with h
    · rw [orders_cons, fillsQ_append]
      cases leftQ r xs with
      | none => rfl
      | some r1 => simp only [ih r1]
    · simp [fillsQ, Levels.orders]

theorem tradeable_buy_eq {A : Levels} (hw : Levels.WF askBefore Side.Sell A) (p : Int) :
    A.orders.filter (tradeableAt Side.Buy p) =
      Levels.orders (A.takeWhile (fun l => crossBuy p l.1)) := by
  induction A with
  | nil => simp [Levels.orders]
  | cons l A ih =>
    obtain ⟨ap, xs⟩ := l
    have hxs : ∀ x ∈ xs, x.price_ = ap := fun x hx => (hw.located (ap, xs) (by simp) x hx).2
    rw [orders_cons, List.filter_append, takeWhile_orders_cons]
    by_cases hc : ap ≤ p
    · have h1 : xs.filter (tradeableAt Side.Buy p) = xs := by
        rw [List.filter_eq_self]
        intro x hx
        simp [tradeableAt, hxs x hx, hc]
      have hcr : crossBuy p ap = true := by simp [crossBuy, hc]
      simp only [hcr, if_true, orders_cons, h1, ih (WF_tail hw)]
    · have h1 : xs.filter (tradeableAt Side.Buy p) = [] := by
        rw [List.filter_eq_nil_iff]
        intro x hx
        simp [tradeableAt, hxs x hx, hc]
      have h2 : (Levels.orders A).filter (tradeableAt Side.Buy p) = [] := by
        rw [List.filter_eq_nil_iff]
        intro x hx
        obtain ⟨lvl, hl, hxl⟩ := mem_orders.1 hx
        have h3 := (hw.located lvl (by simp [hl]) x hxl).2
        have h4 := (List.pairwise_cons.1 hw.sorted).1 lvl hl
        simp only [askBefore, decide_eq_true_eq] at h4
        simp only [tradeableAt, h3, decide_eq_true_eq]
        omega
      have hcr : crossBuy p ap = false := by simp [crossBuy, hc]
      simp only [hcr, h1, h2, Bool.false_eq_true, if_false, List.append_nil]
      rfl

theorem tradeable_sell_eq {B : Levels} (hw : Levels.WF bidBefore Side.Buy B) (p : Int) :
    B.orders.filter (tradeableAt Side.Sell p) =
      Levels.orders (B.takeWhile (fun l => crossSell p l.1)) := by
  induction B with
  | nil => simp [Levels.orders]
  | cons l B ih =>
    obtain ⟨bp, xs⟩ := l
    have hxs : ∀ x ∈ xs, x.price_ = bp := fun x hx => (hw.located (bp, xs) (by simp) x hx).2
    rw [orders_cons, List.filter_append, takeWhile_orders_cons]
    by_cases hc : p ≤ bp
    · have h1 : xs.filter (tradeableAt Side.Sell p) = xs := by
        rw [List.filter_eq_self]
        intro x hx
        simp [tradeableAt, hxs x hx, hc]
      have hcr : crossSell p bp = true := by simp [crossSell, hc]
      simp only [hcr, if_true, orders_cons, h1, ih (WF_tail hw)]
    · have h1 : xs.filter (tradeableAt Side.Sell p) = [] := by
        rw [List.filter_eq_nil_iff]
        intro x hx
        simp [tradeableAt, hxs x hx, hc]
      have h2 : (Levels.orders B).filter (tradeableAt Side.Sell p) = [] := by
        rw [List.filter_eq_nil_iff]
        intro x hx
        obtain ⟨lvl, hl, hxl⟩ := mem_orders.1 hx
        have h3 := (hw.located lvl (by simp [hl]) x hxl).2
        have h4 := (List.pairwise_cons.1 hw.sorted).1 lvl hl
        simp only [bidBefore, decide_eq_true_eq] at h4
        simp only [tradeableAt, h3, decide_eq_true_eq]
        omega
      have hcr : crossSell p bp = false := by simp [crossSell, hc]
      simp only [hcr, h1, h2, Bool.false_eq_true, if_false, List.append_nil]
      rfl

theorem addLevelQuantity_eq (xs : List Order) : ∀ lq : Nat,
    lq + totalQuantity xs < quantityModulus → addLevelQuantity lq xs = lq + totalQuantity xs := by
  induction xs with
  | nil => intro lq _; simp [addLevelQuantity, totalQuantity]
  | cons x xs ih =>
    intro lq h
    rw [totalQuantity_cons] at h
    have hm : (lq + x.remainingQuantity_) % quantityModulus = lq + x.remainingQuantity_ :=
      Nat.mod_eq_of_lt (by omega)
    have := ih (lq + x.remainingQuantity_) (by omega)
    simp only [addLevelQuantity, List.foldl_cons, totalQuantity_cons, hm] at this ⊢
    omega

theorem CanFullyFill_Buy_loop_true (p : Int) (A : Levels) : ∀ (lq q : Nat), 0 < q →
    q ≤ totalQuantity (Levels.orders (A.takeWhile (fun l => crossBuy p l.1))) →
    lq + totalQuantity (Levels.orders (A.takeWhile (fun l => crossBuy p l.1))) <
      quantityModulus →
    CanFullyFill_Buy_loop p A lq q = true := by
  induction A with
  | nil => intro lq q h0 h _; simp [Levels.orders, totalQuantity] at h; omega
  | cons l A ih =>
    obtain ⟨ap, xs⟩ := l
    intro lq q h0 h hb
    rw [takeWhile_orders_cons] at h hb
    simp only [CanFullyFill_Buy_loop]
    by_cases hc : ap ≤ p
    · have hcr : crossBuy p ap = true := by simp [crossBuy, hc]
      simp only [hcr, if_true, orders_cons, totalQuantity_append] at h hb
      simp only [hc, if_true, addLevelQuantity_eq xs lq (by omega)]
      split_ifs with h1
      · rfl
      · exact ih _ _ (by omega) (by omega) (by omega)
    · simp [crossBuy, hc, Levels.orders, totalQuantity] at h
      omega

theorem CanFullyFill_Sell_loop_true (p : Int) (B : Levels) : ∀ (lq q : Nat), 0 < q →
    q ≤ totalQuantity (Levels.orders (B.takeWhile (fun l => crossSell p l.1))) →
    lq + totalQuantity (Levels.orders (B.takeWhile (fun l => crossSell p l.1))) <
      quantityModulus →
    CanFullyFill_Sell_loop p B lq q = true := by
  induction B with
  | nil => intro lq q h0 h _; simp [Levels.orders, totalQuantity] at h; omega
  | cons l B ih =>
    obtain ⟨bp, xs⟩ := l
    intro lq q h0 h hb
    rw [takeWhile_orders_cons] at h hb
    simp only [CanFullyFill_Sell_loop]
    by_cases hc : p ≤ bp
    · have hcr : crossSell p bp = true := by simp [crossSell, hc]
      simp only [hcr, if_true, orders_cons, totalQuantity_append] at h hb
      simp only [ge_iff_le, hc, if_true, addLevelQuantity_eq xs lq (by omega)]
      split_ifs with h1
      · rfl
      · exact ih _ _ (by omega) (by omega) (by omega)
    · simp [crossSell, hc, Levels.orders, totalQuantity] at h
      omega

theorem restsAs_none_of_not_gtc (o : Order) (left : Option Nat)
    (h : o.orderType_ ≠ OrderType.GoodTillCancel) : restsAs o left = none := by
  cases left <;> simp [restsAs, h]

theorem insert_MatchOrders_trades (s : Orderbook) (hI : s.Inv) (o : Order)
    (hid : o.orderId_ ∉ s.orders_) :
    (s.insert o).MatchOrders.2 = some
      ((fillsQ o.remainingQuantity_ (s.tradeable o.side_ o.price_)).map (aggressorTrade o)) := by
  rcases Side.buy_or_sell o.side_ with hs | hs
  · rw [(MatchOrders_insert_buy s hI o hs hid).1, fillsL_eq]
    simp only [Orderbook.tradeable, Orderbook.opposing, hs, tradeable_buy_eq hI.book.asksWF]
    congr 2
    funext f
    simp [aggressorTrade, hs]
  · rw [(MatchOrders_insert_sell s hI o hs hid).1, fillsL_eq]
    simp only [Orderbook.tradeable, Orderbook.opposing, hs, tradeable_sell_eq hI.book.bidsWF]
    congr 2
    funext f
    simp [aggressorTrade, hs]

theorem insert_MatchOrders_index (s : Orderbook) (hI : s.Inv) (o : Order)
    (hid : o.orderId_ ∉ s.orders_) (ht : o.orderType_ ≠ OrderType.GoodTillCancel) :
    o.orderId_ ∉ (s.insert o).MatchOrders.1.orders_ := by
  rcases Side.buy_or_sell o.side_ with hs | hs
  · rw [(MatchOrders_insert_buy s hI o hs hid).2.2.2.1, restsAs_none_of_not_gtc o _ ht]
    exact fun hc => hid ((eraseAll_sublist _ _).subset hc)
  · rw [(MatchOrders_insert_sell s hI o hs hid).2.2.2.1, restsAs_none_of_not_gtc o _ ht]
    exact fun hc => hid ((eraseAll_sublist _ _).subset hc)

theorem total_qty_aggressorTrade (o : Order) (fills : List (Order × Nat)) :
    total_qty (fills.map (aggressorTrade o)) = (fills.map (fun f => f.2)).sum := by
  simp only [total_qty, List.map_map]
  congr 1
  apply List.map_congr_left
  intro f _
  rcases Side.buy_or_sell o.side_ with hs | hs <;> simp [aggressorTrade, hs, mkTrade]

theorem CanMatch_buy_iff (s : Orderbook) (p : Int) :
    s.CanMatch Side.Buy p = true ↔ ∃ ap xs A, s.asks_ = (ap, xs) :: A ∧ ap ≤ p := by
  simp only [Orderbook.CanMatch]
  split
  · rename_i h; simp [h]
  · rename_i ap xs A h
    simp [h]

theorem CanMatch_sell_iff (s : Orderbook) (p : Int) :
    s.CanMatch Side.Sell p = true ↔ ∃ bp xs B, s.bids_ = (bp, xs) :: B ∧ p ≤ bp := by
  simp only [Orderbook.CanMatch]
  split
  · rename_i h; simp [h]
  · rename_i bp xs B h
    simp [h]

theorem CanFullyFill_of_liquidity (s : Orderbook) (hI : s.Inv) (side : Side) (p : Int) (q : Nat)
    (hq : 0 < q) (h : q ≤ totalQuantity (s.tradeable side p))
    (hb : totalQuantity (s.tradeable side p) < quantityModulus) :
    s.CanFullyFill side p q = true := by
  rcases Side.buy_or_sell side with hs | hs
  · subst hs
    simp only [Orderbook.tradeable, Orderbook.opposing, tradeable_buy_eq hI.book.asksWF] at h hb
    have hm : s.CanMatch Side.Buy p = true := by
      rw [CanMatch_buy_iff]
      cases ha : s.asks_ with
      | nil => rw [ha] at h; simp [Levels.orders, totalQuantity] at h; omega
      | cons l A =>
        obtain ⟨ap, xs⟩ := l
        refine ⟨ap, xs, A, rfl, ?_⟩
        rw [ha, takeWhile_orders_cons] at h
        by_contra hc
        have hcr : crossBuy p ap = false := by simp [crossBuy, hc]
        simp [hcr, Levels.orders, totalQuantity] at h
        omega
    simp only [Orderbook.CanFullyFill, hm, Bool.not_true, Bool.false_eq_true, if_false, if_true,
      Orderbook.CanFullyFill_Buy]
    exact CanFullyFill_Buy_loop_true p s.asks_ 0 q hq h (by omega)
  · subst hs
    simp only [Orderbook.tradeable, Orderbook.opposing, tradeable_sell_eq hI.book.bidsWF] at h hb
    have hm : s.CanMatch Side.Sell p = true := by
      rw [CanMatch_sell_iff]
      cases hb : s.bids_ with
      | nil => rw [hb] at h; simp [Levels.orders, totalQuantity] at h; omega
      | cons l B =>
        obtain ⟨bp, xs⟩ := l
        refine ⟨bp, xs, B, rfl, ?_⟩
        rw [hb, takeWhile_orders_cons] at h
        by_contra hc
        have hcr : crossSell p bp = false := by simp [crossSell, hc]
        simp [hcr, Levels.orders, totalQuantity] at h
        omega
    simp only [Orderbook.CanFullyFill, hm, Bool.not_true, Bool.false_eq_true, if_false,
      Orderbook.CanFullyFill_Sell]
    exact CanFullyFill_Sell_loop_true p s.bids_ 0 q hq h (by omega)

theorem AddOrder_FOK (L : PriceLimits) (s : Orderbook) (i : Nat) (side : Side) (p : Int) (q : Nat)
    (hid : i ∉ s.orders_) (h : s.CanFullyFill side p q = true) :
    Orderbook.AddOrder L s (Order.new OrderType.FillOrKill i side p q) =
      (s.insert (Order.new OrderType.FillOrKill i side p q)).MatchOrders := by
  simp [Orderbook.AddOrder, Order.new, hid, h]

theorem AddOrder_IOC (L : PriceLimits) (s : Orderbook) (i : Nat) (side : Side) (p : Int) (q : Nat)
    (hid : i ∉ s.orders_) (h : s.CanMatch side p = true) :
    Orderbook.AddOrder L s (Order.new OrderType.ImmediateOrCancel i side p q) =
      (s.insert (Order.new OrderType.ImmediateOrCancel i side p q)).MatchOrders := by
  simp [Orderbook.AddOrder, Order.new, hid, h]

theorem AddOrder_GTC (L : PriceLimits) (s : Orderbook) (i : Nat) (side : Side) (p : Int) (q : Nat)
    (hid : i ∉ s.orders_) :
    Orderbook.AddOrder L s (Order.new OrderType.GoodTillCancel i side p q) =
      (s.insert (Order.new OrderType.GoodTillCancel i side p q)).MatchOrders := by
  simp [Orderbook.AddOrder, Order.new, hid]

/-! ### Priority order of the fills -/

theorem takeWhile_orders_append (f : Int × List Order → Bool) (A : Levels) :
    Levels.orders (A.takeWhile f) ++ Levels.orders (A.dropWhile f) = A.orders := by
  simp only [Levels.orders]
  rw [← List.flatMap_append, List.takeWhile_append_dropWhile]

theorem tradeable_take (s : Orderbook) (hI : s.Inv) (side : Side) (p : Int) (n : Nat)
    (hn : n ≤ (s.tradeable side p).length) :
    (s.tradeable side p).take n = (s.opposing side).take n := by
  rcases Side.buy_or_sell side with hs | hs
  · subst hs
    simp only [Orderbook.tradeable, Orderbook.opposing, tradeable_buy_eq hI.book.asksWF] at hn ⊢
    conv_rhs => rw [← takeWhile_orders_append (fun l => crossBuy p l.1) s.asks_]
    rw [List.take_append_of_le_length hn]
  · subst hs
    simp only [Orderbook.tradeable, Orderbook.opposing, tradeable_sell_eq hI.book.bidsWF] at hn ⊢
    conv_rhs => rw [← takeWhile_orders_append (fun l => crossSell p l.1) s.bids_]
    rw [List.take_append_of_le_length hn]

theorem fillsQ_length_le (l : List Order) : ∀ r : Nat, (fillsQ r l).length ≤ l.length := by
  induction l with
  | nil => intro r; simp [fillsQ]
  | cons x xs ih =>
    intro r
    simp only [fillsQ]
    split_ifs with h
    · simp
    · simp only [List.length_cons]; have := ih (r - x.remainingQuantity_); omega

theorem asks_prices_sorted {A : Levels} (hw : Levels.WF askBefore Side.Sell A) :
    (A.orders.map (fun o => o.price_)).Pairwise (fun a b => a ≤ b) := by
  induction A with
  | nil => simp [Levels.orders]
  | cons l A ih =>
    obtain ⟨ap, xs⟩ := l
    rw [orders_cons, List.map_append, List.pairwise_append]
    refine ⟨?_, ih (WF_tail hw), ?_⟩
    · rw [List.pairwise_map]
      apply List.pairwise_of_forall_mem_list
      intro x hx y hy
      rw [(hw.located (ap, xs) (by simp) x hx).2, (hw.located (ap, xs) (by simp) y hy).2]
    · intro a ha b hb
      obtain ⟨x, hx, rfl⟩ := List.mem_map.1 ha
      obtain ⟨y, hy, rfl⟩ := List.mem_map.1 hb
      obtain ⟨lvl, hl, hyl⟩ := mem_orders.1 hy
      rw [(hw.located (ap, xs) (by simp) x hx).2, (hw.located lvl (by simp [hl]) y hyl).2]
      have := (List.pairwise_cons.1 hw.sorted).1 lvl hl
      simp only [askBefore, decide_eq_true_eq] at this
      omega

theorem bids_prices_sorted {B : Levels} (hw : Levels.WF bidBefore Side.Buy B) :
    (B.orders.map (fun o => o.price_)).Pairwise (fun a b => b ≤ a) := by
  induction B with
  | nil => simp [Levels.orders]
  | cons l B ih =>
    obtain ⟨bp, xs⟩ := l
    rw [orders_cons, List.map_append, List.pairwise_append]
    refine ⟨?_, ih (WF_tail hw), ?_⟩
    · rw [List.pairwise_map]
      apply List.pairwise_of_forall_mem_list
      intro x hx y hy
      rw [(hw.located (bp, xs) (by simp) x hx).2, (hw.located (bp, xs) (by simp) y hy).2]
    · intro a ha b hb
      obtain ⟨x, hx, rfl⟩ := List.mem_map.1 ha
      obtain ⟨y, hy, rfl⟩ := List.mem_map.1 hb
      obtain ⟨lvl, hl, hyl⟩ := mem_orders.1 hy
      rw [(hw.located (bp, xs) (by simp) x hx).2, (hw.located lvl (by simp [hl]) y hyl).2]
      have := (List.pairwise_cons.1 hw.sorted).1 lvl hl
      simp only [bidBefore, decide_eq_true_eq] at this
      omega

theorem insert_trades_priority (s : Orderbook) (hI : s.Inv) (o : Order) (trades : List Trade)
    (h : trades = (fillsQ o.remainingQuantity_ (s.tradeable o.side_ o.price_)).map
      (aggressorTrade o)) :
    trades.map (Trade.restingId o.side_) =
      ((s.opposing o.side_).take trades.length).map (fun x => x.orderId_) ∧
    trades.dropLast.map (fun t => t.askTrade_.quantity_) =
      ((s.opposing o.side_).take (trades.length - 1)).map (fun x => x.remainingQuantity_) ∧
    (trades.map (fun t => t.askTrade_.price_)).Pairwise (fun a b => a ≤ b) ∧
    (o.side_ = Side.Buy → trades.map (fun t => t.askTrade_.price_) =
      ((s.opposing o.side_).take trades.length).map (fun x => x.price_)) := by
  have hlen : trades.length = (fillsQ o.remainingQuantity_ (s.tradeable o.side_ o.price_)).length := by
    rw [h, List.length_map]
  have hle := fillsQ_length_le (s.tradeable o.side_ o.price_) o.remainingQuantity_
  have htake := fillsQ_take (s.tradeable o.side_ o.price_) o.remainingQuantity_
  rw [← hlen, tradeable_take s hI _ _ _ (by omega)] at htake
  have hdrop := fillsQ_dropLast (s.tradeable o.side_ o.price_) o.remainingQuantity_
  rw [← hlen, tradeable_take s hI _ _ _ (by omega)] at hdrop
  have hid : trades.map (Trade.restingId o.side_) =
      ((fillsQ o.remainingQuantity_ (s.tradeable o.side_ o.price_)).map (fun f => f.1)).map
        (fun x => x.orderId_) := by
    rw [h, List.map_map, List.map_map]
    apply List.map_congr_left
    intro f _
    rcases Side.buy_or_sell o.side_ with hs | hs <;>
      simp [aggressorTrade, hs, mkTrade, Trade.restingId]
  have hq : trades.dropLast.map (fun t => t.askTrade_.quantity_) =
      (fillsQ o.remainingQuantity_ (s.tradeable o.side_ o.price_)).dropLast.map (fun f => f.2) := by
    rw [h, ← List.map_dropLast, List.map_map]
    apply List.map_congr_left
    intro f _
    rcases Side.buy_or_sell o.side_ with hs | hs <;> simp [aggressorTrade, hs, mkTrade]
  have hbuy : o.side_ = Side.Buy → trades.map (fun t => t.askTrade_.price_) =
      ((s.opposing o.side_).take trades.length).map (fun x => x.price_) := by
    intro hs
    rw [← htake, h, List.map_map, List.map_map]
    apply List.map_congr_left
    intro f _
    simp [aggressorTrade, hs, mkTrade]
  refine ⟨by rw [hid, htake], by rw [hq, hdrop], ?_, hbuy⟩
  rcases Side.buy_or_sell o.side_ with hs | hs
  · rw [hbuy hs, hs]
    have := asks_prices_sorted hI.book.asksWF
    simp only [Orderbook.opposing]
    exact this.sublist ((List.take_sublist _ _).map _)
  · have : trades.map (fun t => t.askTrade_.price_) =
        List.replicate trades.length o.price_ := by
      rw [List.eq_replicate_iff]
      refine ⟨by simp, ?_⟩
      intro b hb
      obtain ⟨t, ht, rfl⟩ := List.mem_map.1 hb
      rw [h] at ht
      obtain ⟨f, _, rfl⟩ := List.mem_map.1 ht
      simp [aggressorTrade, hs, mkTrade]
    rw [this]
    exact List.pairwise_replicate.2 (Or.inr (le_refl _))

/-! ### Resting prices stay representable -/

theorem ownAfter_mem (before : Int → Int → Bool) (own : Levels) (o : Order) (left : Option Nat)
    (x : Order) (hx : x ∈ (ownAfter before own (restsAs o left)).orders) :
    x ∈ own.orders ∨
      (o.orderType_ = OrderType.GoodTillCancel ∧
        x = { o with remainingQuantity_ := x.remainingQuantity_ }) := by
  cases left with
  | none => left; simpa [restsAs, ownAfter] using hx
  | some r =>
    by_cases ht : o.orderType_ = OrderType.GoodTillCancel
    · simp only [restsAs, if_pos ht, ownAfter] at hx
      rw [(push_back_perm _ _ _).mem_iff, List.mem_cons] at hx
      rcases hx with hx | hx
      · right; exact ⟨ht, by rw [hx]⟩
      · left; exact hx
    · left; simpa [restsAs, if_neg ht, ownAfter] using hx

theorem insert_MatchOrders_resting (s : Orderbook) (hI : s.Inv) (o : Order)
    (hid : o.orderId_ ∉ s.orders_) :
    ∀ x ∈ (s.insert o).MatchOrders.1.resting,
      (∃ y ∈ s.resting, x = { y with remainingQuantity_ := x.remainingQuantity_ }) ∨
      (o.orderType_ = OrderType.GoodTillCancel ∧
        x = { o with remainingQuantity_ := x.remainingQuantity_ }) := by
  intro x hx
  simp only [Orderbook.resting, List.mem_append] at hx ⊢
  rcases Side.buy_or_sell o.side_ with hs | hs
  · obtain ⟨_, h2, h3, _, _⟩ := MatchOrders_insert_buy s hI o hs hid
    rw [h2, h3] at hx
    rcases hx with hx | hx
    · rcases ownAfter_mem _ _ _ _ x hx with h | h
      · exact Or.inl ⟨x, Or.inl h, rfl⟩
      · exact Or.inr h
    · obtain ⟨y, hy, hxy⟩ := restL_orders _ _ _ x hx
      exact Or.inl ⟨y, Or.inr hy, hxy⟩
  · obtain ⟨_, h2, h3, _, _⟩ := MatchOrders_insert_sell s hI o hs hid
    rw [h2, h3] at hx
    rcases hx with hx | hx
    · obtain ⟨y, hy, hxy⟩ := restL_orders _ _ _ x hx
      exact Or.inl ⟨y, Or.inl hy, hxy⟩
    · rcases ownAfter_mem _ _ _ _ x hx with h | h
      · exact Or.inl ⟨x, Or.inr h, rfl⟩
      · exact Or.inr h

theorem AddOrder_resting (L : PriceLimits) (s : Orderbook) (hI : s.Inv) (o : Order) :
    ∀ x ∈ (Orderbook.AddOrder L s o).1.resting,
      (∃ y ∈ s.resting, x = { y with remainingQuantity_ := x.remainingQuantity_ }) ∨
      (o.orderType_ = OrderType.GoodTillCancel ∧
        x = { o with remainingQuantity_ := x.remainingQuantity_ }) := by
  intro x hx
  rcases AddOrder_cases L s o with h | h | ⟨hid, o1, h1, _, _, _, h5, h⟩
  · rw [h] at hx; exact Or.inl ⟨x, hx, rfl⟩
  · rw [h] at hx; exact Or.inl ⟨x, hx, rfl⟩
  · rw [h] at hx
    rcases insert_MatchOrders_resting s hI o1 (by rw [h1]; exact hid) x hx with h6 | ⟨h6, h7⟩
    · exact Or.inl h6
    · rcases h5 with h5 | h5
      · subst h5; exact Or.inr ⟨h6, h7⟩
      · rw [h5] at h6; exact absurd h6 (by decide)

theorem CancelOrder_resting (s : Orderbook) (hI : s.Inv) (i : Nat) :
    ∀ x ∈ (s.CancelOrder i).resting, x ∈ s.resting := by
  intro x hx
  by_cases hi : i ∈ s.orders_
  · have hi2 := (hI.book.indexIff i).1 hi
    simp only [List.mem_append, mem_ids] at hi2
    rcases hi2 with ⟨o, ho, rfl⟩ | ⟨o, ho, rfl⟩
    · rw [CancelOrder_bid s hI.book o ho] at hx
      simp only [Orderbook.resting, UpdateBestPrices_bids, emit_bids, UpdateBestPrices_asks,
        emit_asks, List.mem_append] at hx ⊢
      rcases hx with hx | hx
      · exact Or.inl ((remove_orders_sublist _ _ _).subset hx)
      · exact Or.inr hx
    · rw [CancelOrder_ask s hI.book o ho] at hx
      simp only [Orderbook.resting, UpdateBestPrices_bids, emit_bids, UpdateBestPrices_asks,
        emit_asks, List.mem_append] at hx ⊢
      rcases hx with hx | hx
      · exact Or.inl hx
      · exact Or.inr ((remove_orders_sublist _ _ _).subset hx)
  · rw [CancelOrder_of_not_mem s i hi] at hx; exact hx

theorem emit_resting (s : Orderbook) (e : Event) : (s.emit e).resting = s.resting := by
  simp [Orderbook.resting]

theorem step_PriceInv (L : PriceLimits) (s : Orderbook) (hI : s.Inv) (hP : PriceInv L s) (op : Op)
    (hop : Op.Positive L op) : PriceInv L (s.step L op) := by
  cases op with
  | AddOrder t i sd p q =>
    intro x hx
    rcases AddOrder_resting L s hI _ x hx with ⟨y, hy, hxy⟩ | ⟨_, hxy⟩
    · rw [hxy]; exact hP y hy
    · rw [hxy]; exact hop.2
  | CancelOrder i => exact fun x hx => hP x (CancelOrder_resting s hI i x hx)
  | MatchOrder m =>
    intro x hx
    simp only [Orderbook.step, Orderbook.MatchOrder] at hx
    split_ifs at hx with h1
    · exact hP x hx
    · split at hx
      · exact hP x hx
      · have hI2 := CancelOrder_Inv _ (emit_Inv s (modifyEvent m) hI) m.orderId_
        rcases AddOrder_resting L _ hI2 _ x hx with ⟨y, hy, hxy⟩ | ⟨_, hxy⟩
        · rw [hxy]
          have := CancelOrder_resting _ (emit_Inv s (modifyEvent m) hI) m.orderId_ y hy
          rw [emit_resting] at this
          exact hP y this
        · rw [hxy]; exact hop.2
  | MatchOrders => simp only [Orderbook.step]; rw [MatchOrders_of_Inv s hI]; exact hP
  | SetObserver b => exact hP
  | EnableEvents b => exact hP

theorem run_PriceInv (L : PriceLimits) (ops : List Op) : ∀ s : Orderbook, s.Inv → PriceInv L s →
    (∀ op ∈ ops, Op.Positive L op) → PriceInv L (s.run L ops) := by
  induction ops with
  | nil => intro s _ h _; exact h
  | cons op ops ih =>
    intro s hI hP hops
    exact ih _ (step_Inv L s hI op) (step_PriceInv L s hI hP op (hops op (by simp)))
      (fun o ho => hops o (by simp [ho]))

theorem ReachablePos_Reachable (L : PriceLimits) (s : Orderbook) (h : ReachablePos L s) :
    Reachable L s := by
  obtain ⟨ops, _, h⟩ := h
  exact ⟨ops, h⟩

theorem ReachablePos_PriceInv (L : PriceLimits) (s : Orderbook) (h : ReachablePos L s) :
    PriceInv L s := by
  obtain ⟨ops, hops, rfl⟩ := h
  exact run_PriceInv L ops _ empty_Inv (by intro o ho; simp [Orderbook.resting, Orderbook.empty, Levels.orders] at ho) hops

theorem AddOrder_market_buy (L : PriceLimits) (hL : 0 < L.maxPrice) (s : Orderbook) (i : Nat)
    (p : Int) (q : Nat) (hid : i ∉ s.orders_) :
    Orderbook.AddOrder L s (Order.new OrderType.Market i Side.Buy p q) =
      (s.insert (Order.new OrderType.ImmediateOrCancel i Side.Buy L.maxPrice q)).MatchOrders := by
  have h : ¬ L.maxPrice ≤ 0 := by omega
  simp [Orderbook.AddOrder, Order.new, Order.ToImmediateOrCancel, hid, h]

theorem AddOrder_market_sell_faults (L : PriceLimits) (hL : L.minPrice ≤ 0) (s : Orderbook)
    (i : Nat) (p : Int) (q : Nat) (hid : i ∉ s.orders_) :
    Orderbook.AddOrder L s (Order.new OrderType.Market i Side.Sell p q) = (s, none) := by
  simp [Orderbook.AddOrder, Order.new, Order.ToImmediateOrCancel, hid, hL]

theorem not_resting_of_not_index (s : Orderbook) (hI : s.Inv) (i : Nat) (h : i ∉ s.orders_) :
    ∀ o ∈ s.resting, o.orderId_ ≠ i := by
  intro o ho hc
  exact h (hc ▸ mem_index_of_resting s hI.book o ho)

/-! ### The event fields -/

theorem stamp_append (a b : List Event) : ∀ n : Nat,
    stamp n (a ++ b) = stamp n a ++ stamp (n + a.length) b := by
  induction a with
  | nil => intro n; simp [stamp]
  | cons e a ih =>
    intro n
    have h := ih (n + 1)
    rw [show n + 1 + a.length = n + (a.length + 1) by omega] at h
    simp [stamp, h]

theorem stamp_length (a : List Event) : ∀ n : Nat, (stamp n a).length = a.length := by
  induction a with
  | nil => intro n; rfl
  | cons e a ih => intro n; simp [stamp, ih]

theorem Emitted.refl (s : Orderbook) : Emitted s s [] := by
  constructor <;> simp [stamp]

theorem Emitted.emit (s : Orderbook) (e : Event) : Emitted s (s.emit e) [e] := by
  cases he : s.events_enabled_ <;> cases ho : s.observer_ <;>
    constructor <;> simp [Orderbook.emit, Orderbook.EmitEvent, he, ho, stamp]

theorem Emitted.trans {s t u : Orderbook} {a b : List Event} (h1 : Emitted s t a)
    (h2 : Emitted t u b) : Emitted s u (a ++ b) := by
  constructor
  · rw [h2.enabled, h1.enabled]
  · rw [h2.observer, h1.observer]
  · rw [h2.seq, h1.enabled, h1.seq]
    split_ifs
    · rw [List.length_append]; omega
    · rfl
  · rw [h2.delivered, h1.enabled, h1.observer, h1.delivered, h1.seq]
    cases he : s.events_enabled_ <;> cases ho : s.observer_ <;> simp [stamp_append]

theorem Emitted.frame {s t : Orderbook} {evs : List Event} (h : Emitted s t evs) (u : Orderbook)
    (h1 : u.events_enabled_ = t.events_enabled_) (h2 : u.observer_ = t.observer_)
    (h3 : u.event_seq_ = t.event_seq_) (h4 : u.delivered = t.delivered) : Emitted s u evs := by
  constructor
  · rw [h1, h.enabled]
  · rw [h2, h.observer]
  · rw [h3, h.seq]
  · rw [h4, h.delivered]

theorem Emitted.UpdateBestPrices {s t : Orderbook} {evs : List Event} (h : Emitted s t evs) :
    Emitted s t.UpdateBestPrices evs :=
  h.frame _ rfl rfl rfl rfl

theorem Emitted.of_eq {s t : Orderbook} {a b : List Event} (h : Emitted s t a) (hab : a = b) :
    Emitted s t b := hab ▸ h

theorem Emitted.congr {s t : Orderbook} {evs : List Event} (h : Emitted s t evs)
    (s1 t1 : Orderbook)
    (a1 : s1.events_enabled_ = s.events_enabled_) (a2 : s1.observer_ = s.observer_)
    (a3 : s1.event_seq_ = s.event_seq_) (a4 : s1.delivered = s.delivered)
    (b1 : t1.events_enabled_ = t.events_enabled_) (b2 : t1.observer_ = t.observer_)
    (b3 : t1.event_seq_ = t.event_seq_) (b4 : t1.delivered = t.delivered) :
    Emitted s1 t1 evs := by
  constructor
  · rw [b1, a1, h.enabled]
  · rw [b2, a2, h.observer]
  · rw [b3, a1, a3, h.seq]
  · rw [b4, a1, a2, a3, a4, h.delivered]

@[simp]
theorem emit_events_enabled (s : Orderbook) (e : Event) :
    (s.emit e).events_enabled_ = s.events_enabled_ := by
  simp only [Orderbook.emit, Orderbook.EmitEvent]; split <;> [split; skip] <;> rfl

@[simp]
theorem emit_observer (s : Orderbook) (e : Event) : (s.emit e).observer_ = s.observer_ := by
  simp only [Orderbook.emit, Orderbook.EmitEvent]; split <;> [split; skip] <;> rfl

theorem emit_event_seq (s : Orderbook) (e : Event) :
    (s.emit e).event_seq_ = if s.events_enabled_ then s.event_seq_ + 1 else s.event_seq_ :=
  (Emitted.emit s e).seq

theorem emit_delivered (s : Orderbook) (e : Event) :
    (s.emit e).delivered =
      if s.events_enabled_ && s.observer_ then s.delivered ++ [{ e with seq := s.event_seq_ }]
      else s.delivered :=
  (Emitted.emit s e).delivered

theorem eraseEmptied_frame (s : Orderbook) (bp ap : Int) :
    (s.eraseEmptied bp ap).events_enabled_ = s.events_enabled_ ∧
    (s.eraseEmptied bp ap).observer_ = s.observer_ ∧
    (s.eraseEmptied bp ap).event_seq_ = s.event_seq_ ∧
    (s.eraseEmptied bp ap).delivered = s.delivered ∧
    (s.eraseEmptied bp ap).matchedOrders_ = s.matchedOrders_ := by
  simp only [Orderbook.eraseEmptied]
  split_ifs <;> simp

theorem matchLevel_frame : ∀ (fuel : Nat) (s : Orderbook) (T : List Trade),
    ∃ T1, (s.matchLevel fuel T).2 = some (T ++ T1) ∧
      Emitted s (s.matchLevel fuel T).1 (T1.map eventOfTrade) ∧
      (s.matchLevel fuel T).1.matchedOrders_ = s.matchedOrders_ + T1.length := by
  intro fuel
  induction fuel with
  | zero =>
    intro s T
    exact ⟨[], by simp [Orderbook.matchLevel], Emitted.refl s, rfl⟩
  | succ f ih =>
    intro s T
    have key : ∀ (s4 : Orderbook) (t : Trade), Emitted s s4 [eventOfTrade t] →
        s4.matchedOrders_ = s.matchedOrders_ + 1 →
        ∃ T1, (s4.matchLevel f (T ++ [t])).2 = some (T ++ T1) ∧
          Emitted s (s4.matchLevel f (T ++ [t])).1 (T1.map eventOfTrade) ∧
          (s4.matchLevel f (T ++ [t])).1.matchedOrders_ = s.matchedOrders_ + T1.length := by
      intro s4 t he hm
      obtain ⟨T1, h1, h2, h3⟩ := ih s4 (T ++ [t])
      refine ⟨t :: T1, by simpa using h1, by simpa using he.trans h2, ?_⟩
      rw [h3, hm, List.length_cons]; omega
    rw [Orderbook.matchLevel]
    split
    · simp only [Fill_min_left, Fill_min_right]
      apply key
      · split_ifs <;> constructor <;>
          simp [emit_event_seq, emit_delivered, stamp, eventOfTrade, tradeEvent, mkTrade]
      · split_ifs <;> simp
    · exact ⟨[], by simp, Emitted.refl s, rfl⟩

theorem matchLoop_frame : ∀ (fuel : Nat) (s : Orderbook) (T : List Trade),
    ∃ T1, (s.matchLoop fuel T).2 = some (T ++ T1) ∧
      Emitted s (s.matchLoop fuel T).1 (T1.map eventOfTrade) ∧
      (s.matchLoop fuel T).1.matchedOrders_ = s.matchedOrders_ + T1.length := by
  intro fuel
  induction fuel with
  | zero =>
    intro s T
    exact ⟨[], by simp [Orderbook.matchLoop], Emitted.refl s, rfl⟩
  | succ f ih =>
    intro s T
    rw [Orderbook.matchLoop]
    split
    · rename_i bidPrice bids _ askPrice asks _ hb ha
      split_ifs
      · exact ⟨[], by simp, Emitted.refl s, rfl⟩
      · obtain ⟨T1, h1, h2, h3⟩ := matchLevel_frame (bids.length + asks.length + 1) s T
        rcases hm : s.matchLevel (bids.length + asks.length + 1) T with ⟨s1, r⟩
        rw [hm] at h1 h2 h3
        simp only at h1 h2 h3
        subst h1
        simp only
        obtain ⟨T2, g1, g2, g3⟩ := ih (s1.eraseEmptied bidPrice askPrice) (T ++ T1)
        obtain ⟨e1, e2, e3, e4, e5⟩ := eraseEmptied_frame s1 bidPrice askPrice
        refine ⟨T1 ++ T2, by simpa using g1, ?_, ?_⟩
        · have := h2.trans (g2.congr s1 _ e1.symm e2.symm e3.symm e4.symm rfl rfl rfl rfl)
          simpa using this
        · rw [g3, e5, h3, List.length_append]; omega
    · exact ⟨[], by simp, Emitted.refl s, rfl⟩

theorem CancelOrder_frame (s : Orderbook) (hB : BookInv s.bids_ s.asks_ s.orders_) (o : Order)
    (ho : o ∈ s.resting) :
    Emitted s (s.CancelOrder o.orderId_) [cancelEvent o o.orderId_] ∧
    (s.CancelOrder o.orderId_).matchedOrders_ = s.matchedOrders_ := by
  rcases List.mem_append.1 ho with hb | ha
  · rw [CancelOrder_bid s hB o hb]
    refine ⟨?_, by simp⟩
    constructor <;> simp [emit_event_seq, emit_delivered, stamp, Orderbook.UpdateBestPrices]
  · rw [CancelOrder_ask s hB o ha]
    refine ⟨?_, by simp⟩
    constructor <;> simp [emit_event_seq, emit_delivered, stamp, Orderbook.UpdateBestPrices]

theorem cleanup_buy_frame (s1 : Orderbook) (bids asks : Levels) (orders : List Nat) (o : Order)
    (cr : Int → Bool) (r : Nat) (left : Option Nat)
    (hB : BookInv bids asks orders)
    (hg : ∀ x ∈ bids.orders ++ asks.orders, x.orderType_ = OrderType.GoodTillCancel)
    (hid : o.orderId_ ∉ orders) (hs : o.side_ = Side.Buy)
    (hp : ∀ r1, left = some r1 → ∀ a ∈ restL cr r asks, o.price_ < a.1)
    (h1 : s1.bids_ = ownAfterLoop bidBefore o bids left) (h2 : s1.asks_ = restL cr r asks)
    (h3 : s1.orders_ = eraseAll (o.orderId_ :: orders) (goneL cr r asks ++ aggressorGone o left)) :
    Emitted s1 ((s1.cleanup_side s1.bids_).cleanup_side (s1.cleanup_side s1.bids_).asks_)
      (cleanupEvents o left) ∧
    ((s1.cleanup_side s1.bids_).cleanup_side (s1.cleanup_side s1.bids_).asks_).matchedOrders_ =
      s1.matchedOrders_ := by
  have hBs := BookInv_sweep_asks hB cr r
  have hga : ∀ x ∈ (restL cr r asks).orders, x.orderType_ = OrderType.GoodTillCancel :=
    restL_gtc cr asks r (fun x hx => hg x (List.mem_append_right _ hx))
  have hgb : ∀ x ∈ bids.orders, x.orderType_ = OrderType.GoodTillCancel :=
    fun x hx => hg x (List.mem_append_left _ hx)
  have hta := to_cancel_nil _ hga
  have hgone : o.orderId_ ∉ goneL cr r asks := fun hc =>
    hid ((hB.indexIff _).2 (List.mem_append_right _ (goneL_subset cr asks r _ hc)))
  have hid2 : o.orderId_ ∉ eraseAll orders (goneL cr r asks) := fun hc =>
    hid ((eraseAll_sublist _ _).subset hc)
  cases left with
  | none =>
    simp only [ownAfterLoop] at h1
    have e1 : s1.cleanup_side s1.bids_ = s1 :=
      cleanup_side_nil _ _ (by rw [h1]; exact to_cancel_nil _ hgb)
    have e2 : s1.cleanup_side s1.asks_ = s1 := cleanup_side_nil _ _ (by rw [h2]; exact hta)
    rw [e1, e2]
    exact ⟨Emitted.refl s1, rfl⟩
  | some r1 =>
    simp only [ownAfterLoop] at h1
    simp only [aggressorGone, List.append_nil] at h3
    rw [eraseAll_cons_of_not_mem _ _ _ hgone] at h3
    have hBp := BookInv_push_bid hBs { o with remainingQuantity_ := r1 } hid2 hs
      (hp r1 rfl)
    by_cases ht : o.orderType_ = OrderType.GoodTillCancel
    · have e1 : s1.cleanup_side s1.bids_ = s1 :=
        cleanup_side_nil _ _ (by rw [h1, to_cancel_push_back _ _ _ hgb]; simp [ht])
      have e2 : s1.cleanup_side s1.asks_ = s1 := cleanup_side_nil _ _ (by rw [h2]; exact hta)
      rw [e1, e2]
      simp only [cleanupEvents, if_pos ht]
      exact ⟨Emitted.refl s1, trivial⟩
    · have e1 : s1.cleanup_side s1.bids_ = s1.CancelOrder o.orderId_ :=
        cleanup_side_single _ _ _ (by rw [h1, to_cancel_push_back _ _ _ hgb]; simp [ht])
      have hB1 : BookInv s1.bids_ s1.asks_ s1.orders_ := by rw [h1, h2, h3]; exact hBp
      have hmem : ({ o with remainingQuantity_ := r1 } : Order) ∈ s1.bids_.orders := by
        rw [h1, (push_back_perm _ _ _).mem_iff]; simp
      have e3 := CancelOrder_bid s1 hB1 { o with remainingQuantity_ := r1 } hmem
      simp only at e3
      have e2 : (s1.CancelOrder o.orderId_).cleanup_side (s1.CancelOrder o.orderId_).asks_ =
          s1.CancelOrder o.orderId_ :=
        cleanup_side_nil _ _ (by rw [e3]; simp [h2, hta])
      rw [e1, e2]
      simp only [cleanupEvents, if_neg ht]
      exact CancelOrder_frame s1 hB1 { o with remainingQuantity_ := r1 }
        (List.mem_append_left _ hmem)

theorem cleanup_sell_frame (s1 : Orderbook) (bids asks : Levels) (orders : List Nat) (o : Order)
    (cr : Int → Bool) (r : Nat) (left : Option Nat)
    (hB : BookInv bids asks orders)
    (hg : ∀ x ∈ bids.orders ++ asks.orders, x.orderType_ = OrderType.GoodTillCancel)
    (hid : o.orderId_ ∉ orders) (hs : o.side_ = Side.Sell)
    (hp : ∀ r1, left = some r1 → ∀ b ∈ restL cr r bids, b.1 < o.price_)
    (h1 : s1.asks_ = ownAfterLoop askBefore o asks left) (h2 : s1.bids_ = restL cr r bids)
    (h3 : s1.orders_ = eraseAll (o.orderId_ :: orders) (goneL cr r bids ++ aggressorGone o left)) :
    Emitted s1 ((s1.cleanup_side s1.bids_).cleanup_side (s1.cleanup_side s1.bids_).asks_)
      (cleanupEvents o left) ∧
    ((s1.cleanup_side s1.bids_).cleanup_side (s1.cleanup_side s1.bids_).asks_).matchedOrders_ =
      s1.matchedOrders_ := by
  have hBs := BookInv_sweep_bids hB cr r
  have hgb : ∀ x ∈ (restL cr r bids).orders, x.orderType_ = OrderType.GoodTillCancel :=
    restL_gtc cr bids r (fun x hx => hg x (List.mem_append_left _ hx))
  have hga : ∀ x ∈ asks.orders, x.orderType_ = OrderType.GoodTillCancel :=
    fun x hx => hg x (List.mem_append_right _ hx)
  have htb := to_cancel_nil _ hgb
  have hgone : o.orderId_ ∉ goneL cr r bids := fun hc =>
    hid ((hB.indexIff _).2 (List.mem_append_left _ (goneL_subset cr bids r _ hc)))
  have hid2 : o.orderId_ ∉ eraseAll orders (goneL cr r bids) := fun hc =>
    hid ((eraseAll_sublist _ _).subset hc)
  have e1 : s1.cleanup_side s1.bids_ = s1 := cleanup_side_nil _ _ (by rw [h2]; exact htb)
  rw [e1]
  cases left with
  | none =>
    simp only [ownAfterLoop] at h1
    have e2 : s1.cleanup_side s1.asks_ = s1 :=
      cleanup_side_nil _ _ (by rw [h1]; exact to_cancel_nil _ hga)
    rw [e2]
    exact ⟨Emitted.refl s1, rfl⟩
  | some r1 =>
    simp only [ownAfterLoop] at h1
    simp only [aggressorGone, List.append_nil] at h3
    rw [eraseAll_cons_of_not_mem _ _ _ hgone] at h3
    have hBp := BookInv_push_ask hBs { o with remainingQuantity_ := r1 } hid2 hs
      (hp r1 rfl)
    by_cases ht : o.orderType_ = OrderType.GoodTillCancel
    · have e2 : s1.cleanup_side s1.asks_ = s1 :=
        cleanup_side_nil _ _ (by rw [h1, to_cancel_push_back _ _ _ hga]; simp [ht])
      rw [e2]
      simp only [cleanupEvents, if_pos ht]
      exact ⟨Emitted.refl s1, trivial⟩
    · have e2 : s1.cleanup_side s1.asks_ = s1.CancelOrder o.orderId_ :=
        cleanup_side_single _ _ _ (by rw [h1, to_cancel_push_back _ _ _ hga]; simp [ht])
      have hB1 : BookInv s1.bids_ s1.asks_ s1.orders_ := by rw [h1, h2, h3]; exact hBp
      have hmem : ({ o with remainingQuantity_ := r1 } : Order) ∈ s1.asks_.orders := by
        rw [h1, (push_back_perm _ _ _).mem_iff]; simp
      rw [e2]
      simp only [cleanupEvents, if_neg ht]
      exact CancelOrder_frame s1 hB1 { o with remainingQuantity_ := r1 }
        (List.mem_append_right _ hmem)

theorem insert_frame (s : Orderbook) (o : Order) :
    Emitted s (s.insert o) [addEvent o] ∧ (s.insert o).matchedOrders_ = s.matchedOrders_ := by
  simp only [Orderbook.insert]
  refine ⟨?_, by split_ifs <;> simp⟩
  split_ifs <;> constructor <;>
    simp [emit_event_seq, emit_delivered, stamp, Orderbook.UpdateBestPrices]

theorem MatchOrders_insert_buy_frame (s : Orderbook) (hI : s.Inv) (o : Order)
    (hs : o.side_ = Side.Buy) (hid : o.orderId_ ∉ s.orders_) :
    Emitted s (s.insert o).MatchOrders.1
      (addEvent o ::
        ((fillsL (crossBuy o.price_) o.remainingQuantity_ s.asks_).map
          (fun f => eventOfTrade (mkTrade o f.1 f.2)) ++
        cleanupEvents o (leftL (crossBuy o.price_) o.remainingQuantity_ s.asks_))) ∧
    (s.insert o).MatchOrders.1.matchedOrders_ = s.matchedOrders_ +
      (fillsL (crossBuy o.price_) o.remainingQuantity_ s.asks_).length := by
  obtain ⟨i1, i2, i3⟩ := insert_buy s o hs
  obtain ⟨k1, k2, k3, k4⟩ := matchLoop_insert_buy (s.insert o) s.bids_ s.asks_ o
    ((s.insert o).bids_.length + (s.insert o).asks_.length + 1)
    hI.book.asksWF hI.book.noCross i1 i2 (by rw [i2]; omega)
  obtain ⟨T1, f1, f2, f3⟩ := matchLoop_frame
    ((s.insert o).bids_.length + (s.insert o).asks_.length + 1) (s.insert o) []
  simp only [Orderbook.MatchOrders]
  rcases hm : Orderbook.matchLoop ((s.insert o).bids_.length + (s.insert o).asks_.length + 1)
    (s.insert o) [] with ⟨s1, ot⟩
  rw [hm] at k1 k2 k3 k4 f1 f2 f3
  simp only at k1 k2 k3 k4 f1 f2 f3
  subst k1
  simp only [List.nil_append, Option.some.injEq] at f1
  subst f1
  simp only
  rw [i3] at k4
  have hp : ∀ r1, leftL (crossBuy o.price_) o.remainingQuantity_ s.asks_ = some r1 →
      ∀ a ∈ restL (crossBuy o.price_) o.remainingQuantity_ s.asks_, o.price_ < a.1 := by
    intro r1 hl a ha
    have := restL_not_cross (crossBuy o.price_)
      (fun a b hab hb => by
        simp only [askBefore, crossBuy, decide_eq_true_eq] at *; omega)
      s.asks_ _ r1 hI.book.asksWF.sorted hl a ha
    simp only [crossBuy, decide_eq_false_iff_not] at this
    omega
  obtain ⟨c1, c2⟩ := cleanup_buy_frame s1 s.bids_ s.asks_ s.orders_ o (crossBuy o.price_)
    o.remainingQuantity_ _ hI.book hI.gtc hid hs hp k2 k3 k4
  obtain ⟨a1, a2⟩ := insert_frame s o
  constructor
  · have := (a1.trans (f2.trans c1)).UpdateBestPrices
    simpa using this
  · simp only [UpdateBestPrices_matchedOrders]
    rw [c2, f3, a2, List.length_map]

theorem MatchOrders_insert_sell_frame (s : Orderbook) (hI : s.Inv) (o : Order)
    (hs : o.side_ = Side.Sell) (hid : o.orderId_ ∉ s.orders_) :
    Emitted s (s.insert o).MatchOrders.1
      (addEvent o ::
        ((fillsL (crossSell o.price_) o.remainingQuantity_ s.bids_).map
          (fun f => eventOfTrade (mkTrade f.1 o f.2)) ++
        cleanupEvents o (leftL (crossSell o.price_) o.remainingQuantity_ s.bids_))) ∧
    (s.insert o).MatchOrders.1.matchedOrders_ = s.matchedOrders_ +
      (fillsL (crossSell o.price_) o.remainingQuantity_ s.bids_).length := by
  obtain ⟨i1, i2, i3⟩ := insert_sell s o hs
  obtain ⟨k1, k2, k3, k4⟩ := matchLoop_insert_sell (s.insert o) s.bids_ s.asks_ o
    ((s.insert o).bids_.length + (s.insert o).asks_.length + 1)
    hI.book.bidsWF hI.book.noCross i1 i2 (by rw [i1]; omega)
  obtain ⟨T1, f1, f2, f3⟩ := matchLoop_frame
    ((s.insert o).bids_.length + (s.insert o).asks_.length + 1) (s.insert o) []
  simp only [Orderbook.MatchOrders]
  rcases hm : Orderbook.matchLoop ((s.insert o).bids_.length + (s.insert o).asks_.length + 1)
    (s.insert o) [] with ⟨s1, ot⟩
  rw [hm] at k1 k2 k3 k4 f1 f2 f3
  simp only at k1 k2 k3 k4 f1 f2 f3
  subst k1
  simp only [List.nil_append, Option.some.injEq] at f1
  subst f1
  simp only
  rw [i3] at k4
  have hp : ∀ r1, leftL (crossSell o.price_) o.remainingQuantity_ s.bids_ = some r1 →
      ∀ b ∈ restL (crossSell o.price_) o.remainingQuantity_ s.bids_, b.1 < o.price_ := by
    intro r1 hl b hb
    have := restL_not_cross (crossSell o.price_)
      (fun a b hab hb => by
        simp only [bidBefore, crossSell, decide_eq_true_eq] at *; omega)
      s.bids_ _ r1 hI.book.bidsWF.sorted hl b hb
    simp only [crossSell, decide_eq_false_iff_not] at this
    omega
  obtain ⟨c1, c2⟩ := cleanup_sell_frame s1 s.bids_ s.asks_ s.orders_ o (crossSell o.price_)
    o.remainingQuantity_ _ hI.book hI.gtc hid hs hp k2 k3 k4
  obtain ⟨a1, a2⟩ := insert_frame s o
  constructor
  · have := (a1.trans (f2.trans c1)).UpdateBestPrices
    simpa using this
  · simp only [UpdateBestPrices_matchedOrders]
    rw [c2, f3, a2, List.length_map]

theorem leftQ_eq (xs : List Order) : ∀ r : Nat,
    leftQ r xs = if fillsQ r xs ≠ [] ∧ ((fillsQ r xs).map (fun f => f.2)).sum = r then none
      else some (r - ((fillsQ r xs).map (fun f => f.2)).sum) := by
  induction xs with
  | nil => intro r; simp [leftQ, fillsQ]
  | cons x xs ih =>
    intro r
    by_cases h : r ≤ x.remainingQuantity_
    · simp [leftQ, fillsQ, h]
    · have hs := fillsQ_sum xs (r - x.remainingQuantity_)
      simp only [leftQ, fillsQ, h, if_false, ih (r - x.remainingQuantity_), List.map_cons,
        List.sum_cons, ne_eq, reduceCtorEq, not_false_eq_true, true_and]
      by_cases h2 : ((fillsQ (r - x.remainingQuantity_) xs).map (fun f => f.2)).sum =
          r - x.remainingQuantity_
      · have h3 : fillsQ (r - x.remainingQuantity_) xs ≠ [] := by
          intro hc
          rw [hc] at h2
          simp at h2
          omega
        rw [if_pos ⟨h3, h2⟩, if_pos (by omega)]
      · rw [if_neg (fun hc => h2 hc.2), if_neg (by omega)]
        congr 1
        omega

theorem leftL_eq (cr : Int → Bool) (A : Levels) : ∀ r : Nat,
    leftL cr r A = if fillsL cr r A ≠ [] ∧ ((fillsL cr r A).map (fun f => f.2)).sum = r then none
      else some (r - ((fillsL cr r A).map (fun f => f.2)).sum) := by
  induction A with
  | nil => intro r; simp [leftL, fillsL]
  | cons l A ih =>
    intro r
    obtain ⟨p, xs⟩ := l
    by_cases hc : cr p = true
    · have hq := leftQ_eq xs r
      have hs := fillsQ_sum xs r
      simp only [leftL, fillsL, hc, if_true]
      cases hl : leftQ r xs with
      | none =>
        rw [hl] at hq
        simp only [List.append_nil]
        split_ifs at hq with h1
        rw [if_pos h1]
      | some r1 =>
        rw [hl] at hq
        split_ifs at hq with h1
        simp only [Option.some.injEq] at hq
        simp only [ih r1, List.map_append, List.sum_append, ne_eq, List.append_eq_nil, not_and]
        have hs1 : ((fillsL cr r1 A).map (fun f => f.2)).sum ≤ r1 := by
          rw [fillsL_eq, fillsQ_sum]; exact Nat.min_le_left _ _
        by_cases h2 : fillsL cr r1 A ≠ [] ∧ ((fillsL cr r1 A).map (fun f => f.2)).sum = r1
        · rw [if_pos h2, if_pos]
          exact ⟨fun _ => h2.1, by omega⟩
        · rw [if_neg h2, if_neg]
          · congr 1; omega
          · rintro ⟨g1, g2⟩
            apply h2
            by_cases h3 : fillsL cr r1 A = []
            · exact absurd ⟨fun hc2 => g1 hc2 h3, by simpa [h3] using g2⟩ h1
            · exact ⟨h3, by omega⟩
    · simp [leftL, fillsL, hc]

theorem leftover_map (q : Nat) (fills : List (Order × Nat)) (g : Order × Nat → Trade)
    (hg : ∀ f, (g f).bidTrade_.quantity_ = f.2) :
    leftover q (fills.map g) =
      if fills ≠ [] ∧ (fills.map (fun f => f.2)).sum = q then none
      else some (q - (fills.map (fun f => f.2)).sum) := by
  have h : total_qty (fills.map g) = (fills.map (fun f => f.2)).sum := by
    simp only [total_qty, List.map_map]
    congr 1
    exact List.map_congr_left (fun f _ => hg f)
  simp only [leftover, h, ne_eq, List.map_eq_nil_iff]

theorem insert_MatchOrders_frame (s : Orderbook) (hI : s.Inv) (o : Order)
    (hid : o.orderId_ ∉ s.orders_) :
    ∃ trades, (s.insert o).MatchOrders.2 = some trades ∧
      Emitted s (s.insert o).MatchOrders.1
        (addEvent o :: (trades.map eventOfTrade ++
          cleanupEvents o (leftover o.remainingQuantity_ trades))) ∧
      (s.insert o).MatchOrders.1.matchedOrders_ = s.matchedOrders_ + trades.length := by
  rcases Side.buy_or_sell o.side_ with hs | hs
  · obtain ⟨h1, h2⟩ := MatchOrders_insert_buy_frame s hI o hs hid
    refine ⟨_, (MatchOrders_insert_buy s hI o hs hid).1, ?_, by simpa using h2⟩
    rw [leftover_map _ _ _ (fun f => rfl), ← leftL_eq, List.map_map]
    exact h1
  · obtain ⟨h1, h2⟩ := MatchOrders_insert_sell_frame s hI o hs hid
    refine ⟨_, (MatchOrders_insert_sell s hI o hs hid).1, ?_, by simpa using h2⟩
    rw [leftover_map _ _ _ (fun f => rfl), ← leftL_eq, List.map_map]
    exact h1

/-! ### The index -/

theorem keys_nodup {before : Int → Int → Bool} (hb : IsBookOrder before) {side : Side}
    {m : Levels} (hw : Levels.WF before side m) : (m.map Prod.fst).Nodup := by
  rw [List.Nodup, List.pairwise_map]
  refine hw.sorted.imp ?_
  intro a b hab heq
  rcases hb with rfl | rfl <;> simp [bidBefore, askBefore, heq] at hab

theorem CancelOrder_index (s : Orderbook) (hI : s.Inv) (i : Nat) :
    (s.CancelOrder i).orders_ = s.orders_.erase i := by
  by_cases h : i ∈ s.orders_
  · obtain ⟨o, ho, rfl⟩ : ∃ o ∈ s.resting, o.orderId_ = i := by
      have := (hI.book.indexIff i).1 h
      simpa [Levels.ids, Orderbook.resting, List.mem_map, or_and_right, exists_or] using this
    rcases List.mem_append.1 ho with hb | ha
    · rw [CancelOrder_bid s hI.book o hb]; simp
    · rw [CancelOrder_ask s hI.book o ha]; simp
  · rw [CancelOrder_of_not_mem s i h, List.erase_of_not_mem h]

theorem size_eq_resting (s : Orderbook) (hI : s.Inv) : s.Size = s.resting.length := by
  have hp : s.orders_.Perm (s.resting.map (fun o => o.orderId_)) := by
    rw [List.perm_ext_iff_of_nodup hI.book.indexNodup (resting_nodup_of_BookInv s hI.book)]
    intro i
    rw [hI.book.indexIff i]
    simp [Levels.ids, Orderbook.resting]
  simpa [Orderbook.Size] using hp.length_eq

/-! ### The queue of a price level -/

theorem queue_nil (p : Int) : Levels.queue [] p = [] := rfl

theorem queue_cons (l : Int × List Order) (m : Levels) (p : Int) :
    Levels.queue (l :: m) p = if l.1 = p then l.2 else Levels.queue m p := by
  by_cases h : l.1 = p <;> simp [Levels.queue, List.find?_cons, h]

theorem queue_of_not_key (m : Levels) (p : Int) (h : ∀ l ∈ m, l.1 ≠ p) :
    Levels.queue m p = [] := by
  induction m with
  | nil => rfl
  | cons l m ih =>
    rw [queue_cons, if_neg (h l (List.mem_cons_self _ _))]
    exact ih (fun x hx => h x (List.mem_cons_of_mem _ hx))

theorem queue_push_back {before : Int → Int → Bool} (hb : IsBookOrder before) (o : Order)
    (m : Levels) (hs : m.Pairwise (fun a b => before a.1 b.1 = true)) (p : Int) :
    Levels.queue (Levels.push_back before o m) p =
      if p = o.price_ then Levels.queue m o.price_ ++ [o] else Levels.queue m p := by
  induction m with
  | nil =>
    by_cases h : p = o.price_ <;> simp [Levels.push_back, queue_cons, queue_nil, h, eq_comm]
  | cons l m ih =>
    obtain ⟨lp, lq⟩ := l
    have hs2 := List.pairwise_cons.1 hs
    by_cases h1 : o.price_ = lp
    · simp only [Levels.push_back, if_pos h1, queue_cons]
      split_ifs with a b b <;> first | rfl | (exfalso; omega)
    · by_cases h2 : before o.price_ lp = true
      · simp only [Levels.push_back, if_neg h1, if_pos h2, queue_cons]
        have hnk : Levels.queue m o.price_ = [] := by
          apply queue_of_not_key
          intro x hx hc
          have h3 := hs2.1 x hx
          rw [hc] at h3
          rcases hb with rfl | rfl <;>
            simp only [bidBefore, askBefore, decide_eq_true_eq] at h2 h3 <;> omega
        rw [hnk]
        split_ifs with a b b <;> first | rfl | (exfalso; omega)
      · simp only [Levels.push_back, if_neg h1, if_neg h2, queue_cons, ih hs2.2]
        split_ifs with a b b <;> first | rfl | (exfalso; omega)

theorem eraseP_id_eq_erase (l : List Order) (o : Order)
    (hn : (l.map (fun x => x.orderId_)).Nodup) (ho : o ∈ l) :
    l.eraseP (fun x => x.orderId_ == o.orderId_) = l.erase o := by
  induction l with
  | nil => simp at ho
  | cons x l ih =>
    simp only [List.map_cons, List.nodup_cons] at hn
    by_cases hx : x = o
    · subst hx; simp
    · have ho2 : o ∈ l := by
        rcases List.mem_cons.1 ho with h | h
        · exact absurd h.symm hx
        · exact h
      have hne : ¬ x.orderId_ = o.orderId_ := by
        intro hc
        exact hn.1 (List.mem_map.2 ⟨o, ho2, hc.symm⟩)
      rw [List.eraseP_cons_of_neg (by simpa using hne), ih hn.2 ho2,
        List.erase_cons_tail (by simpa using hx)]

theorem eraseP_id_of_not_mem (l : List Order) (i : Nat) (h : ∀ x ∈ l, x.orderId_ ≠ i) :
    l.eraseP (fun x => x.orderId_ == i) = l := by
  apply List.eraseP_of_forall_not
  intro x hx
  simpa using h x hx

theorem queue_remove (m : Levels) (hk : (m.map Prod.fst).Nodup) (price : Int) (i : Nat)
    (p : Int) :
    Levels.queue (Levels.remove price i m) p =
      if p = price then (Levels.queue m price).eraseP (fun o => o.orderId_ == i)
      else Levels.queue m p := by
  induction m with
  | nil => simp [Levels.remove, queue_nil]
  | cons l m ih =>
    obtain ⟨lp, lq⟩ := l
    simp only [List.map_cons, List.nodup_cons] at hk
    by_cases h1 : lp = price
    · have hnk : Levels.queue m price = [] := by
        apply queue_of_not_key
        intro x hx hc
        exact hk.1 (List.mem_map.2 ⟨x, hx, by rw [hc, h1]⟩)
      simp only [Levels.remove, if_pos h1]
      by_cases a : p = price
      · rw [if_pos a, a]
        cases he : lq.eraseP (fun o => o.orderId_ == i) with
        | nil => simp [queue_cons, h1, he, hnk]
        | cons x xs => simp [queue_cons, h1, he]
      · have a2 : ¬ lp = p := fun hc => a (by rw [← hc, h1])
        rw [if_neg a]
        cases he : lq.eraseP (fun o => o.orderId_ == i) with
        | nil => simp [queue_cons, a2]
        | cons x xs => simp [queue_cons, a2]
    · simp only [Levels.remove, if_neg h1, queue_cons, ih hk.2]
      split_ifs with a b <;> first | rfl | (exfalso; omega)

theorem remove_orders_erase {before : Int → Int → Bool} (hb : IsBookOrder before) {side : Side}
    {m : Levels} (hw : Levels.WF before side m) (hn : m.ids.Nodup) (o : Order)
    (ho : o ∈ m.orders) :
    (Levels.remove o.price_ o.orderId_ m).orders = m.orders.erase o := by
  induction m with
  | nil => simp [Levels.orders] at ho
  | cons l m ih =>
    obtain ⟨lp, lq⟩ := l
    rw [ids_cons, List.nodup_append] at hn
    by_cases h1 : lp = o.price_
    · have hoq : o ∈ lq := by
        rw [orders_cons, List.mem_append] at ho
        rcases ho with h | h
        · exact h
        · exfalso
          obtain ⟨lvl, hl, hol⟩ := mem_orders.1 h
          have h2 := (hw.located lvl (List.mem_cons_of_mem _ hl) o hol).2
          have h3 := (List.pairwise_cons.1 hw.sorted).1 lvl hl
          rw [← h2, ← h1] at h3
          rcases hb with rfl | rfl <;> simp [bidBefore, askBefore] at h3
      simp only [Levels.remove, if_pos h1]
      rw [eraseP_id_eq_erase lq o hn.1 hoq]
      cases he : lq.erase o with
      | nil => rw [orders_cons, List.erase_append_left _ hoq, he, List.nil_append]
      | cons x xs => rw [orders_cons, orders_cons, List.erase_append_left _ hoq, he]
    · have hoq : o ∉ lq := fun hc =>
        h1 (hw.located (lp, lq) (List.mem_cons_self _ _) o hc).2.symm
      have ho2 : o ∈ Levels.orders m := by
        rw [orders_cons, List.mem_append] at ho
        exact ho.resolve_left hoq
      simp only [Levels.remove, if_neg h1]
      rw [orders_cons, orders_cons, ih (WF_tail hw) hn.2.1 ho2, List.erase_append_right _ hoq]

theorem queue_cases (m : Levels) (p : Int) :
    Levels.queue m p = [] ∨ ∃ lvl ∈ m, lvl.1 = p ∧ Levels.queue m p = lvl.2 := by
  induction m with
  | nil => exact Or.inl rfl
  | cons l m ih =>
    rw [queue_cons]
    by_cases h : l.1 = p
    · rw [if_pos h]
      exact Or.inr ⟨l, List.mem_cons_self _ _, h, rfl⟩
    · rw [if_neg h]
      rcases ih with h1 | ⟨lvl, h1, h2, h3⟩
      · exact Or.inl h1
      · exact Or.inr ⟨lvl, List.mem_cons_of_mem _ h1, h2, h3⟩

theorem queue_of_mem (m : Levels) (hk : (m.map Prod.fst).Nodup) (lvl : Int × List Order)
    (hl : lvl ∈ m) : Levels.queue m lvl.1 = lvl.2 := by
  induction m with
  | nil => simp at hl
  | cons l m ih =>
    simp only [List.map_cons, List.nodup_cons] at hk
    rw [queue_cons]
    rcases List.mem_cons.1 hl with h | h
    · rw [h, if_pos rfl]
    · rw [if_neg, ih hk.2 h]
      intro hc
      exact hk.1 (List.mem_map.2 ⟨lvl, h, hc.symm⟩)

theorem level_sublist (m : Levels) (lvl : Int × List Order) (hl : lvl ∈ m) :
    lvl.2.Sublist m.orders := by
  induction m with
  | nil => simp at hl
  | cons l m ih =>
    obtain ⟨lp, lq⟩ := l
    rw [orders_cons]
    rcases List.mem_cons.1 hl with h | h
    · rw [h]; exact List.sublist_append_left _ _
    · exact (ih h).trans (List.sublist_append_right _ _)

theorem queue_sublist (m : Levels) (p : Int) : (Levels.queue m p).Sublist m.orders := by
  rcases queue_cases m p with h | ⟨lvl, h1, _, h3⟩
  · rw [h]; exact List.nil_sublist _
  · rw [h3]; exact level_sublist m lvl h1

theorem queue_located {before : Int → Int → Bool} {side : Side} {m : Levels}
    (hw : Levels.WF before side m) (p : Int) :
    ∀ x ∈ Levels.queue m p, x.side_ = side ∧ x.price_ = p := by
  rcases queue_cases m p with h | ⟨lvl, h1, h2, h3⟩
  · rw [h]; simp
  · rw [h3, ← h2]; exact hw.located lvl h1

theorem mem_queue {before : Int → Int → Bool} (hb : IsBookOrder before) {side : Side}
    {m : Levels} (hw : Levels.WF before side m) (o : Order) (ho : o ∈ m.orders) :
    o ∈ Levels.queue m o.price_ := by
  obtain ⟨lvl, hl, hol⟩ := mem_orders.1 ho
  rw [(hw.located lvl hl o hol).2, queue_of_mem m (keys_nodup hb hw) lvl hl]
  exact hol

theorem queue_remove_erase {before : Int → Int → Bool} (hb : IsBookOrder before) {side : Side}
    {m : Levels} (hw : Levels.WF before side m) (hn : m.ids.Nodup) (o : Order)
    (ho : o ∈ m.orders) (p : Int) :
    Levels.queue (Levels.remove o.price_ o.orderId_ m) p = (Levels.queue m p).erase o := by
  rw [queue_remove m (keys_nodup hb hw)]
  by_cases h : p = o.price_
  · rw [if_pos h, h]
    exact eraseP_id_eq_erase _ o
      (((queue_sublist m o.price_).map _).nodup hn) (mem_queue hb hw o ho)
  · rw [if_neg h, List.erase_of_not_mem]
    exact fun hc => h (queue_located hw p o hc).2.symm

theorem queue_erase_of_not_mem (m : Levels) (o : Order) (ho : o ∉ m.orders) (p : Int) :
    (Levels.queue m p).erase o = Levels.queue m p :=
  List.erase_of_not_mem (fun hc => ho ((queue_sublist m p).subset hc))

theorem CancelOrder_removes (s : Orderbook) (hI : s.Inv) (o : Order) (ho : o ∈ s.resting) :
    (s.CancelOrder o.orderId_).resting = s.resting.erase o ∧
    (∀ p, Levels.queue (s.CancelOrder o.orderId_).bids_ p = (Levels.queue s.bids_ p).erase o) ∧
    (∀ p, Levels.queue (s.CancelOrder o.orderId_).asks_ p = (Levels.queue s.asks_ p).erase o) := by
  have hn := hI.book.idsNodup
  rw [List.nodup_append] at hn
  rcases List.mem_append.1 ho with hb | ha
  · have hna : o ∉ s.asks_.orders := fun hc => by
      have h1 := side_of_mem_bids hI.book.bidsWF hb
      have h2 := side_of_mem_asks hI.book.asksWF hc
      rw [h1] at h2; exact absurd h2 (by simp)
    rw [CancelOrder_bid s hI.book o hb]
    refine ⟨?_, fun p => ?_, fun p => ?_⟩
    · simp only [Orderbook.resting, UpdateBestPrices_bids, UpdateBestPrices_asks, emit_bids,
        emit_asks]
      rw [remove_orders_erase (Or.inl rfl) hI.book.bidsWF hn.1 o hb,
        List.erase_append_left _ hb]
    · simp only [UpdateBestPrices_bids, emit_bids]
      exact queue_remove_erase (Or.inl rfl) hI.book.bidsWF hn.1 o hb p
    · simp only [UpdateBestPrices_asks, emit_asks]
      exact (queue_erase_of_not_mem _ o hna p).symm
  · have hnb : o ∉ s.bids_.orders := fun hc => by
      have h1 := side_of_mem_bids hI.book.bidsWF hc
      have h2 := side_of_mem_asks hI.book.asksWF ha
      rw [h1] at h2; exact absurd h2 (by simp)
    rw [CancelOrder_ask s hI.book o ha]
    refine ⟨?_, fun p => ?_, fun p => ?_⟩
    · simp only [Orderbook.resting, UpdateBestPrices_bids, UpdateBestPrices_asks, emit_bids,
        emit_asks]
      rw [remove_orders_erase (Or.inr rfl) hI.book.asksWF hn.2.1 o ha,
        List.erase_append_right _ hnb]
    · simp only [UpdateBestPrices_bids, emit_bids]
      exact (queue_erase_of_not_mem _ o hnb p).symm
    · simp only [UpdateBestPrices_asks, emit_asks]
      exact queue_remove_erase (Or.inr rfl) hI.book.asksWF hn.2.1 o ha p

theorem insert_Inv (s : Orderbook) (hI : s.Inv) (o : Order) (hid : o.orderId_ ∉ s.orders_)
    (ht : o.orderType_ = OrderType.GoodTillCancel)
    (hno : match o.side_ with
      | Side.Buy => ∀ lvl ∈ s.asks_.head?, o.price_ < lvl.1
      | Side.Sell => ∀ lvl ∈ s.bids_.head?, lvl.1 < o.price_) :
    (s.insert o).Inv := by
  rcases Side.buy_or_sell o.side_ with hs | hs
  · rw [hs] at hno
    simp only at hno
    have hp : ∀ a ∈ s.asks_, o.price_ < a.1 := by
      intro a ha
      cases hA : s.asks_ with
      | nil => rw [hA] at ha; simp at ha
      | cons l A =>
        have h1 := hno l (by simp [hA])
        rw [hA] at ha
        rcases List.mem_cons.1 ha with h | h
        · rw [h]; exact h1
        · have h2 := hI.book.asksWF.sorted
          rw [hA] at h2
          have h3 := (List.pairwise_cons.1 h2).1 a h
          simp only [askBefore, decide_eq_true_eq] at h3
          omega
    obtain ⟨i1, i2, i3⟩ := insert_buy s o hs
    have hB := BookInv_push_bid hI.book o hid hs hp
    simp only [Orderbook.insert, if_pos hs]
    apply emit_Inv
    refine ⟨hB, ?_, rfl, rfl⟩
    intro x hx
    simp only [Orderbook.resting, Orderbook.UpdateBestPrices, List.mem_append,
      (push_back_perm _ _ _).mem_iff, List.mem_cons] at hx
    rcases hx with (hx | hx) | hx
    · rw [hx]; exact ht
    · exact hI.gtc x (List.mem_append_left _ hx)
    · exact hI.gtc x (List.mem_append_right _ hx)
  · rw [hs] at hno
    simp only at hno
    have hp : ∀ b ∈ s.bids_, b.1 < o.price_ := by
      intro b hb
      cases hB : s.bids_ with
      | nil => rw [hB] at hb; simp at hb
      | cons l B =>
        have h1 := hno l (by simp [hB])
        rw [hB] at hb
        rcases List.mem_cons.1 hb with h | h
        · rw [h]; exact h1
        · have h2 := hI.book.bidsWF.sorted
          rw [hB] at h2
          have h3 := (List.pairwise_cons.1 h2).1 b h
          simp only [bidBefore, decide_eq_true_eq] at h3
          omega
    have hB := BookInv_push_ask hI.book o hid hs hp
    have hs2 : ¬ o.side_ = Side.Buy := by rw [hs]; simp
    simp only [Orderbook.insert, if_neg hs2]
    apply emit_Inv
    refine ⟨hB, ?_, rfl, rfl⟩
    intro x hx
    simp only [Orderbook.resting, Orderbook.UpdateBestPrices, List.mem_append,
      (push_back_perm _ _ _).mem_iff, List.mem_cons] at hx
    rcases hx with hx | hx | hx
    · exact hI.gtc x (List.mem_append_left _ hx)
    · rw [hx]; exact ht
    · exact hI.gtc x (List.mem_append_right _ hx)

theorem AddOrder_GTC_not_crossing (L : PriceLimits) (s : Orderbook) (hI : s.Inv) (i : Nat)
    (side : Side) (p : Int) (q : Nat) (hid : i ∉ s.orders_)
    (hno : match side with
      | Side.Buy => ∀ lvl ∈ s.asks_.head?, p < lvl.1
      | Side.Sell => ∀ lvl ∈ s.bids_.head?, lvl.1 < p) :
    Orderbook.AddOrder L s (Order.new OrderType.GoodTillCancel i side p q) =
      (s.insert (Order.new OrderType.GoodTillCancel i side p q), some []) := by
  rw [AddOrder_GTC L s i side p q hid]
  exact MatchOrders_of_Inv _ (insert_Inv s hI _ hid rfl hno)

/-! ### Conservation of quantity -/

theorem remIn_nil (i : Nat) : remIn i [] = 0 := rfl

theorem remIn_cons (i : Nat) (x : Order) (l : List Order) :
    remIn i (x :: l) = (if x.orderId_ = i then x.remainingQuantity_ else 0) + remIn i l := by
  by_cases h : x.orderId_ = i <;> simp [remIn, List.filter_cons, h]

theorem remIn_append (i : Nat) (a b : List Order) :
    remIn i (a ++ b) = remIn i a + remIn i b := by
  simp [remIn]

theorem remIn_perm (i : Nat) {a b : List Order} (h : a.Perm b) : remIn i a = remIn i b :=
  ((h.filter _).map _).sum_eq

theorem remIn_of_not_mem (i : Nat) (l : List Order) (h : ∀ x ∈ l, x.orderId_ ≠ i) :
    remIn i l = 0 := by
  induction l with
  | nil => rfl
  | cons x l ih =>
    rw [remIn_cons, if_neg (h x (List.mem_cons_self _ _)),
      ih (fun y hy => h y (List.mem_cons_of_mem _ hy))]

theorem remIn_of_mem (l : List Order) (hn : (l.map (fun o => o.orderId_)).Nodup) (x : Order)
    (hx : x ∈ l) : remIn x.orderId_ l = x.remainingQuantity_ := by
  induction l with
  | nil => simp at hx
  | cons y l ih =>
    simp only [List.map_cons, List.nodup_cons] at hn
    rw [remIn_cons]
    rcases List.mem_cons.1 hx with h | h
    · subst h
      rw [if_pos rfl, remIn_of_not_mem]
      · rfl
      · intro z hz hc
        exact hn.1 (List.mem_map.2 ⟨z, hz, hc⟩)
    · rw [if_neg, ih hn.2 h, Nat.zero_add]
      intro hc
      exact hn.1 (List.mem_map.2 ⟨x, h, hc.symm⟩)

theorem fillOf_nil (i : Nat) : fillOf i [] = 0 := rfl

theorem fillOf_cons (i : Nat) (f : Order × Nat) (l : List (Order × Nat)) :
    fillOf i (f :: l) = (if f.1.orderId_ = i then f.2 else 0) + fillOf i l := by
  by_cases h : f.1.orderId_ = i <;> simp [fillOf, List.filter_cons, h]

theorem fillOf_append (i : Nat) (a b : List (Order × Nat)) :
    fillOf i (a ++ b) = fillOf i a + fillOf i b := by
  simp [fillOf]

theorem remIn_restQ (i : Nat) (xs : List Order) : ∀ r : Nat,
    remIn i xs = remIn i (restQ r xs) + fillOf i (fillsQ r xs) := by
  induction xs with
  | nil => intro r; rfl
  | cons x xs ih =>
    intro r
    rcases Nat.lt_trichotomy r x.remainingQuantity_ with h | h | h
    · simp only [restQ, fillsQ, if_pos h, if_pos (Nat.le_of_lt h), remIn_cons, fillOf_cons,
        fillOf_nil]
      split_ifs <;> omega
    · have h1 : ¬ r < x.remainingQuantity_ := by omega
      simp only [restQ, fillsQ, if_neg h1, if_pos h, if_pos (Nat.le_of_eq h), remIn_cons,
        fillOf_cons, fillOf_nil]
      split_ifs <;> omega
    · have h1 : ¬ r < x.remainingQuantity_ := by omega
      have h2 : ¬ r = x.remainingQuantity_ := by omega
      have h3 : ¬ r ≤ x.remainingQuantity_ := by omega
      simp only [restQ, fillsQ, if_neg h1, if_neg h2, if_neg h3, remIn_cons, fillOf_cons]
      rw [ih (r - x.remainingQuantity_)]
      split_ifs <;> omega

theorem remIn_restL (i : Nat) (cr : Int → Bool) (A : Levels) : ∀ r : Nat,
    remIn i A.orders = remIn i (restL cr r A).orders + fillOf i (fillsL cr r A) := by
  induction A with
  | nil => intro r; rfl
  | cons l A ih =>
    intro r
    obtain ⟨p, xs⟩ := l
    by_cases hc : cr p = true
    · have hq := remIn_restQ i xs r
      cases hl : leftQ r xs with
      | none =>
        cases hr : restQ r xs with
        | nil =>
          rw [hr] at hq
          simp only [restL, fillsL, hc, hl, hr, if_true, orders_cons, remIn_append,
            fillOf_append, fillOf_nil, remIn_nil] at hq ⊢
          omega
        | cons y ys =>
          rw [hr] at hq
          simp only [restL, fillsL, hc, hl, hr, if_true, orders_cons, remIn_append,
            fillOf_append, fillOf_nil] at hq ⊢
          omega
      | some r1 =>
        rw [restQ_of_leftQ_some xs r r1 hl] at hq
        simp only [restL, fillsL, hc, hl, if_true, orders_cons, remIn_append,
          fillOf_append, remIn_nil] at hq ⊢
        rw [ih r1, hq]
        omega
    · simp [restL, fillsL, hc, fillOf_nil]

theorem traded_map_buy (o : Order) (fills : List (Order × Nat)) (j : Nat) :
    tradedQuantity j (fills.map (fun f => mkTrade o f.1 f.2)) =
      if j = o.orderId_ then (fills.map (fun f => f.2)).sum else fillOf j fills := by
  induction fills with
  | nil => simp [tradedQuantity, fillOf]
  | cons f fills ih =>
    simp only [tradedQuantity, fillOf, List.map_cons, List.filter_cons, mkTrade] at ih ⊢
    by_cases h : j = o.orderId_
    · simp only [h, if_true, beq_self_eq_true, Bool.true_or, List.map_cons, List.sum_cons] at ih ⊢
      rw [ih]
    · have h2 : (o.orderId_ == j) = false := by simpa using fun hc => h hc.symm
      simp only [h, if_false, h2, Bool.false_or] at ih ⊢
      by_cases h3 : f.1.orderId_ = j
      · simp only [h3, beq_self_eq_true, if_true, List.map_cons, List.sum_cons]
        rw [ih]
      · have h4 : (f.1.orderId_ == j) = false := by simpa using h3
        simp only [h4]
        exact ih

theorem traded_map_sell (o : Order) (fills : List (Order × Nat)) (j : Nat) :
    tradedQuantity j (fills.map (fun f => mkTrade f.1 o f.2)) =
      if j = o.orderId_ then (fills.map (fun f => f.2)).sum else fillOf j fills := by
  induction fills with
  | nil => simp [tradedQuantity, fillOf]
  | cons f fills ih =>
    simp only [tradedQuantity, fillOf, List.map_cons, List.filter_cons, mkTrade] at ih ⊢
    by_cases h : j = o.orderId_
    · simp only [h, if_true, beq_self_eq_true, Bool.or_true, List.map_cons, List.sum_cons] at ih ⊢
      rw [ih]
    · have h2 : (o.orderId_ == j) = false := by simpa using fun hc => h hc.symm
      simp only [h, if_false, h2, Bool.or_false] at ih ⊢
      by_cases h3 : f.1.orderId_ = j
      · simp only [h3, beq_self_eq_true, if_true, List.map_cons, List.sum_cons]
        rw [ih]
      · have h4 : (f.1.orderId_ == j) = false := by simpa using h3
        simp only [h4]
        exact ih

theorem remIn_ownAfter (before : Int → Int → Bool) (own : Levels) (o : Order) (left : Option Nat)
    (j : Nat) :
    remIn j (ownAfter before own (restsAs o left)).orders =
      (if o.orderType_ = OrderType.GoodTillCancel ∧ o.orderId_ = j then left.getD 0 else 0) +
        remIn j own.orders := by
  cases left with
  | none => simp [restsAs, ownAfter]
  | some r =>
    by_cases ht : o.orderType_ = OrderType.GoodTillCancel
    · simp only [restsAs, if_pos ht, ownAfter, Option.getD_some]
      rw [remIn_perm j (push_back_perm before _ own), remIn_cons]
      by_cases hj : o.orderId_ = j
      · rw [if_pos hj, if_pos ⟨ht, hj⟩]
      · rw [if_neg hj, if_neg (fun h => hj h.2)]
    · simp only [restsAs, if_neg ht, ownAfter]
      rw [if_neg (fun h => ht h.1), Nat.zero_add]

theorem leftL_sum (cr : Int → Bool) (A : Levels) (r : Nat) :
    ((fillsL cr r A).map (fun f => f.2)).sum + (leftL cr r A).getD 0 = r := by
  have h1 : ((fillsL cr r A).map (fun f => f.2)).sum ≤ r := by
    rw [fillsL_eq, fillsQ_sum]; exact Nat.min_le_left _ _
  rw [leftL_eq]
  split_ifs with h
  · simp [h.2]
  · simp only [Option.getD_some]; omega

theorem remIn_unused (s : Orderbook) (hI : s.Inv) (i : Nat) (hid : i ∉ s.orders_) :
    remIn i s.bids_.orders = 0 ∧ remIn i s.asks_.orders = 0 := by
  constructor
  · apply remIn_of_not_mem
    intro x hx hc
    exact hid (hc ▸ mem_index_of_resting s hI.book x (List.mem_append_left _ hx))
  · apply remIn_of_not_mem
    intro x hx hc
    exact hid (hc ▸ mem_index_of_resting s hI.book x (List.mem_append_right _ hx))

theorem remIn_restL_unused (s : Orderbook) (hI : s.Inv) (i : Nat) (hid : i ∉ s.orders_)
    (cr : Int → Bool) (r : Nat) :
    remIn i (restL cr r s.bids_).orders = 0 ∧ remIn i (restL cr r s.asks_).orders = 0 := by
  obtain ⟨h1, h2⟩ := remIn_unused s hI i hid
  have e1 := remIn_restL i cr s.bids_ r
  have e2 := remIn_restL i cr s.asks_ r
  omega

theorem insert_MatchOrders_conservation (s : Orderbook) (hI : s.Inv) (o : Order)
    (hid : o.orderId_ ∉ s.orders_) :
    ∃ trades, (s.insert o).MatchOrders.2 = some trades ∧
      (∀ j, j ≠ o.orderId_ → remIn j s.resting =
        remIn j (s.insert o).MatchOrders.1.resting + tradedQuantity j trades) ∧
      tradedQuantity o.orderId_ trades = total_qty trades ∧
      total_qty trades ≤ o.remainingQuantity_ ∧
      (o.orderType_ = OrderType.GoodTillCancel → o.remainingQuantity_ =
        remIn o.orderId_ (s.insert o).MatchOrders.1.resting + total_qty trades) := by
  obtain ⟨u1, u2⟩ := remIn_unused s hI o.orderId_ hid
  rcases Side.buy_or_sell o.side_ with hs | hs
  · obtain ⟨t1, b1, a1, -, -⟩ := MatchOrders_insert_buy s hI o hs hid
    have hsum := leftL_sum (crossBuy o.price_) s.asks_ o.remainingQuantity_
    have htq : total_qty ((fillsL (crossBuy o.price_) o.remainingQuantity_ s.asks_).map
        (fun f => mkTrade o f.1 f.2)) =
        ((fillsL (crossBuy o.price_) o.remainingQuantity_ s.asks_).map (fun f => f.2)).sum := by
      simp only [total_qty, List.map_map]; rfl
    refine ⟨_, t1, ?_, ?_, ?_, ?_⟩
    · intro j hj
      simp only [Orderbook.resting, b1, a1, remIn_append, remIn_ownAfter,
        traded_map_buy, if_neg hj, if_neg (fun h : _ ∧ o.orderId_ = j => hj h.2.symm)]
      have := remIn_restL j (crossBuy o.price_) s.asks_ o.remainingQuantity_
      omega
    · rw [traded_map_buy, if_pos rfl, htq]
    · rw [htq]; omega
    · intro ht
      simp only [Orderbook.resting, b1, a1, remIn_append, remIn_ownAfter,
        eq_self_iff_true, and_true, if_pos ht, u1,
        (remIn_restL_unused s hI o.orderId_ hid (crossBuy o.price_) o.remainingQuantity_).2]
      rw [htq]; omega
  · obtain ⟨t1, a1, b1, -, -⟩ := MatchOrders_insert_sell s hI o hs hid
    have hsum := leftL_sum (crossSell o.price_) s.bids_ o.remainingQuantity_
    have htq : total_qty ((fillsL (crossSell o.price_) o.remainingQuantity_ s.bids_).map
        (fun f => mkTrade f.1 o f.2)) =
        ((fillsL (crossSell o.price_) o.remainingQuantity_ s.bids_).map (fun f => f.2)).sum := by
      simp only [total_qty, List.map_map]; rfl
    refine ⟨_, t1, ?_, ?_, ?_, ?_⟩
    · intro j hj
      simp only [Orderbook.resting, b1, a1, remIn_append, remIn_ownAfter,
        traded_map_sell, if_neg hj, if_neg (fun h : _ ∧ o.orderId_ = j => hj h.2.symm)]
      have := remIn_restL j (crossSell o.price_) s.bids_ o.remainingQuantity_
      omega
    · rw [traded_map_sell, if_pos rfl, htq]
    · rw [htq]; omega
    · intro ht
      simp only [Orderbook.resting, b1, a1, remIn_append, remIn_ownAfter,
        eq_self_iff_true, and_true, if_pos ht, u2,
        (remIn_restL_unused s hI o.orderId_ hid (crossSell o.price_) o.remainingQuantity_).1]
      rw [htq]; omega

/-! ### The admission checks of `AddOrder` -/

theorem AddOrder_rejected (L : PriceLimits) (s : Orderbook) (t : OrderType) (i : Nat)
    (side : Side) (p : Int) (q : Nat) (h : s.rejects t i side p q = true) :
    Orderbook.AddOrder L s (Order.new t i side p q) = (s, some []) := by
  by_cases hid : i ∈ s.orders_
  · simp [Orderbook.AddOrder, Order.new, hid]
  · have hc : s.orders_.contains i = false := by simpa using hid
    simp only [Orderbook.rejects, hc, Bool.false_or,
      Bool.or_eq_true, Bool.and_eq_true, decide_eq_true_eq, Bool.not_eq_true'] at h
    rcases h with ⟨rfl, h⟩ | ⟨rfl, h⟩
    · simp [Orderbook.AddOrder, Order.new, hid, h]
    · simp [Orderbook.AddOrder, Order.new, hid, h]

theorem AddOrder_market_fault (L : PriceLimits) (s : Orderbook) (i : Nat) (side : Side)
    (p : Int) (q : Nat) (hid : i ∉ s.orders_) (h : aggressivePrice L side ≤ 0) :
    Orderbook.AddOrder L s (Order.new OrderType.Market i side p q) = (s, none) := by
  simp only [aggressivePrice] at h
  simp [Orderbook.AddOrder, Order.new, hid, Order.ToImmediateOrCancel, h]

theorem AddOrder_admitted (L : PriceLimits) (s : Orderbook) (t : OrderType) (i : Nat)
    (side : Side) (p : Int) (q : Nat) (h : s.rejects t i side p q = false)
    (hm : t = OrderType.Market → 0 < aggressivePrice L side) :
    Orderbook.AddOrder L s (Order.new t i side p q) =
      (s.insert (insertedOrder L t i side p q)).MatchOrders := by
  simp only [Orderbook.rejects, Bool.or_eq_false_iff, Bool.and_eq_false_imp,
    decide_eq_true_eq, Bool.not_eq_false'] at h
  obtain ⟨⟨hid, h1⟩, h2⟩ := h
  have hid : i ∉ s.orders_ := by simpa using hid
  cases t with
  | GoodTillCancel => simp [Orderbook.AddOrder, Order.new, hid, insertedOrder]
  | ImmediateOrCancel => simp [Orderbook.AddOrder, Order.new, hid, insertedOrder, h1 rfl]
  | FillOrKill => simp [Orderbook.AddOrder, Order.new, hid, insertedOrder, h2 rfl]
  | Market =>
    have := hm rfl
    simp only [aggressivePrice] at this
    simp [Orderbook.AddOrder, Order.new, hid, insertedOrder, aggressivePrice,
      Order.ToImmediateOrCancel, not_le.2 this]

theorem rejects_of_mem (s : Orderbook) (t : OrderType) (i : Nat) (side : Side) (p : Int)
    (q : Nat) (h : i ∈ s.orders_) : s.rejects t i side p q = true := by
  simp [Orderbook.rejects, h]

theorem not_mem_of_rejects (s : Orderbook) (t : OrderType) (i : Nat) (side : Side) (p : Int)
    (q : Nat) (h : s.rejects t i side p q = false) : i ∉ s.orders_ := by
  intro hc
  rw [rejects_of_mem s t i side p q hc] at h
  exact absurd h (by simp)

theorem insertedOrder_id (L : PriceLimits) (t : OrderType) (i : Nat) (side : Side) (p : Int)
    (q : Nat) :
    (insertedOrder L t i side p q).orderId_ = i ∧
    (insertedOrder L t i side p q).side_ = side ∧
    (insertedOrder L t i side p q).initialQuantity_ = q ∧
    (insertedOrder L t i side p q).remainingQuantity_ = q ∧
    ((insertedOrder L t i side p q).orderType_ = OrderType.GoodTillCancel ↔
      t = OrderType.GoodTillCancel) := by
  cases t <;> simp [insertedOrder, Order.new]

/-! ### Conservation of quantity, order by order -/

theorem tradedQuantity_nil (i : Nat) : tradedQuantity i [] = 0 := rfl

theorem Conserved.unchanged (x : Order) (l : List Order) (hx : x ∈ l) : Conserved x l [] :=
  Or.inl ⟨x, hx, (Order.eta_rem x).symm, by simp [tradedQuantity_nil]⟩

theorem conserved_of_remIn (l l1 : List Order) (trades : List Trade)
    (hn : (l.map (fun o => o.orderId_)).Nodup) (hn1 : (l1.map (fun o => o.orderId_)).Nodup)
    (x : Order) (hx : x ∈ l)
    (hfrom : ∀ y ∈ l1, y.orderId_ = x.orderId_ →
      y = { x with remainingQuantity_ := y.remainingQuantity_ })
    (h : remIn x.orderId_ l = remIn x.orderId_ l1 + tradedQuantity x.orderId_ trades) :
    Conserved x l1 trades := by
  rw [remIn_of_mem l hn x hx] at h
  by_cases he : ∃ y ∈ l1, y.orderId_ = x.orderId_
  · obtain ⟨y, hy, hyx⟩ := he
    rw [← hyx, remIn_of_mem l1 hn1 y hy, hyx] at h
    exact Or.inl ⟨y, hy, hfrom y hy hyx, h⟩
  · have he2 : ∀ y ∈ l1, y.orderId_ ≠ x.orderId_ := fun y hy hc => he ⟨y, hy, hc⟩
    rw [remIn_of_not_mem _ _ he2, Nat.zero_add] at h
    exact Or.inr ⟨he2, h⟩

theorem AddOrder_conserved (L : PriceLimits) (s : Orderbook) (hI : s.Inv) (t : OrderType)
    (i : Nat) (side : Side) (p : Int) (q : Nat) (trades : List Trade)
    (h : (Orderbook.AddOrder L s (Order.new t i side p q)).2 = some trades) :
    (∀ x ∈ s.resting,
      Conserved x (Orderbook.AddOrder L s (Order.new t i side p q)).1.resting trades) ∧
    (i ∉ s.orders_ →
      ConservedIncoming t i q (Orderbook.AddOrder L s (Order.new t i side p q)).1.resting
        trades) := by
  have hI1 := AddOrder_Inv L s hI (Order.new t i side p q)
  have hn := resting_nodup_of_BookInv s hI.book
  have hn1 := resting_nodup_of_BookInv _ hI1.book
  have hres := AddOrder_resting L s hI (Order.new t i side p q)
  by_cases hr : s.rejects t i side p q = true
  · rw [AddOrder_rejected L s t i side p q hr] at h hI1 hn1 hres ⊢
    simp only [Option.some.injEq] at h
    subst h
    refine ⟨fun x hx => Conserved.unchanged x _ hx, fun hid => ⟨by simp [tradedQuantity_nil], ?_, ?_⟩⟩
    · intro y hy hyi
      exact absurd (hyi ▸ mem_index_of_resting s hI.book y hy) hid
    · intro ht
      have hr2 := hr
      simp only [Orderbook.rejects, ht, reduceCtorEq, decide_False, Bool.false_and,
        Bool.or_false] at hr2
      exact absurd (by simpa using hr2) hid
  · have hr : s.rejects t i side p q = false := by simpa using hr
    have hid := not_mem_of_rejects s t i side p q hr
    by_cases hm : t = OrderType.Market ∧ aggressivePrice L side ≤ 0
    · obtain ⟨rfl, hm⟩ := hm
      rw [AddOrder_market_fault L s i side p q hid hm] at h
      exact absurd h (by simp)
    · have hm2 : t = OrderType.Market → 0 < aggressivePrice L side := by
        intro ht
        by_contra hc
        exact hm ⟨ht, by omega⟩
      have hadm := AddOrder_admitted L s t i side p q hr hm2
      obtain ⟨o1, o2, o3, o4, o5⟩ := insertedOrder_id L t i side p q
      obtain ⟨trades1, c1, c2, c3, c4, c5⟩ := insert_MatchOrders_conservation s hI
        (insertedOrder L t i side p q) (by rw [o1]; exact hid)
      rw [hadm] at h hI1 hn1 hres ⊢
      rw [c1] at h
      simp only [Option.some.injEq] at h
      subst h
      rw [o1] at c2 c3 c5
      rw [o4] at c4 c5
      constructor
      · intro x hx
        have hxi : x.orderId_ ≠ i := fun hc => hid (hc ▸ mem_index_of_resting s hI.book x hx)
        refine conserved_of_remIn s.resting _ _ hn hn1 x hx ?_ (c2 _ hxi)
        intro y hy hyx
        rcases hres y hy with ⟨z, hz, hyz⟩ | ⟨_, hyo⟩
        · have : z = x := ids_inj hn hz hx (by rw [← hyx, hyz])
          rw [← this]; exact hyz
        · exfalso
          apply hxi
          rw [← hyx, hyo]
          rfl
      · intro _
        refine ⟨by rw [c3]; exact c4, ?_, ?_⟩
        · intro y hy hyi
          rcases hres y hy with ⟨z, hz, hyz⟩ | ⟨ht, hyo⟩
          · exfalso
            apply hid
            have := mem_index_of_resting s hI.book z hz
            rw [← hyi, hyz]
            exact this
          · have ht2 : t = OrderType.GoodTillCancel := ht
            have h5 := c5 (o5.2 ht2)
            have h6 := remIn_of_mem _ hn1 y hy
            rw [hyi] at h6
            rw [h6] at h5
            rw [c3]
            refine ⟨by rw [hyo]; rfl, ?_⟩
            omega
        · intro ht hno
          have h5 := c5 (o5.2 ht)
          rw [remIn_of_not_mem _ _ hno] at h5
          rw [c3]; omega

theorem MatchOrder_of_mem (L : PriceLimits) (s : Orderbook) (hI : s.Inv) (m : OrderModify)
    (hi : m.orderId_ ∈ s.orders_) :
    ∃ old ∈ s.resting, old.orderId_ = m.orderId_ ∧
      old.orderType_ = OrderType.GoodTillCancel ∧
      Orderbook.MatchOrder L s m =
        Orderbook.AddOrder L ((s.emit (modifyEvent m)).CancelOrder m.orderId_)
          (Order.new OrderType.GoodTillCancel m.orderId_ m.side_ m.price_ m.quantity_) := by
  obtain ⟨old, ho, hid⟩ : ∃ o ∈ s.resting, o.orderId_ = m.orderId_ := by
    have := (hI.book.indexIff m.orderId_).1 hi
    simpa [Levels.ids, Orderbook.resting, List.mem_map, or_and_right, exists_or] using this
  have he := entry_of_mem s (resting_nodup_of_BookInv s hI.book) old ho
  rw [hid] at he
  refine ⟨old, ho, hid, hI.gtc old ho, ?_⟩
  simp only [Orderbook.MatchOrder, OrderModify.ToOrderPointer]
  rw [if_neg (by simpa using hi), he]
  simp only [hI.gtc old ho]

theorem modify_state (s : Orderbook) (hI : s.Inv) (e : Event) (old : Order)
    (ho : old ∈ s.resting) :
    ((s.emit e).CancelOrder old.orderId_).Inv ∧
    ((s.emit e).CancelOrder old.orderId_).resting = s.resting.erase old ∧
    old.orderId_ ∉ ((s.emit e).CancelOrder old.orderId_).orders_ := by
  have hI1 := emit_Inv s e hI
  have ho1 : old ∈ (s.emit e).resting := by rw [emit_resting]; exact ho
  refine ⟨CancelOrder_Inv _ hI1 _, ?_, ?_⟩
  · rw [(CancelOrder_removes _ hI1 old ho1).1, emit_resting]
  · rw [CancelOrder_index _ hI1]
    exact fun h => ((List.Nodup.mem_erase_iff hI1.book.indexNodup).1 h).1 rfl

theorem MatchOrder_conserved (L : PriceLimits) (s : Orderbook) (hI : s.Inv) (m : OrderModify)
    (hi : m.orderId_ ∈ s.orders_) (trades : List Trade)
    (h : (Orderbook.MatchOrder L s m).2 = some trades) :
    (∀ x ∈ s.resting, x.orderId_ ≠ m.orderId_ →
      Conserved x (Orderbook.MatchOrder L s m).1.resting trades) ∧
    ConservedIncoming OrderType.GoodTillCancel m.orderId_ m.quantity_
      (Orderbook.MatchOrder L s m).1.resting trades := by
  obtain ⟨old, ho, hid, -, heq⟩ := MatchOrder_of_mem L s hI m hi
  obtain ⟨k1, k2, k3⟩ := modify_state s hI (modifyEvent m) old ho
  rw [hid] at k1 k2 k3
  rw [heq] at h ⊢
  obtain ⟨c1, c2⟩ := AddOrder_conserved L _ k1 _ _ _ _ _ trades h
  refine ⟨fun x hx hne => c1 x ?_, c2 k3⟩
  rw [k2]
  exact (List.mem_erase_of_ne (fun hc => hne (by rw [hc, hid]))).2 hx

theorem AddOrder_RemBound (L : PriceLimits) (s : Orderbook) (hI : s.Inv) (hb : RemBound s)
    (t : OrderType) (i : Nat) (side : Side) (p : Int) (q : Nat) :
    RemBound (Orderbook.AddOrder L s (Order.new t i side p q)).1 := by
  have hI1 := AddOrder_Inv L s hI (Order.new t i side p q)
  have hn1 := resting_nodup_of_BookInv _ hI1.book
  cases hr : (Orderbook.AddOrder L s (Order.new t i side p q)).2 with
  | none =>
    rcases AddOrder_cases L s (Order.new t i side p q) with h | h | ⟨hid, o1, h1, _, _, _, _, h⟩
    · rw [h]; exact hb
    · rw [h]; exact hb
    · rw [h, (insert_MatchOrders_trades s hI o1 (by rw [h1]; exact hid))] at hr
      exact absurd hr (by simp)
  | some trades =>
    obtain ⟨c1, c2⟩ := AddOrder_conserved L s hI t i side p q trades hr
    intro y hy
    rcases AddOrder_resting L s hI (Order.new t i side p q) y hy with ⟨z, hz, hyz⟩ | ⟨_, hyo⟩
    · have hzb := hb z hz
      have hyi : y.initialQuantity_ = z.initialQuantity_ := by rw [hyz]
      have hid : y.orderId_ = z.orderId_ := by rw [hyz]
      rcases c1 z hz with ⟨y1, hy1, e1, h2⟩ | ⟨h1, -⟩
      · have h3 : y1.orderId_ = z.orderId_ := by rw [e1]
        have : y1 = y := ids_inj hn1 hy1 hy (by rw [h3, hid])
        subst this
        omega
      · exact absurd hid (h1 y hy)
    · by_cases hid : i ∈ s.orders_
      · rw [AddOrder_rejected L s t i side p q (rejects_of_mem s t i side p q hid)] at hy
        exact hb y hy
      · have hyi : y.orderId_ = i := by rw [hyo]; rfl
        have := (c2 hid).2.1 y hy hyi
        omega

theorem CancelOrder_RemBound (s : Orderbook) (hI : s.Inv) (hb : RemBound s) (i : Nat) :
    RemBound (s.CancelOrder i) :=
  fun x hx => hb x (CancelOrder_resting s hI i x hx)

theorem emit_RemBound (s : Orderbook) (hb : RemBound s) (e : Event) : RemBound (s.emit e) := by
  intro x hx
  rw [emit_resting] at hx
  exact hb x hx

theorem step_RemBound (L : PriceLimits) (s : Orderbook) (hI : s.Inv) (hb : RemBound s)
    (op : Op) : RemBound (s.step L op) := by
  cases op with
  | AddOrder t i sd p q => exact AddOrder_RemBound L s hI hb t i sd p q
  | CancelOrder i => exact CancelOrder_RemBound s hI hb i
  | MatchOrder m =>
    simp only [Orderbook.step, Orderbook.MatchOrder]
    split_ifs with h1
    · exact hb
    · split
      · exact hb
      · exact AddOrder_RemBound L _ (CancelOrder_Inv _ (emit_Inv s _ hI) _)
          (CancelOrder_RemBound _ (emit_Inv s _ hI) (emit_RemBound s hb _) _) _ _ _ _ _
  | MatchOrders =>
    simp only [Orderbook.step, MatchOrders_of_Inv s hI]
    exact hb
  | SetObserver b => exact hb
  | EnableEvents b => exact hb

theorem run_RemBound (L : PriceLimits) (ops : List Op) : ∀ s : Orderbook, s.Inv → RemBound s →
    RemBound (s.run L ops) := by
  induction ops with
  | nil => intro s _ hb; exact hb
  | cons op ops ih =>
    intro s hI hb
    exact ih _ (step_Inv L s hI op) (step_RemBound L s hI hb op)

theorem Reachable_RemBound (L : PriceLimits) (s : Orderbook) (h : Reachable L s) :
    RemBound s := by
  obtain ⟨ops, rfl⟩ := h
  exact run_RemBound L ops _ empty_Inv (by intro x hx; simp [Orderbook.empty, Orderbook.resting, Levels.orders] at hx)

/-! ### The quantity traded since an order was submitted -/

theorem ledger_of_conserved (s1 : Orderbook) (hn1 : (s1.resting.map (fun o => o.orderId_)).Nodup)
    (trades : List Trade) (z y : Order) (hy : y ∈ s1.resting)
    (hyz : y = { z with remainingQuantity_ := y.remainingQuantity_ })
    (hc : Conserved z s1.resting trades) (a : Nat)
    (hz : z.initialQuantity_ = z.remainingQuantity_ + a) :
    y.initialQuantity_ = y.remainingQuantity_ + (a + tradedQuantity y.orderId_ trades) := by
  have hid : y.orderId_ = z.orderId_ := by rw [hyz]
  have hin : y.initialQuantity_ = z.initialQuantity_ := by rw [hyz]
  rcases hc with ⟨y1, hy1, e1, h2⟩ | ⟨h1, -⟩
  · have h3 : y1.orderId_ = z.orderId_ := by rw [e1]
    have : y1 = y := ids_inj hn1 hy1 hy (by rw [h3, hid])
    subst this
    rw [hid, hin]; omega
  · exact absurd hid (h1 y hy)

theorem AddOrder_ledger (L : PriceLimits) (s : Orderbook) (hI : s.Inv) (a : Nat → Nat)
    (ha : ∀ x ∈ s.resting, x.initialQuantity_ = x.remainingQuantity_ + a x.orderId_)
    (t : OrderType) (i : Nat) (side : Side) (p : Int) (q : Nat) :
    ∀ y ∈ (s.step L (Op.AddOrder t i side p q)).resting,
      y.initialQuantity_ = y.remainingQuantity_ +
        ((if s.submits y.orderId_ (Op.AddOrder t i side p q) then 0 else a y.orderId_) +
          tradedQuantity y.orderId_ (s.stepTrades L (Op.AddOrder t i side p q))) := by
  have hI1 := AddOrder_Inv L s hI (Order.new t i side p q)
  have hn1 := resting_nodup_of_BookInv _ hI1.book
  simp only [Orderbook.step, Orderbook.stepTrades, Orderbook.submits]
  have hold : ∀ y ∈ s.resting, (decide (i = y.orderId_) && !s.orders_.contains y.orderId_) =
      false := by
    intro y hy
    have := mem_index_of_resting s hI.book y hy
    simp [this]
  cases hr : (Orderbook.AddOrder L s (Order.new t i side p q)).2 with
  | none =>
    have hs : (Orderbook.AddOrder L s (Order.new t i side p q)).1 = s := by
      rcases AddOrder_cases L s (Order.new t i side p q) with h | h | ⟨hid, o1, h1, _, _, _, _, h⟩
      · rw [h]
      · rw [h]
      · rw [h, (insert_MatchOrders_trades s hI o1 (by rw [h1]; exact hid))] at hr
        exact absurd hr (by simp)
    rw [hs]
    intro y hy
    simp only [hold y hy, Bool.false_eq_true, if_false]
    simpa [tradedQuantity_nil] using ha y hy
  | some trades =>
    obtain ⟨c1, c2⟩ := AddOrder_conserved L s hI t i side p q trades hr
    intro y hy
    simp only [Option.getD_some]
    by_cases hid : i ∈ s.orders_
    · have hrej := AddOrder_rejected L s t i side p q (rejects_of_mem s t i side p q hid)
      rw [hrej] at hr hy
      simp only [Option.some.injEq] at hr
      subst hr
      simp only [hold y hy, Bool.false_eq_true, if_false]
      simpa [tradedQuantity_nil] using ha y hy
    · rcases AddOrder_resting L s hI (Order.new t i side p q) y hy with ⟨z, hz, hyz⟩ | ⟨_, hyo⟩
      · have hyid : y.orderId_ = z.orderId_ := by rw [hyz]
        have := ledger_of_conserved _ hn1 trades z y hy hyz (c1 z hz) _ (ha z hz)
        rw [hyid] at this ⊢
        simp only [hold z hz, Bool.false_eq_true, if_false]
        exact this
      · have hyi : y.orderId_ = i := by rw [hyo]; rfl
        have h1 := (c2 hid).2.1 y hy hyi
        have hcn : s.orders_.contains i = false := by simpa using hid
        rw [hyi]
        simp only [decide_True, hcn, Bool.not_false, Bool.and_self, if_true]
        omega

theorem MatchOrder_some (L : PriceLimits) (s : Orderbook) (hI : s.Inv) (m : OrderModify) :
    ∃ trades, (Orderbook.MatchOrder L s m).2 = some trades := by
  by_cases hi : m.orderId_ ∈ s.orders_
  · obtain ⟨old, ho, hid, -, heq⟩ := MatchOrder_of_mem L s hI m hi
    obtain ⟨k1, -, k3⟩ := modify_state s hI (modifyEvent m) old ho
    rw [hid] at k1 k3
    rw [heq, AddOrder_GTC L _ _ _ _ _ k3]
    exact ⟨_, insert_MatchOrders_trades _ k1 _ k3⟩
  · exact ⟨[], by simp [Orderbook.MatchOrder, hi]⟩

theorem MatchOrder_ledger (L : PriceLimits) (s : Orderbook) (hI : s.Inv) (a : Nat → Nat)
    (ha : ∀ x ∈ s.resting, x.initialQuantity_ = x.remainingQuantity_ + a x.orderId_)
    (m : OrderModify) :
    ∀ y ∈ (s.step L (Op.MatchOrder m)).resting,
      y.initialQuantity_ = y.remainingQuantity_ +
        ((if s.submits y.orderId_ (Op.MatchOrder m) then 0 else a y.orderId_) +
          tradedQuantity y.orderId_ (s.stepTrades L (Op.MatchOrder m))) := by
  have hI1 := MatchOrder_Inv L s hI m
  have hn1 := resting_nodup_of_BookInv _ hI1.book
  simp only [Orderbook.step, Orderbook.stepTrades, Orderbook.submits]
  by_cases hi : m.orderId_ ∈ s.orders_
  · obtain ⟨trades, hr⟩ := MatchOrder_some L s hI m
    obtain ⟨c1, c2⟩ := MatchOrder_conserved L s hI m hi trades hr
    obtain ⟨old, ho, hid, -, heq⟩ := MatchOrder_of_mem L s hI m hi
    obtain ⟨k1, k2, k3⟩ := modify_state s hI (modifyEvent m) old ho
    rw [hid] at k1 k2 k3
    intro y hy
    rw [hr]
    simp only [Option.getD_some]
    have hy2 := hy
    rw [heq] at hy2
    rcases AddOrder_resting L _ k1 _ y hy2 with ⟨z, hz, hyz⟩ | ⟨_, hyo⟩
    · rw [k2] at hz
      have hz1 : z ∈ s.resting := List.mem_of_mem_erase hz
      have hzo : z ≠ old := fun hc =>
        (List.Nodup.mem_erase_iff ((resting_nodup_of_BookInv s hI.book).of_map _)).1
          (hc ▸ hz) |>.1 rfl
      have hzid : z.orderId_ ≠ m.orderId_ := fun hc =>
        hzo (ids_inj (resting_nodup_of_BookInv s hI.book) hz1 ho (by rw [hc, hid]))
      have hyid : y.orderId_ = z.orderId_ := by rw [hyz]
      have := ledger_of_conserved _ hn1 trades z y hy hyz (c1 z hz1 hzid) _ (ha z hz1)
      rw [hyid] at this ⊢
      have hd : decide (m.orderId_ = z.orderId_) = false := by
        simpa using fun hc => hzid hc.symm
      simp only [hd, Bool.false_and, Bool.false_eq_true, if_false]
      exact this
    · have hyi : y.orderId_ = m.orderId_ := by rw [hyo]; rfl
      have h1 := c2.2.1 y hy hyi
      have hcn : s.orders_.contains m.orderId_ = true := by simpa using hi
      rw [hyi]
      simp only [decide_True, hcn, Bool.and_self, if_true]
      omega
  · have hs : Orderbook.MatchOrder L s m = (s, some []) := by
      simp [Orderbook.MatchOrder, hi]
    rw [hs]
    intro y hy
    have hcn : s.orders_.contains m.orderId_ = false := by simpa using hi
    have hd : (decide (m.orderId_ = y.orderId_) && s.orders_.contains y.orderId_) = false := by
      by_cases h : m.orderId_ = y.orderId_
      · rw [← h, hcn]; simp
      · simp [h]
    simp only [hd, Bool.false_eq_true, if_false, Option.getD_some]
    simpa [tradedQuantity_nil] using ha y hy

theorem step_ledger (L : PriceLimits) (s : Orderbook) (hI : s.Inv) (a : Nat → Nat)
    (ha : ∀ x ∈ s.resting, x.initialQuantity_ = x.remainingQuantity_ + a x.orderId_)
    (op : Op) :
    ∀ y ∈ (s.step L op).resting,
      y.initialQuantity_ = y.remainingQuantity_ +
        ((if s.submits y.orderId_ op then 0 else a y.orderId_) +
          tradedQuantity y.orderId_ (s.stepTrades L op)) := by
  cases op with
  | AddOrder t i sd p q => exact AddOrder_ledger L s hI a ha t i sd p q
  | MatchOrder m => exact MatchOrder_ledger L s hI a ha m
  | CancelOrder i =>
    intro y hy
    simpa [Orderbook.submits, Orderbook.stepTrades, tradedQuantity_nil] using
      ha y (CancelOrder_resting s hI i y hy)
  | MatchOrders =>
    intro y hy
    simp only [Orderbook.step, Orderbook.stepTrades, MatchOrders_of_Inv s hI] at hy ⊢
    simpa [Orderbook.submits, tradedQuantity_nil] using ha y hy
  | SetObserver b =>
    intro y hy
    simpa [Orderbook.submits, Orderbook.stepTrades, tradedQuantity_nil] using ha y hy
  | EnableEvents b =>
    intro y hy
    simpa [Orderbook.submits, Orderbook.stepTrades, tradedQuantity_nil] using ha y hy

theorem run_ledger (L : PriceLimits) (ops : List Op) : ∀ (s : Orderbook) (a : Nat → Nat),
    s.Inv → (∀ x ∈ s.resting, x.initialQuantity_ = x.remainingQuantity_ + a x.orderId_) →
    ∀ y ∈ (s.run L ops).resting,
      y.initialQuantity_ = y.remainingQuantity_ + tradedSince L y.orderId_ s ops (a y.orderId_) := by
  induction ops with
  | nil => intro s a _ ha y hy; exact ha y hy
  | cons op ops ih =>
    intro s a hI ha y hy
    exact ih (s.step L op)
      (fun j => (if s.submits j op then 0 else a j) + tradedQuantity j (s.stepTrades L op))
      (step_Inv L s hI op) (step_ledger L s hI a ha op) y hy

/-! ### Modify as cancel and resubmit -/

theorem SameBook_of_Inv {s t : Orderbook} (hs : s.Inv) (ht : t.Inv) (h1 : s.bids_ = t.bids_)
    (h2 : s.asks_ = t.asks_) (h3 : s.orders_ = t.orders_)
    (h4 : s.matchedOrders_ = t.matchedOrders_) : SameBook s t :=
  ⟨h1, h2, h3, h4, by rw [hs.bestBid, ht.bestBid, h1], by rw [hs.bestAsk, ht.bestAsk, h2]⟩

theorem insert_MatchOrders_congr (s t : Orderbook) (hs : s.Inv) (ht : t.Inv) (h : SameBook s t)
    (o : Order) (hid : o.orderId_ ∉ s.orders_) :
    (s.insert o).MatchOrders.2 = (t.insert o).MatchOrders.2 ∧
    SameBook (s.insert o).MatchOrders.1 (t.insert o).MatchOrders.1 := by
  obtain ⟨h1, h2, h3, h4, -, -⟩ := h
  have hid2 : o.orderId_ ∉ t.orders_ := by rw [← h3]; exact hid
  rcases Side.buy_or_sell o.side_ with hsd | hsd
  · obtain ⟨a1, a2, a3, a4, a5⟩ := MatchOrders_insert_buy s hs o hsd hid
    obtain ⟨b1, b2, b3, b4, b5⟩ := MatchOrders_insert_buy t ht o hsd hid2
    obtain ⟨-, f1⟩ := MatchOrders_insert_buy_frame s hs o hsd hid
    obtain ⟨-, f2⟩ := MatchOrders_insert_buy_frame t ht o hsd hid2
    refine ⟨by rw [a1, b1, h2], SameBook_of_Inv a5 b5 ?_ ?_ ?_ ?_⟩
    · rw [a2, b2, h1, h2]
    · rw [a3, b3, h2]
    · rw [a4, b4, h2, h3]
    · rw [f1, f2, h2, h4]
  · obtain ⟨a1, a2, a3, a4, a5⟩ := MatchOrders_insert_sell s hs o hsd hid
    obtain ⟨b1, b2, b3, b4, b5⟩ := MatchOrders_insert_sell t ht o hsd hid2
    obtain ⟨-, f1⟩ := MatchOrders_insert_sell_frame s hs o hsd hid
    obtain ⟨-, f2⟩ := MatchOrders_insert_sell_frame t ht o hsd hid2
    refine ⟨by rw [a1, b1, h1], SameBook_of_Inv a5 b5 ?_ ?_ ?_ ?_⟩
    · rw [a3, b3, h1]
    · rw [a2, b2, h1, h2]
    · rw [a4, b4, h1, h3]
    · rw [f1, f2, h1, h4]

theorem CancelOrder_emit_SameBook (s : Orderbook) (hI : s.Inv) (e : Event) (i : Nat) :
    SameBook ((s.emit e).CancelOrder i) (s.CancelOrder i) := by
  have hI1 := emit_Inv s e hI
  refine SameBook_of_Inv (CancelOrder_Inv _ hI1 i) (CancelOrder_Inv _ hI i) ?_ ?_ ?_ ?_
  all_goals
    by_cases h : i ∈ s.orders_
    · obtain ⟨o, ho, rfl⟩ : ∃ o ∈ s.resting, o.orderId_ = i := by
        have := (hI.book.indexIff i).1 h
        simpa [Levels.ids, Orderbook.resting, List.mem_map, or_and_right, exists_or] using this
      rcases List.mem_append.1 ho with hb | ha
      · rw [CancelOrder_bid s hI.book o hb,
          CancelOrder_bid (s.emit e) hI1.book o (by rw [emit_bids]; exact hb)]
        simp
      · rw [CancelOrder_ask s hI.book o ha,
          CancelOrder_ask (s.emit e) hI1.book o (by rw [emit_asks]; exact ha)]
        simp
    · rw [CancelOrder_of_not_mem s i h, CancelOrder_of_not_mem (s.emit e) i (by simpa using h)]
      simp

theorem MatchOrder_refines (L : PriceLimits) (s : Orderbook) (hI : s.Inv) (m : OrderModify)
    (hi : m.orderId_ ∈ s.orders_) :
    ∃ old ∈ s.resting, old.orderId_ = m.orderId_ ∧
      ∃ trades, (Orderbook.MatchOrder L s m).2 = some trades ∧
        (Orderbook.AddOrder L (s.CancelOrder m.orderId_)
          (Order.new old.orderType_ m.orderId_ m.side_ m.price_ m.quantity_)).2 = some trades ∧
        SameBook (Orderbook.MatchOrder L s m).1
          (Orderbook.AddOrder L (s.CancelOrder m.orderId_)
            (Order.new old.orderType_ m.orderId_ m.side_ m.price_ m.quantity_)).1 ∧
        Emitted s (Orderbook.MatchOrder L s m).1
          (modifyEvent m :: cancelEvent old m.orderId_ ::
            addEvent (Order.new old.orderType_ m.orderId_ m.side_ m.price_ m.quantity_) ::
            trades.map eventOfTrade) := by
  obtain ⟨old, ho, hid, hgtc, heq⟩ := MatchOrder_of_mem L s hI m hi
  obtain ⟨k1, k2, k3⟩ := modify_state s hI (modifyEvent m) old ho
  rw [hid] at k1 k2 k3
  have hI1 := emit_Inv s (modifyEvent m) hI
  have hsb := CancelOrder_emit_SameBook s hI (modifyEvent m) m.orderId_
  have hIt := CancelOrder_Inv s hI m.orderId_
  have hidt : m.orderId_ ∉ (s.CancelOrder m.orderId_).orders_ := by rw [← hsb.2.2.1]; exact k3
  refine ⟨old, ho, hid, ?_⟩
  rw [hgtc, heq, AddOrder_GTC L _ _ _ _ _ k3, AddOrder_GTC L _ _ _ _ _ hidt]
  obtain ⟨c1, c2⟩ := insert_MatchOrders_congr _ _ k1 hIt hsb
    (Order.new OrderType.GoodTillCancel m.orderId_ m.side_ m.price_ m.quantity_) k3
  obtain ⟨trades, f1, f2, -⟩ := insert_MatchOrders_frame _ k1
    (Order.new OrderType.GoodTillCancel m.orderId_ m.side_ m.price_ m.quantity_) k3
  refine ⟨trades, f1, by rw [← c1]; exact f1, c2, ?_⟩
  have e1 := Emitted.emit s (modifyEvent m)
  have e2 := (CancelOrder_frame (s.emit (modifyEvent m)) hI1.book old
    (by rw [emit_resting]; exact ho)).1
  rw [hid] at e2
  have e3 := (e1.trans e2).trans f2
  have hcl : cleanupEvents
      (Order.new OrderType.GoodTillCancel m.orderId_ m.side_ m.price_ m.quantity_)
      (leftover (Order.new OrderType.GoodTillCancel m.orderId_ m.side_ m.price_
        m.quantity_).remainingQuantity_ trades) = [] := by
    cases leftover (Order.new OrderType.GoodTillCancel m.orderId_ m.side_ m.price_
        m.quantity_).remainingQuantity_ trades <;> simp [cleanupEvents, Order.new]
  rw [hcl] at e3
  simpa using e3

theorem insert_MatchOrders_legs (s : Orderbook) (hI : s.Inv) (o : Order)
    (hid : o.orderId_ ∉ s.orders_) (trades : List Trade)
    (h : (s.insert o).MatchOrders.2 = some trades) :
    ∀ t ∈ trades, t.bidTrade_.price_ = t.askTrade_.price_ ∧
      t.bidTrade_.quantity_ = t.askTrade_.quantity_ := by
  rw [insert_MatchOrders_trades s hI o hid] at h
  simp only [Option.some.injEq] at h
  subst h
  intro t ht
  obtain ⟨f, -, rfl⟩ := List.mem_map.1 ht
  rcases Side.buy_or_sell o.side_ with hs | hs <;> simp [aggressorTrade, hs, mkTrade]

/-! ### Events of any call and dense sequence numbers -/

theorem CancelOrder_emits (s : Orderbook) (i : Nat) :
    ∃ evs, Emitted s (s.CancelOrder i) evs := by
  unfold Orderbook.CancelOrder
  split_ifs with h
  · exact ⟨[], Emitted.refl s⟩
  · split
    · exact ⟨[], by constructor <;> simp [Orderbook.UpdateBestPrices, stamp]⟩
    · rename_i order _
      refine ⟨[cancelEvent order i], ?_⟩
      simp only
      split_ifs <;> constructor <;>
        simp [emit_event_seq, emit_delivered, stamp, Orderbook.UpdateBestPrices]

theorem cleanup_side_emits (ids : List Nat) : ∀ s : Orderbook,
    ∃ evs, Emitted s (ids.foldl Orderbook.CancelOrder s) evs := by
  induction ids with
  | nil => intro s; exact ⟨[], Emitted.refl s⟩
  | cons i ids ih =>
    intro s
    obtain ⟨e1, h1⟩ := CancelOrder_emits s i
    obtain ⟨e2, h2⟩ := ih (s.CancelOrder i)
    exact ⟨e1 ++ e2, h1.trans h2⟩

theorem MatchOrders_emits (s : Orderbook) : ∃ evs, Emitted s s.MatchOrders.1 evs := by
  obtain ⟨T1, f1, f2, -⟩ := matchLoop_frame (s.bids_.length + s.asks_.length + 1) s []
  simp only [Orderbook.MatchOrders]
  rcases hm : s.matchLoop (s.bids_.length + s.asks_.length + 1) [] with ⟨s1, r⟩
  rw [hm] at f1 f2
  simp only at f1 f2
  subst f1
  simp only
  obtain ⟨e2, h2⟩ := cleanup_side_emits (to_cancel s1.bids_) s1
  obtain ⟨e3, h3⟩ := cleanup_side_emits
    (to_cancel (s1.cleanup_side s1.bids_).asks_) (s1.cleanup_side s1.bids_)
  exact ⟨_, ((f2.trans h2).trans h3).UpdateBestPrices⟩

theorem AddOrder_emits (L : PriceLimits) (s : Orderbook) (o : Order) :
    ∃ evs, Emitted s (Orderbook.AddOrder L s o).1 evs := by
  rcases AddOrder_cases L s o with h | h | ⟨-, o1, -, -, -, -, -, h⟩
  · rw [h]; exact ⟨[], Emitted.refl s⟩
  · rw [h]; exact ⟨[], Emitted.refl s⟩
  · rw [h]
    obtain ⟨e2, h2⟩ := MatchOrders_emits (s.insert o1)
    exact ⟨_, (insert_frame s o1).1.trans h2⟩

theorem MatchOrder_emits (L : PriceLimits) (s : Orderbook) (m : OrderModify) :
    ∃ evs, Emitted s (Orderbook.MatchOrder L s m).1 evs := by
  unfold Orderbook.MatchOrder
  split_ifs with h
  · exact ⟨[], Emitted.refl s⟩
  · split
    · exact ⟨[], Emitted.refl s⟩
    · obtain ⟨e2, h2⟩ := CancelOrder_emits (s.emit (modifyEvent m)) m.orderId_
      obtain ⟨e3, h3⟩ := AddOrder_emits L ((s.emit (modifyEvent m)).CancelOrder m.orderId_)
        (m.ToOrderPointer (by assumption : Order).orderType_)
      exact ⟨_, ((Emitted.emit s (modifyEvent m)).trans h2).trans h3⟩

theorem step_emits (L : PriceLimits) (s : Orderbook) (op : Op) (h : op.isBookCall = true) :
    ∃ evs, Emitted s (s.step L op) evs := by
  cases op with
  | AddOrder t i sd p q => exact AddOrder_emits L s _
  | CancelOrder i => exact CancelOrder_emits s i
  | MatchOrder m => exact MatchOrder_emits L s m
  | MatchOrders => exact MatchOrders_emits s
  | SetObserver b => simp [Op.isBookCall] at h
  | EnableEvents b => simp [Op.isBookCall] at h

theorem stamp_seq (evs : List Event) : ∀ n : Nat,
    (stamp n evs).map Event.seq = List.range' n evs.length := by
  induction evs with
  | nil => intro n; rfl
  | cons e es ih => intro n; simp [stamp, ih, List.range']

theorem dense_of_emitted {s t : Orderbook} {evs : List Event} (h : Emitted s t evs)
    (d : Dense s) : Dense t := by
  refine ⟨h.observer.trans d.observer, ?_⟩
  rw [h.delivered, h.seq, d.observer]
  cases he : s.events_enabled_
  · simpa using d.seqs
  · simp only [Bool.and_self, if_true, List.map_append, stamp_seq, d.seqs]
    rw [List.range_eq_range', List.range_eq_range']
    have := List.range'_append 0 s.event_seq_ evs.length 1
    simpa [Nat.add_comm] using this

theorem dense_step (L : PriceLimits) {s : Orderbook} (op : Op) (hk : op.keepsObserver = true)
    (d : Dense s) : Dense (s.step L op) := by
  cases op with
  | SetObserver b =>
    simp only [Op.keepsObserver] at hk
    subst hk
    exact ⟨rfl, d.seqs⟩
  | EnableEvents b => exact ⟨d.observer, d.seqs⟩
  | AddOrder t i sd p q =>
    obtain ⟨evs, h⟩ := step_emits L s (Op.AddOrder t i sd p q) rfl
    exact dense_of_emitted h d
  | CancelOrder i =>
    obtain ⟨evs, h⟩ := step_emits L s (Op.CancelOrder i) rfl
    exact dense_of_emitted h d
  | MatchOrder m =>
    obtain ⟨evs, h⟩ := step_emits L s (Op.MatchOrder m) rfl
    exact dense_of_emitted h d
  | MatchOrders =>
    obtain ⟨evs, h⟩ := step_emits L s (Op.MatchOrders) rfl
    exact dense_of_emitted h d

theorem dense_run (L : PriceLimits) (ops : List Op) : ∀ s : Orderbook,
    (∀ op ∈ ops, op.keepsObserver = true) → Dense s → Dense (s.run L ops) := by
  induction ops with
  | nil => intro s _ d; exact d
  | cons op ops ih =>
    intro s hk d
    exact ih (s.step L op) (fun o ho => hk o (List.mem_cons_of_mem _ ho))
      (dense_step L op (hk op (List.mem_cons_self _ _)) d)

theorem dense_get {s : Orderbook} (d : Dense s) :
    s.event_seq_ = s.delivered.length ∧
      ∀ (i : Nat) (hi : i < s.delivered.length), (s.delivered.get ⟨i, hi⟩).seq = i := by
  have hl : s.delivered.length = s.event_seq_ := by
    have := congrArg List.length d.seqs
    simpa using this
  refine ⟨hl.symm, fun i hi => ?_⟩
  have h1 : (s.delivered.map Event.seq)[i]? = some i := by
    rw [d.seqs]; exact List.getElem?_range (hl ▸ hi)
  rw [List.getElem?_map, List.getElem?_eq_getElem hi] at h1
  simpa using h1

theorem step_disabled (L : PriceLimits) (s : Orderbook) (op : Op) (hb : op.isBookCall = true)
    (he : s.events_enabled_ = false) :
    (s.step L op).delivered = s.delivered ∧ (s.step L op).event_seq_ = s.event_seq_ := by
  obtain ⟨evs, h⟩ := step_emits L s op hb
  refine ⟨?_, ?_⟩
  · rw [h.delivered, he]; simp
  · rw [h.seq, he]; simp

/-! ### Positive remaining quantities -/

theorem restQ_pos (xs : List Order) : ∀ r : Nat, (∀ x ∈ xs, 0 < x.remainingQuantity_) →
    ∀ y ∈ restQ r xs, 0 < y.remainingQuantity_ := by
  induction xs with
  | nil => intro r _ y hy; simp [restQ] at hy
  | cons x xs ih =>
    intro r h y hy
    simp only [restQ] at hy
    split_ifs at hy with h1 h2
    · rcases List.mem_cons.1 hy with rfl | hy
      · simp only; omega
      · exact h y (List.mem_cons_of_mem _ hy)
    · exact h y (List.mem_cons_of_mem _ hy)
    · exact ih _ (fun z hz => h z (List.mem_cons_of_mem _ hz)) y hy

theorem leftQ_pos (xs : List Order) : ∀ r r1 : Nat, 0 < r → leftQ r xs = some r1 → 0 < r1 := by
  induction xs with
  | nil => intro r r1 hr h; simp only [leftQ, Option.some.injEq] at h; omega
  | cons x xs ih =>
    intro r r1 hr h
    simp only [leftQ] at h
    split_ifs at h with h1
    exact ih _ r1 (by omega) h

theorem restL_pos (cr : Int → Bool) (A : Levels) : ∀ r : Nat,
    (∀ x ∈ A.orders, 0 < x.remainingQuantity_) →
    ∀ y ∈ (restL cr r A).orders, 0 < y.remainingQuantity_ := by
  induction A with
  | nil => intro r _ y hy; simp [restL, Levels.orders] at hy
  | cons l A ih =>
    obtain ⟨p, xs⟩ := l
    intro r h y hy
    have hxs : ∀ x ∈ xs, 0 < x.remainingQuantity_ := fun x hx =>
      h x (by rw [orders_cons]; exact List.mem_append_left _ hx)
    have hA : ∀ x ∈ Levels.orders A, 0 < x.remainingQuantity_ := fun x hx =>
      h x (by rw [orders_cons]; exact List.mem_append_right _ hx)
    simp only [restL] at hy
    split_ifs at hy with h1
    · cases hl : leftQ r xs with
      | none =>
        simp only [hl] at hy
        cases hq : restQ r xs with
        | nil => simp only [hq] at hy; exact hA y hy
        | cons z zs =>
          simp only [hq, orders_cons] at hy
          rcases List.mem_append.1 hy with hy | hy
          · exact restQ_pos xs r hxs y (by rw [hq]; exact hy)
          · exact hA y hy
      | some r1 =>
        simp only [hl] at hy
        exact ih r1 hA y hy
    · exact h y hy

theorem leftL_pos (cr : Int → Bool) (A : Levels) : ∀ r r1 : Nat, 0 < r →
    leftL cr r A = some r1 → 0 < r1 := by
  induction A with
  | nil => intro r r1 hr h; simp only [leftL, Option.some.injEq] at h; omega
  | cons l A ih =>
    obtain ⟨p, xs⟩ := l
    intro r r1 hr h
    simp only [leftL] at h
    split_ifs at h with h1
    · cases hl : leftQ r xs with
      | none => simp [hl] at h
      | some r2 =>
        simp only [hl] at h
        exact ih r2 r1 (leftQ_pos xs r r2 hr hl) h
    · simp only [Option.some.injEq] at h; omega

theorem ownAfter_pos (before : Int → Int → Bool) (own : Levels) (o : Order) (left : Option Nat)
    (hown : ∀ x ∈ own.orders, 0 < x.remainingQuantity_)
    (hleft : ∀ r1, left = some r1 → 0 < r1) :
    ∀ y ∈ (ownAfter before own (restsAs o left)).orders, 0 < y.remainingQuantity_ := by
  intro y hy
  cases left with
  | none => exact hown y hy
  | some r =>
    simp only [restsAs] at hy
    split_ifs at hy with h1
    · simp only [ownAfter] at hy
      rcases List.mem_cons.1 ((push_back_perm before _ own).subset hy) with rfl | hy
      · exact hleft r rfl
      · exact hown y hy
    · exact hown y hy

theorem insert_MatchOrders_PosRem (s : Orderbook) (hI : s.Inv) (hp : PosRem s) (o : Order)
    (hid : o.orderId_ ∉ s.orders_) (hq : 0 < o.remainingQuantity_) :
    PosRem (s.insert o).MatchOrders.1 := by
  have hb : ∀ x ∈ s.bids_.orders, 0 < x.remainingQuantity_ := fun x hx =>
    hp x (List.mem_append_left _ hx)
  have ha : ∀ x ∈ s.asks_.orders, 0 < x.remainingQuantity_ := fun x hx =>
    hp x (List.mem_append_right _ hx)
  intro y hy
  rcases Side.buy_or_sell o.side_ with hs | hs
  · obtain ⟨-, k2, k3, -, -⟩ := MatchOrders_insert_buy s hI o hs hid
    simp only [Orderbook.resting, k2, k3] at hy
    rcases List.mem_append.1 hy with hy | hy
    · exact ownAfter_pos _ _ _ _ hb (fun r1 h => leftL_pos _ _ _ r1 hq h) y hy
    · exact restL_pos _ _ _ ha y hy
  · obtain ⟨-, k2, k3, -, -⟩ := MatchOrders_insert_sell s hI o hs hid
    simp only [Orderbook.resting, k2, k3] at hy
    rcases List.mem_append.1 hy with hy | hy
    · exact restL_pos _ _ _ hb y hy
    · exact ownAfter_pos _ _ _ _ ha (fun r1 h => leftL_pos _ _ _ r1 hq h) y hy

theorem AddOrder_PosRem (L : PriceLimits) (s : Orderbook) (hI : s.Inv) (hp : PosRem s)
    (o : Order) (hq : 0 < o.remainingQuantity_) : PosRem (Orderbook.AddOrder L s o).1 := by
  rcases AddOrder_cases L s o with h | h | ⟨hid, o1, h1, _, _, h4, _, h⟩
  · rw [h]; exact hp
  · rw [h]; exact hp
  · rw [h]
    exact insert_MatchOrders_PosRem s hI hp o1 (by rw [h1]; exact hid) (by rw [h4]; exact hq)

theorem CancelOrder_PosRem (s : Orderbook) (hI : s.Inv) (hp : PosRem s) (i : Nat) :
    PosRem (s.CancelOrder i) :=
  fun x hx => hp x (CancelOrder_resting s hI i x hx)

theorem emit_PosRem (s : Orderbook) (hp : PosRem s) (e : Event) : PosRem (s.emit e) := by
  intro x hx
  rw [emit_resting] at hx
  exact hp x hx

theorem step_PosRem (L : PriceLimits) (s : Orderbook) (hI : s.Inv) (hp : PosRem s)
    (op : Op) (hop : Op.PosQty op) : PosRem (s.step L op) := by
  cases op with
  | AddOrder t i sd p q => exact AddOrder_PosRem L s hI hp _ hop
  | CancelOrder i => exact CancelOrder_PosRem s hI hp i
  | MatchOrder m =>
    simp only [Orderbook.step, Orderbook.MatchOrder]
    split_ifs with h1
    · exact hp
    · split
      · exact hp
      · exact AddOrder_PosRem L _ (CancelOrder_Inv _ (emit_Inv s _ hI) _)
          (CancelOrder_PosRem _ (emit_Inv s _ hI) (emit_PosRem s hp _) _) _ hop
  | MatchOrders =>
    simp only [Orderbook.step, MatchOrders_of_Inv s hI]
    exact hp
  | SetObserver b => exact hp
  | EnableEvents b => exact hp

theorem run_PosRem (L : PriceLimits) (ops : List Op) : ∀ s : Orderbook, s.Inv → PosRem s →
    (∀ op ∈ ops, Op.PosQty op) → PosRem (s.run L ops) := by
  induction ops with
  | nil => intro s _ hp _; exact hp
  | cons op ops ih =>
    intro s hI hp h
    exact ih (s.step L op) (step_Inv L s hI op)
      (step_PosRem L s hI hp op (h op (List.mem_cons_self _ _)))
      (fun o ho => h o (List.mem_cons_of_mem _ ho))

/-! ### The level snapshot -/

theorem toOp_isBookCall (l : TraceLine) : l.toOp.isBookCall = true := by
  cases l <;> rfl

theorem run_disabled (L : PriceLimits) (ops : List Op) : ∀ s : Orderbook,
    (∀ op ∈ ops, op.isBookCall = true) → s.events_enabled_ = false →
    (s.run L ops).delivered = s.delivered ∧ (s.run L ops).event_seq_ = s.event_seq_ ∧
      (s.run L ops).events_enabled_ = false := by
  induction ops with
  | nil => intro s _ he; exact ⟨rfl, rfl, he⟩
  | cons op ops ih =>
    intro s hb he
    obtain ⟨evs, h⟩ := step_emits L s op (hb op (List.mem_cons_self _ _))
    have h1 : (s.step L op).delivered = s.delivered := by rw [h.delivered, he]; simp
    have h2 : (s.step L op).event_seq_ = s.event_seq_ := by rw [h.seq, he]; simp
    have h3 : (s.step L op).events_enabled_ = false := by rw [h.enabled, he]
    obtain ⟨k1, k2, k3⟩ := ih (s.step L op) (fun o ho => hb o (List.mem_cons_of_mem _ ho)) h3
    exact ⟨k1.trans h1, k2.trans h2, k3⟩

theorem replay_delivers_nothing (L : PriceLimits) (trace : List TraceLine) (b : Bool) :
    (replay_trace_and_write_snapshot L trace b).delivered = [] := by
  have hb : ∀ op ∈ trace.map TraceLine.toOp, op.isBookCall = true := by
    intro op hop
    obtain ⟨l, -, rfl⟩ := List.mem_map.1 hop
    exact toOp_isBookCall l
  simp only [replay_trace_and_write_snapshot, Orderbook.SetObserver]
  cases b
  · exact (run_disabled L _ _ hb rfl).1
  · exact (run_disabled L _ _ hb rfl).1

/-! ### The pairs of orders met by the matching loops -/

theorem matchLevel_succ (fuel : Nat) (s : Orderbook) (T : List Trade) (bp ap : Int)
    (bid ask : Order) (bids asks : List Order) (bl al : Levels)
    (hb : s.bids_ = (bp, bid :: bids) :: bl) (ha : s.asks_ = (ap, ask :: asks) :: al) :
    s.matchLevel (fuel + 1) T =
      (s.matchLevel 1 []).1.matchLevel fuel
        (T ++ [mkTrade bid ask (min bid.remainingQuantity_ ask.remainingQuantity_)]) := by
  simp only [Orderbook.matchLevel, hb, ha, Fill_min_left, Fill_min_right]
  rfl

theorem matchLevel_pairs : ∀ (fuel : Nat) (s : Orderbook) (T : List Trade),
    (s.matchLevel fuel T).2 = some (T ++ (s.levelPairs fuel).map
        (fun p => mkTrade p.1 p.2 (min p.1.remainingQuantity_ p.2.remainingQuantity_))) ∧
      (s.matchLevel fuel T).1 = (s.matchLevel fuel []).1 := by
  intro fuel
  induction fuel with
  | zero => intro s T; simp [Orderbook.matchLevel, Orderbook.levelPairs]
  | succ f ih =>
    intro s T
    rcases hb : s.bids_ with _ | ⟨⟨bp, _ | ⟨bid, bids⟩⟩, bl⟩
    · simp [Orderbook.matchLevel, Orderbook.levelPairs, hb]
    · simp [Orderbook.matchLevel, Orderbook.levelPairs, hb]
    · rcases ha : s.asks_ with _ | ⟨⟨ap, _ | ⟨ask, asks⟩⟩, al⟩
      · simp [Orderbook.matchLevel, Orderbook.levelPairs, hb, ha]
      · simp [Orderbook.matchLevel, Orderbook.levelPairs, hb, ha]
      · rw [matchLevel_succ f s T bp ap bid ask bids asks bl al hb ha,
          matchLevel_succ f s [] bp ap bid ask bids asks bl al hb ha]
        obtain ⟨h1, h2⟩ := ih (s.matchLevel 1 []).1
          (T ++ [mkTrade bid ask (min bid.remainingQuantity_ ask.remainingQuantity_)])
        obtain ⟨-, h4⟩ := ih (s.matchLevel 1 []).1
          ([] ++ [mkTrade bid ask (min bid.remainingQuantity_ ask.remainingQuantity_)])
        refine ⟨?_, h2.trans h4.symm⟩
        rw [h1]
        simp [Orderbook.levelPairs, hb, ha]

theorem matchLoop_pairs : ∀ (fuel : Nat) (s : Orderbook) (T : List Trade),
    (s.matchLoop fuel T).2 = some (T ++ (s.loopPairs fuel).map
        (fun p => mkTrade p.1 p.2 (min p.1.remainingQuantity_ p.2.remainingQuantity_))) := by
  intro fuel
  induction fuel with
  | zero => intro s T; simp [Orderbook.matchLoop, Orderbook.loopPairs]
  | succ f ih =>
    intro s T
    rcases hb : s.bids_ with _ | ⟨⟨bp, bids⟩, bl⟩
    · simp [Orderbook.matchLoop, Orderbook.loopPairs, hb]
    · rcases ha : s.asks_ with _ | ⟨⟨ap, asks⟩, al⟩
      · simp [Orderbook.matchLoop, Orderbook.loopPairs, hb, ha]
      · simp only [Orderbook.matchLoop, Orderbook.loopPairs, hb, ha]
        split_ifs with hlt
        · simp
        · obtain ⟨h1, h2⟩ := matchLevel_pairs (bids.length + asks.length + 1) s T
          rcases hm : s.matchLevel (bids.length + asks.length + 1) T with ⟨s1, r⟩
          rw [hm] at h1 h2
          simp only at h1 h2
          subst h1
          simp only
          rw [ih, ← h2]
          simp

theorem MatchOrders_pairs (s : Orderbook) :
    s.MatchOrders.2 = some (s.matchPairs.map
      (fun p => mkTrade p.1 p.2 (min p.1.remainingQuantity_ p.2.remainingQuantity_))) := by
  have h := matchLoop_pairs (s.bids_.length + s.asks_.length + 1) s []
  simp only [Orderbook.MatchOrders, Orderbook.matchPairs]
  rcases hm : s.matchLoop (s.bids_.length + s.asks_.length + 1) [] with ⟨s1, r⟩
  rw [hm] at h
  simp only at h
  subst h
  simp

theorem matchStep_sides (s : Orderbook) (bp ap : Int)
    (bid ask : Order) (bids asks : List Order) (bl al : Levels)
    (hb : s.bids_ = (bp, bid :: bids) :: bl) (ha : s.asks_ = (ap, ask :: asks) :: al) :
    (∀ o ∈ (s.matchLevel 1 []).1.bids_.orders, ∃ y ∈ s.bids_.orders, o.side_ = y.side_) ∧
    (∀ o ∈ (s.matchLevel 1 []).1.asks_.orders, ∃ y ∈ s.asks_.orders, o.side_ = y.side_) := by
  simp only [Orderbook.matchLevel, hb, ha, Fill_min_left, Fill_min_right]
  constructor
  · intro o ho
    split_ifs at ho <;> simp only [emit_bids, orders_cons, List.mem_append, List.mem_cons] at ho ⊢
    all_goals
      first
      | (rcases ho with ho | ho
         · exact ⟨o, Or.inl (Or.inr ho), rfl⟩
         · exact ⟨o, Or.inr ho, rfl⟩)
      | (rcases ho with (rfl | ho) | ho
         · exact ⟨bid, Or.inl (Or.inl rfl), rfl⟩
         · exact ⟨o, Or.inl (Or.inr ho), rfl⟩
         · exact ⟨o, Or.inr ho, rfl⟩)
  · intro o ho
    split_ifs at ho <;> simp only [emit_asks, orders_cons, List.mem_append, List.mem_cons] at ho ⊢
    all_goals
      first
      | (rcases ho with ho | ho
         · exact ⟨o, Or.inl (Or.inr ho), rfl⟩
         · exact ⟨o, Or.inr ho, rfl⟩)
      | (rcases ho with (rfl | ho) | ho
         · exact ⟨ask, Or.inl (Or.inl rfl), rfl⟩
         · exact ⟨o, Or.inl (Or.inr ho), rfl⟩
         · exact ⟨o, Or.inr ho, rfl⟩)

theorem erase_orders_subset (p : Int) (m : Levels) :
    ∀ o ∈ (Levels.erase p m).orders, o ∈ m.orders := by
  intro o ho
  obtain ⟨lvl, hl, hol⟩ := mem_orders.1 ho
  exact mem_orders.2 ⟨lvl, (List.eraseP_sublist m).subset hl, hol⟩

theorem Sided_eraseEmptied (s : Orderbook) (bp ap : Int) (h : Sided s) :
    Sided (s.eraseEmptied bp ap) := by
  obtain ⟨h1, h2⟩ := h
  simp only [Orderbook.eraseEmptied]
  split_ifs <;> constructor <;> intro o ho
  all_goals
    first
    | exact h1 o ho
    | exact h2 o ho
    | exact h1 o (erase_orders_subset _ _ o ho)
    | exact h2 o (erase_orders_subset _ _ o ho)

theorem Sided_matchLevel : ∀ (fuel : Nat) (s : Orderbook) (T : List Trade), Sided s →
    Sided (s.matchLevel fuel T).1 ∧
      ∀ p ∈ s.levelPairs fuel, p.1.side_ = Side.Buy ∧ p.2.side_ = Side.Sell := by
  intro fuel
  induction fuel with
  | zero => intro s T h; exact ⟨h, by simp [Orderbook.levelPairs]⟩
  | succ f ih =>
    intro s T h
    rcases hb : s.bids_ with _ | ⟨⟨bp, _ | ⟨bid, bids⟩⟩, bl⟩
    · simp only [Orderbook.matchLevel, Orderbook.levelPairs, hb]
      exact ⟨h, by simp⟩
    · simp only [Orderbook.matchLevel, Orderbook.levelPairs, hb]
      exact ⟨h, by simp⟩
    · rcases ha : s.asks_ with _ | ⟨⟨ap, _ | ⟨ask, asks⟩⟩, al⟩
      · simp only [Orderbook.matchLevel, Orderbook.levelPairs, hb, ha]
        exact ⟨h, by simp⟩
      · simp only [Orderbook.matchLevel, Orderbook.levelPairs, hb, ha]
        exact ⟨h, by simp⟩
      · obtain ⟨k1, k2⟩ := matchStep_sides s bp ap bid ask bids asks bl al hb ha
        have hs : Sided (s.matchLevel 1 []).1 := by
          refine ⟨fun o ho => ?_, fun o ho => ?_⟩
          · obtain ⟨y, hy, e⟩ := k1 o ho
            rw [e]; exact h.1 y hy
          · obtain ⟨y, hy, e⟩ := k2 o ho
            rw [e]; exact h.2 y hy
        obtain ⟨i1, i2⟩ := ih (s.matchLevel 1 []).1
          (T ++ [mkTrade bid ask (min bid.remainingQuantity_ ask.remainingQuantity_)]) hs
        rw [matchLevel_succ f s T bp ap bid ask bids asks bl al hb ha]
        refine ⟨i1, ?_⟩
        intro p hp
        simp only [Orderbook.levelPairs, hb, ha, List.mem_cons] at hp
        rcases hp with rfl | hp
        · exact ⟨h.1 bid (by rw [hb, orders_cons]; simp),
            h.2 ask (by rw [ha, orders_cons]; simp)⟩
        · exact i2 p hp

theorem Sided_loopPairs : ∀ (fuel : Nat) (s : Orderbook), Sided s →
    ∀ p ∈ s.loopPairs fuel, p.1.side_ = Side.Buy ∧ p.2.side_ = Side.Sell := by
  intro fuel
  induction fuel with
  | zero => intro s _ p hp; simp [Orderbook.loopPairs] at hp
  | succ f ih =>
    intro s h p hp
    rcases hb : s.bids_ with _ | ⟨⟨bp, bids⟩, bl⟩
    · simp [Orderbook.loopPairs, hb] at hp
    · rcases ha : s.asks_ with _ | ⟨⟨ap, asks⟩, al⟩
      · simp [Orderbook.loopPairs, hb, ha] at hp
      · simp only [Orderbook.loopPairs, hb, ha] at hp
        split_ifs at hp with hlt
        · simp at hp
        · obtain ⟨i1, i2⟩ := Sided_matchLevel (bids.length + asks.length + 1) s [] h
          rcases List.mem_append.1 hp with hp | hp
          · exact i2 p hp
          · exact ih _ (Sided_eraseEmptied _ bp ap i1) p hp

theorem Sided_of_Inv (s : Orderbook) (hI : s.Inv) : Sided s := by
  refine ⟨fun o ho => ?_, fun o ho => ?_⟩
  · obtain ⟨lvl, hl, hol⟩ := mem_orders.1 ho
    exact (hI.book.bidsWF.located lvl hl o hol).1
  · obtain ⟨lvl, hl, hol⟩ := mem_orders.1 ho
    exact (hI.book.asksWF.located lvl hl o hol).1

theorem Sided_insert (s : Orderbook) (o : Order) (h : Sided s) : Sided (s.insert o) := by
  rcases Side.buy_or_sell o.side_ with hs | hs
  · obtain ⟨i1, i2, -⟩ := insert_buy s o hs
    refine ⟨fun x hx => ?_, fun x hx => ?_⟩
    · rw [i1] at hx
      rcases List.mem_cons.1 ((push_back_perm bidBefore o s.bids_).subset hx) with rfl | hx
      · exact hs
      · exact h.1 x hx
    · rw [i2] at hx; exact h.2 x hx
  · obtain ⟨i1, i2, -⟩ := insert_sell s o hs
    refine ⟨fun x hx => ?_, fun x hx => ?_⟩
    · rw [i1] at hx; exact h.1 x hx
    · rw [i2] at hx
      rcases List.mem_cons.1 ((push_back_perm askBefore o s.asks_).subset hx) with rfl | hx
      · exact hs
      · exact h.2 x hx

/-! ### A modify at the same side and price -/

theorem modify_no_cross (s : Orderbook) (hI : s.Inv) (e : Event) (old : Order)
    (ho : old ∈ s.resting) :
    match old.side_ with
    | Side.Buy => ∀ lvl ∈ ((s.emit e).CancelOrder old.orderId_).asks_.head?, old.price_ < lvl.1
    | Side.Sell => ∀ lvl ∈ ((s.emit e).CancelOrder old.orderId_).bids_.head?, lvl.1 < old.price_ := by
  obtain ⟨k1, k2, -⟩ := modify_state s hI e old ho
  rcases List.mem_append.1 ho with hb | ha
  · have hsd := side_of_mem_bids hI.book.bidsWF hb
    rw [hsd]
    simp only
    intro lvl hl
    have hl1 : lvl ∈ ((s.emit e).CancelOrder old.orderId_).asks_ := List.mem_of_mem_head? hl
    obtain ⟨x, hx⟩ := List.exists_mem_of_ne_nil _ (k1.book.asksWF.nonempty lvl hl1)
    have hx1 := k1.book.asksWF.located lvl hl1 x hx
    have hx2 : x ∈ ((s.emit e).CancelOrder old.orderId_).resting :=
      List.mem_append_right _ (mem_orders.2 ⟨lvl, hl1, hx⟩)
    rw [k2] at hx2
    have hx3 : x ∈ s.resting := List.mem_of_mem_erase hx2
    rcases List.mem_append.1 hx3 with h | h
    · have := side_of_mem_bids hI.book.bidsWF h
      rw [hx1.1] at this; cases this
    · obtain ⟨b, hb1, hb2⟩ := mem_orders.1 hb
      obtain ⟨a, ha1, ha2⟩ := mem_orders.1 h
      have := hI.book.noCross b hb1 a ha1
      rw [← (hI.book.bidsWF.located b hb1 old hb2).2, ← (hI.book.asksWF.located a ha1 x ha2).2,
        hx1.2] at this
      exact this
  · have hsd := side_of_mem_asks hI.book.asksWF ha
    rw [hsd]
    simp only
    intro lvl hl
    have hl1 : lvl ∈ ((s.emit e).CancelOrder old.orderId_).bids_ := List.mem_of_mem_head? hl
    obtain ⟨x, hx⟩ := List.exists_mem_of_ne_nil _ (k1.book.bidsWF.nonempty lvl hl1)
    have hx1 := k1.book.bidsWF.located lvl hl1 x hx
    have hx2 : x ∈ ((s.emit e).CancelOrder old.orderId_).resting :=
      List.mem_append_left _ (mem_orders.2 ⟨lvl, hl1, hx⟩)
    rw [k2] at hx2
    have hx3 : x ∈ s.resting := List.mem_of_mem_erase hx2
    rcases List.mem_append.1 hx3 with h | h
    · obtain ⟨b, hb1, hb2⟩ := mem_orders.1 h
      obtain ⟨a, ha1, ha2⟩ := mem_orders.1 ha
      have := hI.book.noCross b hb1 a ha1
      rw [← (hI.book.bidsWF.located b hb1 x hb2).2, ← (hI.book.asksWF.located a ha1 old ha2).2,
        hx1.2] at this
      exact this
    · have := side_of_mem_asks hI.book.asksWF h
      rw [hx1.1] at this; cases this

theorem modify_same_price (L : PriceLimits) (s : Orderbook) (hI : s.Inv) (old : Order)
    (ho : old ∈ s.resting) (q : Nat) :
    Orderbook.MatchOrder L s ⟨old.orderId_, old.side_, old.price_, q⟩ =
      (((s.emit (modifyEvent ⟨old.orderId_, old.side_, old.price_, q⟩)).CancelOrder
          old.orderId_).insert
        (Order.new OrderType.GoodTillCancel old.orderId_ old.side_ old.price_ q), some []) := by
  have hi := mem_index_of_resting s hI.book old ho
  obtain ⟨old1, ho1, hid, -, heq⟩ :=
    MatchOrder_of_mem L s hI ⟨old.orderId_, old.side_, old.price_, q⟩ hi
  obtain ⟨k1, -, k3⟩ :=
    modify_state s hI (modifyEvent ⟨old.orderId_, old.side_, old.price_, q⟩) old ho
  rw [heq]
  exact AddOrder_GTC_not_crossing L _ k1 old.orderId_ old.side_ old.price_ q k3
    (modify_no_cross s hI _ old ho)

/-! ### Termination of the matching loops -/

theorem matchStep_shape (s : Orderbook) (bp ap : Int)
    (bid ask : Order) (bids asks : List Order) (bl al : Levels)
    (hb : s.bids_ = (bp, bid :: bids) :: bl) (ha : s.asks_ = (ap, ask :: asks) :: al) :
    ∃ bq aq, (s.matchLevel 1 []).1.bids_ = (bp, bq) :: bl ∧
      (s.matchLevel 1 []).1.asks_ = (ap, aq) :: al ∧
      bq.length + aq.length < bids.length + asks.length + 2 := by
  simp only [Orderbook.matchLevel, hb, ha, Fill_min_left, Fill_min_right, Order.IsFilled]
  by_cases h1 : bid.remainingQuantity_ ≤ ask.remainingQuantity_
  · have e1 : (bid.remainingQuantity_ - min bid.remainingQuantity_ ask.remainingQuantity_ == 0)
        = true := by simp; omega
    simp only [e1, if_true]
    split_ifs
    · exact ⟨bids, asks, by simp, by simp, by omega⟩
    · refine ⟨bids, ⟨ask.orderType_, ask.orderId_, ask.side_, ask.price_, ask.initialQuantity_,
        ask.remainingQuantity_ - min bid.remainingQuantity_ ask.remainingQuantity_⟩ :: asks,
        ?_, ?_, ?_⟩
      · simp
      · simp only [emit_asks]
      · simp only [List.length_cons]; omega
  · have e2 : (ask.remainingQuantity_ - min bid.remainingQuantity_ ask.remainingQuantity_ == 0)
        = true := by simp; omega
    simp only [e2, if_true]
    split_ifs
    · exact ⟨bids, asks, by simp, by simp, by omega⟩
    · refine ⟨⟨bid.orderType_, bid.orderId_, bid.side_, bid.price_, bid.initialQuantity_,
        bid.remainingQuantity_ - min bid.remainingQuantity_ ask.remainingQuantity_⟩ :: bids,
        asks, ?_, ?_, ?_⟩
      · simp only [emit_bids]
      · simp
      · simp only [List.length_cons]; omega

theorem matchLevel_no_front (fuel : Nat) (s : Orderbook) (T : List Trade)
    (h : s.innerTest = false) : s.matchLevel fuel T = (s, some T) := by
  cases fuel with
  | zero => rfl
  | succ f =>
    rcases hb : s.bids_ with _ | ⟨⟨bp, _ | ⟨bid, bids⟩⟩, bl⟩
    · simp [Orderbook.matchLevel, hb]
    · simp [Orderbook.matchLevel, hb]
    · rcases ha : s.asks_ with _ | ⟨⟨ap, _ | ⟨ask, asks⟩⟩, al⟩
      · simp [Orderbook.matchLevel, hb, ha]
      · simp [Orderbook.matchLevel, hb, ha]
      · simp [Orderbook.innerTest, hb, ha] at h

theorem matchLevel_run : ∀ (fuel : Nat) (s : Orderbook) (T : List Trade) (bp ap : Int)
    (bids asks : List Order) (bl al : Levels),
    s.bids_ = (bp, bids) :: bl → s.asks_ = (ap, asks) :: al →
    ∃ bq aq T1, (s.matchLevel fuel T).2 = some (T ++ T1) ∧
      (s.matchLevel fuel T).1.bids_ = (bp, bq) :: bl ∧
      (s.matchLevel fuel T).1.asks_ = (ap, aq) :: al ∧
      T1.length + bq.length + aq.length ≤ bids.length + asks.length ∧
      (bids.length + asks.length ≤ fuel →
        (bq = [] ∨ aq = []) ∧ ∀ extra, s.matchLevel (fuel + extra) T = s.matchLevel fuel T) := by
  intro fuel
  induction fuel with
  | zero =>
    intro s T bp ap bids asks bl al hb ha
    refine ⟨bids, asks, [], by simp [Orderbook.matchLevel], hb, ha, by simp, ?_⟩
    intro hle
    have h1 : bids = [] := List.length_eq_zero.1 (by omega)
    refine ⟨Or.inl h1, fun extra => ?_⟩
    exact matchLevel_no_front _ s T (by simp [Orderbook.innerTest, hb, h1])
  | succ f ih =>
    intro s T bp ap bids asks bl al hb ha
    have hnf : s.innerTest = false → ∃ bq aq T1,
        (s.matchLevel (f + 1) T).2 = some (T ++ T1) ∧
        (s.matchLevel (f + 1) T).1.bids_ = (bp, bq) :: bl ∧
        (s.matchLevel (f + 1) T).1.asks_ = (ap, aq) :: al ∧
        T1.length + bq.length + aq.length ≤ bids.length + asks.length ∧
        (bids.length + asks.length ≤ f + 1 →
          (bq = [] ∨ aq = []) ∧
            ∀ extra, s.matchLevel (f + 1 + extra) T = s.matchLevel (f + 1) T) := by
      intro hn
      refine ⟨bids, asks, [], ?_, ?_, ?_, by simp, ?_⟩
      · rw [matchLevel_no_front _ s T hn]; simp
      · rw [matchLevel_no_front _ s T hn]; exact hb
      · rw [matchLevel_no_front _ s T hn]; exact ha
      · intro _
        refine ⟨?_, fun extra => by
          rw [matchLevel_no_front _ s T hn, matchLevel_no_front _ s T hn]⟩
        cases bids with
        | nil => exact Or.inl rfl
        | cons b bs =>
          cases asks with
          | nil => exact Or.inr rfl
          | cons a as => simp [Orderbook.innerTest, hb, ha] at hn
    cases bids with
    | nil => exact hnf (by simp [Orderbook.innerTest, hb])
    | cons bid bids =>
      cases asks with
      | nil => exact hnf (by simp [Orderbook.innerTest, hb, ha])
      | cons ask asks =>
        obtain ⟨bq0, aq0, s1, s2, s3⟩ := matchStep_shape s bp ap bid ask bids asks bl al hb ha
        obtain ⟨bq, aq, T1, i1, i2, i3, i4, i5⟩ := ih (s.matchLevel 1 []).1
          (T ++ [mkTrade bid ask (min bid.remainingQuantity_ ask.remainingQuantity_)])
          bp ap bq0 aq0 bl al s1 s2
        rw [matchLevel_succ f s T bp ap bid ask bids asks bl al hb ha]
        refine ⟨bq, aq, mkTrade bid ask (min bid.remainingQuantity_ ask.remainingQuantity_) :: T1,
          by simpa using i1, i2, i3, ?_, ?_⟩
        · simp only [List.length_cons]; omega
        · intro hle
          simp only [List.length_cons] at hle
          obtain ⟨j1, j2⟩ := i5 (by omega)
          refine ⟨j1, fun extra => ?_⟩
          rw [show f + 1 + extra = (f + extra) + 1 by omega,
            matchLevel_succ (f + extra) s T bp ap bid ask bids asks bl al hb ha]
          exact j2 extra

theorem frontCount_le_resting (s : Orderbook) : s.frontCount ≤ s.resting.length := by
  rcases hb : s.bids_ with _ | ⟨⟨bp, bids⟩, bl⟩ <;> rcases ha : s.asks_ with _ | ⟨⟨ap, asks⟩, al⟩ <;>
    simp only [Orderbook.frontCount, Orderbook.resting, hb, ha, orders_cons, List.length_append,
      orders_nil, List.length_nil] <;> omega

theorem matchLevel_adequate (s : Orderbook) (T : List Trade) (n : Nat) (h : s.frontCount ≤ n) :
    (∀ extra, s.matchLevel (n + extra) T = s.matchLevel n T) ∧
      (s.matchLevel n T).1.innerTest = false := by
  rcases hb : s.bids_ with _ | ⟨⟨bp, bids⟩, bl⟩
  · have hn : s.innerTest = false := by simp [Orderbook.innerTest, hb]
    exact ⟨fun extra => by rw [matchLevel_no_front _ s T hn, matchLevel_no_front _ s T hn],
      by rw [matchLevel_no_front _ s T hn]; exact hn⟩
  · rcases ha : s.asks_ with _ | ⟨⟨ap, asks⟩, al⟩
    · have hn : s.innerTest = false := by simp [Orderbook.innerTest, hb, ha]
      exact ⟨fun extra => by rw [matchLevel_no_front _ s T hn, matchLevel_no_front _ s T hn],
        by rw [matchLevel_no_front _ s T hn]; exact hn⟩
    · obtain ⟨bq, aq, T1, -, i2, i3, -, i5⟩ := matchLevel_run n s T bp ap bids asks bl al hb ha
      simp only [Orderbook.frontCount, hb, ha] at h
      obtain ⟨j1, j2⟩ := i5 h
      refine ⟨j2, ?_⟩
      rcases j1 with rfl | rfl
      · simp [Orderbook.innerTest, i2]
      · cases bq <;> simp [Orderbook.innerTest, i2, i3]

theorem matchStep_removes (s : Orderbook) (h : s.innerTest = true) :
    (s.matchLevel 1 []).1.resting.length < s.resting.length := by
  rcases hb : s.bids_ with _ | ⟨⟨bp, _ | ⟨bid, bids⟩⟩, bl⟩
  · simp [Orderbook.innerTest, hb] at h
  · simp [Orderbook.innerTest, hb] at h
  · rcases ha : s.asks_ with _ | ⟨⟨ap, _ | ⟨ask, asks⟩⟩, al⟩
    · simp [Orderbook.innerTest, hb, ha] at h
    · simp [Orderbook.innerTest, hb, ha] at h
    · obtain ⟨bq0, aq0, s1, s2, s3⟩ := matchStep_shape s bp ap bid ask bids asks bl al hb ha
      simp only [Orderbook.resting, s1, s2, hb, ha, orders_cons, List.length_append,
        List.length_cons]
      omega

theorem eraseEmptied_after (s : Orderbook) (bp ap : Int) (bq aq : List Order) (bl al : Levels)
    (h1 : s.bids_ = (bp, bq) :: bl) (h2 : s.asks_ = (ap, aq) :: al) :
    (s.eraseEmptied bp ap).resting = s.resting ∧
      ((bq = [] ∨ aq = []) →
        (s.eraseEmptied bp ap).bids_.length + (s.eraseEmptied bp ap).asks_.length ≤
          bl.length + al.length + 1) := by
  cases bq with
  | nil =>
    have e1 := eraseEmptied_bids_nil s bp ap bl h1
    cases aq with
    | nil =>
      have e2 := eraseEmptied_asks_nil s bp ap al h2
      refine ⟨by simp [Orderbook.resting, e1, e2, h1, h2, orders_cons], fun _ => ?_⟩
      rw [e1, e2]; omega
    | cons a as =>
      have e2 := eraseEmptied_asks_cons s bp ap a as al h2
      refine ⟨by simp [Orderbook.resting, e1, e2, h1, h2, orders_cons], fun _ => ?_⟩
      rw [e1, e2]; simp only [List.length_cons]; omega
  | cons b bs =>
    have e1 := eraseEmptied_bids_cons s bp ap b bs bl h1
    cases aq with
    | nil =>
      have e2 := eraseEmptied_asks_nil s bp ap al h2
      refine ⟨by simp [Orderbook.resting, e1, e2, h1, h2, orders_cons], fun _ => ?_⟩
      rw [e1, e2]; simp only [List.length_cons]; omega
    | cons a as =>
      have e2 := eraseEmptied_asks_cons s bp ap a as al h2
      refine ⟨by simp [Orderbook.resting, e1, e2, h1, h2, orders_cons], fun h => ?_⟩
      simp at h

theorem matchLoop_no_outer (fuel : Nat) (s : Orderbook) (T : List Trade)
    (h : s.outerTest = false) : s.matchLoop fuel T = (s, some T) := by
  cases fuel with
  | zero => rfl
  | succ f =>
    rcases hb : s.bids_ with _ | ⟨⟨bp, bids⟩, bl⟩
    · simp [Orderbook.matchLoop, hb]
    · rcases ha : s.asks_ with _ | ⟨⟨ap, asks⟩, al⟩
      · simp [Orderbook.matchLoop, hb, ha]
      · simp only [Orderbook.outerTest, hb, ha, Bool.not_eq_false', decide_eq_true_eq] at h
        simp [Orderbook.matchLoop, hb, ha, h]

theorem matchLoop_succ (f : Nat) (s : Orderbook) (T : List Trade) (bp ap : Int)
    (bids asks : List Order) (bl al : Levels)
    (hb : s.bids_ = (bp, bids) :: bl) (ha : s.asks_ = (ap, asks) :: al) (hc : ¬ bp < ap) :
    s.matchLoop (f + 1) T =
      ((s.matchLevel (bids.length + asks.length + 1) T).1.eraseEmptied bp ap).matchLoop f
        ((s.matchLevel (bids.length + asks.length + 1) T).2.getD []) := by
  obtain ⟨T1, h1, -, -⟩ := matchLevel_frame (bids.length + asks.length + 1) s T
  simp only [Orderbook.matchLoop, hb, ha, if_neg hc]
  rcases hm : s.matchLevel (bids.length + asks.length + 1) T with ⟨s1, r⟩
  rw [hm] at h1
  simp only at h1
  subst h1
  rfl

theorem matchLoop_run : ∀ (fuel : Nat) (s : Orderbook) (T : List Trade),
    ∃ T1, (s.matchLoop fuel T).2 = some (T ++ T1) ∧
      T1.length + (s.matchLoop fuel T).1.resting.length ≤ s.resting.length ∧
      (s.bids_.length + s.asks_.length ≤ fuel →
        (s.matchLoop fuel T).1.outerTest = false ∧
          ∀ extra, s.matchLoop (fuel + extra) T = s.matchLoop fuel T) := by
  intro fuel
  induction fuel with
  | zero =>
    intro s T
    refine ⟨[], by simp [Orderbook.matchLoop], by simp [Orderbook.matchLoop], ?_⟩
    intro hle
    have h1 : s.bids_ = [] := List.length_eq_zero.1 (by omega)
    have hn : s.outerTest = false := by simp [Orderbook.outerTest, h1]
    exact ⟨hn, fun extra => matchLoop_no_outer _ s T hn⟩
  | succ f ih =>
    intro s T
    by_cases hn : s.outerTest = false
    · rw [matchLoop_no_outer _ s T hn]
      exact ⟨[], by simp, by simp, fun _ => ⟨hn, fun extra => by
        rw [matchLoop_no_outer _ s T hn]⟩⟩
    · rcases hb : s.bids_ with _ | ⟨⟨bp, bids⟩, bl⟩
      · simp [Orderbook.outerTest, hb] at hn
      · rcases ha : s.asks_ with _ | ⟨⟨ap, asks⟩, al⟩
        · simp [Orderbook.outerTest, hb, ha] at hn
        · have hc : ¬ bp < ap := by
            simpa [Orderbook.outerTest, hb, ha] using hn
          obtain ⟨bq, aq, T1, i1, i2, i3, i4, i5⟩ :=
            matchLevel_run (bids.length + asks.length + 1) s T bp ap bids asks bl al hb ha
          obtain ⟨j1, -⟩ := i5 (by omega)
          obtain ⟨e1, e2⟩ := eraseEmptied_after _ bp ap bq aq bl al i2 i3
          have hsucc := fun g => matchLoop_succ g s T bp ap bids asks bl al hb ha hc
          obtain ⟨T2, k1, k2, k3⟩ :=
            ih ((s.matchLevel (bids.length + asks.length + 1) T).1.eraseEmptied bp ap)
              ((s.matchLevel (bids.length + asks.length + 1) T).2.getD [])
          have hT : (s.matchLevel (bids.length + asks.length + 1) T).2.getD [] = T ++ T1 := by
            rw [i1]; rfl
          rw [hT] at hsucc k1 k2 k3
          rw [hsucc f]
          refine ⟨T1 ++ T2, by simpa using k1, ?_, ?_⟩
          · rw [e1] at k2
            have hr1 : (s.matchLevel (bids.length + asks.length + 1) T).1.resting.length =
                bq.length + (Levels.orders bl).length + aq.length + (Levels.orders al).length := by
              simp only [Orderbook.resting, i2, i3, orders_cons, List.length_append]; omega
            have hr2 : s.resting.length =
                bids.length + (Levels.orders bl).length + asks.length + (Levels.orders al).length := by
              simp only [Orderbook.resting, hb, ha, orders_cons, List.length_append]; omega
            simp only [List.length_append]
            omega
          · intro hle
            simp only [List.length_cons] at hle
            obtain ⟨m1, m2⟩ := k3 (by have := e2 j1; omega)
            refine ⟨m1, fun extra => ?_⟩
            rw [show f + 1 + extra = (f + extra) + 1 by omega, hsucc (f + extra)]
            exact m2 extra

theorem MatchOrders_trades_bound (s : Orderbook) :
    ∃ trades, s.MatchOrders.2 = some trades ∧ trades.length ≤ s.resting.length := by
  obtain ⟨T1, h1, h2, -⟩ := matchLoop_run (s.bids_.length + s.asks_.length + 1) s []
  simp only [Orderbook.MatchOrders]
  rcases hm : s.matchLoop (s.bids_.length + s.asks_.length + 1) [] with ⟨s1, r⟩
  rw [hm] at h1 h2
  simp only at h1 h2
  subst h1
  exact ⟨T1, by simp, by omega⟩

/-! ### Independence of the book from the event settings -/

theorem sameBook_symm {s t : Orderbook} (h : SameBook s t) : SameBook t s :=
  ⟨h.1.symm, h.2.1.symm, h.2.2.1.symm, h.2.2.2.1.symm, h.2.2.2.2.1.symm, h.2.2.2.2.2.symm⟩

theorem sameBook_trans {s t u : Orderbook} (h : SameBook s t) (g : SameBook t u) : SameBook s u :=
  ⟨h.1.trans g.1, h.2.1.trans g.2.1, h.2.2.1.trans g.2.2.1, h.2.2.2.1.trans g.2.2.2.1,
    h.2.2.2.2.1.trans g.2.2.2.2.1, h.2.2.2.2.2.trans g.2.2.2.2.2⟩

theorem sameBook_self (s : Orderbook) : SameBook s s := ⟨rfl, rfl, rfl, rfl, rfl, rfl⟩

theorem CanMatch_congr {s t : Orderbook} (h : SameBook s t) (sd : Side) (p : Int) :
    s.CanMatch sd p = t.CanMatch sd p := by
  simp only [Orderbook.CanMatch, h.1, h.2.1]

theorem CanFullyFill_congr {s t : Orderbook} (h : SameBook s t) (sd : Side) (p : Int) (q : Nat) :
    s.CanFullyFill sd p q = t.CanFullyFill sd p q := by
  simp only [Orderbook.CanFullyFill, Orderbook.CanFullyFill_Buy, Orderbook.CanFullyFill_Sell,
    CanMatch_congr h, h.1, h.2.1]

theorem AddOrder_congr (L : PriceLimits) (s t : Orderbook) (hs : s.Inv) (ht : t.Inv)
    (h : SameBook s t) (o : Order) :
    (Orderbook.AddOrder L s o).2 = (Orderbook.AddOrder L t o).2 ∧
      SameBook (Orderbook.AddOrder L s o).1 (Orderbook.AddOrder L t o).1 := by
  simp only [Orderbook.AddOrder, h.2.2.1, CanMatch_congr h, CanFullyFill_congr h]
  by_cases hid : o.orderId_ ∈ t.orders_
  · have hc : t.orders_.contains o.orderId_ = true := by simpa using hid
    simp only [hc, if_true]
    exact ⟨by simp, h⟩
  · have hc : t.orders_.contains o.orderId_ = false := by simpa using hid
    simp only [hc, Bool.false_eq_true, if_false]
    cases hto : (if decide (o.orderType_ = OrderType.Market) = true then
        o.ToImmediateOrCancel (if o.side_ = Side.Buy then L.maxPrice else L.minPrice)
        else some o) with
    | none => exact ⟨by simp, h⟩
    | some o1 =>
      simp only
      have hid1 : o1.orderId_ ∉ s.orders_ := by
        rw [h.2.2.1]
        by_cases hm : o.orderType_ = OrderType.Market
        · simp only [hm, decide_True, if_true] at hto
          rw [ToImmediateOrCancel_id o o1 _ hto]; exact hid
        · simp only [hm, decide_False, Bool.false_eq_true, if_false, Option.some.injEq] at hto
          rw [← hto]; exact hid
      split_ifs
      · exact ⟨by simp, h⟩
      · exact ⟨by simp, h⟩
      · exact insert_MatchOrders_congr s t hs ht h o1 hid1

theorem CancelOrder_congr (s t : Orderbook) (hs : s.Inv) (ht : t.Inv) (h : SameBook s t)
    (i : Nat) : SameBook (s.CancelOrder i) (t.CancelOrder i) := by
  obtain ⟨h1, h2, h3, h4, -, -⟩ := h
  refine SameBook_of_Inv (CancelOrder_Inv _ hs i) (CancelOrder_Inv _ ht i) ?_ ?_ ?_ ?_
  all_goals
    by_cases hi : i ∈ s.orders_
    · obtain ⟨o, ho, rfl⟩ : ∃ o ∈ s.resting, o.orderId_ = i := by
        have := (hs.book.indexIff i).1 hi
        simpa [Levels.ids, Orderbook.resting, List.mem_map, or_and_right, exists_or] using this
      rcases List.mem_append.1 ho with hb | ha
      · rw [CancelOrder_bid s hs.book o hb, CancelOrder_bid t ht.book o (by rw [← h1]; exact hb)]
        simp [h1, h2, h3, h4]
      · rw [CancelOrder_ask s hs.book o ha, CancelOrder_ask t ht.book o (by rw [← h2]; exact ha)]
        simp [h1, h2, h3, h4]
    · rw [CancelOrder_of_not_mem s i hi, CancelOrder_of_not_mem t i (by rw [← h3]; exact hi)]
      first | exact h1 | exact h2 | exact h3 | exact h4

theorem MatchOrder_congr (L : PriceLimits) (s t : Orderbook) (hs : s.Inv) (ht : t.Inv)
    (h : SameBook s t) (m : OrderModify) :
    (Orderbook.MatchOrder L s m).2 = (Orderbook.MatchOrder L t m).2 ∧
      SameBook (Orderbook.MatchOrder L s m).1 (Orderbook.MatchOrder L t m).1 := by
  by_cases hi : m.orderId_ ∈ s.orders_
  · have hi2 : m.orderId_ ∈ t.orders_ := by rw [← h.2.2.1]; exact hi
    obtain ⟨-, -, -, -, e1⟩ := MatchOrder_of_mem L s hs m hi
    obtain ⟨-, -, -, -, e2⟩ := MatchOrder_of_mem L t ht m hi2
    rw [e1, e2]
    have c1 := CancelOrder_emit_SameBook s hs (modifyEvent m) m.orderId_
    have c2 := CancelOrder_emit_SameBook t ht (modifyEvent m) m.orderId_
    have c3 := CancelOrder_congr s t hs ht h m.orderId_
    exact AddOrder_congr L _ _ (CancelOrder_Inv _ (emit_Inv s _ hs) _)
      (CancelOrder_Inv _ (emit_Inv t _ ht) _)
      (sameBook_trans (sameBook_trans c1 c3) (sameBook_symm c2)) _
  · have hi2 : m.orderId_ ∉ t.orders_ := by rw [← h.2.2.1]; exact hi
    have k1 : Orderbook.MatchOrder L s m = (s, some []) := by simp [Orderbook.MatchOrder, hi]
    have k2 : Orderbook.MatchOrder L t m = (t, some []) := by simp [Orderbook.MatchOrder, hi2]
    rw [k1, k2]
    exact ⟨rfl, h⟩

theorem step_congr (L : PriceLimits) (s t : Orderbook) (hs : s.Inv) (ht : t.Inv)
    (h : SameBook s t) (op : Op) (hb : op.isBookCall = true) :
    s.returns L op = t.returns L op ∧ SameBook (s.step L op) (t.step L op) := by
  cases op with
  | AddOrder ty i sd p q => exact AddOrder_congr L s t hs ht h _
  | CancelOrder i => exact ⟨rfl, CancelOrder_congr s t hs ht h i⟩
  | MatchOrder m => exact MatchOrder_congr L s t hs ht h m
  | MatchOrders =>
    simp only [Orderbook.returns, Orderbook.step, MatchOrders_of_Inv s hs,
      MatchOrders_of_Inv t ht]
    exact ⟨trivial, h⟩
  | SetObserver b => simp [Op.isBookCall] at hb
  | EnableEvents b => simp [Op.isBookCall] at hb

theorem step_config (L : PriceLimits) (s : Orderbook) (op : Op) (hb : op.isBookCall = false) :
    SameBook (s.step L op) s := by
  cases op with
  | SetObserver b => exact sameBook_self s
  | EnableEvents b => exact sameBook_self s
  | AddOrder ty i sd p q => simp [Op.isBookCall] at hb
  | CancelOrder i => simp [Op.isBookCall] at hb
  | MatchOrder m => simp [Op.isBookCall] at hb
  | MatchOrders => simp [Op.isBookCall] at hb

theorem run_bookCalls (L : PriceLimits) (ops : List Op) : ∀ s t : Orderbook, s.Inv → t.Inv →
    SameBook s t →
    SameBook (s.run L ops) (t.run L (ops.filter Op.isBookCall)) ∧
      Orderbook.runReturns L s ops = Orderbook.runReturns L t (ops.filter Op.isBookCall) := by
  induction ops with
  | nil => intro s t _ _ h; exact ⟨h, rfl⟩
  | cons op ops ih =>
    intro s t hs ht h
    by_cases hb : op.isBookCall = true
    · obtain ⟨c1, c2⟩ := step_congr L s t hs ht h op hb
      obtain ⟨i1, i2⟩ := ih (s.step L op) (t.step L op) (step_Inv L s hs op)
        (step_Inv L t ht op) c2
      rw [List.filter_cons_of_pos hb]
      refine ⟨i1, ?_⟩
      simp only [Orderbook.runReturns, hb, if_true]
      rw [c1, i2]
    · have hb1 : op.isBookCall = false := by simpa using hb
      obtain ⟨i1, i2⟩ := ih (s.step L op) t (step_Inv L s hs op) ht
        (sameBook_trans (step_config L s op hb1) h)
      rw [List.filter_cons_of_neg hb]
      refine ⟨i1, ?_⟩
      simp only [Orderbook.runReturns, hb1, Bool.false_eq_true, if_false]
      exact i2

/-! ### `AddOrder` with an observer that throws on the `Add` event -/

theorem AddOrder_observerThrows_admitted (L : PriceLimits) (s : Orderbook) (t : OrderType)
    (i : Nat) (side : Side) (p : Int) (q : Nat) (h : s.rejects t i side p q = false)
    (hm : t = OrderType.Market → 0 < aggressivePrice L side) :
    Orderbook.AddOrder_observerThrows L s (Order.new t i side p q) =
      if s.events_enabled_ && s.observer_ then (s.insert (insertedOrder L t i side p q), none)
      else (s.insert (insertedOrder L t i side p q)).MatchOrders := by
  simp only [Orderbook.rejects, Bool.or_eq_false_iff, Bool.and_eq_false_imp,
    decide_eq_true_eq, Bool.not_eq_false'] at h
  obtain ⟨⟨hid, h1⟩, h2⟩ := h
  have hid : i ∉ s.orders_ := by simpa using hid
  cases t with
  | GoodTillCancel => simp [Orderbook.AddOrder_observerThrows, Order.new, hid, insertedOrder]
  | ImmediateOrCancel =>
    simp [Orderbook.AddOrder_observerThrows, Order.new, hid, insertedOrder, h1 rfl]
  | FillOrKill =>
    simp [Orderbook.AddOrder_observerThrows, Order.new, hid, insertedOrder, h2 rfl]
  | Market =>
    have := hm rfl
    simp only [aggressivePrice] at this
    simp [Orderbook.AddOrder_observerThrows, Order.new, hid, insertedOrder, aggressivePrice,
      Order.ToImmediateOrCancel, not_le.2 this]

theorem AddOrder_observerThrows_rejected (L : PriceLimits) (s : Orderbook) (t : OrderType)
    (i : Nat) (side : Side) (p : Int) (q : Nat) (h : s.rejects t i side p q = true) :
    Orderbook.AddOrder_observerThrows L s (Order.new t i side p q) = (s, some []) := by
  by_cases hid : i ∈ s.orders_
  · simp [Orderbook.AddOrder_observerThrows, Order.new, hid]
  · have hc : s.orders_.contains i = false := by simpa using hid
    simp only [Orderbook.rejects, hc, Bool.false_or,
      Bool.or_eq_true, Bool.and_eq_true, decide_eq_true_eq, Bool.not_eq_true'] at h
    rcases h with ⟨rfl, h⟩ | ⟨rfl, h⟩
    · simp [Orderbook.AddOrder_observerThrows, Order.new, hid, h]
    · simp [Orderbook.AddOrder_observerThrows, Order.new, hid, h]

theorem insert_index_iff (s : Orderbook) (hI : s.Inv) (o : Order) :
    (s.insert o).orders_ = o.orderId_ :: s.orders_ ∧
    (s.insert o).resting.Perm (o :: s.resting) ∧
    ∀ j, j ∈ (s.insert o).orders_ ↔ ∃ x ∈ (s.insert o).resting, x.orderId_ = j := by
  have hperm : (s.insert o).resting.Perm (o :: s.resting) := by
    rcases Side.buy_or_sell o.side_ with hs | hs
    · obtain ⟨i1, i2, -⟩ := insert_buy s o hs
      simp only [Orderbook.resting, i1, i2]
      exact (push_back_perm _ _ _).append_right _
    · obtain ⟨i1, i2, -⟩ := insert_sell s o hs
      simp only [Orderbook.resting, i1, i2]
      exact ((push_back_perm _ _ _).append_left _).trans List.perm_middle
  have hidx : (s.insert o).orders_ = o.orderId_ :: s.orders_ := by
    rcases Side.buy_or_sell o.side_ with hs | hs
    · exact (insert_buy s o hs).2.2
    · exact (insert_sell s o hs).2.2
  refine ⟨hidx, hperm, fun j => ?_⟩
  have hold : j ∈ s.orders_ ↔ ∃ x ∈ s.resting, x.orderId_ = j := by
    rw [hI.book.indexIff j]
    simp [Levels.ids, Orderbook.resting, List.mem_map, or_and_right, exists_or]
  rw [hidx, List.mem_cons, hold]
  constructor
  · rintro (rfl | ⟨x, hx, rfl⟩)
    · exact ⟨o, hperm.symm.subset (List.mem_cons_self _ _), rfl⟩
    · exact ⟨x, hperm.symm.subset (List.mem_cons_of_mem _ hx), rfl⟩
  · rintro ⟨x, hx, rfl⟩
    rcases List.mem_cons.1 (hperm.subset hx) with rfl | hx
    · exact Or.inl rfl
    · exact Or.inr ⟨x, hx, rfl⟩

/-! ## The claims -/

/-- Claim C1 (failing input): with asks 100x10 and 101x1 resting, the quantity tradeable by a buy at 101
is 11; `CanFullyFill` still accepts 15, so a FillOrKill buy at 101 for 15 is inserted:
`AddOrder` returns two trades (10 and 1), both asks leave the book, the index is emptied and the
matched counter advances by two. -/
theorem C1_fok_admitted_with_short_liquidity :
    totalQuantity (book_two_ask_levels.tradeable Side.Buy 101) = 11 ∧
    book_two_ask_levels.CanFullyFill Side.Buy 101 15 = true ∧
    (Orderbook.AddOrder int32Limits book_two_ask_levels
        (Order.new OrderType.FillOrKill 3 Side.Buy 101 15)).2 =
      some [⟨⟨3, 100, 10⟩, ⟨1, 100, 10⟩⟩, ⟨⟨3, 101, 1⟩, ⟨2, 101, 1⟩⟩] ∧
    (Orderbook.AddOrder int32Limits book_two_ask_levels
        (Order.new OrderType.FillOrKill 3 Side.Buy 101 15)).1.asks_ = [] ∧
    book_two_ask_levels.Size = 2 ∧
    (Orderbook.AddOrder int32Limits book_two_ask_levels
        (Order.new OrderType.FillOrKill 3 Side.Buy 101 15)).1.Size = 0 ∧
    book_two_ask_levels.GetMatchedOrders = 0 ∧
    (Orderbook.AddOrder int32Limits book_two_ask_levels
        (Order.new OrderType.FillOrKill 3 Side.Buy 101 15)).1.GetMatchedOrders = 2 := by
  decide

/-- Claim C2 (counterexample): with the asks 4294967295 (id 1) and 1 (id 2) resting at 100, the
quantity tradeable by a buy at 100 is `2 ^ 32`, which covers 5; the sum that `CanFullyFill` keeps
in a `Quantity` wraps to 0, so it returns false and `AddOrder` of a FillOrKill buy at 100 for 5
returns no trades and leaves the state unchanged. -/
theorem C2_fok_refused_when_level_sum_wraps :
    Reachable int32Limits book_ask_level_wraps ∧
    3 ∉ book_ask_level_wraps.orders_ ∧
    totalQuantity (book_ask_level_wraps.tradeable Side.Buy 100) = 4294967296 ∧
    book_ask_level_wraps.CanFullyFill Side.Buy 100 5 = false ∧
    Orderbook.AddOrder int32Limits book_ask_level_wraps
        (Order.new OrderType.FillOrKill 3 Side.Buy 100 5) =
      (book_ask_level_wraps, some []) :=
  ⟨⟨_, rfl⟩, by decide, by decide, by decide, by decide⟩

/-- Claim C2: on every reachable state, a FillOrKill order with an unused id and a positive
quantity `q` that the opposing orders at tradeable prices can cover, the total of these orders
being below `2 ^ 32`, is admitted, trades exactly `q`, and afterwards its id is not in the index
and no queued order carries it. -/
theorem C2_fok_success_fills_completely (L : PriceLimits) (s : Orderbook) (hs : Reachable L s)
    (i : Nat) (side : Side) (p : Int) (q : Nat) (hid : i ∉ s.orders_) (hq : 0 < q)
    (hliq : q ≤ totalQuantity (s.tradeable side p))
    (hbound : totalQuantity (s.tradeable side p) < quantityModulus) :
    ∃ trades,
      (Orderbook.AddOrder L s (Order.new OrderType.FillOrKill i side p q)).2 = some trades ∧
      total_qty trades = q ∧
      i ∉ (Orderbook.AddOrder L s (Order.new OrderType.FillOrKill i side p q)).1.orders_ ∧
      ∀ o ∈ (Orderbook.AddOrder L s (Order.new OrderType.FillOrKill i side p q)).1.resting,
        o.orderId_ ≠ i := by
  have hI := Reachable_Inv L s hs
  have hI2 := AddOrder_Inv L s hI (Order.new OrderType.FillOrKill i side p q)
  rw [AddOrder_FOK L s i side p q hid
    (CanFullyFill_of_liquidity s hI side p q hq hliq hbound)] at hI2 ⊢
  have hidx := insert_MatchOrders_index s hI (Order.new OrderType.FillOrKill i side p q) hid
    (by simp [Order.new])
  refine ⟨_, insert_MatchOrders_trades s hI _ hid, ?_, hidx,
    not_resting_of_not_index _ hI2 i hidx⟩
  rw [total_qty_aggressorTrade, fillsQ_sum]
  simp only [Order.new]
  omega

/-- Claim C2 at the input of `test_fok_buy_success`: asks 100x10 and 100x5, then a FillOrKill buy at
100 for 15, which trades 10 and 5 at 100 and leaves `Size() == 0`. -/
theorem C2_witness :
    Reachable int32Limits book_fok_buy_success ∧ 3 ∉ book_fok_buy_success.orders_ ∧ 0 < 15 ∧
    15 ≤ totalQuantity (book_fok_buy_success.tradeable Side.Buy 100) ∧
    totalQuantity (book_fok_buy_success.tradeable Side.Buy 100) < quantityModulus ∧
    (Orderbook.AddOrder int32Limits book_fok_buy_success
        (Order.new OrderType.FillOrKill 3 Side.Buy 100 15)).2 =
      some [⟨⟨3, 100, 10⟩, ⟨1, 100, 10⟩⟩, ⟨⟨3, 100, 5⟩, ⟨2, 100, 5⟩⟩] ∧
    (Orderbook.AddOrder int32Limits book_fok_buy_success
        (Order.new OrderType.FillOrKill 3 Side.Buy 100 15)).1.Size = 0 ∧
    ∃ trades,
      (Orderbook.AddOrder int32Limits book_fok_buy_success
        (Order.new OrderType.FillOrKill 3 Side.Buy 100 15)).2 = some trades ∧
      total_qty trades = 15 ∧
      3 ∉ (Orderbook.AddOrder int32Limits book_fok_buy_success
        (Order.new OrderType.FillOrKill 3 Side.Buy 100 15)).1.orders_ ∧
      ∀ o ∈ (Orderbook.AddOrder int32Limits book_fok_buy_success
        (Order.new OrderType.FillOrKill 3 Side.Buy 100 15)).1.resting, o.orderId_ ≠ 3 :=
  ⟨⟨_, rfl⟩, by decide, by decide, by decide, by decide, by decide, by decide,
    C2_fok_success_fills_completely int32Limits book_fok_buy_success ⟨_, rfl⟩ 3 Side.Buy 100 15
      (by decide) (by decide) (by decide) (by decide)⟩

/-- Claim C3 (failing input): on the book of `test_market_sell_sweeps_bids` (bids 101x5, 100x10, 98x20)
with a 32-bit signed price, `AddOrder` of a Market Sell for 18 ends in the `std::logic_error` of
`ToImmediateOrCancel`: no trade is returned and the three bids stay as they were. -/
theorem C3_market_sell_faults :
    Orderbook.AddOrder int32Limits book_market_sell_sweeps_bids
        (Order.new OrderType.Market 10 Side.Sell 0 18) =
      (book_market_sell_sweeps_bids, none) ∧
    book_market_sell_sweeps_bids.Size = 3 := by
  decide

/-- Claim C4: on every state reached with positive quantities and representable prices, when the
largest price is positive, a Market Buy with an unused id is admitted; its trades hit the resting
asks in book priority order (ascending price, first come first served within a price), each at
the price of the ask it hit; the traded total is the minimum of its quantity and the total
resting ask quantity; its id is not in the index afterwards; and with no asks there are no
trades and both sides and the index are what they were. -/
theorem C4_market_buy_sweeps_asks (L : PriceLimits) (hL : 0 < L.maxPrice) (s : Orderbook)
    (hs : ReachablePos L s) (i : Nat) (p : Int) (q : Nat) (hid : i ∉ s.orders_) :
    ∃ trades,
      (Orderbook.AddOrder L s (Order.new OrderType.Market i Side.Buy p q)).2 = some trades ∧
      trades.map (fun t => t.askTrade_.orderId_) =
        (s.asks_.orders.take trades.length).map (fun x => x.orderId_) ∧
      trades.map (fun t => t.askTrade_.price_) =
        (s.asks_.orders.take trades.length).map (fun x => x.price_) ∧
      trades.map (fun t => t.bidTrade_.price_) = trades.map (fun t => t.askTrade_.price_) ∧
      (s.asks_.orders.map (fun x => x.price_)).Pairwise (fun a b => a ≤ b) ∧
      total_qty trades = min q (totalQuantity s.asks_.orders) ∧
      i ∉ (Orderbook.AddOrder L s (Order.new OrderType.Market i Side.Buy p q)).1.orders_ ∧
      (s.asks_ = [] → trades = [] ∧
        (Orderbook.AddOrder L s (Order.new OrderType.Market i Side.Buy p q)).1.bids_ = s.bids_ ∧
        (Orderbook.AddOrder L s (Order.new OrderType.Market i Side.Buy p q)).1.asks_ = s.asks_ ∧
        (Orderbook.AddOrder L s (Order.new OrderType.Market i Side.Buy p q)).1.orders_ =
          s.orders_) := by
  have hI := Reachable_Inv L s (ReachablePos_Reachable L s hs)
  have hP := ReachablePos_PriceInv L s hs
  rw [AddOrder_market_buy L hL s i p q hid]
  have ht := insert_MatchOrders_trades s hI
    (Order.new OrderType.ImmediateOrCancel i Side.Buy L.maxPrice q) hid
  have hall : s.tradeable Side.Buy L.maxPrice = s.asks_.orders := by
    simp only [Orderbook.tradeable, Orderbook.opposing]
    rw [List.filter_eq_self]
    intro x hx
    simpa [tradeableAt] using (hP x (List.mem_append_right _ hx)).2
  have hpr := insert_trades_priority s hI
    (Order.new OrderType.ImmediateOrCancel i Side.Buy L.maxPrice q) _ rfl
  simp only [Order.new, hall, Orderbook.opposing] at ht hpr
  refine ⟨_, ht, by simpa [Trade.restingId] using hpr.1, hpr.2.2.2 trivial, ?_,
    asks_prices_sorted hI.book.asksWF, ?_, ?_, ?_⟩
  · simp [aggressorTrade, mkTrade]
  · rw [total_qty_aggressorTrade, fillsQ_sum]
  · exact insert_MatchOrders_index s hI _ hid (by simp [Order.new])
  · intro ha
    obtain ⟨_, h2, h3, h4, _⟩ := MatchOrders_insert_buy s hI
      (Order.new OrderType.ImmediateOrCancel i Side.Buy L.maxPrice q) rfl hid
    rw [h2, h3, h4, restsAs_none_of_not_gtc _ _ (by simp [Order.new])]
    simp [ha, Levels.orders, fillsQ, ownAfter, restL, goneL, indexAfter, eraseAll]

/-- Claim C4 at the input of `test_market_buy_sweeps_asks`: asks 100x10 and 101x20, then a Market
buy for 25, which returns the trades 10 at 100 and 15 at 101, leaves the ask at 101 with 5,
`Size() == 1` and the matched counter at 2; at the input of `test_market_buy_partial_fill`, the
ask 100x5 and a Market buy for 20 give one trade of 5 at 100 and `Size() == 0`; and at the input
of `test_market_buy_empty_book` a Market buy for 10 gives no trades and `Size() == 0`. -/
theorem C4_witness :
    0 < int32Limits.maxPrice ∧ ReachablePos int32Limits book_market_buy_sweeps_asks ∧
    10 ∉ book_market_buy_sweeps_asks.orders_ ∧
    (Orderbook.AddOrder int32Limits book_market_buy_sweeps_asks
        (Order.new OrderType.Market 10 Side.Buy 0 25)).2 =
      some [⟨⟨10, 100, 10⟩, ⟨1, 100, 10⟩⟩, ⟨⟨10, 101, 15⟩, ⟨2, 101, 15⟩⟩] ∧
    (Orderbook.AddOrder int32Limits book_market_buy_sweeps_asks
        (Order.new OrderType.Market 10 Side.Buy 0 25)).1.asks_ =
      [(101, [⟨OrderType.GoodTillCancel, 2, Side.Sell, 101, 20, 5⟩])] ∧
    (Orderbook.AddOrder int32Limits book_market_buy_sweeps_asks
        (Order.new OrderType.Market 10 Side.Buy 0 25)).1.bids_ = [] ∧
    (Orderbook.AddOrder int32Limits book_market_buy_sweeps_asks
        (Order.new OrderType.Market 10 Side.Buy 0 25)).1.Size = 1 ∧
    book_market_buy_sweeps_asks.GetMatchedOrders = 0 ∧
    (Orderbook.AddOrder int32Limits book_market_buy_sweeps_asks
        (Order.new OrderType.Market 10 Side.Buy 0 25)).1.GetMatchedOrders = 2 ∧
    (Orderbook.AddOrder int32Limits book_market_buy_partial_fill
        (Order.new OrderType.Market 10 Side.Buy 0 20)).2 =
      some [⟨⟨10, 100, 5⟩, ⟨1, 100, 5⟩⟩] ∧
    (Orderbook.AddOrder int32Limits book_market_buy_partial_fill
        (Order.new OrderType.Market 10 Side.Buy 0 20)).1.Size = 0 ∧
    (Orderbook.AddOrder int32Limits Orderbook.empty
        (Order.new OrderType.Market 1 Side.Buy 0 10)).2 = some [] ∧
    (Orderbook.AddOrder int32Limits Orderbook.empty
        (Order.new OrderType.Market 1 Side.Buy 0 10)).1.Size = 0 ∧
    ∃ trades,
      (Orderbook.AddOrder int32Limits book_market_buy_sweeps_asks
        (Order.new OrderType.Market 10 Side.Buy 0 25)).2 = some trades ∧
      trades.map (fun t => t.askTrade_.orderId_) =
        (book_market_buy_sweeps_asks.asks_.orders.take trades.length).map (fun x => x.orderId_) ∧
      trades.map (fun t => t.askTrade_.price_) =
        (book_market_buy_sweeps_asks.asks_.orders.take trades.length).map (fun x => x.price_) ∧
      trades.map (fun t => t.bidTrade_.price_) = trades.map (fun t => t.askTrade_.price_) ∧
      (book_market_buy_sweeps_asks.asks_.orders.map (fun x => x.price_)).Pairwise
        (fun a b => a ≤ b) ∧
      total_qty trades = min 25 (totalQuantity book_market_buy_sweeps_asks.asks_.orders) ∧
      10 ∉ (Orderbook.AddOrder int32Limits book_market_buy_sweeps_asks
        (Order.new OrderType.Market 10 Side.Buy 0 25)).1.orders_ ∧
      (book_market_buy_sweeps_asks.asks_ = [] → trades = [] ∧
        (Orderbook.AddOrder int32Limits book_market_buy_sweeps_asks
          (Order.new OrderType.Market 10 Side.Buy 0 25)).1.bids_ =
          book_market_buy_sweeps_asks.bids_ ∧
        (Orderbook.AddOrder int32Limits book_market_buy_sweeps_asks
          (Order.new OrderType.Market 10 Side.Buy 0 25)).1.asks_ =
          book_market_buy_sweeps_asks.asks_ ∧
        (Orderbook.AddOrder int32Limits book_market_buy_sweeps_asks
          (Order.new OrderType.Market 10 Side.Buy 0 25)).1.orders_ =
          book_market_buy_sweeps_asks.orders_) :=
  ⟨by decide,
    ⟨[gtc 1 Side.Sell 100 10, gtc 2 Side.Sell 101 20],
      by intro op h; simp only [gtc, List.mem_cons, List.mem_singleton, List.not_mem_nil,
           or_false] at h; rcases h with rfl | rfl <;> simp [Op.Positive, int32Limits],
      rfl⟩,
    by decide, by decide, by decide, by decide, by decide, by decide, by decide, by decide,
    by decide, by decide, by decide,
    C4_market_buy_sweeps_asks int32Limits (by decide) book_market_buy_sweeps_asks
      ⟨[gtc 1 Side.Sell 100 10, gtc 2 Side.Sell 101 20],
        by intro op h; simp only [gtc, List.mem_cons, List.mem_singleton, List.not_mem_nil,
             or_false] at h; rcases h with rfl | rfl <;> simp [Op.Positive, int32Limits],
        rfl⟩
      10 0 25 (by decide)⟩

/-- Claim C5 (failing input): with the bid 100x10 (id 1) resting, a `GoodTillCancel` sell at 99 for 10
(id 2) trades at 99, the price of the incoming order, while the resting order of that trade is
priced 100. -/
theorem C5_trade_price_is_ask_price :
    book_one_bid.resting = [Order.new OrderType.GoodTillCancel 1 Side.Buy 100 10] ∧
    (Orderbook.AddOrder int32Limits book_one_bid
        (Order.new OrderType.GoodTillCancel 2 Side.Sell 99 10)).2 =
      some [⟨⟨1, 99, 10⟩, ⟨2, 99, 10⟩⟩] := by
  decide

/-- Claim C6: on every reachable state, the resting orders hit by the trades that `AddOrder`
returns for an order with an unused id are, in trade order, an initial segment of the opposing
side in book priority order (asks by ascending price for a buy, bids by descending price for a
sell, each queue front first); every one of them but possibly the last is filled completely; and
the ask prices of the trades are non-decreasing. -/
theorem C6_price_time_priority_of_fills (L : PriceLimits) (s : Orderbook) (hs : Reachable L s)
    (t : OrderType) (i : Nat) (side : Side) (p : Int) (q : Nat) (hid : i ∉ s.orders_)
    (trades : List Trade)
    (h : (Orderbook.AddOrder L s (Order.new t i side p q)).2 = some trades) :
    trades.map (Trade.restingId side) =
      ((s.opposing side).take trades.length).map (fun x => x.orderId_) ∧
    ((s.opposing Side.Buy).map (fun x => x.price_)).Pairwise (fun a b => a ≤ b) ∧
    ((s.opposing Side.Sell).map (fun x => x.price_)).Pairwise (fun a b => b ≤ a) ∧
    trades.dropLast.map (fun t => t.askTrade_.quantity_) =
      ((s.opposing side).take (trades.length - 1)).map (fun x => x.remainingQuantity_) ∧
    (trades.map (fun t => t.askTrade_.price_)).Pairwise (fun a b => a ≤ b) := by
  have hI := Reachable_Inv L s hs
  refine ⟨?_, asks_prices_sorted hI.book.asksWF, bids_prices_sorted hI.book.bidsWF, ?_⟩
  · rcases AddOrder_cases L s (Order.new t i side p q) with h1 | h1 | ⟨_, o1, h2, h3, _, _, _, h1⟩
    · rw [h1] at h
      have : trades = [] := by simpa using h.symm
      subst this
      simp
    · rw [h1] at h
      exact absurd h (by simp)
    · rw [h1, insert_MatchOrders_trades s hI o1 (by rw [h2]; exact hid)] at h
      have h4 : o1.side_ = side := by rw [h3]; rfl
      have := insert_trades_priority s hI o1 trades (Option.some.inj h).symm
      rw [h4] at this
      exact this.1
  · rcases AddOrder_cases L s (Order.new t i side p q) with h1 | h1 | ⟨_, o1, h2, h3, _, _, _, h1⟩
    · rw [h1] at h
      have : trades = [] := by simpa using h.symm
      subst this
      simp
    · rw [h1] at h
      exact absurd h (by simp)
    · rw [h1, insert_MatchOrders_trades s hI o1 (by rw [h2]; exact hid)] at h
      have h4 : o1.side_ = side := by rw [h3]; rfl
      have := insert_trades_priority s hI o1 trades (Option.some.inj h).symm
      rw [h4] at this
      exact ⟨this.2.1, this.2.2.1⟩

/-- Claim C6 at the input of `test_fok_buy_success`: the two trades hit the asks 1 and 2 in queue
order, the first of them filled completely. -/
theorem C6_witness :
    Reachable int32Limits book_fok_buy_success ∧ 3 ∉ book_fok_buy_success.orders_ ∧
    (Orderbook.AddOrder int32Limits book_fok_buy_success
        (Order.new OrderType.FillOrKill 3 Side.Buy 100 15)).2 =
      some [⟨⟨3, 100, 10⟩, ⟨1, 100, 10⟩⟩, ⟨⟨3, 100, 5⟩, ⟨2, 100, 5⟩⟩] ∧
    ([⟨⟨3, 100, 10⟩, ⟨1, 100, 10⟩⟩, ⟨⟨3, 100, 5⟩, ⟨2, 100, 5⟩⟩] : List Trade).map
        (Trade.restingId Side.Buy) =
      ((book_fok_buy_success.opposing Side.Buy).take 2).map (fun x => x.orderId_) ∧
    ((book_fok_buy_success.opposing Side.Buy).map (fun x => x.price_)).Pairwise
      (fun a b => a ≤ b) ∧
    ((book_fok_buy_success.opposing Side.Sell).map (fun x => x.price_)).Pairwise
      (fun a b => b ≤ a) ∧
    ([⟨⟨3, 100, 10⟩, ⟨1, 100, 10⟩⟩, ⟨⟨3, 100, 5⟩, ⟨2, 100, 5⟩⟩] : List Trade).dropLast.map
        (fun t => t.askTrade_.quantity_) =
      ((book_fok_buy_success.opposing Side.Buy).take (2 - 1)).map
        (fun x => x.remainingQuantity_) ∧
    (([⟨⟨3, 100, 10⟩, ⟨1, 100, 10⟩⟩, ⟨⟨3, 100, 5⟩, ⟨2, 100, 5⟩⟩] : List Trade).map
        (fun t => t.askTrade_.price_)).Pairwise (fun a b => a ≤ b) :=
  ⟨⟨_, rfl⟩, by decide, by decide,
    C6_price_time_priority_of_fills int32Limits book_fok_buy_success ⟨_, rfl⟩
      OrderType.FillOrKill 3 Side.Buy 100 15 (by decide) _ (by decide)⟩

/-- Claim C7: on every reachable state, an ImmediateOrCancel order with an unused id whose limit
price crosses the book trades the minimum of its quantity and the total remaining quantity of the
opposing orders at tradeable prices; afterwards its id is not in the index and no queued order
carries it. -/
theorem C7_ioc_matches_and_never_rests (L : PriceLimits) (s : Orderbook) (hs : Reachable L s)
    (i : Nat) (side : Side) (p : Int) (q : Nat) (hid : i ∉ s.orders_)
    (hcross : s.CanMatch side p = true) :
    ∃ trades,
      (Orderbook.AddOrder L s (Order.new OrderType.ImmediateOrCancel i side p q)).2 =
        some trades ∧
      total_qty trades = min q (totalQuantity (s.tradeable side p)) ∧
      i ∉ (Orderbook.AddOrder L s
        (Order.new OrderType.ImmediateOrCancel i side p q)).1.orders_ ∧
      ∀ o ∈ (Orderbook.AddOrder L s
        (Order.new OrderType.ImmediateOrCancel i side p q)).1.resting, o.orderId_ ≠ i := by
  have hI := Reachable_Inv L s hs
  have hI2 := AddOrder_Inv L s hI (Order.new OrderType.ImmediateOrCancel i side p q)
  rw [AddOrder_IOC L s i side p q hid hcross] at hI2 ⊢
  have hidx := insert_MatchOrders_index s hI (Order.new OrderType.ImmediateOrCancel i side p q)
    hid (by simp [Order.new])
  refine ⟨_, insert_MatchOrders_trades s hI _ hid, ?_, hidx,
    not_resting_of_not_index _ hI2 i hidx⟩
  rw [total_qty_aggressorTrade, fillsQ_sum]
  simp only [Order.new]

/-- Claim C7 at the input of `test_ioc_buy_partial`: ask 100x10, then an ImmediateOrCancel buy at 100
for 20. -/
theorem C7_witness :
    Reachable int32Limits book_one_ask ∧ 2 ∉ book_one_ask.orders_ ∧
    book_one_ask.CanMatch Side.Buy 100 = true ∧
    ∃ trades,
      (Orderbook.AddOrder int32Limits book_one_ask
        (Order.new OrderType.ImmediateOrCancel 2 Side.Buy 100 20)).2 = some trades ∧
      total_qty trades = min 20 (totalQuantity (book_one_ask.tradeable Side.Buy 100)) ∧
      2 ∉ (Orderbook.AddOrder int32Limits book_one_ask
        (Order.new OrderType.ImmediateOrCancel 2 Side.Buy 100 20)).1.orders_ ∧
      ∀ o ∈ (Orderbook.AddOrder int32Limits book_one_ask
        (Order.new OrderType.ImmediateOrCancel 2 Side.Buy 100 20)).1.resting, o.orderId_ ≠ 2 :=
  ⟨⟨_, rfl⟩, by decide, by decide,
    C7_ioc_matches_and_never_rests int32Limits book_one_ask ⟨_, rfl⟩ 2 Side.Buy 100 20
      (by decide) (by decide)⟩

/-- Claim C8: on every book state, an ImmediateOrCancel order with an unused id whose limit does not
reach the first price of the opposing side (or that meets an empty opposing side) is rejected:
`AddOrder` returns no trades and the whole engine state, the delivered events included, is
unchanged. -/
theorem C8_ioc_not_crossing_rejected (L : PriceLimits) (s : Orderbook) (i : Nat) (side : Side)
    (p : Int) (q : Nat) (hid : i ∉ s.orders_)
    (hno : match side with
      | Side.Buy => ∀ lvl ∈ s.asks_.head?, p < lvl.1
      | Side.Sell => ∀ lvl ∈ s.bids_.head?, lvl.1 < p) :
    Orderbook.AddOrder L s (Order.new OrderType.ImmediateOrCancel i side p q) = (s, some []) := by
  have hm : s.CanMatch side p = false := by
    cases side with
    | Buy =>
      simp only [Orderbook.CanMatch]
      split
      · rfl
      · rename_i ap xs A h
        have := hno (ap, xs) (by simp [h])
        simp only at this
        simp only [decide_eq_false_iff_not]
        omega
    | Sell =>
      simp only [Orderbook.CanMatch]
      split
      · rfl
      · rename_i bp xs B h
        have := hno (bp, xs) (by simp [h])
        simp only at this
        simp only [decide_eq_false_iff_not]
        omega
  simp [Orderbook.AddOrder, Order.new, hid, hm]

/-- Claim C8 at the input of `test_ioc_buy_no_match`: an ImmediateOrCancel buy at 100 for 10 on the
empty book. -/
theorem C8_witness :
    1 ∉ Orderbook.empty.orders_ ∧ (∀ lvl ∈ Orderbook.empty.asks_.head?, (100 : Int) < lvl.1) ∧
    Orderbook.AddOrder int32Limits Orderbook.empty
        (Order.new OrderType.ImmediateOrCancel 1 Side.Buy 100 10) =
      (Orderbook.empty, some []) :=
  ⟨by decide, by simp [Orderbook.empty],
    C8_ioc_not_crossing_rejected int32Limits Orderbook.empty 1 Side.Buy 100 10 (by decide)
      (by simp [Orderbook.empty])⟩

/-- Claim C9: in every state reachable from the empty book, the bid side is empty, or the ask side is
empty, or every bid price is strictly below every ask price (so the highest bid is below the
lowest ask). -/
theorem C9_no_cross_invariant (L : PriceLimits) (s : Orderbook) (hs : Reachable L s) :
    s.bids_ = [] ∨ s.asks_ = [] ∨ ∀ b ∈ s.bids_, ∀ a ∈ s.asks_, b.1 < a.1 :=
  Or.inr (Or.inr (Reachable_Inv L s hs).book.noCross)

/-- Claim C9 at a book with both sides occupied after a crossing submission. -/
theorem C9_witness :
    Reachable int32Limits book_two_sides ∧
    (book_two_sides.bids_ = [] ∨ book_two_sides.asks_ = [] ∨
      ∀ b ∈ book_two_sides.bids_, ∀ a ∈ book_two_sides.asks_, b.1 < a.1) :=
  ⟨⟨_, rfl⟩, C9_no_cross_invariant int32Limits book_two_sides ⟨_, rfl⟩⟩

/-- Claim C10: in every state reachable from the empty book, every order held in the queues of the
book has order type `GoodTillCancel`. -/
theorem C10_only_gtc_orders_rest (L : PriceLimits) (s : Orderbook) (hs : Reachable L s) :
    ∀ o ∈ s.resting, o.orderType_ = OrderType.GoodTillCancel :=
  (Reachable_Inv L s hs).gtc

/-- Claim C10 at the book of `test_gtc_resting_after_market`. -/
theorem C10_witness :
    Reachable int32Limits book_gtc_resting_after_market ∧
    ∀ o ∈ book_gtc_resting_after_market.resting, o.orderType_ = OrderType.GoodTillCancel :=
  ⟨⟨_, rfl⟩, C10_only_gtc_orders_rest int32Limits book_gtc_resting_after_market ⟨_, rfl⟩⟩

/-- Claim C11: in every reachable state the index holds exactly the ids of the queued orders, no
id twice; every queued order sits once, on its own side, in the level keyed by its own price (the
keys of a side being pairwise distinct); and `Size()` is the number of queued orders. -/
theorem C11_index_book_consistency (L : PriceLimits) (s : Orderbook) (hs : Reachable L s) :
    (∀ i, i ∈ s.orders_ ↔ ∃ o ∈ s.resting, o.orderId_ = i) ∧
    s.orders_.Nodup ∧
    (s.resting.map (fun o => o.orderId_)).Nodup ∧
    (∀ lvl ∈ s.bids_, ∀ o ∈ lvl.2, o.side_ = Side.Buy ∧ o.price_ = lvl.1) ∧
    (∀ lvl ∈ s.asks_, ∀ o ∈ lvl.2, o.side_ = Side.Sell ∧ o.price_ = lvl.1) ∧
    (s.bids_.map Prod.fst).Nodup ∧ (s.asks_.map Prod.fst).Nodup ∧
    s.Size = s.resting.length := by
  have hI := Reachable_Inv L s hs
  refine ⟨?_, hI.book.indexNodup, resting_nodup_of_BookInv s hI.book, hI.book.bidsWF.located,
    hI.book.asksWF.located, keys_nodup (Or.inl rfl) hI.book.bidsWF,
    keys_nodup (Or.inr rfl) hI.book.asksWF, size_eq_resting s hI⟩
  intro i
  rw [hI.book.indexIff i]
  simp [Levels.ids, Orderbook.resting, List.mem_map, or_and_right, exists_or]

/-- Claim C11 at a book with both sides occupied after a crossing submission. -/
theorem C11_witness :
    Reachable int32Limits book_two_sides ∧
    (∀ i, i ∈ book_two_sides.orders_ ↔ ∃ o ∈ book_two_sides.resting, o.orderId_ = i) ∧
    book_two_sides.orders_.Nodup ∧
    (book_two_sides.resting.map (fun o => o.orderId_)).Nodup ∧
    (∀ lvl ∈ book_two_sides.bids_, ∀ o ∈ lvl.2, o.side_ = Side.Buy ∧ o.price_ = lvl.1) ∧
    (∀ lvl ∈ book_two_sides.asks_, ∀ o ∈ lvl.2, o.side_ = Side.Sell ∧ o.price_ = lvl.1) ∧
    (book_two_sides.bids_.map Prod.fst).Nodup ∧ (book_two_sides.asks_.map Prod.fst).Nodup ∧
    book_two_sides.Size = book_two_sides.resting.length :=
  ⟨⟨_, rfl⟩, C11_index_book_consistency int32Limits book_two_sides ⟨_, rfl⟩⟩

/-- Claim C12 (counterexample): with the buy 98x5 (id 1) resting below the sell 99x10 (id 2), the
modify of id 1 to a buy at 100 for 30 returns one trade of 10 with id 1 as its bid leg, and leaves
the new order of id 1 queued with 20 of 30; the order that rested under id 1 before the call had
only 5 left, so its remaining quantity did not go down by the 10 that its id traded. -/
theorem C12_modify_trades_under_replaced_id :
    Order.new OrderType.GoodTillCancel 1 Side.Buy 98 5 ∈ book_modify_partial.resting ∧
    (Orderbook.MatchOrder int32Limits book_modify_partial ⟨1, Side.Buy, 100, 30⟩).2 =
      some [⟨⟨1, 99, 10⟩, ⟨2, 99, 10⟩⟩] ∧
    tradedQuantity 1 [⟨⟨1, 99, 10⟩, ⟨2, 99, 10⟩⟩] = 10 ∧
    (Orderbook.MatchOrder int32Limits book_modify_partial ⟨1, Side.Buy, 100, 30⟩).1.resting =
      [⟨OrderType.GoodTillCancel, 1, Side.Buy, 100, 30, 20⟩] ∧
    ¬ Conserved (Order.new OrderType.GoodTillCancel 1 Side.Buy 98 5)
      (Orderbook.MatchOrder int32Limits book_modify_partial ⟨1, Side.Buy, 100, 30⟩).1.resting
      [⟨⟨1, 99, 10⟩, ⟨2, 99, 10⟩⟩] := by
  unfold Conserved
  decide

/-- Claim C12 (amended): on every reachable state, (1) an `AddOrder` call that returns trades
accounts for every order queued before it and, when its id is unused, for the incoming order;
(2) a `MatchOrders` call returns no trade and changes nothing; (3) a `MatchOrder` call on an
indexed id accounts for every queued order other than the replaced one and for the new order;
(4) no queued order has more left than its initial quantity; and (5) after any run from the empty
book, the initial quantity of every queued order is what it has left plus what its id traded
since the call that brought the order in. -/
theorem C12_quantity_conservation (L : PriceLimits) (s : Orderbook) (hs : Reachable L s) :
    (∀ (t : OrderType) (i : Nat) (side : Side) (p : Int) (q : Nat) (trades : List Trade),
      (Orderbook.AddOrder L s (Order.new t i side p q)).2 = some trades →
      (∀ x ∈ s.resting,
        Conserved x (Orderbook.AddOrder L s (Order.new t i side p q)).1.resting trades) ∧
      (i ∉ s.orders_ →
        ConservedIncoming t i q (Orderbook.AddOrder L s (Order.new t i side p q)).1.resting
          trades)) ∧
    s.MatchOrders = (s, some []) ∧
    (∀ (m : OrderModify) (trades : List Trade), m.orderId_ ∈ s.orders_ →
      (Orderbook.MatchOrder L s m).2 = some trades →
      (∀ x ∈ s.resting, x.orderId_ ≠ m.orderId_ →
        Conserved x (Orderbook.MatchOrder L s m).1.resting trades) ∧
      ConservedIncoming OrderType.GoodTillCancel m.orderId_ m.quantity_
        (Orderbook.MatchOrder L s m).1.resting trades) ∧
    (∀ x ∈ s.resting, x.remainingQuantity_ ≤ x.initialQuantity_) ∧
    (∀ ops : List Op, ∀ y ∈ (Orderbook.run L Orderbook.empty ops).resting,
      y.initialQuantity_ =
        y.remainingQuantity_ + tradedSince L y.orderId_ Orderbook.empty ops 0) := by
  have hI := Reachable_Inv L s hs
  refine ⟨fun t i side p q trades h => AddOrder_conserved L s hI t i side p q trades h,
    MatchOrders_of_Inv s hI,
    fun m trades hi h => MatchOrder_conserved L s hI m hi trades h,
    Reachable_RemBound L s hs, fun ops y hy => ?_⟩
  exact run_ledger L ops Orderbook.empty (fun _ => 0) empty_Inv
    (by intro x hx; simp [Orderbook.empty, Orderbook.resting, Levels.orders] at hx) y hy

/-- Claim C12 at the asks 100x10 and 101x20 with an incoming `GoodTillCancel` buy at 100 for 25:
one trade of 10, the first ask gone, the second untouched, the buy queued with 15 of 25. -/
theorem C12_witness :
    Reachable int32Limits book_market_buy_sweeps_asks ∧
    (Orderbook.AddOrder int32Limits book_market_buy_sweeps_asks
      (Order.new OrderType.GoodTillCancel 10 Side.Buy 100 25)).2 =
      some [⟨⟨10, 100, 10⟩, ⟨1, 100, 10⟩⟩] ∧
    (∀ x ∈ book_market_buy_sweeps_asks.resting,
      Conserved x (Orderbook.AddOrder int32Limits book_market_buy_sweeps_asks
        (Order.new OrderType.GoodTillCancel 10 Side.Buy 100 25)).1.resting
        [⟨⟨10, 100, 10⟩, ⟨1, 100, 10⟩⟩]) ∧
    (10 ∉ book_market_buy_sweeps_asks.orders_ →
      ConservedIncoming OrderType.GoodTillCancel 10 25
        (Orderbook.AddOrder int32Limits book_market_buy_sweeps_asks
          (Order.new OrderType.GoodTillCancel 10 Side.Buy 100 25)).1.resting
        [⟨⟨10, 100, 10⟩, ⟨1, 100, 10⟩⟩]) :=
  ⟨⟨_, rfl⟩, by decide,
    (C12_quantity_conservation int32Limits book_market_buy_sweeps_asks ⟨_, rfl⟩).1
      OrderType.GoodTillCancel 10 Side.Buy 100 25 _ (by decide)⟩

/-- Claim C13: on every reachable state, a `GoodTillCancel` order with an unused id whose price
does not reach the first price of the opposing side (or that meets an empty opposing side)
returns no trades; afterwards its id heads the index, `Size()` is one more, the matched counter
is what it was, the queue at its price on its side is the old queue followed by the order (the old
queue being empty when the level did not exist), every other queue of the book is what it was, and
the queued orders are the old ones and the new one. -/
theorem C13_gtc_not_crossing_rests_at_tail (L : PriceLimits) (s : Orderbook)
    (hs : Reachable L s) (i : Nat) (side : Side) (p : Int) (q : Nat) (hid : i ∉ s.orders_)
    (hno : match side with
      | Side.Buy => ∀ lvl ∈ s.asks_.head?, p < lvl.1
      | Side.Sell => ∀ lvl ∈ s.bids_.head?, lvl.1 < p) :
    ∃ s1, Orderbook.AddOrder L s (Order.new OrderType.GoodTillCancel i side p q) =
        (s1, some []) ∧
      s1.orders_ = i :: s.orders_ ∧ s1.Size = s.Size + 1 ∧
      s1.GetMatchedOrders = s.GetMatchedOrders ∧
      (∀ p1, Levels.queue s1.bids_ p1 =
        if side = Side.Buy ∧ p1 = p then
          Levels.queue s.bids_ p1 ++ [Order.new OrderType.GoodTillCancel i side p q]
        else Levels.queue s.bids_ p1) ∧
      (∀ p1, Levels.queue s1.asks_ p1 =
        if side = Side.Sell ∧ p1 = p then
          Levels.queue s.asks_ p1 ++ [Order.new OrderType.GoodTillCancel i side p q]
        else Levels.queue s.asks_ p1) ∧
      s1.resting.Perm (Order.new OrderType.GoodTillCancel i side p q :: s.resting) := by
  have hI := Reachable_Inv L s hs
  refine ⟨_, AddOrder_GTC_not_crossing L s hI i side p q hid hno, ?_⟩
  have hm := (insert_frame s (Order.new OrderType.GoodTillCancel i side p q)).2
  cases side with
  | Buy =>
    obtain ⟨i1, i2, i3⟩ := insert_buy s (Order.new OrderType.GoodTillCancel i Side.Buy p q) rfl
    refine ⟨i3, by simp [Orderbook.Size, i3], hm, ?_, ?_, ?_⟩
    · intro p1
      rw [i1, queue_push_back (Or.inl rfl) _ _ hI.book.bidsWF.sorted]
      by_cases h : p1 = p <;> simp [Order.new, h]
    · intro p1
      rw [i2]; simp
    · simp only [Orderbook.resting, i1, i2]
      exact (push_back_perm _ _ _).append_right _
  | Sell =>
    obtain ⟨i1, i2, i3⟩ := insert_sell s (Order.new OrderType.GoodTillCancel i Side.Sell p q) rfl
    refine ⟨i3, by simp [Orderbook.Size, i3], hm, ?_, ?_, ?_⟩
    · intro p1
      rw [i1]; simp
    · intro p1
      rw [i2, queue_push_back (Or.inr rfl) _ _ hI.book.asksWF.sorted]
      by_cases h : p1 = p <;> simp [Order.new, h]
    · simp only [Orderbook.resting, i1, i2]
      exact ((push_back_perm _ _ _).append_left _).trans List.perm_middle

/-- Claim C13 at the ask 100x10 with an incoming `GoodTillCancel` sell at 100 for 5: it joins the
queue at 100 behind the resting ask. -/
theorem C13_witness :
    Reachable int32Limits book_one_ask ∧ 2 ∉ book_one_ask.orders_ ∧
    (∀ lvl ∈ book_one_ask.bids_.head?, lvl.1 < (100 : Int)) ∧
    ∃ s1, Orderbook.AddOrder int32Limits book_one_ask
        (Order.new OrderType.GoodTillCancel 2 Side.Sell 100 5) = (s1, some []) ∧
      s1.orders_ = 2 :: book_one_ask.orders_ ∧ s1.Size = book_one_ask.Size + 1 ∧
      s1.GetMatchedOrders = book_one_ask.GetMatchedOrders ∧
      (∀ p1, Levels.queue s1.bids_ p1 =
        if Side.Sell = Side.Buy ∧ p1 = 100 then
          Levels.queue book_one_ask.bids_ p1 ++
            [Order.new OrderType.GoodTillCancel 2 Side.Sell 100 5]
        else Levels.queue book_one_ask.bids_ p1) ∧
      (∀ p1, Levels.queue s1.asks_ p1 =
        if Side.Sell = Side.Sell ∧ p1 = 100 then
          Levels.queue book_one_ask.asks_ p1 ++
            [Order.new OrderType.GoodTillCancel 2 Side.Sell 100 5]
        else Levels.queue book_one_ask.asks_ p1) ∧
      s1.resting.Perm
        (Order.new OrderType.GoodTillCancel 2 Side.Sell 100 5 :: book_one_ask.resting) :=
  ⟨⟨_, rfl⟩, by decide, by decide,
    C13_gtc_not_crossing_rests_at_tail int32Limits book_one_ask ⟨_, rfl⟩ 2 Side.Sell 100 5
      (by decide) (by decide)⟩

/-- Claim C14: on every reachable state, `CancelOrder` of an indexed id removes the one queued
order `o` of that id from the index and from its queue: the queued orders are the old ones
without `o`, in the old order, each queue of the book is the old queue without `o`, no level is
left with an empty queue, and the matched counter is what it was; when events are enabled the
event counter advances by one, and an installed observer receives one `Cancel` event with the id,
the price, the remaining quantity and the side of `o`. -/
theorem C14_cancel_removes_exactly_one (L : PriceLimits) (s : Orderbook) (hs : Reachable L s)
    (i : Nat) (hi : i ∈ s.orders_) :
    ∃ o ∈ s.resting, o.orderId_ = i ∧
      (s.CancelOrder i).orders_ = s.orders_.erase i ∧ i ∉ (s.CancelOrder i).orders_ ∧
      (s.CancelOrder i).resting = s.resting.erase o ∧
      (∀ p, Levels.queue (s.CancelOrder i).bids_ p = (Levels.queue s.bids_ p).erase o) ∧
      (∀ p, Levels.queue (s.CancelOrder i).asks_ p = (Levels.queue s.asks_ p).erase o) ∧
      (∀ lvl ∈ (s.CancelOrder i).bids_ ++ (s.CancelOrder i).asks_, lvl.2 ≠ []) ∧
      (s.CancelOrder i).GetMatchedOrders = s.GetMatchedOrders ∧
      (s.CancelOrder i).event_seq_ =
        (if s.events_enabled_ then s.event_seq_ + 1 else s.event_seq_) ∧
      (s.CancelOrder i).delivered =
        (if s.events_enabled_ && s.observer_ then
          s.delivered ++ [⟨EventType.EVT_CANCEL, s.event_seq_, i, 0, o.price_,
            o.remainingQuantity_, sideCode o.side_⟩]
        else s.delivered) := by
  have hI := Reachable_Inv L s hs
  have hI2 := CancelOrder_Inv s hI i
  obtain ⟨o, ho, rfl⟩ : ∃ o ∈ s.resting, o.orderId_ = i := by
    have := (hI.book.indexIff i).1 hi
    simpa [Levels.ids, Orderbook.resting, List.mem_map, or_and_right, exists_or] using this
  obtain ⟨c1, c2, c3⟩ := CancelOrder_removes s hI o ho
  obtain ⟨e1, e2⟩ := CancelOrder_frame s hI.book o ho
  have hx := CancelOrder_index s hI o.orderId_
  refine ⟨o, ho, rfl, hx, ?_, c1, c2, c3, ?_, e2, e1.seq, ?_⟩
  · rw [hx]
    exact fun h => ((List.Nodup.mem_erase_iff hI.book.indexNodup).1 h).1 rfl
  · intro lvl hl
    rcases List.mem_append.1 hl with h | h
    · exact hI2.book.bidsWF.nonempty lvl h
    · exact hI2.book.asksWF.nonempty lvl h
  · rw [e1.delivered]
    simp [stamp, cancelEvent]

/-- Claim C14 at the ask 100x10 (id 1) with events enabled and an observer installed. -/
theorem C14_witness :
    Reachable int32Limits book_events_one_ask ∧ 1 ∈ book_events_one_ask.orders_ ∧
    ∃ o ∈ book_events_one_ask.resting, o.orderId_ = 1 ∧
      (book_events_one_ask.CancelOrder 1).orders_ = book_events_one_ask.orders_.erase 1 ∧
      1 ∉ (book_events_one_ask.CancelOrder 1).orders_ ∧
      (book_events_one_ask.CancelOrder 1).resting = book_events_one_ask.resting.erase o ∧
      (∀ p, Levels.queue (book_events_one_ask.CancelOrder 1).bids_ p =
        (Levels.queue book_events_one_ask.bids_ p).erase o) ∧
      (∀ p, Levels.queue (book_events_one_ask.CancelOrder 1).asks_ p =
        (Levels.queue book_events_one_ask.asks_ p).erase o) ∧
      (∀ lvl ∈ (book_events_one_ask.CancelOrder 1).bids_ ++
        (book_events_one_ask.CancelOrder 1).asks_, lvl.2 ≠ []) ∧
      (book_events_one_ask.CancelOrder 1).GetMatchedOrders =
        book_events_one_ask.GetMatchedOrders ∧
      (book_events_one_ask.CancelOrder 1).event_seq_ =
        (if book_events_one_ask.events_enabled_ then book_events_one_ask.event_seq_ + 1
         else book_events_one_ask.event_seq_) ∧
      (book_events_one_ask.CancelOrder 1).delivered =
        (if book_events_one_ask.events_enabled_ && book_events_one_ask.observer_ then
          book_events_one_ask.delivered ++ [⟨EventType.EVT_CANCEL,
            book_events_one_ask.event_seq_, 1, 0, o.price_, o.remainingQuantity_,
            sideCode o.side_⟩]
        else book_events_one_ask.delivered) :=
  ⟨⟨_, rfl⟩, by decide,
    C14_cancel_removes_exactly_one int32Limits book_events_one_ask ⟨_, rfl⟩ 1 (by decide)⟩

/-- Claim C15: on every engine state, for an id that is not in the index, `CancelOrder` returns
the state unchanged (book, index, best prices, both counters, delivered events) and `MatchOrder`
of a modify with that id returns no trades and the state unchanged. -/
theorem C15_unknown_id_is_noop (L : PriceLimits) (s : Orderbook) (i : Nat) (side : Side)
    (p : Int) (q : Nat) (h : i ∉ s.orders_) :
    s.CancelOrder i = s ∧ Orderbook.MatchOrder L s ⟨i, side, p, q⟩ = (s, some []) := by
  constructor
  · exact CancelOrder_of_not_mem s i h
  · simp [Orderbook.MatchOrder, h]

/-- Claim C15 at the ask 100x10 (id 1) and the unknown id 7. -/
theorem C15_witness :
    7 ∉ book_one_ask.orders_ ∧ book_one_ask.CancelOrder 7 = book_one_ask ∧
    Orderbook.MatchOrder int32Limits book_one_ask ⟨7, Side.Buy, 100, 5⟩ =
      (book_one_ask, some []) :=
  ⟨by decide, C15_unknown_id_is_noop int32Limits book_one_ask 7 Side.Buy 100 5 (by decide)⟩

/-- Claim C16: on every reachable state and for every id, cancelling twice leaves the engine
state, delivered events included, that cancelling once leaves. -/
theorem C16_cancel_idempotent (L : PriceLimits) (s : Orderbook) (hs : Reachable L s) (i : Nat) :
    (s.CancelOrder i).CancelOrder i = s.CancelOrder i := by
  have hI := Reachable_Inv L s hs
  apply CancelOrder_of_not_mem
  rw [CancelOrder_index s hI i]
  exact fun h => (List.Nodup.mem_erase_iff hI.book.indexNodup).1 h |>.1 rfl

/-- Claim C16 at the ask 100x10 (id 1) with events enabled and an observer installed. -/
theorem C16_witness :
    Reachable int32Limits book_events_one_ask ∧
    (book_events_one_ask.CancelOrder 1).CancelOrder 1 = book_events_one_ask.CancelOrder 1 :=
  ⟨⟨_, rfl⟩, C16_cancel_idempotent int32Limits book_events_one_ask ⟨_, rfl⟩ 1⟩

/-- Claim C17: on every engine state, `AddOrder` of an order whose id is in the index, whatever
its type, side, price and quantities, returns no trades and the state unchanged (book, index,
best prices, both counters, delivered events). -/
theorem C17_duplicate_id_rejected (L : PriceLimits) (s : Orderbook) (o : Order)
    (h : o.orderId_ ∈ s.orders_) : Orderbook.AddOrder L s o = (s, some []) := by
  simp [Orderbook.AddOrder, h]

/-- Claim C17 at the ask 100x10 (id 1) and a Market buy that reuses the id 1. -/
theorem C17_witness :
    (Order.new OrderType.Market 1 Side.Buy 0 5).orderId_ ∈ book_events_one_ask.orders_ ∧
    Orderbook.AddOrder int32Limits book_events_one_ask
      (Order.new OrderType.Market 1 Side.Buy 0 5) = (book_events_one_ask, some []) :=
  ⟨by decide, C17_duplicate_id_rejected int32Limits book_events_one_ask _ (by decide)⟩

/-- Claim C18: on every reachable state, `MatchOrder` of a modify whose id is indexed, `old`
being the queued order of that id, returns the trades and ends in the book (sides, index, matched
counter, best prices) of `CancelOrder` of the id followed by `AddOrder` of a new order with the id,
the type of `old` and the new side, price and quantity; when events are enabled the event counter
advances by three plus the number of trades, and an installed observer receives, numbered in a
row: the `Modify` event (id, new price, new quantity, new side), the `Cancel` of `old`, the `Add`
of the new order, and one `Trade` event for each returned trade, in the order of the trades. -/
theorem C18_modify_is_cancel_then_submit (L : PriceLimits) (s : Orderbook) (hs : Reachable L s)
    (m : OrderModify) (hi : m.orderId_ ∈ s.orders_) :
    ∃ old ∈ s.resting, old.orderId_ = m.orderId_ ∧
      ∃ trades, (Orderbook.MatchOrder L s m).2 = some trades ∧
        (Orderbook.AddOrder L (s.CancelOrder m.orderId_)
          (Order.new old.orderType_ m.orderId_ m.side_ m.price_ m.quantity_)).2 = some trades ∧
        SameBook (Orderbook.MatchOrder L s m).1
          (Orderbook.AddOrder L (s.CancelOrder m.orderId_)
            (Order.new old.orderType_ m.orderId_ m.side_ m.price_ m.quantity_)).1 ∧
        (Orderbook.MatchOrder L s m).1.event_seq_ =
          (if s.events_enabled_ then s.event_seq_ + (3 + trades.length) else s.event_seq_) ∧
        (Orderbook.MatchOrder L s m).1.delivered =
          (if s.events_enabled_ && s.observer_ then
            s.delivered ++ stamp s.event_seq_
              (⟨EventType.EVT_MODIFY, 0, m.orderId_, 0, m.price_, m.quantity_,
                  sideCode m.side_⟩ ::
                ⟨EventType.EVT_CANCEL, 0, m.orderId_, 0, old.price_, old.remainingQuantity_,
                  sideCode old.side_⟩ ::
                ⟨EventType.EVT_ADD, 0, m.orderId_, 0, m.price_, m.quantity_,
                  sideCode m.side_⟩ ::
                trades.map eventOfTrade)
          else s.delivered) := by
  obtain ⟨old, ho, hid, trades, h1, h2, h3, h4⟩ :=
    MatchOrder_refines L s (Reachable_Inv L s hs) m hi
  refine ⟨old, ho, hid, trades, h1, h2, h3, ?_, ?_⟩
  · rw [h4.seq]
    simp only [List.length_cons, List.length_map]
    split_ifs <;> omega
  · rw [h4.delivered]
    rfl

/-- Claim C18 at the sell 99x10 (id 2) and the buy 98x10 (id 1), events enabled and an observer
installed, with the modify of id 1 to a buy at 100 for 10. -/
theorem C18_witness :
    Reachable int32Limits book_modify_rest ∧
    (⟨1, Side.Buy, 100, 10⟩ : OrderModify).orderId_ ∈ book_modify_rest.orders_ ∧
    (Orderbook.MatchOrder int32Limits book_modify_rest ⟨1, Side.Buy, 100, 10⟩).2 =
      some [⟨⟨1, 99, 10⟩, ⟨2, 99, 10⟩⟩] ∧
    (Orderbook.MatchOrder int32Limits book_modify_rest ⟨1, Side.Buy, 100, 10⟩).1.delivered =
      book_modify_rest.delivered ++
        [⟨EventType.EVT_MODIFY, 2, 1, 0, 100, 10, 1⟩, ⟨EventType.EVT_CANCEL, 3, 1, 0, 98, 10, 1⟩,
          ⟨EventType.EVT_ADD, 4, 1, 0, 100, 10, 1⟩, ⟨EventType.EVT_TRADE, 5, 1, 2, 99, 10, 255⟩] ∧
    ∃ old ∈ book_modify_rest.resting, old.orderId_ = 1 ∧
      ∃ trades,
        (Orderbook.MatchOrder int32Limits book_modify_rest ⟨1, Side.Buy, 100, 10⟩).2 =
          some trades ∧
        (Orderbook.AddOrder int32Limits (book_modify_rest.CancelOrder 1)
          (Order.new old.orderType_ 1 Side.Buy 100 10)).2 = some trades ∧
        SameBook (Orderbook.MatchOrder int32Limits book_modify_rest ⟨1, Side.Buy, 100, 10⟩).1
          (Orderbook.AddOrder int32Limits (book_modify_rest.CancelOrder 1)
            (Order.new old.orderType_ 1 Side.Buy 100 10)).1 ∧
        (Orderbook.MatchOrder int32Limits book_modify_rest ⟨1, Side.Buy, 100, 10⟩).1.event_seq_ =
          (if book_modify_rest.events_enabled_ then
            book_modify_rest.event_seq_ + (3 + trades.length)
          else book_modify_rest.event_seq_) ∧
        (Orderbook.MatchOrder int32Limits book_modify_rest ⟨1, Side.Buy, 100, 10⟩).1.delivered =
          (if book_modify_rest.events_enabled_ && book_modify_rest.observer_ then
            book_modify_rest.delivered ++ stamp book_modify_rest.event_seq_
              (⟨EventType.EVT_MODIFY, 0, 1, 0, 100, 10, sideCode Side.Buy⟩ ::
                ⟨EventType.EVT_CANCEL, 0, 1, 0, old.price_, old.remainingQuantity_,
                  sideCode old.side_⟩ ::
                ⟨EventType.EVT_ADD, 0, 1, 0, 100, 10, sideCode Side.Buy⟩ ::
                trades.map eventOfTrade)
          else book_modify_rest.delivered) :=
  ⟨⟨_, rfl⟩, by decide, by decide, by decide,
    C18_modify_is_cancel_then_submit int32Limits book_modify_rest ⟨_, rfl⟩
      ⟨1, Side.Buy, 100, 10⟩ (by decide)⟩

/-- Claim C19 (counterexample): with events enabled and an observer installed, after the sell
99x10 (id 2) and then the buy 100x10 (id 1) are submitted, the observer has received `Add`, `Add`
and the `Trade` of 10 at 99 between them, and no order is queued; `MatchOrder` of the modify of
id 1 to a sell at 100 for 10 then returns no trades and leaves the state, the delivered events
included, as it was. -/
theorem C19_modify_after_cross_emits_nothing :
    book_modify_cross.delivered =
      [⟨EventType.EVT_ADD, 0, 2, 0, 99, 10, 0⟩, ⟨EventType.EVT_ADD, 1, 1, 0, 100, 10, 1⟩,
        ⟨EventType.EVT_TRADE, 2, 1, 2, 99, 10, 255⟩] ∧
    book_modify_cross.resting = [] ∧
    Orderbook.MatchOrder int32Limits book_modify_cross ⟨1, Side.Sell, 100, 10⟩ =
      (book_modify_cross, some []) := by
  decide

/-- Claim C19 (amended): submitted in either order, the sell 99x10 and the buy 100x10 of id 1 trade
at once and leave the index empty, so `MatchOrder` of the modify of id 1 returns no trades and
changes nothing; when instead the buy of id 1 rests at 98 below the sell 99x10 (id 2), the modify
of id 1 to a buy at 100 for 10 hands the observer `Modify`, `Cancel` (of the old buy), `Add` (of
the new buy) and `Trade` (price 99, quantity 10), in that order. -/
theorem C19_modify_cascade_events :
    book_modify_cross.orders_ = [] ∧ book_modify_cross_buy_first.orders_ = [] ∧
    Orderbook.MatchOrder int32Limits book_modify_cross ⟨1, Side.Sell, 100, 10⟩ =
      (book_modify_cross, some []) ∧
    Orderbook.MatchOrder int32Limits book_modify_cross_buy_first ⟨1, Side.Sell, 100, 10⟩ =
      (book_modify_cross_buy_first, some []) ∧
    (Orderbook.MatchOrder int32Limits book_modify_rest ⟨1, Side.Buy, 100, 10⟩).1.delivered =
      book_modify_rest.delivered ++
        [⟨EventType.EVT_MODIFY, 2, 1, 0, 100, 10, 1⟩, ⟨EventType.EVT_CANCEL, 3, 1, 0, 98, 10, 1⟩,
          ⟨EventType.EVT_ADD, 4, 1, 0, 100, 10, 1⟩,
          ⟨EventType.EVT_TRADE, 5, 1, 2, 99, 10, 255⟩] := by
  decide

/-- Claim C20: on every reachable state, for a submission that does not fault, `AddOrder` either
turns it away at the duplicate-id, ImmediateOrCancel or FillOrKill check and returns the state
unchanged, or returns trades, and then, when events are enabled, the event counter advanced once
per event and an installed observer received, numbered in a row: the `Add` event (id, price
after the Market coercion, initial quantity, side, second id 0), one `Trade` event for each
returned trade in the order of the trades (both legs of a trade carrying one price and one
quantity), and the `Cancel` events of the cleanup, which are one `Cancel` of the incoming order
with what the trades left of it when it is not `GoodTillCancel` and was not filled, and none
otherwise. -/
theorem C20_event_order_within_submit (L : PriceLimits) (s : Orderbook) (hs : Reachable L s)
    (t : OrderType) (i : Nat) (side : Side) (p : Int) (q : Nat)
    (hm : t = OrderType.Market → 0 < aggressivePrice L side) :
    if s.rejects t i side p q = true then
      Orderbook.AddOrder L s (Order.new t i side p q) = (s, some [])
    else
      ∃ s1 trades cancels,
        Orderbook.AddOrder L s (Order.new t i side p q) = (s1, some trades) ∧
        (∀ tr ∈ trades, tr.bidTrade_.price_ = tr.askTrade_.price_ ∧
          tr.bidTrade_.quantity_ = tr.askTrade_.quantity_) ∧
        cancels =
          (if t = OrderType.GoodTillCancel ∨ (trades ≠ [] ∧ total_qty trades = q) then []
           else [⟨EventType.EVT_CANCEL, 0, i, 0, (insertedOrder L t i side p q).price_,
             q - total_qty trades, sideCode side⟩]) ∧
        s1.event_seq_ =
          (if s.events_enabled_ then s.event_seq_ + (1 + trades.length + cancels.length)
           else s.event_seq_) ∧
        s1.delivered =
          (if s.events_enabled_ && s.observer_ then
            s.delivered ++ stamp s.event_seq_
              (⟨EventType.EVT_ADD, 0, i, 0, (insertedOrder L t i side p q).price_, q,
                  sideCode side⟩ :: (trades.map eventOfTrade ++ cancels))
           else s.delivered) := by
  have hI := Reachable_Inv L s hs
  by_cases hr : s.rejects t i side p q = true
  · rw [if_pos hr]
    exact AddOrder_rejected L s t i side p q hr
  · rw [if_neg hr]
    have hr : s.rejects t i side p q = false := by simpa using hr
    have hid := not_mem_of_rejects s t i side p q hr
    obtain ⟨o1, o2, o3, o4, o5⟩ := insertedOrder_id L t i side p q
    obtain ⟨trades, f1, f2, -⟩ := insert_MatchOrders_frame s hI
      (insertedOrder L t i side p q) (by rw [o1]; exact hid)
    rw [o4] at f2
    have hc : cleanupEvents (insertedOrder L t i side p q) (leftover q trades) =
        (if t = OrderType.GoodTillCancel ∨ (trades ≠ [] ∧ total_qty trades = q) then []
         else [⟨EventType.EVT_CANCEL, 0, i, 0, (insertedOrder L t i side p q).price_,
           q - total_qty trades, sideCode side⟩]) := by
      by_cases h1 : trades ≠ [] ∧ total_qty trades = q
      · rw [leftover, if_pos h1, if_pos (Or.inr h1)]
        rfl
      · rw [leftover, if_neg h1]
        by_cases h2 : t = OrderType.GoodTillCancel
        · rw [if_pos (Or.inl h2)]
          simp only [cleanupEvents]
          rw [if_pos (o5.2 h2)]
        · have h3 : ¬ (insertedOrder L t i side p q).orderType_ = OrderType.GoodTillCancel :=
            fun hc => h2 (o5.1 hc)
          rw [if_neg (by tauto)]
          simp only [cleanupEvents]
          rw [if_neg h3]
          simp only [cancelEvent, o1, o2]
    refine ⟨(s.insert (insertedOrder L t i side p q)).MatchOrders.1, trades,
      cleanupEvents (insertedOrder L t i side p q) (leftover q trades), ?_,
      insert_MatchOrders_legs s hI _ (by rw [o1]; exact hid) trades f1, hc, ?_, ?_⟩
    · rw [AddOrder_admitted L s t i side p q hr hm]
      exact Prod.ext rfl f1
    · rw [f2.seq]
      simp only [List.length_cons, List.length_append, List.length_map]
      split_ifs <;> omega
    · rw [f2.delivered]
      simp only [addEvent, o1, o2, o3]

/-- Claim C20 at the ask 100x10 (id 1), events enabled and an observer installed, with an incoming
ImmediateOrCancel buy at 100 for 20: `Add`, one `Trade` of 10 and the `Cancel` of the 10 left. -/
theorem C20_witness :
    Reachable int32Limits book_events_one_ask ∧
    (OrderType.ImmediateOrCancel = OrderType.Market →
      0 < aggressivePrice int32Limits Side.Buy) ∧
    (Orderbook.AddOrder int32Limits book_events_one_ask
      (Order.new OrderType.ImmediateOrCancel 2 Side.Buy 100 20)).1.delivered =
      book_events_one_ask.delivered ++
        [⟨EventType.EVT_ADD, 1, 2, 0, 100, 20, 1⟩, ⟨EventType.EVT_TRADE, 2, 2, 1, 100, 10, 255⟩,
          ⟨EventType.EVT_CANCEL, 3, 2, 0, 100, 10, 1⟩] ∧
    (if book_events_one_ask.rejects OrderType.ImmediateOrCancel 2 Side.Buy 100 20 = true then
      Orderbook.AddOrder int32Limits book_events_one_ask
        (Order.new OrderType.ImmediateOrCancel 2 Side.Buy 100 20) =
        (book_events_one_ask, some [])
    else
      ∃ s1 trades cancels,
        Orderbook.AddOrder int32Limits book_events_one_ask
          (Order.new OrderType.ImmediateOrCancel 2 Side.Buy 100 20) = (s1, some trades) ∧
        (∀ tr ∈ trades, tr.bidTrade_.price_ = tr.askTrade_.price_ ∧
          tr.bidTrade_.quantity_ = tr.askTrade_.quantity_) ∧
        cancels =
          (if OrderType.ImmediateOrCancel = OrderType.GoodTillCancel ∨
              (trades ≠ [] ∧ total_qty trades = 20) then []
           else [⟨EventType.EVT_CANCEL, 0, 2, 0,
             (insertedOrder int32Limits OrderType.ImmediateOrCancel 2 Side.Buy 100 20).price_,
             20 - total_qty trades, sideCode Side.Buy⟩]) ∧
        s1.event_seq_ =
          (if book_events_one_ask.events_enabled_ then
            book_events_one_ask.event_seq_ + (1 + trades.length + cancels.length)
           else book_events_one_ask.event_seq_) ∧
        s1.delivered =
          (if book_events_one_ask.events_enabled_ && book_events_one_ask.observer_ then
            book_events_one_ask.delivered ++ stamp book_events_one_ask.event_seq_
              (⟨EventType.EVT_ADD, 0, 2, 0,
                  (insertedOrder int32Limits OrderType.ImmediateOrCancel 2 Side.Buy 100
                    20).price_, 20, sideCode Side.Buy⟩ ::
                (trades.map eventOfTrade ++ cancels))
           else book_events_one_ask.delivered)) :=
  ⟨⟨_, rfl⟩, by decide, by decide,
    C20_event_order_within_submit int32Limits book_events_one_ask ⟨_, rfl⟩
      OrderType.ImmediateOrCancel 2 Side.Buy 100 20 (by decide)⟩

/-- Claim C21: on a fresh engine with an observer installed and kept installed, whatever calls
follow (submissions, cancels, modifies, matching, `EnableEvents` toggled at will, the observer
replaced by another one), the event delivered at position `i`, counting from 0, carries
`seq = i` and the counter equals the number of delivered events; and when events are disabled in
the state reached, a further `AddOrder`, `CancelOrder`, `MatchOrder` or `MatchOrders` call delivers
no event and leaves the counter as it was. -/
theorem C21_dense_event_sequence (L : PriceLimits) (ops : List Op) (op : Op)
    (hk : ∀ o ∈ ops, o.keepsObserver = true) :
    (∀ (i : Nat) (hi : i < ((Orderbook.empty.SetObserver true).run L ops).delivered.length),
        (((Orderbook.empty.SetObserver true).run L ops).delivered.get ⟨i, hi⟩).seq = i) ∧
      ((Orderbook.empty.SetObserver true).run L ops).event_seq_ =
        ((Orderbook.empty.SetObserver true).run L ops).delivered.length ∧
      (((Orderbook.empty.SetObserver true).run L ops).events_enabled_ = false →
        op.isBookCall = true →
        (((Orderbook.empty.SetObserver true).run L ops).step L op).delivered =
            ((Orderbook.empty.SetObserver true).run L ops).delivered ∧
          (((Orderbook.empty.SetObserver true).run L ops).step L op).event_seq_ =
            ((Orderbook.empty.SetObserver true).run L ops).event_seq_) := by
  have d : Dense ((Orderbook.empty.SetObserver true).run L ops) :=
    dense_run L ops _ hk ⟨rfl, rfl⟩
  exact ⟨(dense_get d).2, (dense_get d).1, fun he hb => step_disabled L _ op hb he⟩

/-- Claim C21 at the run that enables events, submits the sell 100x10 (id 1) and disables events,
followed by the cancel of id 1. -/
theorem C21_witness :
    (∀ o ∈ [Op.EnableEvents true, gtc 1 Side.Sell 100 10, Op.EnableEvents false],
      o.keepsObserver = true) ∧
    (∀ (i : Nat) (hi : i < book_events_toggled.delivered.length),
        (book_events_toggled.delivered.get ⟨i, hi⟩).seq = i) ∧
      book_events_toggled.event_seq_ = book_events_toggled.delivered.length ∧
      (book_events_toggled.events_enabled_ = false →
        (Op.CancelOrder 1).isBookCall = true →
        (book_events_toggled.step int32Limits (Op.CancelOrder 1)).delivered =
            book_events_toggled.delivered ∧
          (book_events_toggled.step int32Limits (Op.CancelOrder 1)).event_seq_ =
            book_events_toggled.event_seq_) :=
  ⟨by decide,
    C21_dense_event_sequence int32Limits
      [Op.EnableEvents true, gtc 1 Side.Sell 100 10, Op.EnableEvents false] (Op.CancelOrder 1)
      (by decide)⟩

/-- Claim C22 (counterexample): with the ask 100x10 (id 1) resting, events enabled and an observer
installed, `AddOrder` of an ImmediateOrCancel buy 100x10 (id 2) returns the trade 10 at 100 and
leaves an empty book when the observer returns normally; when the observer throws on the `Add`
event the call ends in that exception with no trade returned, and leaves the buy queued at 100
against the ask at 100, both ids in the index: a crossed book in which an ImmediateOrCancel order
rests, so the engine invariant fails. -/
theorem C22_observer_exception_skips_matching :
    (Orderbook.AddOrder int32Limits book_events_one_ask
        (Order.new OrderType.ImmediateOrCancel 2 Side.Buy 100 10)).2 =
      some [⟨⟨2, 100, 10⟩, ⟨1, 100, 10⟩⟩] ∧
    (Orderbook.AddOrder int32Limits book_events_one_ask
        (Order.new OrderType.ImmediateOrCancel 2 Side.Buy 100 10)).1.resting = [] ∧
    (Orderbook.AddOrder_observerThrows int32Limits book_events_one_ask
        (Order.new OrderType.ImmediateOrCancel 2 Side.Buy 100 10)).2 = none ∧
    (Orderbook.AddOrder_observerThrows int32Limits book_events_one_ask
        (Order.new OrderType.ImmediateOrCancel 2 Side.Buy 100 10)).1.bids_ =
      [(100, [Order.new OrderType.ImmediateOrCancel 2 Side.Buy 100 10])] ∧
    (Orderbook.AddOrder_observerThrows int32Limits book_events_one_ask
        (Order.new OrderType.ImmediateOrCancel 2 Side.Buy 100 10)).1.asks_ =
      [(100, [Order.new OrderType.GoodTillCancel 1 Side.Sell 100 10])] ∧
    (Orderbook.AddOrder_observerThrows int32Limits book_events_one_ask
        (Order.new OrderType.ImmediateOrCancel 2 Side.Buy 100 10)).1.orders_ = [2, 1] ∧
    ¬ (Orderbook.AddOrder_observerThrows int32Limits book_events_one_ask
        (Order.new OrderType.ImmediateOrCancel 2 Side.Buy 100 10)).1.Inv := by
  refine ⟨by decide, by decide, by decide, by decide, by decide, by decide, ?_⟩
  intro h
  have h1 := h.gtc (Order.new OrderType.ImmediateOrCancel 2 Side.Buy 100 10) (by decide)
  exact absurd h1 (by decide)

/-- Claim C22: the engine does not trap an exception of the observer.  On every reachable
state, for a submission that passes the admission checks, when events are enabled and an observer
is installed that throws on the `Add` event, `AddOrder` ends in that exception after the
insertion: no trades are returned, the id heads the index, the queued orders are the old ones and
the inserted order, the index still holds exactly the ids of the queued orders, and the matched
counter is what it was; `MatchOrders()` called on the state so left returns the trades and leaves
the state that `AddOrder` returns and leaves when the observer does not throw.  When events are
disabled or no observer is installed, the call is `AddOrder`. -/
theorem C22_observer_exception_leaves_order_unmatched (L : PriceLimits) (s : Orderbook)
    (hs : Reachable L s) (t : OrderType) (i : Nat) (side : Side) (p : Int) (q : Nat)
    (hrej : s.rejects t i side p q = false)
    (hm : t = OrderType.Market → 0 < aggressivePrice L side) :
    Orderbook.AddOrder_observerThrows L s (Order.new t i side p q) =
      (if s.events_enabled_ && s.observer_ then (s.insert (insertedOrder L t i side p q), none)
        else Orderbook.AddOrder L s (Order.new t i side p q)) ∧
    (s.insert (insertedOrder L t i side p q)).MatchOrders =
      Orderbook.AddOrder L s (Order.new t i side p q) ∧
    (s.insert (insertedOrder L t i side p q)).orders_ = i :: s.orders_ ∧
    (s.insert (insertedOrder L t i side p q)).resting.Perm
      (insertedOrder L t i side p q :: s.resting) ∧
    (∀ j, j ∈ (s.insert (insertedOrder L t i side p q)).orders_ ↔
      ∃ x ∈ (s.insert (insertedOrder L t i side p q)).resting, x.orderId_ = j) ∧
    (s.insert (insertedOrder L t i side p q)).GetMatchedOrders = s.GetMatchedOrders := by
  have hI := Reachable_Inv L s hs
  have ha := AddOrder_admitted L s t i side p q hrej hm
  obtain ⟨k1, k2, k3⟩ := insert_index_iff s hI (insertedOrder L t i side p q)
  rw [(insertedOrder_id L t i side p q).1] at k1
  refine ⟨?_, ha.symm, k1, k2, k3, (insert_frame s _).2⟩
  rw [AddOrder_observerThrows_admitted L s t i side p q hrej hm, ha]

/-- Claim C22 at the ask 100x10 (id 1) with events enabled and an observer installed, and a
`GoodTillCancel` buy 100x4 (id 2): the exception leaves the buy queued at 100 against the ask at
100 with no trade returned, and `MatchOrders()` then returns the trade 4 at 100. -/
theorem C22_witness :
    Reachable int32Limits book_events_one_ask ∧
    book_events_one_ask.rejects OrderType.GoodTillCancel 2 Side.Buy 100 4 = false ∧
    (OrderType.GoodTillCancel = OrderType.Market → 0 < aggressivePrice int32Limits Side.Buy) ∧
    (Orderbook.AddOrder_observerThrows int32Limits book_events_one_ask
        (Order.new OrderType.GoodTillCancel 2 Side.Buy 100 4)).2 = none ∧
    (Orderbook.AddOrder_observerThrows int32Limits book_events_one_ask
        (Order.new OrderType.GoodTillCancel 2 Side.Buy 100 4)).1.bids_ =
      [(100, [Order.new OrderType.GoodTillCancel 2 Side.Buy 100 4])] ∧
    (Orderbook.AddOrder_observerThrows int32Limits book_events_one_ask
        (Order.new OrderType.GoodTillCancel 2 Side.Buy 100 4)).1.asks_ =
      [(100, [Order.new OrderType.GoodTillCancel 1 Side.Sell 100 10])] ∧
    (Orderbook.AddOrder_observerThrows int32Limits book_events_one_ask
        (Order.new OrderType.GoodTillCancel 2 Side.Buy 100 4)).1.MatchOrders.2 =
      some [⟨⟨2, 100, 4⟩, ⟨1, 100, 4⟩⟩] ∧
    (Orderbook.AddOrder int32Limits book_events_one_ask
        (Order.new OrderType.GoodTillCancel 2 Side.Buy 100 4)).2 =
      some [⟨⟨2, 100, 4⟩, ⟨1, 100, 4⟩⟩] ∧
    Orderbook.AddOrder_observerThrows int32Limits book_events_one_ask
        (Order.new OrderType.GoodTillCancel 2 Side.Buy 100 4) =
      (if book_events_one_ask.events_enabled_ && book_events_one_ask.observer_ then
          (book_events_one_ask.insert
            (insertedOrder int32Limits OrderType.GoodTillCancel 2 Side.Buy 100 4), none)
        else Orderbook.AddOrder int32Limits book_events_one_ask
          (Order.new OrderType.GoodTillCancel 2 Side.Buy 100 4)) ∧
    (book_events_one_ask.insert
        (insertedOrder int32Limits OrderType.GoodTillCancel 2 Side.Buy 100 4)).MatchOrders =
      Orderbook.AddOrder int32Limits book_events_one_ask
        (Order.new OrderType.GoodTillCancel 2 Side.Buy 100 4) ∧
    (book_events_one_ask.insert
        (insertedOrder int32Limits OrderType.GoodTillCancel 2 Side.Buy 100 4)).orders_ =
      2 :: book_events_one_ask.orders_ ∧
    (book_events_one_ask.insert
        (insertedOrder int32Limits OrderType.GoodTillCancel 2 Side.Buy 100 4)).resting.Perm
      (insertedOrder int32Limits OrderType.GoodTillCancel 2 Side.Buy 100 4 ::
        book_events_one_ask.resting) ∧
    (∀ j, j ∈ (book_events_one_ask.insert
          (insertedOrder int32Limits OrderType.GoodTillCancel 2 Side.Buy 100 4)).orders_ ↔
      ∃ x ∈ (book_events_one_ask.insert
          (insertedOrder int32Limits OrderType.GoodTillCancel 2 Side.Buy 100 4)).resting,
        x.orderId_ = j) ∧
    (book_events_one_ask.insert
        (insertedOrder int32Limits OrderType.GoodTillCancel 2 Side.Buy 100 4)).GetMatchedOrders =
      book_events_one_ask.GetMatchedOrders :=
  ⟨⟨_, rfl⟩, by decide, by decide, by decide, by decide, by decide, by decide, by decide,
    C22_observer_exception_leaves_order_unmatched int32Limits book_events_one_ask ⟨_, rfl⟩
      OrderType.GoodTillCancel 2 Side.Buy 100 4 (by decide) (by decide)⟩

/-- Claim C23 (failing input): with a 32-bit signed price, on every engine state `AddOrder` of a
Market Sell, whatever its id, price field and quantity, ends in the `std::logic_error` of
`ToImmediateOrCancel` with the state unchanged, unless its id is already indexed; so it does on
the bid 100x10 (id 1) for a Market Sell of 5 with the unused id 2. -/
theorem C23_market_sell_faults_in_every_state :
    (∀ (s : Orderbook) (i q : Nat) (p : Int),
      Orderbook.AddOrder int32Limits s (Order.new OrderType.Market i Side.Sell p q) = (s, none) ∨
        i ∈ s.orders_) ∧
    (Order.new OrderType.Market 2 Side.Sell 0 5).ToImmediateOrCancel int32Limits.minPrice = none ∧
    Orderbook.AddOrder int32Limits book_one_bid (Order.new OrderType.Market 2 Side.Sell 0 5) =
      (book_one_bid, none) := by
  refine ⟨?_, by decide, by decide⟩
  intro s i q p
  by_cases hid : i ∈ s.orders_
  · exact Or.inr hid
  · exact Or.inl (AddOrder_market_fault int32Limits s i Side.Sell p q hid (by decide))

/-- Claim C24: in every reachable state, `GetBestBidPrice()` is 0 when there is no bid level and
otherwise is the key of a bid level that no bid level exceeds; `GetBestAskPrice()` is 0 when there
is no ask level and otherwise is the key of an ask level that no ask level is below. -/
theorem C24_best_prices_exact (L : PriceLimits) (s : Orderbook) (hs : Reachable L s) :
    (s.bids_ = [] → s.GetBestBidPrice = 0) ∧
    (s.bids_ ≠ [] → (∃ lvl ∈ s.bids_, lvl.1 = s.GetBestBidPrice) ∧
      ∀ lvl ∈ s.bids_, lvl.1 ≤ s.GetBestBidPrice) ∧
    (s.asks_ = [] → s.GetBestAskPrice = 0) ∧
    (s.asks_ ≠ [] → (∃ lvl ∈ s.asks_, lvl.1 = s.GetBestAskPrice) ∧
      ∀ lvl ∈ s.asks_, s.GetBestAskPrice ≤ lvl.1) := by
  have hI := Reachable_Inv L s hs
  have hb := hI.bestBid
  have ha := hI.bestAsk
  have sb := hI.book.bidsWF.sorted
  have sa := hI.book.asksWF.sorted
  simp only [Orderbook.GetBestBidPrice, Orderbook.GetBestAskPrice]
  refine ⟨?_, ?_, ?_, ?_⟩
  · intro h; rw [hb, h]
  · intro h
    cases hl : s.bids_ with
    | nil => exact absurd hl h
    | cons l m =>
      rw [hl] at hb sb
      simp only at hb
      rw [hb]
      refine ⟨⟨l, by simp, rfl⟩, ?_⟩
      intro lvl hlvl
      rcases List.mem_cons.1 hlvl with rfl | hm
      · exact le_refl _
      · have := (List.pairwise_cons.1 sb).1 lvl hm
        simp only [bidBefore, decide_eq_true_eq] at this
        omega
  · intro h; rw [ha, h]
  · intro h
    cases hl : s.asks_ with
    | nil => exact absurd hl h
    | cons l m =>
      rw [hl] at ha sa
      simp only at ha
      rw [ha]
      refine ⟨⟨l, by simp, rfl⟩, ?_⟩
      intro lvl hlvl
      rcases List.mem_cons.1 hlvl with rfl | hm
      · exact le_refl _
      · have := (List.pairwise_cons.1 sa).1 lvl hm
        simp only [askBefore, decide_eq_true_eq] at this
        omega

/-- Claim C24 at the book with the bids 99x10, 99x5, 98x7 and the asks 101x5, 102x1. -/
theorem C24_witness :
    Reachable int32Limits book_two_levels_each ∧
    (book_two_levels_each.bids_ = [] → book_two_levels_each.GetBestBidPrice = 0) ∧
    (book_two_levels_each.bids_ ≠ [] →
      (∃ lvl ∈ book_two_levels_each.bids_, lvl.1 = book_two_levels_each.GetBestBidPrice) ∧
      ∀ lvl ∈ book_two_levels_each.bids_, lvl.1 ≤ book_two_levels_each.GetBestBidPrice) ∧
    (book_two_levels_each.asks_ = [] → book_two_levels_each.GetBestAskPrice = 0) ∧
    (book_two_levels_each.asks_ ≠ [] →
      (∃ lvl ∈ book_two_levels_each.asks_, lvl.1 = book_two_levels_each.GetBestAskPrice) ∧
      ∀ lvl ∈ book_two_levels_each.asks_, book_two_levels_each.GetBestAskPrice ≤ lvl.1) :=
  ⟨⟨_, rfl⟩, C24_best_prices_exact int32Limits book_two_levels_each ⟨_, rfl⟩⟩

/-- Claim C26 (failing input): the replay never calls `EnableEvents`, so for every trace, with
or without event logging, the replay engine delivers no event to its observer; the golden run
with `enable_events` set delivers the `Add` event numbered 0 for the one-line trace of a
`GoodTillCancel` buy 100x10 (id 1), for which the replay log is empty. -/
theorem C26_replay_delivers_no_event :
    (∀ (L : PriceLimits) (trace : List TraceLine) (enableEventLogging : Bool),
      (replay_trace_and_write_snapshot L trace enableEventLogging).delivered = []) ∧
    (golden_run int32Limits [TraceLine.ADD 1 OrderType.GoodTillCancel Side.Buy 100 10]
        true true).delivered = [⟨EventType.EVT_ADD, 0, 1, 0, 100, 10, 1⟩] ∧
    (replay_trace_and_write_snapshot int32Limits
        [TraceLine.ADD 1 OrderType.GoodTillCancel Side.Buy 100 10] true).delivered = [] :=
  ⟨replay_delivers_nothing, by decide, by decide⟩

/-- Claim C27 (failing input): with the bids 101x10 and 100x1 resting, the quantity tradeable by
a sell at 100 is 11, yet `CanFullyFill(Sell, 100, 15)` returns true; with the asks 100x10 and
101x20 resting, the quantity tradeable by a buy at 101 is 30, yet `CanFullyFill(Buy, 101, 35)`
returns true. -/
theorem C27_can_fully_fill_overcounts :
    totalQuantity (book_two_bid_levels.tradeable Side.Sell 100) = 11 ∧
    book_two_bid_levels.CanFullyFill Side.Sell 100 15 = true ∧
    totalQuantity (book_market_buy_sweeps_asks.tradeable Side.Buy 101) = 30 ∧
    book_market_buy_sweeps_asks.CanFullyFill Side.Buy 101 35 = true := by
  decide

/-- Claim C28: on every state whose bid queues hold buy orders and whose ask queues hold sell
orders, `MatchOrders` returns one trade for each match step, in step order; with `bid` and `ask`
the two front orders as they are immediately before the step, `bid` is a buy, `ask` is a sell,
the bid leg carries the id of `bid`, the ask leg the id of `ask`, both legs carry the price of
`ask` and the minimum of the remaining quantities of `bid` and `ask`. -/
theorem C28_trade_shape (s : Orderbook) (hs : Sided s) :
    s.MatchOrders.2 = some (s.matchPairs.map (fun p =>
      ⟨⟨p.1.orderId_, p.2.price_, min p.1.remainingQuantity_ p.2.remainingQuantity_⟩,
        ⟨p.2.orderId_, p.2.price_, min p.1.remainingQuantity_ p.2.remainingQuantity_⟩⟩)) ∧
    ∀ p ∈ s.matchPairs, p.1.side_ = Side.Buy ∧ p.2.side_ = Side.Sell :=
  ⟨MatchOrders_pairs s, Sided_loopPairs _ s hs⟩

/-- Claim C28 at the state in which the buy 101x12 (id 3) has been queued against the asks
100x10 (id 1) and 101x20 (id 2): two match steps, 10 at 100 and 2 at 101. -/
theorem C28_witness :
    Sided book_buy_inserted ∧
    book_buy_inserted.matchPairs =
      [(Order.new OrderType.GoodTillCancel 3 Side.Buy 101 12,
          Order.new OrderType.GoodTillCancel 1 Side.Sell 100 10),
        (⟨OrderType.GoodTillCancel, 3, Side.Buy, 101, 12, 2⟩,
          Order.new OrderType.GoodTillCancel 2 Side.Sell 101 20)] ∧
    book_buy_inserted.MatchOrders.2 = some (book_buy_inserted.matchPairs.map (fun p =>
      ⟨⟨p.1.orderId_, p.2.price_, min p.1.remainingQuantity_ p.2.remainingQuantity_⟩,
        ⟨p.2.orderId_, p.2.price_, min p.1.remainingQuantity_ p.2.remainingQuantity_⟩⟩)) ∧
    ∀ p ∈ book_buy_inserted.matchPairs, p.1.side_ = Side.Buy ∧ p.2.side_ = Side.Sell :=
  ⟨by unfold Sided; decide, by decide,
    C28_trade_shape book_buy_inserted (by unfold Sided; decide)⟩

/-- Claim C29: in every reachable state, every level present on the bid side or on the ask side
has a non-empty queue. -/
theorem C29_no_empty_price_level (L : PriceLimits) (s : Orderbook) (hs : Reachable L s) :
    (∀ lvl ∈ s.bids_, lvl.2 ≠ []) ∧ (∀ lvl ∈ s.asks_, lvl.2 ≠ []) :=
  ⟨(Reachable_Inv L s hs).book.bidsWF.nonempty, (Reachable_Inv L s hs).book.asksWF.nonempty⟩

/-- Claim C29 at the book left by a buy 102x3 that traded against the ask 101x5, with the bid
99x10 resting. -/
theorem C29_witness :
    Reachable int32Limits book_two_sides ∧
    (∀ lvl ∈ book_two_sides.bids_, lvl.2 ≠ []) ∧ (∀ lvl ∈ book_two_sides.asks_, lvl.2 ≠ []) :=
  ⟨⟨_, rfl⟩, C29_no_empty_price_level int32Limits book_two_sides ⟨_, rfl⟩⟩

/-- Claim C30: in every state reached from the empty book by calls whose orders and modifies all
have a positive quantity, every queued order has a positive remaining quantity, and every id of
the index is the id of a queued order with a positive remaining quantity. -/
theorem C30_resting_quantity_positive (L : PriceLimits) (ops : List Op)
    (h : ∀ op ∈ ops, Op.PosQty op) :
    (∀ x ∈ (Orderbook.empty.run L ops).resting, 0 < x.remainingQuantity_) ∧
    ∀ i ∈ (Orderbook.empty.run L ops).orders_,
      ∃ x ∈ (Orderbook.empty.run L ops).resting, x.orderId_ = i ∧ 0 < x.remainingQuantity_ := by
  have hI := run_Inv L ops Orderbook.empty empty_Inv
  have hp : PosRem (Orderbook.empty.run L ops) :=
    run_PosRem L ops Orderbook.empty empty_Inv (by intro x hx; simp [Orderbook.resting,
      Orderbook.empty, Levels.orders] at hx) h
  refine ⟨hp, ?_⟩
  intro i hi
  have := (hI.book.indexIff i).1 hi
  obtain ⟨x, hx, hxi⟩ : ∃ o ∈ (Orderbook.empty.run L ops).resting, o.orderId_ = i := by
    simpa [Levels.ids, Orderbook.resting, List.mem_map, or_and_right, exists_or] using this
  exact ⟨x, hx, hxi, hp x hx⟩

/-- Claim C30 at the run of `book_two_sides`: bid 99x10, ask 101x5, then a buy 102x3 that trades
against the ask and leaves it with 2. -/
theorem C30_witness :
    (∀ op ∈ [gtc 1 Side.Buy 99 10, gtc 2 Side.Sell 101 5, gtc 3 Side.Buy 102 3], Op.PosQty op) ∧
    (∀ x ∈ book_two_sides.resting, 0 < x.remainingQuantity_) ∧
    ∀ i ∈ book_two_sides.orders_,
      ∃ x ∈ book_two_sides.resting, x.orderId_ = i ∧ 0 < x.remainingQuantity_ :=
  ⟨by intro op h
      simp only [List.mem_cons, List.mem_singleton, List.not_mem_nil, or_false] at h
      rcases h with rfl | rfl | rfl <;> simp [Op.PosQty, gtc],
    C30_resting_quantity_positive int32Limits
      [gtc 1 Side.Buy 99 10, gtc 2 Side.Sell 101 5, gtc 3 Side.Buy 102 3]
      (by intro op h
          simp only [List.mem_cons, List.mem_singleton, List.not_mem_nil, or_false] at h
          rcases h with rfl | rfl | rfl <;> simp [Op.PosQty, gtc])⟩

/-- Claim C31: on every reachable state `MatchOrders()` returns the empty trade list and the
engine state it leaves is the state it was called on: both sides, the index, the cached best
prices, the matched counter, the event counter and the events delivered to the observer. -/
theorem C31_explicit_matching_pass_is_noop (L : PriceLimits) (s : Orderbook)
    (hs : Reachable L s) : s.MatchOrders = (s, some []) :=
  MatchOrders_of_Inv s (Reachable_Inv L s hs)

/-- Claim C31 at the ask 100x10 (id 1) with events enabled and an observer installed. -/
theorem C31_witness :
    Reachable int32Limits book_events_one_ask ∧
    book_events_one_ask.MatchOrders = (book_events_one_ask, some []) :=
  ⟨⟨_, rfl⟩, C31_explicit_matching_pass_is_noop int32Limits book_events_one_ask ⟨_, rfl⟩⟩

/-- Claim C32: on every engine state, reachable or not, the loops of `MatchOrders` end through
their own tests: the outer loop gives the same result for every number of allowed iterations
from the number of levels plus one on, and leaves a state in which its test fails or its `break`
is taken; the inner loop gives the same result for every number of allowed iterations from the
number of orders in the two front queues plus one on, and leaves a state in which its test fails;
one iteration of the inner loop, when its test holds, leaves fewer queued orders than it found;
and `MatchOrders` returns a trade list, no longer than the number of orders queued before the
call. -/
theorem C32_matching_pass_terminates (s : Orderbook) (extra : Nat) :
    s.matchLoop (s.bids_.length + s.asks_.length + 1 + extra) [] =
      s.matchLoop (s.bids_.length + s.asks_.length + 1) [] ∧
    (s.matchLoop (s.bids_.length + s.asks_.length + 1) []).1.outerTest = false ∧
    s.matchLevel (s.frontCount + 1 + extra) [] = s.matchLevel (s.frontCount + 1) [] ∧
    (s.matchLevel (s.frontCount + 1) []).1.innerTest = false ∧
    (s.innerTest = false ∨ (s.matchLevel 1 []).1.resting.length < s.resting.length) ∧
    ∃ trades, s.MatchOrders.2 = some trades ∧ trades.length ≤ s.resting.length := by
  obtain ⟨-, -, -, h3⟩ := matchLoop_run (s.bids_.length + s.asks_.length + 1) s []
  obtain ⟨o1, o2⟩ := h3 (by omega)
  obtain ⟨i1, i2⟩ := matchLevel_adequate s [] (s.frontCount + 1) (by omega)
  refine ⟨o2 extra, o1, i1 extra, i2, ?_, MatchOrders_trades_bound s⟩
  cases h : s.innerTest with
  | false => exact Or.inl rfl
  | true => exact Or.inr (matchStep_removes s h)

/-- Claim C33: two sequences of calls with the same `AddOrder`, `CancelOrder`, `MatchOrder` and
`MatchOrders` calls in the same order, whatever `EnableEvents` and `SetObserver` calls stand
between them in either sequence, run from the empty book, leave the same two sides, index,
matched counter and best prices, and each call returns the same trade list (or ends in the same
fault) in both runs. -/
theorem C33_events_do_not_influence_matching (L : PriceLimits) (ops1 ops2 : List Op)
    (h : ops1.filter Op.isBookCall = ops2.filter Op.isBookCall) :
    SameBook (Orderbook.empty.run L ops1) (Orderbook.empty.run L ops2) ∧
    Orderbook.runReturns L Orderbook.empty ops1 = Orderbook.runReturns L Orderbook.empty ops2 := by
  obtain ⟨a1, a2⟩ := run_bookCalls L ops1 Orderbook.empty Orderbook.empty empty_Inv empty_Inv
    (sameBook_self _)
  obtain ⟨b1, b2⟩ := run_bookCalls L ops2 Orderbook.empty Orderbook.empty empty_Inv empty_Inv
    (sameBook_self _)
  rw [h] at a1 a2
  exact ⟨sameBook_trans a1 (sameBook_symm b1), a2.trans b2.symm⟩

/-- Claim C33 at the sell 99x10 (id 2) followed by the crossing buy 100x10 (id 1): once with events
enabled and an observer installed first, once with an observer installed between the two
submissions and events never enabled. -/
theorem C33_witness :
    [Op.EnableEvents true, Op.SetObserver true, gtc 2 Side.Sell 99 10,
        gtc 1 Side.Buy 100 10].filter Op.isBookCall =
      [gtc 2 Side.Sell 99 10, Op.SetObserver true, gtc 1 Side.Buy 100 10].filter Op.isBookCall ∧
    SameBook
      (Orderbook.empty.run int32Limits [Op.EnableEvents true, Op.SetObserver true,
        gtc 2 Side.Sell 99 10, gtc 1 Side.Buy 100 10])
      (Orderbook.empty.run int32Limits
        [gtc 2 Side.Sell 99 10, Op.SetObserver true, gtc 1 Side.Buy 100 10]) ∧
    Orderbook.runReturns int32Limits Orderbook.empty [Op.EnableEvents true, Op.SetObserver true,
        gtc 2 Side.Sell 99 10, gtc 1 Side.Buy 100 10] =
      Orderbook.runReturns int32Limits Orderbook.empty
        [gtc 2 Side.Sell 99 10, Op.SetObserver true, gtc 1 Side.Buy 100 10] :=
  ⟨by decide,
    C33_events_do_not_influence_matching int32Limits
      [Op.EnableEvents true, Op.SetObserver true, gtc 2 Side.Sell 99 10, gtc 1 Side.Buy 100 10]
      [gtc 2 Side.Sell 99 10, Op.SetObserver true, gtc 1 Side.Buy 100 10] (by decide)⟩

/-- Claim C34: on every reachable state, for every queued order `old` and every quantity `q`,
`MatchOrder` of the modify that keeps the id, the side and the price of `old` and sets the
quantity `q` returns no trades; afterwards the queue at the price of `old` on its side is the old
queue without `old`, in the old order, followed by a `GoodTillCancel` order with the id, side and
price of `old` and initial and remaining quantity `q`; every other queue of the book is what it
was; the queued orders are the old ones without `old` and the new one; and `Size()` is what it
was. -/
theorem C34_modify_loses_time_priority (L : PriceLimits) (s : Orderbook) (hs : Reachable L s)
    (old : Order) (ho : old ∈ s.resting) (q : Nat) :
    ∃ s1, Orderbook.MatchOrder L s ⟨old.orderId_, old.side_, old.price_, q⟩ = (s1, some []) ∧
      (∀ p1, Levels.queue s1.bids_ p1 =
        if old.side_ = Side.Buy ∧ p1 = old.price_ then
          (Levels.queue s.bids_ p1).erase old ++
            [⟨OrderType.GoodTillCancel, old.orderId_, old.side_, old.price_, q, q⟩]
        else Levels.queue s.bids_ p1) ∧
      (∀ p1, Levels.queue s1.asks_ p1 =
        if old.side_ = Side.Sell ∧ p1 = old.price_ then
          (Levels.queue s.asks_ p1).erase old ++
            [⟨OrderType.GoodTillCancel, old.orderId_, old.side_, old.price_, q, q⟩]
        else Levels.queue s.asks_ p1) ∧
      s1.resting.Perm
        (⟨OrderType.GoodTillCancel, old.orderId_, old.side_, old.price_, q, q⟩ ::
          s.resting.erase old) ∧
      s1.Size = s.Size := by
  have hI := Reachable_Inv L s hs
  refine ⟨_, modify_same_price L s hI old ho q, ?_⟩
  have hI1 := emit_Inv s (modifyEvent ⟨old.orderId_, old.side_, old.price_, q⟩) hI
  have ho1 : old ∈ (s.emit (modifyEvent ⟨old.orderId_, old.side_, old.price_, q⟩)).resting := by
    rw [emit_resting]; exact ho
  obtain ⟨c1, c2, c3⟩ := CancelOrder_removes _ hI1 old ho1
  obtain ⟨k1, k2, k3⟩ :=
    modify_state s hI (modifyEvent ⟨old.orderId_, old.side_, old.price_, q⟩) old ho
  have hidx := CancelOrder_index _ hI1 old.orderId_
  have hmem := mem_index_of_resting s hI.book old ho
  simp only [emit_bids, emit_asks, emit_orders] at c2 c3 hidx
  have hnb : ∀ p1, ¬ (old.side_ = Side.Buy ∧ p1 = old.price_) →
      (Levels.queue s.bids_ p1).erase old = Levels.queue s.bids_ p1 := by
    intro p1 hn
    apply List.erase_of_not_mem
    intro hc
    have := queue_located hI.book.bidsWF p1 old hc
    exact hn ⟨this.1, this.2.symm⟩
  have hna : ∀ p1, ¬ (old.side_ = Side.Sell ∧ p1 = old.price_) →
      (Levels.queue s.asks_ p1).erase old = Levels.queue s.asks_ p1 := by
    intro p1 hn
    apply List.erase_of_not_mem
    intro hc
    have := queue_located hI.book.asksWF p1 old hc
    exact hn ⟨this.1, this.2.symm⟩
  have hsize : ∀ t : Orderbook, t.orders_ = old.orderId_ :: s.orders_.erase old.orderId_ →
      t.Size = s.Size := by
    intro t ht
    simp only [Orderbook.Size, ht, List.length_cons, List.length_erase_of_mem hmem]
    have : 0 < s.orders_.length := List.length_pos_of_mem hmem
    omega
  have k2r : (((s.emit (modifyEvent ⟨old.orderId_, old.side_, old.price_, q⟩)).CancelOrder
      old.orderId_).bids_.orders ++ ((s.emit (modifyEvent ⟨old.orderId_, old.side_, old.price_,
      q⟩)).CancelOrder old.orderId_).asks_.orders) = (s.bids_.orders ++ s.asks_.orders).erase old :=
    k2
  have sb := k1.book.bidsWF.sorted
  have sa := k1.book.asksWF.sorted
  generalize (s.emit (modifyEvent ⟨old.orderId_, old.side_, old.price_, q⟩)).CancelOrder
    old.orderId_ = s2 at c2 c3 hidx k2r sb sa ⊢
  rcases Side.buy_or_sell old.side_ with hsd | hsd
  · obtain ⟨i1, i2, i3⟩ := insert_buy s2
      (Order.new OrderType.GoodTillCancel old.orderId_ old.side_ old.price_ q) hsd
    refine ⟨?_, ?_, ?_, hsize _ (by rw [i3, hidx]; rfl)⟩
    · intro p1
      rw [i1, queue_push_back (Or.inl rfl) _ _ sb]
      by_cases h : p1 = old.price_
      · rw [if_pos (show p1 = (Order.new OrderType.GoodTillCancel old.orderId_ old.side_
          old.price_ q).price_ from h), if_pos ⟨hsd, h⟩, h, c2]
        rfl
      · rw [if_neg (show ¬ p1 = (Order.new OrderType.GoodTillCancel old.orderId_ old.side_
          old.price_ q).price_ from h), if_neg (fun hc => h hc.2), c2]
        exact hnb p1 (fun hc => h hc.2)
    · intro p1
      have hne : ¬ (old.side_ = Side.Sell ∧ p1 = old.price_) := by rw [hsd]; simp
      rw [i2, c3, if_neg hne]
      exact hna p1 hne
    · simp only [Orderbook.resting, i1, i2]
      refine ((push_back_perm _ _ _).append_right _).trans ?_
      rw [List.cons_append, k2r]
      rfl
  · obtain ⟨i1, i2, i3⟩ := insert_sell s2
      (Order.new OrderType.GoodTillCancel old.orderId_ old.side_ old.price_ q) hsd
    refine ⟨?_, ?_, ?_, hsize _ (by rw [i3, hidx]; rfl)⟩
    · intro p1
      have hne : ¬ (old.side_ = Side.Buy ∧ p1 = old.price_) := by rw [hsd]; simp
      rw [i1, c2, if_neg hne]
      exact hnb p1 hne
    · intro p1
      rw [i2, queue_push_back (Or.inr rfl) _ _ sa]
      by_cases h : p1 = old.price_
      · rw [if_pos (show p1 = (Order.new OrderType.GoodTillCancel old.orderId_ old.side_
          old.price_ q).price_ from h), if_pos ⟨hsd, h⟩, h, c3]
        rfl
      · rw [if_neg (show ¬ p1 = (Order.new OrderType.GoodTillCancel old.orderId_ old.side_
          old.price_ q).price_ from h), if_neg (fun hc => h hc.2), c3]
        exact hna p1 (fun hc => h hc.2)
    · simp only [Orderbook.resting, i1, i2]
      refine ((push_back_perm _ _ _).append_left _).trans ?_
      refine List.perm_middle.trans ?_
      rw [k2r]
      rfl

/-- Claim C34 at the asks 100x10 (id 1) and 100x5 (id 2) in one queue, with the modify of id 1 to
the same side and price and the quantity 7: id 1 goes behind id 2. -/
theorem C34_witness :
    Reachable int32Limits book_fok_buy_success ∧
    Order.new OrderType.GoodTillCancel 1 Side.Sell 100 10 ∈ book_fok_buy_success.resting ∧
    (Orderbook.MatchOrder int32Limits book_fok_buy_success ⟨1, Side.Sell, 100, 7⟩).1.asks_ =
      [(100, [Order.new OrderType.GoodTillCancel 2 Side.Sell 100 5,
        Order.new OrderType.GoodTillCancel 1 Side.Sell 100 7])] ∧
    ∃ s1, Orderbook.MatchOrder int32Limits book_fok_buy_success
        ⟨(Order.new OrderType.GoodTillCancel 1 Side.Sell 100 10).orderId_,
          (Order.new OrderType.GoodTillCancel 1 Side.Sell 100 10).side_,
          (Order.new OrderType.GoodTillCancel 1 Side.Sell 100 10).price_, 7⟩ = (s1, some []) ∧
      (∀ p1, Levels.queue s1.bids_ p1 =
        if (Order.new OrderType.GoodTillCancel 1 Side.Sell 100 10).side_ = Side.Buy ∧
            p1 = (Order.new OrderType.GoodTillCancel 1 Side.Sell 100 10).price_ then
          (Levels.queue book_fok_buy_success.bids_ p1).erase
              (Order.new OrderType.GoodTillCancel 1 Side.Sell 100 10) ++
            [⟨OrderType.GoodTillCancel,
              (Order.new OrderType.GoodTillCancel 1 Side.Sell 100 10).orderId_,
              (Order.new OrderType.GoodTillCancel 1 Side.Sell 100 10).side_,
              (Order.new OrderType.GoodTillCancel 1 Side.Sell 100 10).price_, 7, 7⟩]
        else Levels.queue book_fok_buy_success.bids_ p1) ∧
      (∀ p1, Levels.queue s1.asks_ p1 =
        if (Order.new OrderType.GoodTillCancel 1 Side.Sell 100 10).side_ = Side.Sell ∧
            p1 = (Order.new OrderType.GoodTillCancel 1 Side.Sell 100 10).price_ then
          (Levels.queue book_fok_buy_success.asks_ p1).erase
              (Order.new OrderType.GoodTillCancel 1 Side.Sell 100 10) ++
            [⟨OrderType.GoodTillCancel,
              (Order.new OrderType.GoodTillCancel 1 Side.Sell 100 10).orderId_,
              (Order.new OrderType.GoodTillCancel 1 Side.Sell 100 10).side_,
              (Order.new OrderType.GoodTillCancel 1 Side.Sell 100 10).price_, 7, 7⟩]
        else Levels.queue book_fok_buy_success.asks_ p1) ∧
      s1.resting.Perm
        (⟨OrderType.GoodTillCancel,
            (Order.new OrderType.GoodTillCancel 1 Side.Sell 100 10).orderId_,
            (Order.new OrderType.GoodTillCancel 1 Side.Sell 100 10).side_,
            (Order.new OrderType.GoodTillCancel 1 Side.Sell 100 10).price_, 7, 7⟩ ::
          book_fok_buy_success.resting.erase
            (Order.new OrderType.GoodTillCancel 1 Side.Sell 100 10)) ∧
      s1.Size = book_fok_buy_success.Size :=
  ⟨⟨_, rfl⟩, by decide, by decide,
    C34_modify_loses_time_priority int32Limits book_fok_buy_success ⟨_, rfl⟩
      (Order.new OrderType.GoodTillCancel 1 Side.Sell 100 10) (by decide) 7⟩

end OME
